import Mathlib

/-!
BinDiff matching engine: LCS over instruction primes and the candidate cascade

A shallow embedding of `instruction.cc` (`LcsLens`, the two `ComputeLcs`
templates, the public `ComputeLcs` overload and the `Instruction`
constructor with its cache), of `match/flow_graph.h`
(`FindFixedPointsBasicBlockInternal`, `GetVertices`,
`FindFixedPointsBasicBlockEdgeInternal`), of
`match/basic_block_instruction_count.cc` and of `writer.cc` (`ChainWriter`),
followed by theorems about them.

Conventions of the embedding.

* A sequence is a `List Nat` (the primes projected by `ProjectPrime`); an
  iterator is an index into it, the origin iterator `xo` is index `0`, so
  `distance(xo, it)` is the index itself.
* An iterator range handed to `LcsLens` is the list of elements the iterator
  visits: `range xs lo hi` for a forward range, its reverse for a
  `boost::reverse_iterator` range.
* `Lengths = std::vector<int>` is a `List Int`; the values stored never exceed
  the length of a sequence, so `int` arithmetic is modelled without wrap-around.
* The two output iterators are `std::back_inserter`s: the pair of output lists
  is threaded through as explicit state, `*xout++ = v` appends `v`.
-/

namespace Bindiff

/-! ## Definitions: `instruction.cc` -/

/-- Vector of `int` used for LCS row lengths. -/
abbrev Lengths := List Int

/-- The elements visited by a forward iterator running over `[lo, hi)`. -/
def range (xs : List Nat) (lo hi : Nat) : List Nat :=
  (xs.drop lo).take (hi - lo)

/-- Inner loop of `LcsLens`: `for (y = ylo; y != yhi; ++y, ++i)
    curr[i + 1] = *x == *y ? prev[i] + 1 : max(curr[i], prev[i + 1])`.
    The first argument is `*x`, the list is the part of the y range still
    to visit and `i` the running index. -/
def LcsLensInner (x : Nat) (prev : Lengths) : List Nat → Nat → Lengths → Lengths
  | [], _, curr => curr
  | y :: ys, i, curr =>
    LcsLensInner x prev ys (i + 1)
      (curr.set (i + 1)
        (if x = y then prev.getD i 0 + 1 else max (curr.getD i 0) (prev.getD (i + 1) 0)))

/-- Outer loop of `LcsLens`: `for (x = xlo; x != xhi; ++x) { swap(prev, curr); ... }`.
    The state is the pair `(prev, curr)`; the result is the final `curr`. -/
def LcsLensOuter (ys : List Nat) : List Nat → Lengths → Lengths → Lengths
  | [], _, curr => curr
  | x :: xs, prev, curr =>
    -- swap(prev, curr): the row just finished becomes `prev`
    LcsLensOuter ys xs curr (LcsLensInner x curr ys 0 prev)

/-- The function `LcsLens(xlo, xhi, ylo, yhi, lens)`: both rows start as
    `1 + distance(ylo, yhi)` zeros; at the end `swap(lens, curr)` hands the
    last row to the caller, whatever `lens` held before. -/
def LcsLens (xrange yrange : List Nat) (_lens : Lengths) : Lengths :=
  let curr : Lengths := List.replicate (1 + yrange.length) 0
  let prev : Lengths := curr
  LcsLensOuter yrange xrange prev curr

/-- The call `std::find(ylo, yhi, v)` on indices: the first argument counts the
    positions left before `yhi`, the second is the current position. -/
def findAux (ys : List Nat) (v : Nat) : Nat → Nat → Nat
  | 0, pos => pos
  | n + 1, pos => if ys.getD pos 0 = v then pos else findAux ys v n (pos + 1)

/-- The call `std::find(ylo, yhi, v)`: index of the first element of
    `[ylo, yhi)` equal to `v`, or `yhi`. -/
def find (ys : List Nat) (ylo yhi v : Nat) : Nat :=
  findAux ys v (yhi - ylo) ylo

/-- The loop that picks the y split in the recursive case:
    `for (b = ll_b.cbegin(); b != ll_b.cend(); ++b, ++e)`, with state
    `(lmax, y, ymid)`; the second list is `ll_e` read through `rbegin()`. -/
def splitLoop (yhi : Nat) : Lengths → Lengths → Int → Nat → Nat → Nat
  | b :: bs, e :: es, lmax, y, ymid =>
    let upd := decide (b + e > lmax)
    splitLoop yhi bs es (if upd then b + e else lmax)
      (if y ≠ yhi then y + 1 else y) (if upd then y else ymid)
  | _, _, _, _, ymid => ymid

/-- The split point `ymid` computed in the recursive case for the x range
    `[xlo, xhi)` (of length at least 2) and the y range `[ylo, yhi)`. -/
def splitPoint (xs : List Nat) (xlo xhi : Nat) (ys : List Nat) (ylo yhi : Nat) : Nat :=
  let nx := xhi - xlo
  let xmid := xlo + nx / 2
  let ll_b := LcsLens (range xs xlo xmid) (range ys ylo yhi) []
  let ll_e := LcsLens (range xs xmid xhi).reverse (range ys ylo yhi).reverse []
  splitLoop yhi ll_b ll_e.reverse (-1) ylo ylo

/-- Output state: the lists behind `xout` and `yout`. -/
abbrev Out := List Nat × List Nat

/-- Recursive `ComputeLcs(xo, xlo, xhi, yo, ylo, yhi, xout, yout)` (Hirschberg).
    The recursion is structural on a bound `fuel` for the x-range length
    `xhi - xlo`; the bound is carried as a proof, so no branch is ever cut
    short: both recursive calls get x ranges of length at most `fuel - 1`. -/
def ComputeLcsRec (xs ys : List Nat) :
    (fuel : Nat) → (xlo xhi ylo yhi : Nat) → xhi - xlo ≤ fuel → Out → Out
  | 0, _, _, _, _, _, out => out
  | fuel + 1, xlo, xhi, ylo, yhi, h, out =>
    if h0 : xhi - xlo = 0 then out
    else if h1 : xhi - xlo = 1 then
      let pos := find ys ylo yhi (xs.getD xlo 0)
      if pos ≠ yhi then (out.1 ++ [xlo], out.2 ++ [pos]) else out
    else
      let xmid := xlo + (xhi - xlo) / 2
      let ymid := splitPoint xs xlo xhi ys ylo yhi
      let out1 := ComputeLcsRec xs ys fuel xlo xmid ylo ymid (by omega) out
      ComputeLcsRec xs ys fuel xmid xhi ymid yhi (by omega) out1

/-- Common-prefix loop of the entry `ComputeLcs`:
    `for (; start1 != xend && start2 != yend && *start1 == *start2; ++start1, ++start2)`.
    The two lists are the elements from `start1` to `xend` and from `start2`
    to `yend`; `start1` and `start2` are the same index `s`. Each round emits
    `(s, s)`. Returns the final index and output. -/
def prefixLoop : List Nat → List Nat → Nat → Out → Nat × Out
  | x :: xrest, y :: yrest, s, out =>
    if x = y then prefixLoop xrest yrest (s + 1) (out.1 ++ [s], out.2 ++ [s])
    else (s, out)
  | _, _, s, out => (s, out)

/-- Common-suffix loop:
    `for (; rstart1 != start1 && rstart2 != start2 && *rstart1 == *rstart2; --rstart1, --rstart2)`.
    The first two arguments are the distances `rstart1 - start1` and
    `rstart2 - start2`. Returns the final `(rstart1, rstart2)`. -/
def suffixLoop (xs ys : List Nat) : Nat → Nat → Nat → Nat → Nat × Nat
  | d1 + 1, d2 + 1, r1, r2 =>
    if xs.getD r1 0 = ys.getD r2 0 then suffixLoop xs ys d1 d2 (r1 - 1) (r2 - 1)
    else (r1, r2)
  | _, _, r1, r2 => (r1, r2)

/-- Final loop of the entry `ComputeLcs`:
    `for (; rstart1 != xend && rstart2 != yend; ++rstart1, ++rstart2)`, emitting
    `(rstart1, rstart2)`. The first two arguments are the distances
    `xend - rstart1` and `yend - rstart2`. -/
def emitSuffix : Nat → Nat → Nat → Nat → Out → Out
  | n1 + 1, n2 + 1, r1, r2, out =>
    emitSuffix n1 n2 (r1 + 1) (r2 + 1) (out.1 ++ [r1], out.2 ++ [r2])
  | _, _, _, _, out => out

/-- Entry `ComputeLcs(xbegin, xend, ybegin, yend, xout, yout)`; `xbegin` and
    `ybegin` are index `0`, `xend` and `yend` the two lengths. -/
def ComputeLcsCore (xs ys : List Nat) (out : Out) : Out :=
  if xs.length = 0 ∨ ys.length = 0 then out
  else
    -- eliminate the common prefix
    let p := prefixLoop xs ys 0 out
    let start1 := p.1
    let start2 := p.1
    -- early exit if one sequence is completely contained in the other
    if start1 = xs.length ∨ start2 = ys.length then p.2
    else
      -- eliminate the common suffix
      let r := suffixLoop xs ys (xs.length - 1 - start1) (ys.length - 1 - start2)
        (xs.length - 1) (ys.length - 1)
      let rstart1 := r.1 + 1
      let rstart2 := r.2 + 1
      let out2 := ComputeLcsRec xs ys (rstart1 - start1) start1 rstart1 start2 rstart2
        (Nat.le_refl _) p.2
      emitSuffix (xs.length - rstart1) (ys.length - rstart2) rstart1 rstart2 out2

/-- Public overload `ComputeLcs(instructions1_begin, ..., matches)`: runs the
    entry template on the projected primes with two fresh lists and pairs them
    up while both have elements left. A match is the pair of indices of the
    two instructions pointed to. -/
def ComputeLcs (xs ys : List Nat) : List (Nat × Nat) :=
  let r := ComputeLcsCore xs ys ([], [])
  List.zip r.1 r.2

/-! ## Textbook LCS length -/

/-- One row of the textbook recurrence, for a fixed head `x` of the first
    sequence; `rest` is the function for the tail of the first sequence. -/
def lcsLengthAux (x : Nat) (rest : List Nat → Nat) : List Nat → Nat
  | [] => 0
  | y :: ys => if x = y then rest ys + 1 else max (rest (y :: ys)) (lcsLengthAux x rest ys)

/-- Length of a longest common subsequence by the textbook recurrence:
    `0` when a sequence is empty, `1 +` the value for the two tails when the
    heads agree, otherwise the larger of the two values with one head dropped. -/
def lcsLength : List Nat → List Nat → Nat
  | [] => fun _ => 0
  | x :: xs => lcsLengthAux x (lcsLength xs)

/-- Value of a cut of the y range at offset `k` in the recursive case:
    `LCS(x[xlo..xmid), y[ylo..ylo+k)) + LCS(x[xmid..xhi), y[ylo+k..yhi))`
    with `xmid = xlo + (xhi - xlo) / 2`. -/
def splitScore (xs : List Nat) (xlo xhi : Nat) (ys : List Nat) (ylo yhi k : Nat) : Nat :=
  lcsLength (range xs xlo (xlo + (xhi - xlo) / 2)) (range ys ylo (ylo + k)) +
    lcsLength (range xs (xlo + (xhi - xlo) / 2) xhi) (range ys (ylo + k) yhi)

/-! ## Vocabulary for the results about `ComputeLcs` -/

/-- The output state after the index pairs `ps` have been written, in order,
    through `xout` and `yout`. -/
def emit (ps : List (Nat × Nat)) (out : Out) : Out :=
  (out.1 ++ ps.map Prod.fst, out.2 ++ ps.map Prod.snd)

/-- Match `a` lies strictly before match `b` on both sides. -/
def PairLt (a b : Nat × Nat) : Prop := a.1 < b.1 ∧ a.2 < b.2

/-- The pairs `ps` are increasing on both sides, lie in the box
    `[xlo, xhi) x [ylo, yhi)` and join equal elements. -/
def InBox (xs ys : List Nat) (xlo xhi ylo yhi : Nat) (ps : List (Nat × Nat)) : Prop :=
  ps.Pairwise PairLt ∧
    ∀ p ∈ ps, xlo ≤ p.1 ∧ p.1 < xhi ∧ ylo ≤ p.2 ∧ p.2 < yhi ∧ xs.getD p.1 0 = ys.getD p.2 0

/-- The `m` consecutive pairs `(r1, r2), (r1 + 1, r2 + 1), ...`. -/
def diagFrom : Nat → Nat → Nat → List (Nat × Nat)
  | _, _, 0 => []
  | r1, r2, m + 1 => (r1, r2) :: diagFrom (r1 + 1) (r2 + 1) m

/-- An instruction as far as matching is concerned: its address and its
    mnemonic prime (`address_`, `prime_`). -/
structure Instruction where
  address_ : Nat
  prime_ : Nat

/-- Accessor `Instruction::GetPrime`. -/
def Instruction.GetPrime (i : Instruction) : Nat := i.prime_

/-- The public overload on instruction sequences: the iterators are wrapped in
    `transform_iterator<ProjectPrime, ...>`, so the template runs on the primes;
    an `InstructionMatch` holds pointers `instructions1_begin + i` and
    `instructions2_begin + j`, modelled by the index pair `(i, j)`. -/
def ComputeLcsInstructions (instructions1 instructions2 : List Instruction) :
    List (Nat × Nat) :=
  ComputeLcs (instructions1.map Instruction.GetPrime) (instructions2.map Instruction.GetPrime)

/-! ## Definitions: `match/flow_graph.h` and `match/basic_block_instruction_count.cc`

Conventions of the embedding.

* `FlowGraph::Vertex` and `FlowGraph::Edge` are descriptors, modelled by `Nat`.
* A `std::multimap<key, item>` is the list of its `(key, item)` entries in
  iteration order, that is with ascending keys; an iterator is an index into
  that list and `end()` is its length.
* A `VertexSet` (`std::set<Vertex>`) is the ascending list of its elements.
* Everything reached through the pointers `primary`, `secondary`,
  `fixed_point` and `context` (the fixed point under construction, the match
  pointers and flags of the two flow graphs) is one state value of an
  arbitrary type `σ`; the functions of the repository that touch it and are
  not among the sources (`FixedPoint::Add`, `AddFlag`,
  `FlowGraph::GetFixedPoint`, the graph accessors `boost::source` and
  `boost::target`) and the virtual `MatchingStepFlowGraph::FindFixedPoints`
  are parameters, collected in `Env`.
* The two maps and the step list `*matching_steps` are threaded explicitly.
* Each cascade also returns a log of the calls it made itself, in order; the
  log is an observation only and feeds back into nothing.
-/

/-- Vertex descriptor of a flow graph. -/
abbrev Vertex := Nat

/-- Edge descriptor of a flow graph. -/
abbrev Edge := Nat

/-- A `std::set<FlowGraph::Vertex>`: ascending, without duplicates. -/
abbrev VertexSet := List Vertex

/-- A `std::multimap` from keys to vertices or edges: entries in key order. -/
abbrev MultiMap := List (Nat × Nat)

/-- Member `count(key)`. -/
def MultiMap.count (m : MultiMap) (key : Nat) : Nat :=
  (m.filter (fun e => e.1 == key)).length

/-- The items in `equal_range(key)`, in iteration order. -/
def MultiMap.equal_range (m : MultiMap) (key : Nat) : List Nat :=
  (m.filter (fun e => e.1 == key)).map Prod.snd

/-- Member `erase(key)`: removes every entry with that key. -/
def MultiMap.erase (m : MultiMap) (key : Nat) : MultiMap :=
  m.filter (fun e => e.1 != key)

/-- Member `upper_bound(key)`: position of the first entry whose key is
    greater than `key`, or `end()`. -/
def MultiMap.upper_bound (m : MultiMap) (key : Nat) : Nat :=
  (m.takeWhile (fun e => decide (e.1 ≤ key))).length

/-- Member `find(key)`: an entry with that key, if there is one. -/
def MultiMap.find (m : MultiMap) (key : Nat) : Option (Nat × Nat) :=
  List.find? (fun e => e.1 == key) m

/-- Member `emplace(key, item)`: the new entry goes behind the entries whose
    key is not greater. -/
def MultiMap.emplace (m : MultiMap) (key item : Nat) : MultiMap :=
  m.take (m.upper_bound key) ++ (key, item) :: m.drop (m.upper_bound key)

/-- Member `emplace(v)` of `std::set<Vertex>`. -/
def VertexSet.emplace : VertexSet → Vertex → VertexSet
  | [], v => [v]
  | a :: rest, v =>
    if v < a then v :: a :: rest
    else if v = a then a :: rest
    else a :: VertexSet.emplace rest v

/-- The loops `for (range = m->equal_range(key); ...) set.emplace(range.first->second)`. -/
def collect (items : List Nat) (set : VertexSet) : VertexSet :=
  items.foldl VertexSet.emplace set

/-- One call made by a cascade, as logged. -/
inductive Event (S : Type) where
  /-- The call `fixed_point->Add(v1, v2, name)` made while handling `key`;
      `accepted` tells that the result was not the end sentinel. -/
  | add (key : Nat) (v1 v2 : Vertex) (name : String) (accepted : Bool)
  /-- The call `step->FindFixedPoints(..., bb1, bb2, ...)` made while handling
      `key`, and its return value. -/
  | next (key : Nat) (step : S) (bb1 bb2 : VertexSet) (result : Bool)
  /-- The call `AddFlag(flow_graph1, edge, flag)` or, with `side = false`, the
      call `AddFlag(flow_graph2, edge, flag)`, made while handling `key`. -/
  | flag (key : Nat) (side : Bool) (edge : Edge) (flag : Nat)

/-- The operations a cascade calls that are defined outside the sources. -/
structure Env (σ S : Type) where
  /-- Accessor `MatchingStepFlowGraph::GetName`. -/
  GetName : S → String
  /-- The call `fixed_point->Add(v1, v2, name)`: new state, and whether the
      result differs from `GetBasicBlockFixedPoints().end()`. -/
  Add : σ → Vertex → Vertex → String → Bool × σ
  /-- Virtual `step->FindFixedPoints(primary, secondary, vertices1, vertices2,
      fixed_point, context, matching_steps)`: return value, new state and
      new step list; `none` when the call does not return. -/
  FindFixedPoints : S → VertexSet → VertexSet → σ → List S → Option (Bool × σ × List S)
  /-- Source `boost::source(edge, flow_graph1->GetGraph())`. -/
  source1 : Edge → Vertex
  /-- Target `boost::target(edge, flow_graph1->GetGraph())`. -/
  target1 : Edge → Vertex
  /-- Source `boost::source(edge, flow_graph2->GetGraph())`. -/
  source2 : Edge → Vertex
  /-- Target `boost::target(edge, flow_graph2->GetGraph())`. -/
  target2 : Edge → Vertex
  /-- Whether `flow_graph1->GetFixedPoint(vertex)` is non-null. -/
  GetFixedPoint1 : σ → Vertex → Bool
  /-- Whether `flow_graph2->GetFixedPoint(vertex)` is non-null. -/
  GetFixedPoint2 : σ → Vertex → Bool
  /-- The call `AddFlag(flow_graph1, edge, flag)`. -/
  AddFlag1 : σ → Edge → Nat → σ
  /-- The call `AddFlag(flow_graph2, edge, flag)`. -/
  AddFlag2 : σ → Edge → Nat → σ

/-- What a cascade leaves behind. -/
structure CascadeResult (σ S : Type) where
  /-- The return value `fix_points_discovered`. -/
  found : Bool
  /-- Final content of the first map. -/
  map1 : MultiMap
  /-- Final content of the second map. -/
  map2 : MultiMap
  /-- Final state behind `primary`, `secondary`, `fixed_point`, `context`. -/
  state : σ
  /-- Final content of `*matching_steps`. -/
  steps : List S
  /-- The calls made by this cascade itself, in order. -/
  trace : List (Event S)

/-- The part of a loop state that is not a map. -/
structure Inner (σ S : Type) where
  /-- State behind the pointers. -/
  state : σ
  /-- Content of `*matching_steps`. -/
  steps : List S
  /-- The flag `fix_points_discovered`. -/
  found : Bool
  /-- The calls logged so far. -/
  trace : List (Event S)

/-- The block "Continue with next matching step" once the two candidate sets
    are built: nothing happens on an empty step list or an empty set;
    otherwise the front step runs, its result is or-ed into the flag and the
    step is pushed back to the front. -/
def continueWithNext {σ S : Type} (env : Env σ S) (key : Nat) (bb1 bb2 : VertexSet)
    (s : Inner σ S) : Option (Inner σ S) :=
  match s.steps with
  | [] => some s
  | step :: _ =>
    if bb1 ≠ [] ∧ bb2 ≠ [] then
      match env.FindFixedPoints step bb1 bb2 s.state s.steps with
      | none => none
      | some (b, st, steps) =>
        some ⟨st, step :: steps, s.found || b, s.trace ++ [Event.next key step bb1 bb2 b]⟩
    else some s

/-- Loop of `FindFixedPointsBasicBlockInternal`; `i` is the iterator, the
    first argument bounds the number of rounds. -/
def vertexLoop {σ S : Type} (env : Env σ S) (name : String) :
    Nat → Nat → MultiMap → MultiMap → Inner σ S → Option (CascadeResult σ S)
  | 0, _, _, _, _ => none
  | fuel + 1, i, vertices_1, vertices_2, s =>
    match vertices_1.get? i with
    | none => some ⟨s.found, vertices_1, vertices_2, s.state, s.steps, s.trace⟩
    | some (key, v1) =>
      let count1 := vertices_1.count key
      let count2 := vertices_2.count key
      if count1 = 0 ∨ count2 = 0 then
        vertexLoop env name fuel (i + 1) vertices_1 vertices_2 s
      else if count1 > 1 ∨ count2 > 1 then
        match continueWithNext env key (collect (vertices_1.equal_range key) [])
            (collect (vertices_2.equal_range key) []) s with
        | none => none
        | some s1 =>
          vertexLoop env name fuel ((vertices_1.erase key).upper_bound key)
            (vertices_1.erase key) (vertices_2.erase key) s1
      else
        match vertices_2.find key with
        | none => none
        | some (_, v2) =>
          let r := env.Add s.state v1 v2 name
          vertexLoop env name fuel (i + 1) vertices_1 vertices_2
            ⟨r.2, s.steps, s.found || r.1, s.trace ++ [Event.add key v1 v2 name r.1]⟩

/-- The function `FindFixedPointsBasicBlockInternal(primary, secondary,
    vertices_1, vertices_2, fixed_point, context, matching_steps)`. Calling
    `front()` on an empty step list is undefined: `none`. Each round moves the
    iterator past at least one entry, so `length + 1` rounds are enough. -/
def FindFixedPointsBasicBlockInternal {σ S : Type} (env : Env σ S)
    (vertices_1 vertices_2 : MultiMap) (st : σ) (matching_steps : List S) :
    Option (CascadeResult σ S) :=
  match matching_steps with
  | [] => none
  | front :: rest =>
    vertexLoop env (env.GetName front) (vertices_1.length + 1) 0 vertices_1 vertices_2
      ⟨st, rest, false, []⟩

/-- The function `GetVertices(flow_graph, edges, key, basic_blocks)`; `src`,
    `tgt` and `matched` are `boost::source`, `boost::target` and
    `flow_graph.GetFixedPoint` of the flow graph passed in. -/
def GetVertices (src tgt : Edge → Vertex) (matched : Vertex → Bool) (edges : MultiMap)
    (key : Nat) (basic_blocks : VertexSet) : VertexSet :=
  (edges.equal_range key).foldl
    (fun bbs edge =>
      let bbs1 := if !matched (src edge) then VertexSet.emplace bbs (src edge) else bbs
      if !matched (tgt edge) then VertexSet.emplace bbs1 (tgt edge) else bbs1)
    basic_blocks

/-- The loops `for (range = edges->equal_range(key); ...) AddFlag(flow_graph, edge, flag)`. -/
def addFlags {σ S : Type} (addFlag : σ → Edge → Nat → σ) (key : Nat) (side : Bool)
    (flag : Nat) (edges : List Edge) (s : Inner σ S) : Inner σ S :=
  edges.foldl
    (fun acc edge =>
      ⟨addFlag acc.state edge flag, acc.steps, acc.found,
        acc.trace ++ [Event.flag key side edge flag]⟩)
    s

/-- The block "Continue with next matching step" of the edge cascade: the
    candidate sets are built by `GetVertices` only when a next step exists. -/
def continueWithNextEdge {σ S : Type} (env : Env σ S) (key : Nat) (edges1 edges2 : MultiMap)
    (s : Inner σ S) : Option (Inner σ S) :=
  match s.steps with
  | [] => some s
  | _ :: _ =>
    continueWithNext env key
      (GetVertices env.source1 env.target1 (env.GetFixedPoint1 s.state) edges1 key [])
      (GetVertices env.source2 env.target2 (env.GetFixedPoint2 s.state) edges2 key []) s

/-- Loop of `FindFixedPointsBasicBlockEdgeInternal`; `step_index` is the size
    of the step list after the pop and `1 << step_index` is a shift of the
    `int` constant one, taken here without overflow. -/
def edgeLoop {σ S : Type} (env : Env σ S) (name : String) (step_index : Nat) :
    Nat → Nat → MultiMap → MultiMap → Inner σ S → Option (CascadeResult σ S)
  | 0, _, _, _, _ => none
  | fuel + 1, i, edges1, edges2, s =>
    match edges1.get? i with
    | none => some ⟨s.found, edges1, edges2, s.state, s.steps, s.trace⟩
    | some (key, edge1) =>
      let count1 := edges1.count key
      let count2 := edges2.count key
      if count1 ≠ 1 ∨ count2 ≠ 1 then
        let next : Option (Inner σ S) :=
          if count1 ≥ 1 ∧ count2 ≥ 1 then
            let s1 := addFlags env.AddFlag1 key true (1 <<< step_index)
              (edges1.equal_range key) s
            let s2 := addFlags env.AddFlag2 key false (1 <<< step_index)
              (edges2.equal_range key) s1
            continueWithNextEdge env key edges1 edges2 s2
          else some s
        match next with
        | none => none
        | some s3 =>
          edgeLoop env name step_index fuel ((edges1.erase key).upper_bound key)
            (edges1.erase key) (edges2.erase key) s3
      else
        match edges2.find key with
        | none => none
        | some (_, edge2) =>
          let r1 := env.Add s.state (env.source1 edge1) (env.source2 edge2) name
          let s1 : Inner σ S :=
            ⟨r1.2, s.steps, s.found,
              s.trace ++ [Event.add key (env.source1 edge1) (env.source2 edge2) name r1.1]⟩
          if r1.1 then
            edgeLoop env name step_index fuel (i + 1) edges1 edges2
              ⟨s1.state, s1.steps, true, s1.trace⟩
          else
            let r2 := env.Add s1.state (env.target1 edge1) (env.target2 edge2) name
            edgeLoop env name step_index fuel (i + 1) edges1 edges2
              ⟨r2.2, s1.steps, s1.found || r2.1,
                s1.trace ++ [Event.add key (env.target1 edge1) (env.target2 edge2) name r2.1]⟩

/-- The function `FindFixedPointsBasicBlockEdgeInternal(edges1, edges2,
    flow_graph1, flow_graph2, fixed_point, context, matching_steps)`. -/
def FindFixedPointsBasicBlockEdgeInternal {σ S : Type} (env : Env σ S)
    (edges1 edges2 : MultiMap) (st : σ) (matching_steps : List S) :
    Option (CascadeResult σ S) :=
  match matching_steps with
  | [] => none
  | front :: rest =>
    edgeLoop env (env.GetName front) rest.length (edges1.length + 1) 0 edges1 edges2
      ⟨st, rest, false, []⟩

/-! ## Vocabulary for the results about the cascades -/

/-- Keys ascend along the map (the `std::multimap` ordering invariant). -/
def MultiMap.Sorted (m : MultiMap) : Prop := m.Pairwise (fun a b => a.1 ≤ b.1)

/-- Shape of one round of a cascade loop as a function of the key and item at
    the iterator, the items filed under that key in the two maps, and the
    rest of the state: the new state, and whether the round ends with
    `erase(key)` on both maps and `i = upper_bound(key)` (`true`) or with
    `++i` (`false`). -/
abbrev Body (σ S : Type) := Nat → Nat → List Nat → List Nat → Inner σ S → Option (Inner σ S × Bool)

/-- One round of the loop of `FindFixedPointsBasicBlockInternal`. -/
def vertexBody {σ S : Type} (env : Env σ S) (name : String) : Body σ S :=
  fun key v1 items1 items2 s =>
    if items1.length = 0 ∨ items2.length = 0 then some (s, false)
    else if items1.length > 1 ∨ items2.length > 1 then
      match continueWithNext env key (collect items1 []) (collect items2 []) s with
      | none => none
      | some s1 => some (s1, true)
    else
      match items2.head? with
      | none => none
      | some v2 =>
        let r := env.Add s.state v1 v2 name
        some (⟨r.2, s.steps, s.found || r.1, s.trace ++ [Event.add key v1 v2 name r.1]⟩, false)

/-- The candidate sets `GetVertices` builds from the edges filed under a key. -/
def verticesOf (src tgt : Edge → Vertex) (matched : Vertex → Bool) (edges : List Edge) :
    VertexSet :=
  edges.foldl
    (fun bbs edge =>
      let bbs1 := if !matched (src edge) then VertexSet.emplace bbs (src edge) else bbs
      if !matched (tgt edge) then VertexSet.emplace bbs1 (tgt edge) else bbs1)
    []

/-- One round of the loop of `FindFixedPointsBasicBlockEdgeInternal`. -/
def edgeBody {σ S : Type} (env : Env σ S) (name : String) (step_index : Nat) : Body σ S :=
  fun key edge1 items1 items2 s =>
    if items1.length ≠ 1 ∨ items2.length ≠ 1 then
      if items1.length ≥ 1 ∧ items2.length ≥ 1 then
        let s1 := addFlags env.AddFlag1 key true (1 <<< step_index) items1 s
        let s2 := addFlags env.AddFlag2 key false (1 <<< step_index) items2 s1
        match s2.steps with
        | [] => some (s2, true)
        | _ :: _ =>
          match continueWithNext env key
              (verticesOf env.source1 env.target1 (env.GetFixedPoint1 s2.state) items1)
              (verticesOf env.source2 env.target2 (env.GetFixedPoint2 s2.state) items2) s2 with
          | none => none
          | some s3 => some (s3, true)
      else some (s, true)
    else
      match items2.head? with
      | none => none
      | some edge2 =>
        let r1 := env.Add s.state (env.source1 edge1) (env.source2 edge2) name
        let t1 := s.trace ++ [Event.add key (env.source1 edge1) (env.source2 edge2) name r1.1]
        if r1.1 then some (⟨r1.2, s.steps, true, t1⟩, false)
        else
          let r2 := env.Add r1.2 (env.target1 edge1) (env.target2 edge2) name
          some (⟨r2.2, s.steps, s.found || r2.1,
            t1 ++ [Event.add key (env.target1 edge1) (env.target2 edge2) name r2.1]⟩, false)

/-- The common skeleton of the two cascade loops around a round `body`. -/
def mapLoop {σ S : Type} (body : Body σ S) :
    Nat → Nat → MultiMap → MultiMap → Inner σ S → Option (CascadeResult σ S)
  | 0, _, _, _, _ => none
  | fuel + 1, i, m1, m2, s =>
    match m1.get? i with
    | none => some ⟨s.found, m1, m2, s.state, s.steps, s.trace⟩
    | some (key, item) =>
      match body key item (m1.equal_range key) (m2.equal_range key) s with
      | none => none
      | some (s1, true) =>
        mapLoop body fuel ((m1.erase key).upper_bound key) (m1.erase key) (m2.erase key) s1
      | some (s1, false) => mapLoop body fuel (i + 1) m1 m2 s1

/-- The rounds of a cascade loop listed along the entries of the first map as
    it was at the start: an entry whose key has been erased (is in `erased`)
    is passed over, any other entry gets one round, on the items the two
    initial maps file under its key. Returns the final state and erased keys. -/
def entryFold {σ S : Type} (body : Body σ S) (m1 m2 : MultiMap) :
    List (Nat × Nat) → List Nat → Inner σ S → Option (Inner σ S × List Nat)
  | [], erased, s => some (s, erased)
  | (key, item) :: rest, erased, s =>
    if key ∈ erased then entryFold body m1 m2 rest erased s
    else
      match body key item (m1.equal_range key) (m2.equal_range key) s with
      | none => none
      | some (s1, true) => entryFold body m1 m2 rest (key :: erased) s1
      | some (s1, false) => entryFold body m1 m2 rest erased s1

/-- The map `m` without the entries whose key is in `erased`. -/
def MultiMap.without (m : MultiMap) (erased : List Nat) : MultiMap :=
  m.filter (fun e => decide (e.1 ∉ erased))

/-- The result a cascade returns from a final loop state. -/
def finish {σ S : Type} (m1 m2 : MultiMap) (p : Inner σ S × List Nat) : CascadeResult σ S :=
  ⟨p.1.found, m1.without p.2, m2.without p.2, p.1.state, p.1.steps, p.1.trace⟩

/-- Key under which a logged call was made. -/
def Event.key {S : Type} : Event S → Nat
  | Event.add k _ _ _ _ => k
  | Event.next k _ _ _ _ => k
  | Event.flag k _ _ _ => k

/-- The logged call is a call of `FixedPoint::Add`. -/
def Event.isAdd {S : Type} : Event S → Bool
  | Event.add _ _ _ _ _ => true
  | _ => false

/-- The logged call is a call of the next step's `FindFixedPoints`. -/
def Event.isNext {S : Type} : Event S → Bool
  | Event.next _ _ _ _ _ => true
  | _ => false

/-- The logged call reported a new fixed point: an `Add` that was accepted or
    a cascaded step that returned `true`. -/
def Event.positive {S : Type} : Event S → Bool
  | Event.add _ _ _ _ accepted => accepted
  | Event.next _ _ _ _ result => result
  | Event.flag _ _ _ _ => false

/-- Every call of the virtual `FindFixedPoints` returns. -/
def Env.Returns {σ S : Type} (env : Env σ S) : Prop :=
  ∀ step bb1 bb2 st steps, (env.FindFixedPoints step bb1 bb2 st steps).isSome = true

/-- The logged calls of `FixedPoint::Add` made while handling `key`. -/
def addsAt {S : Type} (key : Nat) (trace : List (Event S)) : List (Event S) :=
  trace.filter (fun e => e.isAdd && e.key == key)

/-- The logged calls of the next step's `FindFixedPoints` made while handling `key`. -/
def nextsAt {S : Type} (key : Nat) (trace : List (Event S)) : List (Event S) :=
  trace.filter (fun e => e.isNext && e.key == key)

/-- The state after the two `AddFlag` loops of the edge cascade. -/
def flagState {σ S : Type} (env : Env σ S) (flag : Nat) (items1 items2 : List Edge) (st : σ) : σ :=
  items2.foldl (fun acc e => env.AddFlag2 acc e flag)
    (items1.foldl (fun acc e => env.AddFlag1 acc e flag) st)

/-- The calls logged by the two `AddFlag` loops of the edge cascade. -/
def flagEvents {S : Type} (key flag : Nat) (items1 items2 : List Edge) : List (Event S) :=
  items1.map (fun e => Event.flag key true e flag) ++
    items2.map (fun e => Event.flag key false e flag)

/-- The flag is set exactly when a logged call reported a new fixed point. -/
def FoundIffPositive {σ S : Type} (s : Inner σ S) : Prop :=
  s.found = true ↔ ∃ e ∈ s.trace, e.positive = true


/-! ## Steps that run a cascade -/

/-- The operations on the shared state that are defined outside the sources:
    the fields of `Env` other than the step interface. -/
structure Ops (σ : Type) where
  /-- The call `fixed_point->Add(v1, v2, name)`. -/
  Add : σ → Vertex → Vertex → String → Bool × σ
  /-- Source `boost::source(edge, flow_graph1->GetGraph())`. -/
  source1 : Edge → Vertex
  /-- Target `boost::target(edge, flow_graph1->GetGraph())`. -/
  target1 : Edge → Vertex
  /-- Source `boost::source(edge, flow_graph2->GetGraph())`. -/
  source2 : Edge → Vertex
  /-- Target `boost::target(edge, flow_graph2->GetGraph())`. -/
  target2 : Edge → Vertex
  /-- Whether `flow_graph1->GetFixedPoint(vertex)` is non-null. -/
  GetFixedPoint1 : σ → Vertex → Bool
  /-- Whether `flow_graph2->GetFixedPoint(vertex)` is non-null. -/
  GetFixedPoint2 : σ → Vertex → Bool
  /-- The call `AddFlag(flow_graph1, edge, flag)`. -/
  AddFlag1 : σ → Edge → Nat → σ
  /-- The call `AddFlag(flow_graph2, edge, flag)`. -/
  AddFlag2 : σ → Edge → Nat → σ

/-- A matching step whose `FindFixedPoints` files its candidates in two maps
    and hands them to one of the two cascades, as
    `MatchingStepInstructionCount::FindFixedPoints` does: its name, whether the
    maps hold edges (`edge_matching_`), and the maps it builds from the state
    and the two vertex sets. -/
structure CascadeStep (σ : Type) where
  /-- Member `name_`. -/
  name_ : String
  /-- Member `edge_matching_`: the step runs the edge cascade. -/
  edge_matching_ : Bool
  /-- The two maps built from the state and the vertex sets. -/
  maps : σ → VertexSet → VertexSet → MultiMap × MultiMap

/-- The environment of a cascade whose steps are `CascadeStep`s, given the
    dispatch of the virtual call. -/
def closureEnv {σ : Type} (ops : Ops σ)
    (find : CascadeStep σ → VertexSet → VertexSet → σ → List (CascadeStep σ) →
      Option (Bool × σ × List (CascadeStep σ))) : Env σ (CascadeStep σ) :=
  ⟨CascadeStep.name_, ops.Add, find, ops.source1, ops.target1, ops.source2, ops.target2,
    ops.GetFixedPoint1, ops.GetFixedPoint2, ops.AddFlag1, ops.AddFlag2⟩

/-- Virtual `FindFixedPoints` of a `CascadeStep`: build the two maps, run the
    cascade, return its flag. The first argument bounds the depth of nested
    calls: at depth zero the call does not return. -/
def CascadeStep.FindFixedPoints {σ : Type} (ops : Ops σ) :
    Nat → CascadeStep σ → VertexSet → VertexSet → σ → List (CascadeStep σ) →
      Option (Bool × σ × List (CascadeStep σ))
  | 0, _, _, _, _, _ => none
  | depth + 1, step, vertices1, vertices2, st, matching_steps =>
    let env := closureEnv ops (CascadeStep.FindFixedPoints ops depth)
    let maps := step.maps st vertices1 vertices2
    let r :=
      if step.edge_matching_ then
        FindFixedPointsBasicBlockEdgeInternal env maps.1 maps.2 st matching_steps
      else FindFixedPointsBasicBlockInternal env maps.1 maps.2 st matching_steps
    r.map (fun r => (r.found, r.state, r.steps))

/-- The key `int_md_index + flow_graph->GetInstructionCount(vertex)` of
    `GetUnmatchedBasicBlocksByInstructionCount`, a sum in 64-bit unsigned
    arithmetic; `int_md_index v` stands for
    `static_cast<uint64_t>(flow_graph->GetMdIndex(v) * 1000000000000000000ULL)`. -/
def instructionCountKey (int_md_index instruction_count : Vertex → Nat) (vertex : Vertex) :
    Nat :=
  (int_md_index vertex + instruction_count vertex) % 2 ^ 64

/-- The function `MatchingStepInstructionCount::GetUnmatchedBasicBlocksByInstructionCount`:
    the map is cleared, then every vertex of the set without a fixed point is
    filed under its key. -/
def GetUnmatchedBasicBlocksByInstructionCount (matched : Vertex → Bool)
    (int_md_index instruction_count : Vertex → Nat) (vertices : VertexSet)
    (_basic_blocks_map : MultiMap) : MultiMap :=
  vertices.foldl
    (fun m vertex =>
      if !matched vertex then
        m.emplace (instructionCountKey int_md_index instruction_count vertex) vertex
      else m)
    []

/-- The step `MatchingStepInstructionCount`: its `FindFixedPoints` fills two
    fresh maps with `GetUnmatchedBasicBlocksByInstructionCount` and calls
    `FindFixedPointsBasicBlockInternal`. -/
def MatchingStepInstructionCount {σ : Type} (ops : Ops σ) (name : String)
    (int_md_index1 instruction_count1 int_md_index2 instruction_count2 : Vertex → Nat) :
    CascadeStep σ :=
  ⟨name, false, fun st vertices1 vertices2 =>
    (GetUnmatchedBasicBlocksByInstructionCount (ops.GetFixedPoint1 st) int_md_index1
        instruction_count1 vertices1 [],
      GetUnmatchedBasicBlocksByInstructionCount (ops.GetFixedPoint2 st) int_md_index2
        instruction_count2 vertices2 [])⟩

/-- No vertex occurs twice as primary and none twice as secondary in a list
    of matched pairs. -/
def NoDouble (pairs : List (Vertex × Vertex)) : Prop :=
  (pairs.map Prod.fst).Nodup ∧ (pairs.map Prod.snd).Nodup

/-! ## The fixed-point registry, from the specification -/

/-- Modelled from the spec: a `BasicBlockFixedPoint`, whose class is not among
    the sources: "a pair (primary vertex, secondary vertex) within the parent
    FixedPoint, the matching-step name" (its instruction matches play no part
    in the cascades). -/
structure BasicBlockFixedPoint where
  /-- The primary vertex. -/
  primary : Vertex
  /-- The secondary vertex. -/
  secondary : Vertex
  /-- Name of the matching step that produced the match. -/
  name : String

/-- Modelled from the spec: the state behind `fixed_point`, `primary` and
    `secondary`, whose classes are not among the sources: the basic-block
    fixed points of the function pair in the order they were added, and the
    flags set on the edges of the two flow graphs, as a list of
    `(edge, flag)` calls. A vertex has a match pointer exactly when it occurs
    in a fixed point. -/
structure MatchState where
  /-- The basic-block fixed points. -/
  fixed_points : List BasicBlockFixedPoint
  /-- Flags set on edges of the primary flow graph. -/
  flags1 : List (Edge × Nat)
  /-- Flags set on edges of the secondary flow graph. -/
  flags2 : List (Edge × Nat)

/-- The matched pairs of a state. -/
def MatchState.pairs (st : MatchState) : List (Vertex × Vertex) :=
  st.fixed_points.map (fun fp => (fp.primary, fp.secondary))

/-- Modelled from the spec: `FixedPoint::Add(primary_vertex, secondary_vertex,
    step_name)`, which is not among the sources: "returns an iterator/handle to
    the new basic-block fixed point, or a sentinel meaning rejected because one
    of the two vertices is already matched in this fixed point". -/
def FixedPointAdd (st : MatchState) (v1 v2 : Vertex) (name : String) : Bool × MatchState :=
  if st.fixed_points.any (fun fp => fp.primary == v1 || fp.secondary == v2) then (false, st)
  else (true, ⟨st.fixed_points ++ [⟨v1, v2, name⟩], st.flags1, st.flags2⟩)

/-- Modelled from the spec: the operations on the state for two flow graphs
    with the given edge endpoints; `AddFlag`, which is not among the sources,
    "sets a bit in each candidate edge's flags". -/
def specOps (source1 target1 source2 target2 : Edge → Vertex) : Ops MatchState :=
  ⟨FixedPointAdd, source1, target1, source2, target2,
    fun st v => st.fixed_points.any (fun fp => fp.primary == v),
    fun st v => st.fixed_points.any (fun fp => fp.secondary == v),
    fun st e f => ⟨st.fixed_points, (e, f) :: st.flags1, st.flags2⟩,
    fun st e f => ⟨st.fixed_points, st.flags1, (e, f) :: st.flags2⟩⟩

/-- A dispatch of the virtual call under which every step pops itself from the
    step list and finds nothing. -/
def idleFind {σ S : Type} : S → VertexSet → VertexSet → σ → List S → Option (Bool × σ × List S) :=
  fun _ _ _ st steps => some (false, st, steps.tail)

/-- The item a map files under a key that occurs in it. -/
def MultiMap.itemAt (m : MultiMap) (key : Nat) : Nat := (m.equal_range key).headD 0

/-- The fixed point a round of a vertex cascade adds for an entry of the first
    map when its key is filed once on both sides. -/
def pairOf (m2 : MultiMap) (name : String) (e : Nat × Nat) : BasicBlockFixedPoint :=
  ⟨e.2, m2.itemAt e.1, name⟩

/-- Every candidate of the primary side occurs as primary of exactly one
    fixed point, whose partner is the candidate of the secondary side with
    the same key and whose label is `name`; and the same from the secondary
    side. -/
def MatchedOnce (name : String) (C1 C2 : List Vertex) (key1 key2 : Vertex → Nat)
    (st : MatchState) : Prop :=
  (∀ a ∈ C1, ∃ b ∈ C2, key1 a = key2 b ∧
    st.fixed_points.filter (fun fp => fp.primary == a) = [⟨a, b, name⟩]) ∧
  (∀ b ∈ C2, ∃ a ∈ C1, key1 a = key2 b ∧
    st.fixed_points.filter (fun fp => fp.secondary == b) = [⟨a, b, name⟩])

/-! ## Concrete inputs for the examples -/

/-- The registry of the specification over two flow graphs in which the edge
    numbered `e` runs from vertex `e / 10` to vertex `e % 10`, with steps
    that find nothing. -/
def exampleEnv : Env MatchState (CascadeStep MatchState) :=
  closureEnv (specOps (fun e => e / 10) (fun e => e % 10) (fun e => e / 10) (fun e => e % 10))
    idleFind

/-- A step with the given name that files nothing. -/
def exampleStep (name : String) : CascadeStep MatchState :=
  ⟨name, false, fun _ _ _ => ([], [])⟩

/-! ## A record of the step lists handed to nested calls -/

/-- The environment `env` over states that carry, beside the state proper,
    a record of the step lists handed to `step->FindFixedPoints`: every
    operation acts on the state proper as in `env`, and each virtual call
    appends the content of `*matching_steps` at the time of the call. -/
def Env.recording {σ S : Type} (env : Env σ S) : Env (σ × List (List S)) S :=
  ⟨env.GetName,
    fun st v1 v2 name => ((env.Add st.1 v1 v2 name).1, ((env.Add st.1 v1 v2 name).2, st.2)),
    fun step bb1 bb2 st steps =>
      (env.FindFixedPoints step bb1 bb2 st.1 steps).map
        (fun r => (r.1, (r.2.1, st.2 ++ [steps]), r.2.2)),
    env.source1, env.target1, env.source2, env.target2,
    fun st v => env.GetFixedPoint1 st.1 v,
    fun st v => env.GetFixedPoint2 st.1 v,
    fun st e f => (env.AddFlag1 st.1 e f, st.2),
    fun st e f => (env.AddFlag2 st.1 e f, st.2)⟩

/-- The loop state without the record. -/
def Inner.forget {σ S : Type} (s : Inner (σ × List (List S)) S) : Inner σ S :=
  ⟨s.state.1, s.steps, s.found, s.trace⟩

/-- The result of a cascade without the record. -/
def CascadeResult.forget {σ S : Type} (r : CascadeResult (σ × List (List S)) S) :
    CascadeResult σ S :=
  ⟨r.found, r.map1, r.map2, r.state.1, r.steps, r.trace⟩

/-! ## The `double` arithmetic in the key of `MatchingStepInstructionCount` -/

/-- A finite, non-negative `double`, written `mantissa * 2 ^ exponent`. -/
structure Double where
  /-- The integer that is scaled. -/
  mantissa : Nat
  /-- The power of two that scales it. -/
  exponent : Int
deriving DecidableEq, Repr

/-- The number of bits by which `n` exceeds 53 bits: the least `s` with
    `n / 2 ^ s < 2 ^ 53`; the first argument bounds the search. -/
def excessBits : Nat → Nat → Nat
  | 0, _ => 0
  | fuel + 1, n => if n < 2 ^ 53 then 0 else excessBits fuel (n / 2) + 1

/-- The number a `Double` stands for. -/
def Double.value (d : Double) : ℚ := d.mantissa * (2 : ℚ) ^ d.exponent

/-- Rounding of the exact number `mantissa * 2 ^ exponent` to a `double` of the
    binary64 format: at most 53 significant bits and no bit below
    `2 ^ (-1074)`, to nearest, a tie going to the even neighbour. Results
    beyond the largest finite `double` are outside the model. -/
def Double.round (mantissa : Nat) (exponent : Int) : Double :=
  let shift : Nat := max (excessBits mantissa mantissa) (-1074 - exponent).toNat
  let q := mantissa / 2 ^ shift
  let rem := mantissa % 2 ^ shift
  if 2 * rem > 2 ^ shift ∨ (2 * rem = 2 ^ shift ∧ q % 2 = 1) then ⟨q + 1, exponent + shift⟩
  else ⟨q, exponent + shift⟩

/-- The product `a * b` of two `double`s: the exact product, rounded. -/
def Double.mul (a b : Double) : Double :=
  Double.round (a.mantissa * b.mantissa) (a.exponent + b.exponent)

/-- Conversion of a `uint64_t` operand to `double` (the usual arithmetic
    conversion of `1000000000000000000ULL` in the product). -/
def Double.ofUInt64 (n : Nat) : Double := Double.round n 0

/-- The conversion `static_cast<uint64_t>(d)`: the fractional part is
    discarded; the conversion is undefined, `none`, when the result does not
    fit 64 bits. -/
def Double.toUInt64 (d : Double) : Option Nat :=
  let n :=
    if 0 ≤ d.exponent then d.mantissa * 2 ^ d.exponent.toNat
    else d.mantissa / 2 ^ (-d.exponent).toNat
  if n < 2 ^ 64 then some n else none

/-- The local `int_md_index` of `GetUnmatchedBasicBlocksByInstructionCount`:
    `static_cast<uint64_t>(flow_graph->GetMdIndex(vertex) * 1000000000000000000ULL)`. -/
def int_md_index (GetMdIndex : Vertex → Double) (vertex : Vertex) : Option Nat :=
  Double.toUInt64 (Double.mul (GetMdIndex vertex) (Double.ofUInt64 1000000000000000000))

/-- Modelled from the spec: `IPow32(base, exp)`, whose definition is not among
    the sources (only its tests are): "`IPow32(base, exp)` returns
    `base^exp mod 2^32` with `IPow32(0,0) == 1`". -/
def IPow32 (base exp : Nat) : Nat := base ^ exp % 2 ^ 32

/-! ## Definitions: `writer.cc` -/

/-- An `absl::Status`: OK, or an error with its code and message. -/
inductive Status where
  /-- The value `absl::OkStatus()`. -/
  | ok
  /-- A status that is not OK. -/
  | error (code : Nat) (message : String)
deriving DecidableEq, Repr

/-- Accessor `absl::Status::ok()`. -/
def Status.isOk : Status → Bool
  | Status.ok => true
  | Status.error _ _ => false

/-- A `Writer`: its virtual `Write(call_graph1, call_graph2, flow_graphs1,
    flow_graphs2, fixed_points)` acts on the world outside the program (the
    files or database it writes to) and returns a status. `G`, `F` and `P`
    are the types `CallGraph`, `FlowGraphs` and `FixedPoints`. -/
structure Writer (ω G F P : Type) where
  /-- Virtual `Writer::Write`. -/
  Write : G → G → F → F → P → ω → Status × ω

/-- One call of a chained writer, as logged: the writer, the arguments it
    was given and the status it returned. -/
structure WriteCall (ω G F P : Type) where
  /-- The writer called. -/
  writer : Writer ω G F P
  /-- Argument `call_graph1`. -/
  call_graph1 : G
  /-- Argument `call_graph2`. -/
  call_graph2 : G
  /-- Argument `flow_graphs1`. -/
  flow_graphs1 : F
  /-- Argument `flow_graphs2`. -/
  flow_graphs2 : F
  /-- Argument `fixed_points`. -/
  fixed_points : P
  /-- The status the call returned. -/
  result : Status

/-- A `ChainWriter`: the vector `writers_`. -/
structure ChainWriter (ω G F P : Type) where
  /-- Member `writers_`. -/
  writers_ : List (Writer ω G F P)

/-- The method `ChainWriter::Add`: `writers_.push_back(std::move(writer))`. -/
def ChainWriter.Add {ω G F P : Type} (chain : ChainWriter ω G F P)
    (writer : Writer ω G F P) : ChainWriter ω G F P :=
  ⟨chain.writers_ ++ [writer]⟩

/-- The method `ChainWriter::empty`. -/
def ChainWriter.empty {ω G F P : Type} (chain : ChainWriter ω G F P) : Bool :=
  chain.writers_.isEmpty

/-- What `ChainWriter::Write` leaves behind: the status returned, the world
    outside and the calls made, in order. -/
structure WriteResult (ω G F P : Type) where
  /-- The status returned. -/
  status : Status
  /-- The world after the call. -/
  world : ω
  /-- The calls of chained writers, in order. -/
  calls : List (WriteCall ω G F P)

/-- The loop `for (auto& writer : writers_) NA_RETURN_IF_ERROR(writer->Write(...))`
    followed by `return absl::OkStatus()`. The macro `NA_RETURN_IF_ERROR`,
    whose header is not among the sources, evaluates its argument once and
    returns the status from the enclosing function when it is not OK. -/
def ChainWriter.WriteLoop {ω G F P : Type} (call_graph1 call_graph2 : G)
    (flow_graphs1 flow_graphs2 : F) (fixed_points : P) :
    List (Writer ω G F P) → ω → List (WriteCall ω G F P) → WriteResult ω G F P
  | [], world, calls => ⟨Status.ok, world, calls⟩
  | writer :: rest, world, calls =>
    let r := writer.Write call_graph1 call_graph2 flow_graphs1 flow_graphs2 fixed_points world
    let call : WriteCall ω G F P :=
      ⟨writer, call_graph1, call_graph2, flow_graphs1, flow_graphs2, fixed_points, r.1⟩
    if r.1.isOk then
      ChainWriter.WriteLoop call_graph1 call_graph2 flow_graphs1 flow_graphs2 fixed_points rest
        r.2 (calls ++ [call])
    else ⟨r.1, r.2, calls ++ [call]⟩

/-- The method `ChainWriter::Write(call_graph1, call_graph2, flow_graphs1,
    flow_graphs2, fixed_points)`. -/
def ChainWriter.Write {ω G F P : Type} (chain : ChainWriter ω G F P)
    (call_graph1 call_graph2 : G) (flow_graphs1 flow_graphs2 : F) (fixed_points : P)
    (world : ω) : WriteResult ω G F P :=
  ChainWriter.WriteLoop call_graph1 call_graph2 flow_graphs1 flow_graphs2 fixed_points
    chain.writers_ world []

/-- The calls were all given the arguments `call_graph1`, ..., `fixed_points`. -/
def WriteCall.sameArgs {ω G F P : Type} (call_graph1 call_graph2 : G)
    (flow_graphs1 flow_graphs2 : F) (fixed_points : P) (call : WriteCall ω G F P) : Prop :=
  call.call_graph1 = call_graph1 ∧ call.call_graph2 = call_graph2 ∧
    call.flow_graphs1 = flow_graphs1 ∧ call.flow_graphs2 = flow_graphs2 ∧
    call.fixed_points = fixed_points

/-- A chain to which the writers of a list were added, in order, with `Add`. -/
def ChainWriter.ofAdds {ω G F P : Type} (writers : List (Writer ω G F P)) :
    ChainWriter ω G F P :=
  writers.foldl ChainWriter.Add ⟨[]⟩

/-- A writer for the examples: it appends its number to the world, a list of
    numbers, and returns the given status. -/
def exampleWriter (n : Nat) (status : Status) : Writer (List Nat) Nat Nat Nat :=
  ⟨fun _ _ _ _ _ world => (status, world ++ [n])⟩

/-! ## Definitions: the instruction cache of `instruction.cc` -/

/-- Modelled from the spec: the type `Instruction::Cache`, whose declaration is
    not among the sources: "a mapping from mnemonic-prime → mnemonic string".
    `lookup prime` is the mnemonic stored for `prime`, if any. -/
structure Cache where
  /-- The mnemonic stored for a prime. -/
  lookup : Nat → Option String

/-- The call `cache->find(prime)`: the `second` of the entry found, `none` for
    `cache->end()`. -/
def Cache.find (cache : Cache) (prime : Nat) : Option String := cache.lookup prime

/-- The assignment `(*cache)[prime] = mnemonic`. -/
def Cache.assign (cache : Cache) (prime : Nat) (mnemonic : String) : Cache :=
  ⟨fun p => if p = prime then some mnemonic else cache.lookup p⟩

/-- The content of the message `LOG(INFO) << "Hash collision detected! ..."`:
    the mnemonic in the cache, the mnemonic of the new instruction and the
    prime. -/
structure Collision where
  /-- The mnemonic `prime_to_mnemonic->second`. -/
  existing : String
  /-- The mnemonic of the instruction under construction. -/
  mnemonic : String
  /-- The prime they share. -/
  hash : Nat
deriving DecidableEq, Repr

/-- What a construction leaves behind: the instruction, the cache and the
    messages logged. -/
structure Constructed where
  /-- The instruction built. -/
  instruction : Instruction
  /-- The cache after the construction. -/
  cache : Cache
  /-- The messages logged. -/
  log : List Collision

/-- The constructor `Instruction::Instruction(cache, address, mnemonic, prime)`.
    A null `cache` fails `CHECK(cache != nullptr)`, which aborts: `none`. -/
def Instruction.construct (cache : Option Cache) (address : Nat) (mnemonic : String)
    (prime : Nat) : Option Constructed :=
  match cache with
  | none => none
  | some cache =>
    match cache.find prime with
    | some second =>
      if second ≠ "" ∧ mnemonic ≠ "" ∧ second ≠ mnemonic then
        some ⟨⟨address, prime⟩, cache, [⟨second, mnemonic, prime⟩]⟩
      else some ⟨⟨address, prime⟩, cache, []⟩
    | none => some ⟨⟨address, prime⟩, cache.assign prime mnemonic, []⟩

/-- The method `Instruction::GetMnemonic(cache)`: `cache->find(GetPrime())->second`;
    dereferencing `cache->end()` is undefined, `none`. -/
def Instruction.GetMnemonic (instruction : Instruction) (cache : Cache) : Option String :=
  cache.find instruction.GetPrime

/-- The cache after instructions with the given `(address, mnemonic, prime)`
    are constructed one after another over it. -/
def constructAll (cache : Cache) : List (Nat × String × Nat) → Cache
  | [] => cache
  | (address, mnemonic, prime) :: rest =>
    match Instruction.construct (some cache) address mnemonic prime with
    | some r => constructAll r.cache rest
    | none => cache

/-! ## Vocabulary for the results about the entry `ComputeLcs` -/

/-- Length of the longest common prefix of two sequences. -/
def commonPrefixLength : List Nat → List Nat → Nat
  | x :: xs, y :: ys => if x = y then commonPrefixLength xs ys + 1 else 0
  | _, _ => 0

/-! ## Definitions: `match/function_instruction_count.cc` -/

/-- A `FlowGraph*`, a descriptor like the vertices. -/
abbrev FlowGraphPtr := Nat

/-- The function
    `MatchingStepFunctionInstructionCount::GetUnmatchedFlowGraphsByInstructionCount`:
    every graph of the set that passes `IsValidCandidate(graph) &&
    boost::num_vertices(graph->GetGraph())` is filed under
    `counts[Counts::kInstructionsLibrary] + counts[Counts::kInstructionsNonLibrary]`,
    a sum of two `uint64_t` counts filled in by `Count(*graph, &counts)`; the
    map is not cleared. `IsValidCandidate`, `num_vertices` and the two counts
    are defined outside the sources. -/
def GetUnmatchedFlowGraphsByInstructionCount (IsValidCandidate : FlowGraphPtr → Bool)
    (num_vertices instructions_library instructions_non_library : FlowGraphPtr → Nat)
    (flow_graphs : List FlowGraphPtr) (flow_graphs_map : MultiMap) : MultiMap :=
  flow_graphs.foldl
    (fun (m : MultiMap) graph =>
      if IsValidCandidate graph && num_vertices graph != 0 then
        m.emplace ((instructions_library graph + instructions_non_library graph) % 2 ^ 64) graph
      else m)
    flow_graphs_map

/-! ## Vocabulary for the order of the calls of a cascade -/

/-- The logged calls made while handling `key`. -/
def eventsAt {S : Type} (key : Nat) (trace : List (Event S)) : List (Event S) :=
  trace.filter (fun e => e.key == key)

/-- The logged call is a call of `AddFlag`. -/
def Event.isFlag {S : Type} : Event S → Bool
  | Event.flag _ _ _ _ => true
  | _ => false

/-! ## The Hirschberg recursion under a bound on its depth -/

/-- Recursive `ComputeLcs(xo, xlo, xhi, yo, ylo, yhi, xout, yout)` again, this
    time with a plain bound on the depth of nested calls: every call takes one
    unit and `none` tells that the bound was reached before the call
    returned. -/
def ComputeLcsDepth (xs ys : List Nat) : Nat → Nat → Nat → Nat → Nat → Out → Option Out
  | 0, _, _, _, _, _ => none
  | depth + 1, xlo, xhi, ylo, yhi, out =>
    let nx := xhi - xlo
    if nx = 0 then some out
    else if nx = 1 then
      let pos := find ys ylo yhi (xs.getD xlo 0)
      if pos ≠ yhi then some (out.1 ++ [xlo], out.2 ++ [pos]) else some out
    else
      let xmid := xlo + nx / 2
      let ymid := splitPoint xs xlo xhi ys ylo yhi
      match ComputeLcsDepth xs ys depth xlo xmid ylo ymid out with
      | none => none
      | some out1 => ComputeLcsDepth xs ys depth xmid xhi ymid yhi out1

/-! ## The element accesses of the public overload -/

/-- The loop of the public overload over `matches1` and `matches2`: it runs
    while both lists have an element and emplaces the pair of elements
    `*(instructions1_begin + *i)` and `*(instructions2_begin + *j)`; `none`
    tells that one of the two accesses left its sequence. -/
def matchLoop (instructions1 instructions2 : List Instruction) :
    List Nat → List Nat → Option (List (Instruction × Instruction))
  | i :: matches1, j :: matches2 =>
    match instructions1[i]?, instructions2[j]? with
    | some a, some b =>
      (matchLoop instructions1 instructions2 matches1 matches2).map (fun ms => (a, b) :: ms)
    | _, _ => none
  | _, _ => some []

/-- The public overload with its element accesses: the template runs on the
    primes and fills `matches1` and `matches2`, the loop then reads the
    instructions at these indices. -/
def ComputeLcsMatches (instructions1 instructions2 : List Instruction) :
    Option (List (Instruction × Instruction)) :=
  let r := ComputeLcsCore (instructions1.map Instruction.GetPrime)
    (instructions2.map Instruction.GetPrime) ([], [])
  matchLoop instructions1 instructions2 r.1 r.2

/-! ## The instructions built over a cache -/

/-- The instructions built when instructions with the given
    `(address, mnemonic, prime)` are constructed one after another over the
    cache, each over the cache its predecessors left. -/
def constructInstructions (cache : Cache) : List (Nat × String × Nat) → List Instruction
  | [] => []
  | (address, mnemonic, prime) :: rest =>
    match Instruction.construct (some cache) address mnemonic prime with
    | some r => r.instruction :: constructInstructions r.cache rest
    | none => []

/-! ## Vocabulary for the steps a cascade hands its candidates to -/

/-- The step files only what it is handed: every vertex in its maps belongs to
    the vertex set of its side and, for a step on edges, so do both endpoints
    of every edge in its maps. -/
def CascadeStep.FilesWithin {σ : Type} (ops : Ops σ) (step : CascadeStep σ) : Prop :=
  ∀ (st : σ) (vertices1 vertices2 : VertexSet),
    (∀ e ∈ (step.maps st vertices1 vertices2).1,
      if step.edge_matching_ = true then
        ops.source1 e.2 ∈ vertices1 ∧ ops.target1 e.2 ∈ vertices1
      else e.2 ∈ vertices1) ∧
    (∀ e ∈ (step.maps st vertices1 vertices2).2,
      if step.edge_matching_ = true then
        ops.source2 e.2 ∈ vertices2 ∧ ops.target2 e.2 ∈ vertices2
      else e.2 ∈ vertices2)

/-! Theorems -/

/-! ## The textbook recurrence and common subsequences -/

theorem lcsLength_nil_left (ys : List Nat) : lcsLength [] ys = 0 := rfl

theorem lcsLength_nil_right (xs : List Nat) : lcsLength xs [] = 0 := by
  cases xs <;> rfl

theorem lcsLength_cons_cons (x y : Nat) (xs ys : List Nat) :
    lcsLength (x :: xs) (y :: ys) =
      if x = y then lcsLength xs ys + 1
      else max (lcsLength xs (y :: ys)) (lcsLength (x :: xs) ys) := rfl

/-- Every common subsequence is at most `lcsLength` long. -/
theorem lcsLength_sublist_le :
    ∀ (xs ys l : List Nat), l.Sublist xs → l.Sublist ys → l.length ≤ lcsLength xs ys := by
  intro xs
  induction xs with
  | nil =>
    intro ys l hx _
    have : l = [] := List.sublist_nil.mp hx
    simp [this]
  | cons x xs ihx =>
    intro ys
    induction ys with
    | nil =>
      intro l _ hy
      have : l = [] := List.sublist_nil.mp hy
      simp [this]
    | cons y ys ihy =>
      intro l hx hy
      rw [lcsLength_cons_cons]
      by_cases hxy : x = y
      · rw [if_pos hxy]
        cases l with
        | nil => simp
        | cons a l =>
          have h1 : l.Sublist xs := by
            cases hx with
            | cons _ h => exact (List.sublist_cons_self a l).trans h
            | cons₂ _ h => exact h
          have h2 : l.Sublist ys := by
            cases hy with
            | cons _ h => exact (List.sublist_cons_self a l).trans h
            | cons₂ _ h => exact h
          have := ihx ys l h1 h2
          simp only [List.length_cons]
          omega
      · rw [if_neg hxy]
        cases hx with
        | cons _ h =>
          exact le_trans (ihx (y :: ys) l h hy) (le_max_left _ _)
        | cons₂ _ h =>
          rename_i l'
          cases hy with
          | cons _ h' =>
            exact le_trans (ihy _ (List.Sublist.cons₂ x h) h') (le_max_right _ _)
          | cons₂ _ h' => exact absurd rfl hxy

/-- Some common subsequence is exactly `lcsLength` long. -/
theorem lcsLength_attained :
    ∀ (xs ys : List Nat), ∃ l : List Nat, l.Sublist xs ∧ l.Sublist ys ∧
      l.length = lcsLength xs ys := by
  intro xs
  induction xs with
  | nil => intro ys; exact ⟨[], List.Sublist.refl _, List.nil_sublist _, rfl⟩
  | cons x xs ihx =>
    intro ys
    induction ys with
    | nil => exact ⟨[], List.nil_sublist _, List.Sublist.refl _, rfl⟩
    | cons y ys ihy =>
      rw [lcsLength_cons_cons]
      by_cases hxy : x = y
      · rw [if_pos hxy]
        obtain ⟨l, h1, h2, h3⟩ := ihx ys
        refine ⟨x :: l, List.Sublist.cons₂ x h1, ?_, by simp [h3]⟩
        rw [hxy]
        exact List.Sublist.cons₂ y h2
      · rw [if_neg hxy]
        rcases le_total (lcsLength xs (y :: ys)) (lcsLength (x :: xs) ys) with h | h
        · rw [max_eq_right h]
          obtain ⟨l, h1, h2, h3⟩ := ihy
          exact ⟨l, h1, List.Sublist.cons y h2, h3⟩
        · rw [max_eq_left h]
          obtain ⟨l, h1, h2, h3⟩ := ihx (y :: ys)
          exact ⟨l, List.Sublist.cons x h1, h2, h3⟩

theorem lcsLength_mono {xs xs' ys ys' : List Nat} (hx : xs.Sublist xs') (hy : ys.Sublist ys') :
    lcsLength xs ys ≤ lcsLength xs' ys' := by
  obtain ⟨l, h1, h2, h3⟩ := lcsLength_attained xs ys
  rw [← h3]
  exact lcsLength_sublist_le _ _ _ (h1.trans hx) (h2.trans hy)

theorem lcsLength_le_left (xs ys : List Nat) : lcsLength xs ys ≤ xs.length := by
  obtain ⟨l, h1, _, h3⟩ := lcsLength_attained xs ys
  rw [← h3]; exact h1.length_le

theorem lcsLength_le_right (xs ys : List Nat) : lcsLength xs ys ≤ ys.length := by
  obtain ⟨l, _, h2, h3⟩ := lcsLength_attained xs ys
  rw [← h3]; exact h2.length_le

theorem lcsLength_reverse (xs ys : List Nat) :
    lcsLength xs.reverse ys.reverse = lcsLength xs ys := by
  apply le_antisymm
  · obtain ⟨l, h1, h2, h3⟩ := lcsLength_attained xs.reverse ys.reverse
    rw [← h3, ← List.length_reverse]
    apply lcsLength_sublist_le
    · simpa using h1.reverse
    · simpa using h2.reverse
  · obtain ⟨l, h1, h2, h3⟩ := lcsLength_attained xs ys
    rw [← h3, ← List.length_reverse]
    exact lcsLength_sublist_le _ _ _ h1.reverse h2.reverse

theorem lcsLength_append_ge (x1 x2 y1 y2 : List Nat) :
    lcsLength x1 y1 + lcsLength x2 y2 ≤ lcsLength (x1 ++ x2) (y1 ++ y2) := by
  obtain ⟨l1, a1, a2, a3⟩ := lcsLength_attained x1 y1
  obtain ⟨l2, b1, b2, b3⟩ := lcsLength_attained x2 y2
  rw [← a3, ← b3, ← List.length_append]
  exact lcsLength_sublist_le _ _ _ (a1.append b1) (a2.append b2)

/-- Splitting the first sequence splits some optimal solution: there is a cut
    of the second sequence at which the two halves add up to the whole. -/
theorem lcsLength_append_split (x1 x2 ys : List Nat) :
    ∃ k, k ≤ ys.length ∧
      lcsLength (x1 ++ x2) ys = lcsLength x1 (ys.take k) + lcsLength x2 (ys.drop k) := by
  obtain ⟨l, h1, h2, h3⟩ := lcsLength_attained (x1 ++ x2) ys
  obtain ⟨l1, l2, rfl, hl1, hl2⟩ := List.sublist_append_iff.mp h1
  obtain ⟨r1, r2, rfl, hr1, hr2⟩ := List.append_sublist_iff.mp h2
  refine ⟨r1.length, by simp, ?_⟩
  apply le_antisymm
  · rw [← h3]
    simp only [List.take_left', List.drop_left', List.length_append]
    exact add_le_add (lcsLength_sublist_le _ _ _ hl1 hr1) (lcsLength_sublist_le _ _ _ hl2 hr2)
  · have := lcsLength_append_ge x1 x2 ((r1 ++ r2).take r1.length) ((r1 ++ r2).drop r1.length)
    rwa [List.take_append_drop] at this

theorem lcsLength_take_drop_le (x1 x2 ys : List Nat) (k : Nat) :
    lcsLength x1 (ys.take k) + lcsLength x2 (ys.drop k) ≤ lcsLength (x1 ++ x2) ys := by
  have := lcsLength_append_ge x1 x2 (ys.take k) (ys.drop k)
  rwa [List.take_append_drop] at this

theorem lcsLength_singleton (e : Nat) (ys : List Nat) :
    lcsLength [e] ys = if e ∈ ys then 1 else 0 := by
  induction ys with
  | nil => rfl
  | cons y ys ih =>
    rw [lcsLength_cons_cons]
    by_cases h : e = y
    · simp [h, lcsLength_nil_left]
    · rw [if_neg h, ih, lcsLength_nil_left]
      simp [h]

theorem lcsLength_cons_same (a : Nat) (xs ys : List Nat) :
    lcsLength (a :: xs) (a :: ys) = lcsLength xs ys + 1 := by
  rw [lcsLength_cons_cons, if_pos rfl]

theorem lcsLength_append_left (p xs ys : List Nat) :
    lcsLength (p ++ xs) (p ++ ys) = p.length + lcsLength xs ys := by
  induction p with
  | nil => simp
  | cons a p ih =>
    simp only [List.cons_append, lcsLength_cons_same, ih, List.length_cons]
    omega

theorem lcsLength_append_right (xs ys s : List Nat) :
    lcsLength (xs ++ s) (ys ++ s) = lcsLength xs ys + s.length := by
  rw [← lcsLength_reverse, List.reverse_append, List.reverse_append, lcsLength_append_left,
    lcsLength_reverse, List.length_reverse]
  omega

/-- The recurrence read at the last elements, as the row-by-row table uses it. -/
theorem lcsLength_snoc_snoc (xs ys : List Nat) (x y : Nat) :
    lcsLength (xs ++ [x]) (ys ++ [y]) =
      if x = y then lcsLength xs ys + 1
      else max (lcsLength xs (ys ++ [y])) (lcsLength (xs ++ [x]) ys) := by
  rw [← lcsLength_reverse, List.reverse_append, List.reverse_append]
  simp only [List.reverse_cons, List.reverse_nil, List.nil_append, List.singleton_append]
  rw [lcsLength_cons_cons]
  have e1 : lcsLength xs.reverse ys.reverse = lcsLength xs ys := lcsLength_reverse _ _
  have e2 : lcsLength xs.reverse (y :: ys.reverse) = lcsLength xs (ys ++ [y]) := by
    rw [← lcsLength_reverse xs (ys ++ [y])]; simp
  have e3 : lcsLength (x :: xs.reverse) ys.reverse = lcsLength (xs ++ [x]) ys := by
    rw [← lcsLength_reverse (xs ++ [x]) ys]; simp
  rw [e1, e2, e3]

/-! ## `LcsLens` computes the last row of the table -/

theorem getD_set_ne (l : Lengths) (i j : Nat) (v : Int) (h : i ≠ j) :
    (l.set i v).getD j 0 = l.getD j 0 := by
  simp [List.getD_eq_getElem?_getD, List.getElem?_set_ne h]

theorem getD_set_self (l : Lengths) (i : Nat) (v : Int) (h : i < l.length) :
    (l.set i v).getD i 0 = v := by
  simp [List.getD_eq_getElem?_getD, List.getElem?_set_self h]

/-- Invariant of the inner loop: with `done` already visited, the entries
    `0..done.length` of `curr` hold the new row; at the end the whole row does. -/
theorem LcsLensInner_spec (x : Nat) (pre ys : List Nat) (prev : Lengths)
    (hprev : ∀ j, j ≤ ys.length → prev.getD j 0 = (lcsLength pre (ys.take j) : Int)) :
    ∀ (rest done : List Nat) (curr : Lengths), ys = done ++ rest →
      curr.length = ys.length + 1 →
      (∀ j, j ≤ done.length → curr.getD j 0 = (lcsLength (pre ++ [x]) (ys.take j) : Int)) →
      (LcsLensInner x prev rest done.length curr).length = ys.length + 1 ∧
      ∀ j, j ≤ ys.length →
        (LcsLensInner x prev rest done.length curr).getD j 0 =
          (lcsLength (pre ++ [x]) (ys.take j) : Int) := by
  intro rest
  induction rest with
  | nil =>
    intro done curr hys hlen hinv
    simp only [LcsLensInner]
    refine ⟨hlen, fun j hj => hinv j ?_⟩
    simpa [hys] using hj
  | cons y rest ih =>
    intro done curr hys hlen hinv
    simp only [LcsLensInner]
    have hys' : ys = (done ++ [y]) ++ rest := by simp [hys]
    have hdl : done.length + 1 ≤ ys.length := by simp [hys]
    have key := ih (done ++ [y])
      (curr.set (done.length + 1)
        (if x = y then prev.getD done.length 0 + 1
         else max (curr.getD done.length 0) (prev.getD (done.length + 1) 0)))
      hys' (by simp [hlen]) ?_
    · simpa [-List.getD_eq_getElem?_getD] using key
    · intro j hj
      simp only [List.length_append, List.length_singleton] at hj
      rcases Nat.lt_or_ge j (done.length + 1) with hlt | hge
      · rw [getD_set_ne _ _ _ _ (by omega)]
        exact hinv j (by omega)
      · have hj' : j = done.length + 1 := by omega
        subst hj'
        rw [getD_set_self _ _ _ (by omega)]
        have t1 : ys.take (done.length + 1) = done ++ [y] := by
          rw [hys']; exact List.take_left' (by simp)
        have t0 : ys.take done.length = done := by
          rw [hys]; exact List.take_left' rfl
        rw [t1, lcsLength_snoc_snoc, hprev _ (by omega), hprev _ hdl,
          hinv _ (le_refl _), t0, t1]
        by_cases hxy : x = y
        · simp [hxy]
        · simp only [hxy, if_false]
          push_cast
          rw [max_comm]

/-- Invariant of the outer loop: `curr` is the row of the x elements visited so
    far, and both buffers keep their length and their leading zero. -/
theorem LcsLensOuter_spec (ys : List Nat) :
    ∀ (rest pre : List Nat) (prev curr : Lengths),
      prev.length = ys.length + 1 → prev.getD 0 0 = 0 →
      curr.length = ys.length + 1 →
      (∀ j, j ≤ ys.length → curr.getD j 0 = (lcsLength pre (ys.take j) : Int)) →
      (LcsLensOuter ys rest prev curr).length = ys.length + 1 ∧
      ∀ j, j ≤ ys.length →
        (LcsLensOuter ys rest prev curr).getD j 0 =
          (lcsLength (pre ++ rest) (ys.take j) : Int) := by
  intro rest
  induction rest with
  | nil =>
    intro pre prev curr _ _ hc hinv
    simp only [LcsLensOuter, List.append_nil]
    exact ⟨hc, hinv⟩
  | cons x rest ih =>
    intro pre prev curr hp hp0 hc hinv
    simp only [LcsLensOuter]
    have inner := LcsLensInner_spec x pre ys curr hinv ys [] prev (by simp) hp
      (by
        intro j hj
        have : j = 0 := by simpa using hj
        subst this
        rw [hp0]
        simp [lcsLength_nil_right])
    have h0 : curr.getD 0 0 = 0 := by
      have := hinv 0 (Nat.zero_le _)
      simpa [-List.getD_eq_getElem?_getD, lcsLength_nil_right] using this
    have key := ih (pre ++ [x]) curr (LcsLensInner x curr ys 0 prev) hc h0 inner.1 inner.2
    simpa [-List.getD_eq_getElem?_getD] using key

theorem replicate_getD_zero (n j : Nat) : (List.replicate n (0 : Int)).getD j 0 = 0 := by
  simp only [List.getD_eq_getElem?_getD, List.getElem?_replicate]
  split <;> rfl

/-- Entry `j` of the result of `LcsLens` is the LCS length of the x range and
    the first `j` elements of the y range; the result has `|yrange| + 1` entries. -/
theorem LcsLens_spec (xr yr : List Nat) (lens : Lengths) :
    (LcsLens xr yr lens).length = yr.length + 1 ∧
    ∀ j, j ≤ yr.length → (LcsLens xr yr lens).getD j 0 = (lcsLength xr (yr.take j) : Int) := by
  have key := LcsLensOuter_spec yr xr [] (List.replicate (1 + yr.length) 0)
    (List.replicate (1 + yr.length) 0) (by simp; omega) (replicate_getD_zero _ _)
    (by simp; omega) (by
      intro j _
      rw [replicate_getD_zero]
      simp [lcsLength_nil_left])
  simpa [-List.getD_eq_getElem?_getD, LcsLens] using key

/-! ## The split loop picks the first maximum -/

/-- With `bs` and `es` the entries still to visit and `y` the position of the
    first of them: either no entry beats `lmax` and `ymid` is kept, or the
    result is the position of the first entry whose sum is the largest. -/
theorem splitLoop_spec (yhi : Nat) :
    ∀ (bs es : Lengths) (lmax : Int) (y ymid : Nat),
      bs.length = es.length → y + bs.length ≤ yhi + 1 →
      (splitLoop yhi bs es lmax y ymid = ymid ∧
        ∀ t, t < bs.length → bs.getD t 0 + es.getD t 0 ≤ lmax) ∨
      (∃ t, t < bs.length ∧ splitLoop yhi bs es lmax y ymid = y + t ∧
        lmax < bs.getD t 0 + es.getD t 0 ∧
        (∀ u, u < bs.length → bs.getD u 0 + es.getD u 0 ≤ bs.getD t 0 + es.getD t 0) ∧
        (∀ u, u < t → bs.getD u 0 + es.getD u 0 < bs.getD t 0 + es.getD t 0)) := by
  intro bs
  induction bs with
  | nil =>
    intro es lmax y ymid _ _
    left
    exact ⟨by simp [splitLoop], fun t ht => absurd ht (by simp)⟩
  | cons b bs ih =>
    intro es lmax y ymid hlen hy
    cases es with
    | nil => simp at hlen
    | cons e es =>
      simp only [List.length_cons, Nat.add_right_cancel_iff] at hlen
      simp only [List.length_cons] at hy
      simp only [splitLoop]
      have hy' : (if y ≠ yhi then y + 1 else y) + bs.length ≤ yhi + 1 := by
        split <;> omega
      by_cases hupd : b + e > lmax
      · simp only [hupd, decide_True, if_true]
        rcases ih es (b + e) (if y ≠ yhi then y + 1 else y) y hlen hy' with ⟨h1, h2⟩ | ⟨t, ht, h1, h2, h3, h4⟩
        · right
          refine ⟨0, by simp, by simpa using h1, by simpa using hupd, ?_, ?_⟩
          · intro u hu
            cases u with
            | zero => simp
            | succ u =>
              simp only [List.length_cons, Nat.add_lt_add_iff_right] at hu
              simpa using h2 u hu
          · intro u hu; omega
        · right
          have hyne : y ≠ yhi := by omega
          rw [if_pos hyne] at h1
          refine ⟨t + 1, by simpa using ht, by rw [if_pos hyne, h1]; omega, ?_, ?_, ?_⟩
          · simp only [List.getD_cons_succ]; omega
          · intro u hu
            cases u with
            | zero => simp only [List.getD_cons_zero, List.getD_cons_succ]; omega
            | succ u =>
              simp only [List.length_cons, Nat.add_lt_add_iff_right] at hu
              simpa using h3 u hu
          · intro u hu
            cases u with
            | zero => simp only [List.getD_cons_zero, List.getD_cons_succ]; omega
            | succ u =>
              simpa using h4 u (by omega)
      · simp only [hupd, decide_False, Bool.false_eq_true, if_false]
        rcases ih es lmax (if y ≠ yhi then y + 1 else y) ymid hlen hy' with ⟨h1, h2⟩ | ⟨t, ht, h1, h2, h3, h4⟩
        · left
          refine ⟨h1, ?_⟩
          intro u hu
          cases u with
          | zero => simp only [List.getD_cons_zero]; omega
          | succ u =>
            simp only [List.length_cons, Nat.add_lt_add_iff_right] at hu
            simpa using h2 u hu
        · right
          have hyne : y ≠ yhi := by omega
          rw [if_pos hyne] at h1
          refine ⟨t + 1, by simpa using ht, by rw [if_pos hyne, h1]; omega, ?_, ?_, ?_⟩
          · simpa using h2
          · intro u hu
            cases u with
            | zero => simp only [List.getD_cons_zero, List.getD_cons_succ]; omega
            | succ u =>
              simp only [List.length_cons, Nat.add_lt_add_iff_right] at hu
              simpa using h3 u hu
          · intro u hu
            cases u with
            | zero => simp only [List.getD_cons_zero, List.getD_cons_succ]; omega
            | succ u =>
              simpa using h4 u (by omega)

/-! ## Ranges -/

theorem range_length (xs : List Nat) (lo hi : Nat) (h : hi ≤ xs.length) :
    (range xs lo hi).length = hi - lo := by
  simp only [range, List.length_take, List.length_drop]
  omega

theorem range_append (xs : List Nat) (lo mid hi : Nat) (h1 : lo ≤ mid) (h2 : mid ≤ hi) :
    range xs lo mid ++ range xs mid hi = range xs lo hi := by
  unfold range
  have e1 : hi - lo = (mid - lo) + (hi - mid) := by omega
  have e2 : xs.drop mid = (xs.drop lo).drop (mid - lo) := by
    rw [List.drop_drop]; congr 1; omega
  rw [e1, List.take_add, e2]

theorem range_take (ys : List Nat) (lo hi t : Nat) (h : lo + t ≤ hi) :
    (range ys lo hi).take t = range ys lo (lo + t) := by
  unfold range
  rw [List.take_take]
  congr 1
  omega

theorem range_drop (ys : List Nat) (lo hi t : Nat) :
    (range ys lo hi).drop t = range ys (lo + t) hi := by
  unfold range
  rw [List.drop_take, List.drop_drop]
  congr 1
  omega

theorem range_empty (xs : List Nat) (lo hi : Nat) (h : hi - lo = 0) : range xs lo hi = [] := by
  simp [range, h]

theorem range_single (xs : List Nat) (lo hi : Nat) (h : hi - lo = 1) (hh : hi ≤ xs.length) :
    range xs lo hi = [xs.getD lo 0] := by
  unfold range
  rw [h]
  have hlt : lo < xs.length := by omega
  rw [List.drop_eq_getElem_cons hlt, List.getD_eq_getElem _ _ hlt]
  rfl

theorem mem_range_iff (ys : List Nat) (lo hi e : Nat) (hh : hi ≤ ys.length) :
    e ∈ range ys lo hi ↔ ∃ j, lo ≤ j ∧ j < hi ∧ ys.getD j 0 = e := by
  unfold range
  rw [List.mem_iff_getElem]
  constructor
  · rintro ⟨n, hn, he⟩
    simp only [List.length_take, List.length_drop] at hn
    refine ⟨lo + n, by omega, by omega, ?_⟩
    rw [List.getElem_take, List.getElem_drop] at he
    rw [List.getD_eq_getElem _ _ (by omega)]
    exact he
  · rintro ⟨j, h1, h2, he⟩
    refine ⟨j - lo, by simp only [List.length_take, List.length_drop]; omega, ?_⟩
    rw [List.getElem_take, List.getElem_drop]
    rw [List.getD_eq_getElem _ _ (by omega)] at he
    rw [← he]
    congr 1
    omega

/-! ## The split point -/

theorem getD_reverse_Lengths (l : Lengths) (t : Nat) (h : t < l.length) :
    l.reverse.getD t 0 = l.getD (l.length - 1 - t) 0 := by
  simp only [List.getD_eq_getElem?_getD]
  rw [List.getElem?_reverse h]

/-- The split loop returns `ylo + t` for the first offset `t` of largest score. -/
theorem splitPoint_spec (xs : List Nat) (xlo xhi : Nat) (ys : List Nat) (ylo yhi : Nat)
    (hy1 : ylo ≤ yhi) (hy2 : yhi ≤ ys.length) :
    ∃ t, t ≤ yhi - ylo ∧ splitPoint xs xlo xhi ys ylo yhi = ylo + t ∧
      (∀ u, u ≤ yhi - ylo →
        splitScore xs xlo xhi ys ylo yhi u ≤ splitScore xs xlo xhi ys ylo yhi t) ∧
      (∀ u, u < t →
        splitScore xs xlo xhi ys ylo yhi u < splitScore xs xlo xhi ys ylo yhi t) := by
  have hlen : (range ys ylo yhi).length = yhi - ylo := range_length ys ylo yhi hy2
  obtain ⟨hb1, hb2⟩ := LcsLens_spec (range xs xlo (xlo + (xhi - xlo) / 2)) (range ys ylo yhi) []
  obtain ⟨he1, he2⟩ := LcsLens_spec (range xs (xlo + (xhi - xlo) / 2) xhi).reverse
    (range ys ylo yhi).reverse []
  rw [hlen] at hb1 hb2
  rw [List.length_reverse, hlen] at he1 he2
  -- the two rows, entry by entry
  have hB : ∀ u, u ≤ yhi - ylo →
      (LcsLens (range xs xlo (xlo + (xhi - xlo) / 2)) (range ys ylo yhi) []).getD u 0 +
        (LcsLens (range xs (xlo + (xhi - xlo) / 2) xhi).reverse
          (range ys ylo yhi).reverse []).reverse.getD u 0 =
        (splitScore xs xlo xhi ys ylo yhi u : Int) := by
    intro u hu
    rw [hb2 u hu, getD_reverse_Lengths _ _ (by omega), he1, he2 _ (by omega)]
    have e1 : (range ys ylo yhi).reverse.take (yhi - ylo + 1 - 1 - u) =
        ((range ys ylo yhi).drop u).reverse := by
      rw [List.take_reverse, hlen]
      congr 2
      omega
    rw [e1, lcsLength_reverse, range_take ys ylo yhi u (by omega), range_drop]
    simp [splitScore]
  have key := splitLoop_spec yhi
    (LcsLens (range xs xlo (xlo + (xhi - xlo) / 2)) (range ys ylo yhi) [])
    (LcsLens (range xs (xlo + (xhi - xlo) / 2) xhi).reverse (range ys ylo yhi).reverse []).reverse
    (-1) ylo ylo (by rw [List.length_reverse, hb1, he1]) (by rw [hb1]; omega)
  rw [hb1] at key
  rcases key with ⟨_, h2⟩ | ⟨t, ht, h1, _, h3, h4⟩
  · exfalso
    have := h2 0 (by omega)
    rw [hB 0 (by omega)] at this
    omega
  · refine ⟨t, by omega, h1, ?_, ?_⟩
    · intro u hu
      have := h3 u (by omega)
      rw [hB u hu, hB t (by omega)] at this
      exact_mod_cast this
    · intro u hu
      have := h4 u hu
      rw [hB u (by omega), hB t (by omega)] at this
      exact_mod_cast this

/-- At the split point the two halves add up to the LCS length of the whole. -/
theorem splitPoint_optimal (xs : List Nat) (xlo xhi : Nat) (ys : List Nat) (ylo yhi : Nat)
    (hx : xlo ≤ xhi) (hy1 : ylo ≤ yhi) (hy2 : yhi ≤ ys.length) :
    ylo ≤ splitPoint xs xlo xhi ys ylo yhi ∧ splitPoint xs xlo xhi ys ylo yhi ≤ yhi ∧
    lcsLength (range xs xlo (xlo + (xhi - xlo) / 2))
        (range ys ylo (splitPoint xs xlo xhi ys ylo yhi)) +
      lcsLength (range xs (xlo + (xhi - xlo) / 2) xhi)
        (range ys (splitPoint xs xlo xhi ys ylo yhi) yhi) =
      lcsLength (range xs xlo xhi) (range ys ylo yhi) := by
  obtain ⟨t, ht, hsp, hmax, _⟩ := splitPoint_spec xs xlo xhi ys ylo yhi hy1 hy2
  have hlen : (range ys ylo yhi).length = yhi - ylo := range_length ys ylo yhi hy2
  refine ⟨by omega, by omega, ?_⟩
  rw [hsp]
  have hcat := range_append xs xlo (xlo + (xhi - xlo) / 2) xhi (by omega) (by omega)
  have score : ∀ u, u ≤ yhi - ylo → splitScore xs xlo xhi ys ylo yhi u =
      lcsLength (range xs xlo (xlo + (xhi - xlo) / 2)) ((range ys ylo yhi).take u) +
      lcsLength (range xs (xlo + (xhi - xlo) / 2) xhi) ((range ys ylo yhi).drop u) := by
    intro u hu
    rw [range_take ys ylo yhi u (by omega), range_drop]
    rfl
  apply le_antisymm
  · have := lcsLength_take_drop_le (range xs xlo (xlo + (xhi - xlo) / 2))
      (range xs (xlo + (xhi - xlo) / 2) xhi) (range ys ylo yhi) t
    rw [hcat, ← score t ht] at this
    exact this
  · obtain ⟨k, hk, hsplit⟩ := lcsLength_append_split (range xs xlo (xlo + (xhi - xlo) / 2))
      (range xs (xlo + (xhi - xlo) / 2) xhi) (range ys ylo yhi)
    rw [hlen] at hk
    rw [hcat, ← score k hk] at hsplit
    rw [hsplit]
    exact hmax k hk

/-! ## `std::find` -/

theorem findAux_spec (ys : List Nat) (v : Nat) :
    ∀ (n pos : Nat), pos ≤ findAux ys v n pos ∧ findAux ys v n pos ≤ pos + n ∧
      (∀ j, pos ≤ j → j < findAux ys v n pos → ys.getD j 0 ≠ v) ∧
      (findAux ys v n pos < pos + n → ys.getD (findAux ys v n pos) 0 = v) := by
  intro n
  induction n with
  | zero =>
    intro pos
    simp only [findAux]
    exact ⟨le_refl _, le_refl _, fun j h1 h2 => absurd h2 (by omega), fun h => absurd h (by omega)⟩
  | succ n ih =>
    intro pos
    simp only [findAux]
    by_cases hv : ys.getD pos 0 = v
    · rw [if_pos hv]
      exact ⟨le_refl _, by omega, fun j h1 h2 => absurd h2 (by omega), fun _ => hv⟩
    · rw [if_neg hv]
      obtain ⟨a, b, c, d⟩ := ih (pos + 1)
      refine ⟨by omega, by omega, ?_, fun h => d (by omega)⟩
      intro j h1 h2
      rcases Nat.eq_or_lt_of_le h1 with h | h
      · rw [← h]; exact hv
      · exact c j h h2

theorem find_spec (ys : List Nat) (ylo yhi v : Nat) (h : ylo ≤ yhi) :
    ylo ≤ find ys ylo yhi v ∧ find ys ylo yhi v ≤ yhi ∧
      (∀ j, ylo ≤ j → j < find ys ylo yhi v → ys.getD j 0 ≠ v) ∧
      (find ys ylo yhi v ≠ yhi → ys.getD (find ys ylo yhi v) 0 = v) := by
  obtain ⟨a, b, c, d⟩ := findAux_spec ys v (yhi - ylo) ylo
  unfold find
  refine ⟨a, by omega, c, fun hne => d (by omega)⟩

/-! ## The Hirschberg recursion -/

theorem emit_nil (out : Out) : emit [] out = out := by
  simp [emit]

theorem emit_append (ps qs : List (Nat × Nat)) (out : Out) :
    emit qs (emit ps out) = emit (ps ++ qs) out := by
  simp [emit]

theorem emit_single (i j : Nat) (out : Out) :
    (out.1 ++ [i], out.2 ++ [j]) = emit [(i, j)] out := by
  simp [emit]

theorem InBox_nil (xs ys : List Nat) (xlo xhi ylo yhi : Nat) :
    InBox xs ys xlo xhi ylo yhi [] :=
  ⟨List.Pairwise.nil, fun p hp => absurd hp (List.not_mem_nil p)⟩

theorem InBox_append {xs ys : List Nat} {xlo xmid xhi ylo ymid yhi : Nat}
    {ps qs : List (Nat × Nat)} (hx1 : xlo ≤ xmid) (hx2 : xmid ≤ xhi) (hy1 : ylo ≤ ymid)
    (hy2 : ymid ≤ yhi) (hp : InBox xs ys xlo xmid ylo ymid ps)
    (hq : InBox xs ys xmid xhi ymid yhi qs) : InBox xs ys xlo xhi ylo yhi (ps ++ qs) := by
  refine ⟨List.pairwise_append.mpr ⟨hp.1, hq.1, ?_⟩, ?_⟩
  · intro a ha b hb
    have := hp.2 a ha
    have := hq.2 b hb
    exact ⟨by omega, by omega⟩
  · intro p hm
    rcases List.mem_append.mp hm with h | h
    · have := hp.2 p h
      exact ⟨this.1, by omega, this.2.2.1, by omega, this.2.2.2.2⟩
    · have := hq.2 p h
      exact ⟨by omega, this.2.1, by omega, this.2.2.2.1, this.2.2.2.2⟩

/-- The recursion writes an increasing list of matches inside its box whose
    length is the LCS length of the two ranges. -/
theorem ComputeLcsRec_spec (xs ys : List Nat) :
    ∀ (fuel xlo xhi ylo yhi : Nat) (h : xhi - xlo ≤ fuel) (out : Out),
      xlo ≤ xhi → xhi ≤ xs.length → ylo ≤ yhi → yhi ≤ ys.length →
      ∃ ps, ComputeLcsRec xs ys fuel xlo xhi ylo yhi h out = emit ps out ∧
        InBox xs ys xlo xhi ylo yhi ps ∧
        ps.length = lcsLength (range xs xlo xhi) (range ys ylo yhi) := by
  intro fuel
  induction fuel with
  | zero =>
    intro xlo xhi ylo yhi h out _ _ _ _
    refine ⟨[], by simp [ComputeLcsRec, emit_nil], InBox_nil _ _ _ _ _ _, ?_⟩
    rw [range_empty xs xlo xhi (by omega)]
    rfl
  | succ fuel ih =>
    intro xlo xhi ylo yhi h out hx1 hx2 hy1 hy2
    unfold ComputeLcsRec
    by_cases h0 : xhi - xlo = 0
    · rw [dif_pos h0]
      refine ⟨[], by simp [emit_nil], InBox_nil _ _ _ _ _ _, ?_⟩
      rw [range_empty xs xlo xhi h0]
      rfl
    · rw [dif_neg h0]
      by_cases h1 : xhi - xlo = 1
      · rw [dif_pos h1]
        obtain ⟨f1, f2, f3, f4⟩ := find_spec ys ylo yhi (xs.getD xlo 0) hy1
        rw [range_single xs xlo xhi h1 hx2, lcsLength_singleton]
        by_cases hpos : find ys ylo yhi (xs.getD xlo 0) ≠ yhi
        · simp only [hpos, ne_eq, not_false_eq_true, if_true]
          refine ⟨[(xlo, find ys ylo yhi (xs.getD xlo 0))], emit_single _ _ _, ?_, ?_⟩
          · refine ⟨List.pairwise_singleton _ _, ?_⟩
            intro p hp
            rw [List.mem_singleton] at hp
            subst hp
            exact ⟨le_refl _, by omega, f1, by omega, (f4 hpos).symm⟩
          · have hmem : xs.getD xlo 0 ∈ range ys ylo yhi :=
              (mem_range_iff ys ylo yhi _ hy2).mpr ⟨_, f1, by omega, f4 hpos⟩
            rw [if_pos hmem]; rfl
        · simp only [hpos, if_false]
          refine ⟨[], (emit_nil out).symm, InBox_nil _ _ _ _ _ _, ?_⟩
          have hnm : xs.getD xlo 0 ∉ range ys ylo yhi := by
            intro hm
            obtain ⟨j, j1, j2, j3⟩ := (mem_range_iff ys ylo yhi _ hy2).mp hm
            have heq : find ys ylo yhi (xs.getD xlo 0) = yhi := not_not.mp hpos
            exact f3 j j1 (by omega) j3
          rw [if_neg hnm]; rfl
      · rw [dif_neg h1]
        obtain ⟨s1, s2, s3⟩ := splitPoint_optimal xs xlo xhi ys ylo yhi hx1 hy1 hy2
        simp only []
        obtain ⟨ps, e1, b1, l1⟩ := ih xlo (xlo + (xhi - xlo) / 2) ylo
          (splitPoint xs xlo xhi ys ylo yhi) (by omega) out (by omega) (by omega) s1
          (by omega)
        obtain ⟨qs, e2, b2, l2⟩ := ih (xlo + (xhi - xlo) / 2) xhi
          (splitPoint xs xlo xhi ys ylo yhi) yhi (by omega) (emit ps out) (by omega) hx2 s2 hy2
        refine ⟨ps ++ qs, ?_, InBox_append (by omega) (by omega) s1 s2 b1 b2, ?_⟩
        · rw [e1, e2, emit_append]
        · rw [List.length_append, l1, l2, s3]

/-! ## The loops of the entry function -/

theorem diagFrom_length (r1 r2 m : Nat) : (diagFrom r1 r2 m).length = m := by
  induction m generalizing r1 r2 with
  | zero => rfl
  | succ m ih => simp [diagFrom, ih]

theorem mem_diagFrom {r1 r2 m : Nat} {p : Nat × Nat} (h : p ∈ diagFrom r1 r2 m) :
    ∃ t, t < m ∧ p = (r1 + t, r2 + t) := by
  induction m generalizing r1 r2 with
  | zero => simp [diagFrom] at h
  | succ m ih =>
    simp only [diagFrom, List.mem_cons] at h
    rcases h with h | h
    · exact ⟨0, by omega, by simpa using h⟩
    · obtain ⟨t, ht, hp⟩ := ih h
      exact ⟨t + 1, by omega, by rw [hp]; congr 1 <;> omega⟩

theorem diagFrom_pairwise (r1 r2 m : Nat) : (diagFrom r1 r2 m).Pairwise PairLt := by
  induction m generalizing r1 r2 with
  | zero => exact List.Pairwise.nil
  | succ m ih =>
    simp only [diagFrom]
    refine List.Pairwise.cons ?_ (ih _ _)
    intro p hp
    obtain ⟨t, _, rfl⟩ := mem_diagFrom hp
    exact ⟨by show r1 < r1 + 1 + t; omega, by show r2 < r2 + 1 + t; omega⟩

theorem diagFrom_eq_map (s m : Nat) :
    diagFrom s s m = (List.range' s m).map (fun i => (i, i)) := by
  induction m generalizing s with
  | zero => rfl
  | succ m ih => simp [diagFrom, ih, List.range'_succ]

theorem InBox_diagFrom (xs ys : List Nat) (r1 r2 m : Nat)
    (h : ∀ t, t < m → xs.getD (r1 + t) 0 = ys.getD (r2 + t) 0) :
    InBox xs ys r1 (r1 + m) r2 (r2 + m) (diagFrom r1 r2 m) := by
  refine ⟨diagFrom_pairwise _ _ _, ?_⟩
  intro p hp
  obtain ⟨t, ht, rfl⟩ := mem_diagFrom hp
  exact ⟨by show r1 ≤ r1 + t; omega, by show r1 + t < r1 + m; omega,
    by show r2 ≤ r2 + t; omega, by show r2 + t < r2 + m; omega, h t ht⟩

/-- The prefix loop emits the diagonal over the longest common prefix of the
    two ranges and stops at its end. -/
theorem prefixLoop_spec :
    ∀ (xr yr : List Nat) (s : Nat) (out : Out),
      ∃ c, c ≤ xr.length ∧ c ≤ yr.length ∧
        prefixLoop xr yr s out = (s + c, emit (diagFrom s s c) out) ∧
        (∀ t, t < c → xr.getD t 0 = yr.getD t 0) ∧
        (c = xr.length ∨ c = yr.length ∨ xr.getD c 0 ≠ yr.getD c 0) := by
  intro xr
  induction xr with
  | nil =>
    intro yr s out
    exact ⟨0, by simp, by simp, by simp [prefixLoop, diagFrom, emit_nil],
      fun t ht => absurd ht (by omega), Or.inl rfl⟩
  | cons x xr ih =>
    intro yr s out
    cases yr with
    | nil =>
      exact ⟨0, by simp, by simp, by simp [prefixLoop, diagFrom, emit_nil],
        fun t ht => absurd ht (by omega), Or.inr (Or.inl rfl)⟩
    | cons y yr =>
      by_cases hxy : x = y
      · obtain ⟨c, c1, c2, c3, c4, c5⟩ := ih yr (s + 1) (out.1 ++ [s], out.2 ++ [s])
        refine ⟨c + 1, by simpa using c1, by simpa using c2, ?_, ?_, ?_⟩
        · simp only [prefixLoop, hxy, if_true]
          rw [c3, emit_single, emit_append]
          simp only [diagFrom, List.singleton_append]
          congr 1
          omega
        · intro t ht
          cases t with
          | zero => simpa using hxy
          | succ t => simpa using c4 t (by omega)
        · simpa using c5
      · exact ⟨0, by simp, by simp, by simp [prefixLoop, hxy, diagFrom, emit_nil],
          fun t ht => absurd ht (by omega), Or.inr (Or.inr (by simpa using hxy))⟩

/-- The suffix loop steps back over `m` equal pairs, never past a start, and
    stops at a start or at the first unequal pair. -/
theorem suffixLoop_spec (xs ys : List Nat) :
    ∀ (d1 d2 r1 r2 : Nat),
      ∃ m, m ≤ d1 ∧ m ≤ d2 ∧ suffixLoop xs ys d1 d2 r1 r2 = (r1 - m, r2 - m) ∧
        (∀ t, t < m → xs.getD (r1 - t) 0 = ys.getD (r2 - t) 0) ∧
        (m = d1 ∨ m = d2 ∨ xs.getD (r1 - m) 0 ≠ ys.getD (r2 - m) 0) := by
  intro d1
  induction d1 with
  | zero =>
    intro d2 r1 r2
    exact ⟨0, le_refl _, Nat.zero_le _, by simp [suffixLoop],
      fun t ht => absurd ht (by omega), Or.inl rfl⟩
  | succ d1 ih =>
    intro d2 r1 r2
    cases d2 with
    | zero =>
      exact ⟨0, Nat.zero_le _, le_refl _, by simp [suffixLoop],
        fun t ht => absurd ht (by omega), Or.inr (Or.inl rfl)⟩
    | succ d2 =>
      by_cases heq : xs.getD r1 0 = ys.getD r2 0
      · obtain ⟨m, m1, m2, m3, m4, m5⟩ := ih d2 (r1 - 1) (r2 - 1)
        refine ⟨m + 1, by omega, by omega, ?_, ?_, ?_⟩
        · simp only [suffixLoop, heq, if_true]
          rw [m3, Nat.sub_sub, Nat.sub_sub, Nat.add_comm 1 m]
        · intro t ht
          cases t with
          | zero => simpa using heq
          | succ t =>
            have := m4 t (by omega)
            rw [Nat.sub_sub, Nat.sub_sub, Nat.add_comm 1 t] at this
            exact this
        · rcases m5 with h | h | h
          · exact Or.inl (by omega)
          · exact Or.inr (Or.inl (by omega))
          · refine Or.inr (Or.inr ?_)
            rw [Nat.sub_sub, Nat.sub_sub, Nat.add_comm 1 m] at h
            exact h
      · exact ⟨0, Nat.zero_le _, Nat.zero_le _, by simp only [suffixLoop, heq, if_false]; rfl,
          fun t ht => absurd ht (by omega), Or.inr (Or.inr (by simpa using heq))⟩

theorem emitSuffix_spec :
    ∀ (m r1 r2 : Nat) (out : Out), emitSuffix m m r1 r2 out = emit (diagFrom r1 r2 m) out := by
  intro m
  induction m with
  | zero => intro r1 r2 out; simp [emitSuffix, diagFrom, emit_nil]
  | succ m ih =>
    intro r1 r2 out
    simp only [emitSuffix, diagFrom]
    rw [ih, emit_single, emit_append]
    rfl

/-! ## The entry function -/

theorem range_full (xs : List Nat) : range xs 0 xs.length = xs := by
  simp [range]

theorem range_getD (xs : List Nat) (lo hi t : Nat) (hh : hi ≤ xs.length) (ht : lo + t < hi) :
    (range xs lo hi).getD t 0 = xs.getD (lo + t) 0 := by
  have h1 : t < (range xs lo hi).length := by rw [range_length xs lo hi hh]; omega
  rw [List.getD_eq_getElem _ _ h1, List.getD_eq_getElem _ _ (by omega)]
  simp [range]

/-- Two ranges of the same length that agree position by position are the
    same list. -/
theorem range_ext (xs ys : List Nat) (lo1 hi1 lo2 hi2 n : Nat) (h1 : hi1 ≤ xs.length)
    (h2 : hi2 ≤ ys.length) (e1 : lo1 + n = hi1) (e2 : lo2 + n = hi2)
    (h : ∀ t, t < n → xs.getD (lo1 + t) 0 = ys.getD (lo2 + t) 0) :
    range xs lo1 hi1 = range ys lo2 hi2 := by
  have l1 : (range xs lo1 hi1).length = n := by rw [range_length xs lo1 hi1 h1]; omega
  have l2 : (range ys lo2 hi2).length = n := by rw [range_length ys lo2 hi2 h2]; omega
  apply List.ext_getElem (by rw [l1, l2])
  intro t ht1 ht2
  have a := range_getD xs lo1 hi1 t h1 (by omega)
  have b := range_getD ys lo2 hi2 t h2 (by omega)
  rw [List.getD_eq_getElem _ _ ht1] at a
  rw [List.getD_eq_getElem _ _ ht2] at b
  rw [a, b]
  exact h t (by omega)

/-- Stripping `c` equal leading and `m` equal trailing elements takes `c + m`
    off the LCS length. -/
theorem lcsLength_strip (xs ys : List Nat) (c m : Nat) (hx : c + m ≤ xs.length)
    (hy : c + m ≤ ys.length) (hp : ∀ t, t < c → xs.getD t 0 = ys.getD t 0)
    (hs : ∀ t, t < m →
      xs.getD (xs.length - m + t) 0 = ys.getD (ys.length - m + t) 0) :
    lcsLength xs ys =
      c + lcsLength (range xs c (xs.length - m)) (range ys c (ys.length - m)) + m := by
  have ex : xs = range xs 0 c ++ (range xs c (xs.length - m) ++
      range xs (xs.length - m) xs.length) := by
    rw [range_append xs c (xs.length - m) xs.length (by omega) (by omega),
      range_append xs 0 c xs.length (by omega) (by omega), range_full]
  have ey : ys = range ys 0 c ++ (range ys c (ys.length - m) ++
      range ys (ys.length - m) ys.length) := by
    rw [range_append ys c (ys.length - m) ys.length (by omega) (by omega),
      range_append ys 0 c ys.length (by omega) (by omega), range_full]
  have pe : range xs 0 c = range ys 0 c :=
    range_ext xs ys 0 c 0 c c (by omega) (by omega) (by omega) (by omega)
      (by intro t ht; simpa using hp t ht)
  have se : range xs (xs.length - m) xs.length = range ys (ys.length - m) ys.length :=
    range_ext xs ys _ _ _ _ m (le_refl _) (le_refl _) (by omega) (by omega) hs
  have lp : (range ys 0 c).length = c := by rw [range_length ys 0 c (by omega)]; omega
  have ls : (range ys (ys.length - m) ys.length).length = m := by
    rw [range_length ys _ _ (le_refl _)]; omega
  conv_lhs => rw [ex, ey, pe, se]
  rw [lcsLength_append_left, lcsLength_append_right, lp, ls]
  omega

/-- Shape of the output of the entry function: the diagonal over the longest
    common prefix, then the matches of the Hirschberg recursion on the core,
    then the diagonal over the stripped common suffix; the suffix loop stops
    at a start or at the first unequal pair. -/
theorem ComputeLcsCore_shape_stop (xs ys : List Nat) (out : Out) :
    ∃ (c m : Nat) (core : List (Nat × Nat)),
      c + m ≤ xs.length ∧ c + m ≤ ys.length ∧
      ComputeLcsCore xs ys out =
        emit (diagFrom 0 0 c ++ core ++ diagFrom (xs.length - m) (ys.length - m) m) out ∧
      (∀ t, t < c → xs.getD t 0 = ys.getD t 0) ∧
      (c = xs.length ∨ c = ys.length ∨ xs.getD c 0 ≠ ys.getD c 0) ∧
      (∀ t, t < m → xs.getD (xs.length - m + t) 0 = ys.getD (ys.length - m + t) 0) ∧
      InBox xs ys c (xs.length - m) c (ys.length - m) core ∧
      core.length = lcsLength (range xs c (xs.length - m)) (range ys c (ys.length - m)) ∧
      (c < xs.length → c < ys.length →
        m ≤ xs.length - 1 - c ∧ m ≤ ys.length - 1 - c ∧
        (m = xs.length - 1 - c ∨ m = ys.length - 1 - c ∨
          xs.getD (xs.length - 1 - m) 0 ≠ ys.getD (ys.length - 1 - m) 0)) := by
  unfold ComputeLcsCore
  by_cases hemp : xs.length = 0 ∨ ys.length = 0
  · rw [if_pos hemp]
    refine ⟨0, 0, [], by omega, by omega, by simp [diagFrom, emit_nil],
      fun t ht => absurd ht (by omega), ?_, fun t ht => absurd ht (by omega),
      InBox_nil _ _ _ _ _ _, ?_, fun _ _ => absurd hemp (by omega)⟩
    · rcases hemp with h | h
      · exact Or.inl h.symm
      · exact Or.inr (Or.inl h.symm)
    · rcases hemp with h | h
      · rw [range_empty xs 0 (xs.length - 0) (by omega)]; rfl
      · rw [range_empty ys 0 (ys.length - 0) (by omega), lcsLength_nil_right]; rfl
  · rw [if_neg hemp]
    obtain ⟨c, c1, c2, c3, c4, c5⟩ := prefixLoop_spec xs ys 0 out
    simp only [c3, Nat.zero_add]
    by_cases hex : c = xs.length ∨ c = ys.length
    · rw [if_pos hex]
      refine ⟨c, 0, [], by omega, by omega, by simp [diagFrom], c4, c5,
        fun t ht => absurd ht (by omega), InBox_nil _ _ _ _ _ _, ?_,
        fun _ _ => absurd hex (by omega)⟩
      rcases hex with h | h
      · rw [range_empty xs c (xs.length - 0) (by omega)]; rfl
      · rw [range_empty ys c (ys.length - 0) (by omega), lcsLength_nil_right]; rfl
    · rw [if_neg hex]
      obtain ⟨m, m1, m2, m3, m4, m5⟩ := suffixLoop_spec xs ys (xs.length - 1 - c)
        (ys.length - 1 - c) (xs.length - 1) (ys.length - 1)
      have hc1 : c < xs.length := by omega
      have hc2 : c < ys.length := by omega
      have r1 : xs.length - 1 - m + 1 = xs.length - m := by omega
      have r2 : ys.length - 1 - m + 1 = ys.length - m := by omega
      simp only [m3, r1, r2]
      obtain ⟨core, k1, k2, k3⟩ := ComputeLcsRec_spec xs ys (xs.length - m - c) c
        (xs.length - m) c (ys.length - m) (le_refl _) (emit (diagFrom 0 0 c) out)
        (by omega) (by omega) (by omega) (by omega)
      have n1 : xs.length - (xs.length - m) = m := by omega
      have n2 : ys.length - (ys.length - m) = m := by omega
      refine ⟨c, m, core, by omega, by omega, ?_, c4, c5, ?_, k2, k3, fun _ _ => ⟨m1, m2, m5⟩⟩
      · rw [k1, n1, n2, emitSuffix_spec, emit_append, emit_append, List.append_assoc]
      · intro t ht
        have := m4 (m - 1 - t) (by omega)
        have i1 : xs.length - 1 - (m - 1 - t) = xs.length - m + t := by omega
        have i2 : ys.length - 1 - (m - 1 - t) = ys.length - m + t := by omega
        rw [i1, i2] at this
        exact this

/-- Shape of the output of the entry function: the diagonal over the longest
    common prefix, then the matches of the Hirschberg recursion on the core,
    then the diagonal over the stripped common suffix. -/
theorem ComputeLcsCore_shape (xs ys : List Nat) (out : Out) :
    ∃ (c m : Nat) (core : List (Nat × Nat)),
      c + m ≤ xs.length ∧ c + m ≤ ys.length ∧
      ComputeLcsCore xs ys out =
        emit (diagFrom 0 0 c ++ core ++ diagFrom (xs.length - m) (ys.length - m) m) out ∧
      (∀ t, t < c → xs.getD t 0 = ys.getD t 0) ∧
      (c = xs.length ∨ c = ys.length ∨ xs.getD c 0 ≠ ys.getD c 0) ∧
      (∀ t, t < m → xs.getD (xs.length - m + t) 0 = ys.getD (ys.length - m + t) 0) ∧
      InBox xs ys c (xs.length - m) c (ys.length - m) core ∧
      core.length = lcsLength (range xs c (xs.length - m)) (range ys c (ys.length - m)) := by
  obtain ⟨c, m, core, h1, h2, h3, h4, h5, h6, h7, h8, _⟩ := ComputeLcsCore_shape_stop xs ys out
  exact ⟨c, m, core, h1, h2, h3, h4, h5, h6, h7, h8⟩

/-- The entry function writes an increasing list of matches of equal elements
    whose length is the LCS length of the two sequences. -/
theorem ComputeLcsCore_spec (xs ys : List Nat) (out : Out) :
    ∃ ps, ComputeLcsCore xs ys out = emit ps out ∧
      InBox xs ys 0 xs.length 0 ys.length ps ∧ ps.length = lcsLength xs ys := by
  obtain ⟨c, m, core, h1, h2, h3, h4, _, h6, h7, h8⟩ := ComputeLcsCore_shape xs ys out
  refine ⟨_, h3, ?_, ?_⟩
  · have a := InBox_diagFrom xs ys 0 0 c (by intro t ht; simpa using h4 t ht)
    have b := InBox_diagFrom xs ys (xs.length - m) (ys.length - m) m h6
    have e1 : xs.length - m + m = xs.length := by omega
    have e2 : ys.length - m + m = ys.length := by omega
    rw [e1, e2] at b
    rw [Nat.zero_add] at a
    exact InBox_append (by omega) (by omega) (by omega) (by omega)
      (InBox_append (Nat.zero_le _) (by omega) (Nat.zero_le _) (by omega) a h7) b
  · rw [List.length_append, List.length_append, diagFrom_length, diagFrom_length, h8,
      lcsLength_strip xs ys c m h1 h2 h4 h6]

theorem zip_emit_nil (ps : List (Nat × Nat)) :
    List.zip (emit ps ([], [])).1 (emit ps ([], [])).2 = ps := by
  simp only [emit, List.nil_append]
  induction ps with
  | nil => rfl
  | cons p ps ih => simp [ih]

/-- The public overload returns exactly the matches the entry function wrote:
    an increasing list of matches of equal elements, of LCS length. -/
theorem ComputeLcs_spec (xs ys : List Nat) :
    InBox xs ys 0 xs.length 0 ys.length (ComputeLcs xs ys) ∧
      (ComputeLcs xs ys).length = lcsLength xs ys := by
  obtain ⟨ps, h1, h2, h3⟩ := ComputeLcsCore_spec xs ys ([], [])
  have : ComputeLcs xs ys = ps := by
    unfold ComputeLcs
    simp only [h1]
    exact zip_emit_nil ps
  rw [this]
  exact ⟨h2, h3⟩

/-! ## Claims about `ComputeLcs` -/

/-- C1: for all prime sequences `X` and `Y`, empty ones included, the number
    of index pairs returned by `ComputeLcs` is the length of a longest common
    subsequence of `X` and `Y` as given by the textbook recurrence. -/
theorem ComputeLcs_length_eq_lcsLength (X Y : List Nat) :
    (ComputeLcs X Y).length = lcsLength X Y :=
  (ComputeLcs_spec X Y).2

/-- C2: for all prime sequences `X` and `Y`, the index pairs returned by
    `ComputeLcs` increase strictly in both coordinates from one pair to the
    next; hence any earlier pair is strictly below any later pair in both
    coordinates and no index of either side occurs twice. -/
theorem ComputeLcs_strictly_increasing (X Y : List Nat) :
    List.Chain' (fun a b : Nat × Nat => a.1 < b.1 ∧ a.2 < b.2) (ComputeLcs X Y) ∧
    List.Pairwise (fun a b : Nat × Nat => a.1 < b.1 ∧ a.2 < b.2) (ComputeLcs X Y) ∧
    ((ComputeLcs X Y).map Prod.fst).Nodup ∧ ((ComputeLcs X Y).map Prod.snd).Nodup := by
  have hp : List.Pairwise (fun a b : Nat × Nat => a.1 < b.1 ∧ a.2 < b.2) (ComputeLcs X Y) :=
    (ComputeLcs_spec X Y).1.1
  refine ⟨List.Pairwise.chain' hp, hp, ?_, ?_⟩
  · rw [List.Nodup, List.pairwise_map]
    exact hp.imp (fun h => Nat.ne_of_lt h.1)
  · rw [List.Nodup, List.pairwise_map]
    exact hp.imp (fun h => Nat.ne_of_lt h.2)

/-- C3: for all instruction sequences, every match `(i, j)` produced by
    `ComputeLcs` points at two existing instructions with equal primes. -/
theorem ComputeLcs_matches_equal_primes (instructions1 instructions2 : List Instruction) :
    ∀ p ∈ ComputeLcsInstructions instructions1 instructions2,
      ∃ (h1 : p.1 < instructions1.length) (h2 : p.2 < instructions2.length),
        instructions1[p.1].prime_ = instructions2[p.2].prime_ := by
  intro p hp
  have hb := (ComputeLcs_spec (instructions1.map Instruction.GetPrime)
    (instructions2.map Instruction.GetPrime)).1.2 p hp
  obtain ⟨_, h1, _, h2, h3⟩ := hb
  rw [List.length_map] at h1 h2
  refine ⟨h1, h2, ?_⟩
  rw [List.getD_eq_getElem _ _ (by simpa using h1),
    List.getD_eq_getElem _ _ (by simpa using h2)] at h3
  simpa [Instruction.GetPrime] using h3

/-- C4: for every prime sequence `X` of length `n`, `ComputeLcs(X, X)` is
    exactly the diagonal `(0,0), (1,1), ..., (n-1,n-1)`, in this order. -/
theorem ComputeLcs_self_diagonal (X : List Nat) :
    ComputeLcs X X = (List.range X.length).map (fun i => (i, i)) := by
  obtain ⟨c, m, core, h1, _, h3, _, h5, _, h7, _⟩ := ComputeLcsCore_shape X X ([], [])
  have hc : c = X.length := by
    rcases h5 with h | h | h
    · exact h
    · exact h
    · exact absurd rfl h
  have hm : m = 0 := by omega
  have hcore : core = [] := by
    apply List.eq_nil_iff_forall_not_mem.mpr
    intro p hp
    have := h7.2 p hp
    omega
  unfold ComputeLcs
  simp only [h3]
  rw [zip_emit_nil, hc, hm, hcore]
  simp [diagFrom, diagFrom_eq_map, List.range_eq_range']

/-- C5: for all prime sequences `X` and `Y` without a common value,
    `ComputeLcs` returns no pairs. -/
theorem ComputeLcs_disjoint (X Y : List Nat) (h : ∀ x ∈ X, ∀ y ∈ Y, x ≠ y) :
    ComputeLcs X Y = [] := by
  apply List.eq_nil_iff_forall_not_mem.mpr
  intro p hp
  obtain ⟨_, h1, _, h2, h3⟩ := (ComputeLcs_spec X Y).1.2 p hp
  rw [List.getD_eq_getElem _ _ h1, List.getD_eq_getElem _ _ h2] at h3
  exact h _ (List.getElem_mem h1) _ (List.getElem_mem h2) h3

/-- Witness for C5 on `X = [1, 2, 3]`, `Y = [4, 5]`. -/
theorem ComputeLcs_disjoint_witness :
    (∀ x ∈ [1, 2, 3], ∀ y ∈ [4, 5], x ≠ y) ∧ ComputeLcs [1, 2, 3] [4, 5] = [] :=
  ⟨by decide, ComputeLcs_disjoint [1, 2, 3] [4, 5] (by decide)⟩

/-- Witness for C3: the sequences with primes `[2, 3, 5]` and `[3, 7, 5]`
    yield the match `(1, 0)`, and the primes at index 1 and index 0 agree. -/
theorem ComputeLcs_matches_equal_primes_witness :
    ((1, 0) : Nat × Nat) ∈ ComputeLcsInstructions [⟨100, 2⟩, ⟨101, 3⟩, ⟨102, 5⟩]
        [⟨200, 3⟩, ⟨204, 7⟩, ⟨208, 5⟩] ∧
      ∃ (h1 : 1 < ([⟨100, 2⟩, ⟨101, 3⟩, ⟨102, 5⟩] : List Instruction).length)
        (h2 : 0 < ([⟨200, 3⟩, ⟨204, 7⟩, ⟨208, 5⟩] : List Instruction).length),
        ([⟨100, 2⟩, ⟨101, 3⟩, ⟨102, 5⟩] : List Instruction)[1].prime_ =
          ([⟨200, 3⟩, ⟨204, 7⟩, ⟨208, 5⟩] : List Instruction)[0].prime_ :=
  ⟨by decide, ComputeLcs_matches_equal_primes _ _ (1, 0) (by decide)⟩

/-! ## Multimap facts -/

theorem MultiMap.count_eq (m : MultiMap) (k : Nat) :
    m.count k = (m.equal_range k).length := by
  simp [MultiMap.count, MultiMap.equal_range]

theorem MultiMap.find_eq (m : MultiMap) (k : Nat) :
    (m.find k).map Prod.snd = (m.equal_range k).head? := by
  unfold MultiMap.find MultiMap.equal_range
  induction m with
  | nil => rfl
  | cons e m ih =>
    by_cases h : e.1 == k
    · simp [List.find?_cons, List.filter_cons, h]
    · simp only [List.find?_cons, List.filter_cons, h]
      exact ih

theorem MultiMap.equal_range_without (m : MultiMap) (erased : List Nat) (k : Nat)
    (h : k ∉ erased) : (m.without erased).equal_range k = m.equal_range k := by
  unfold MultiMap.without MultiMap.equal_range
  rw [List.filter_filter]
  congr 1
  apply List.filter_congr
  intro e _
  by_cases hk : e.1 == k
  · have : e.1 = k := by simpa using hk
    simp [this, h]
  · simp [hk]

theorem MultiMap.without_nil (m : MultiMap) : m.without [] = m := by
  simp [MultiMap.without]

theorem MultiMap.erase_without (m : MultiMap) (erased : List Nat) (k : Nat) :
    (m.without erased).erase k = m.without (k :: erased) := by
  unfold MultiMap.without MultiMap.erase
  rw [List.filter_filter]
  apply List.filter_congr
  intro e _
  by_cases hk : e.1 = k
  · simp [hk]
  · simp [hk]

theorem MultiMap.Sorted.without {m : MultiMap} (h : m.Sorted) (erased : List Nat) :
    (m.without erased).Sorted :=
  List.Pairwise.filter _ h

/-- In a sorted map whose entry at the iterator has key `k`, erasing `k` and
    moving to `upper_bound(k)` leaves exactly the later entries with another key. -/
theorem MultiMap.drop_upper_bound_erase (m : MultiMap) (hs : m.Sorted) (i k v : Nat)
    (rest : List (Nat × Nat)) (hd : m.drop i = (k, v) :: rest) :
    (m.erase k).drop ((m.erase k).upper_bound k) = rest.filter (fun e => e.1 != k) := by
  have hm : m = m.take i ++ (k, v) :: rest := by
    rw [← hd, List.take_append_drop]
  have hs' : (m.take i ++ (k, v) :: rest).Pairwise (fun a b => a.1 ≤ b.1) := by
    rw [← hm]; exact hs
  rw [List.pairwise_append] at hs'
  obtain ⟨_, hs2, hs3⟩ := hs'
  have hbefore : ∀ a ∈ m.take i, a.1 ≤ k := fun a ha => hs3 a ha (k, v) (List.mem_cons_self _ _)
  have hafter : ∀ b ∈ rest, k ≤ b.1 := fun b hb => (List.pairwise_cons.mp hs2).1 b hb
  have he : m.erase k =
      (m.take i).filter (fun e => e.1 != k) ++ rest.filter (fun e => e.1 != k) := by
    conv_lhs => rw [hm]
    simp [MultiMap.erase, List.filter_append, List.filter_cons]
  have hA : ∀ a ∈ (m.take i).filter (fun e => e.1 != k), decide (a.1 ≤ k) = true := by
    intro a ha
    have := hbefore a (List.mem_of_mem_filter ha)
    simpa using this
  have hB : (rest.filter (fun e => e.1 != k)).takeWhile (fun e => decide (e.1 ≤ k)) = [] := by
    cases hr : rest.filter (fun e => e.1 != k) with
    | nil => rfl
    | cons b bs =>
      have hb : b ∈ rest.filter (fun e => e.1 != k) := by rw [hr]; exact List.mem_cons_self _ _
      have h1 := hafter b (List.mem_of_mem_filter hb)
      have h2 : b.1 ≠ k := by simpa using (List.mem_filter.mp hb).2
      have : ¬ b.1 ≤ k := by omega
      simp [List.takeWhile_cons, this]
  unfold MultiMap.upper_bound
  rw [he, List.takeWhile_append_of_pos hA, hB, List.append_nil, List.drop_left]

/-! ## The loops as rounds along the entries -/

theorem vertexLoop_eq_mapLoop {σ S : Type} (env : Env σ S) (name : String) :
    ∀ (fuel i : Nat) (m1 m2 : MultiMap) (s : Inner σ S),
      vertexLoop env name fuel i m1 m2 s = mapLoop (vertexBody env name) fuel i m1 m2 s := by
  intro fuel
  induction fuel with
  | zero => intro i m1 m2 s; rfl
  | succ fuel ih =>
    intro i m1 m2 s
    unfold vertexLoop mapLoop
    cases hg : m1.get? i with
    | none => rfl
    | some e =>
      obtain ⟨key, v1⟩ := e
      simp only [vertexBody, MultiMap.count_eq]
      by_cases h0 : (m1.equal_range key).length = 0 ∨ (m2.equal_range key).length = 0
      · simp only [h0, if_true]
        exact ih _ _ _ _
      · simp only [h0, if_false]
        by_cases h1 : (m1.equal_range key).length > 1 ∨ (m2.equal_range key).length > 1
        · simp only [h1, if_true]
          cases continueWithNext env key (collect (m1.equal_range key) [])
              (collect (m2.equal_range key) []) s with
          | none => rfl
          | some s1 => exact ih _ _ _ _
        · simp only [h1, if_false]
          have hf := MultiMap.find_eq m2 key
          cases hfind : m2.find key with
          | none =>
            rw [hfind] at hf
            simp only [Option.map_none'] at hf
            rw [← hf]
          | some e2 =>
            obtain ⟨k2, v2⟩ := e2
            rw [hfind] at hf
            simp only [Option.map_some'] at hf
            rw [← hf]
            exact ih _ _ _ _

/-- Started at the iterator position that faces the entries `todo` still
    present, the loop does the rounds listed by `entryFold`. -/
theorem mapLoop_eq_entryFold {σ S : Type} (body : Body σ S) (m1 m2 : MultiMap)
    (hs : m1.Sorted) :
    ∀ (todo : List (Nat × Nat)) (erased : List Nat) (fuel i : Nat) (s : Inner σ S),
      (m1.without erased).drop i = todo.filter (fun e => decide (e.1 ∉ erased)) →
      (todo.filter (fun e => decide (e.1 ∉ erased))).length < fuel →
      mapLoop body fuel i (m1.without erased) (m2.without erased) s =
        (entryFold body m1 m2 todo erased s).map (finish m1 m2) := by
  intro todo
  induction todo with
  | nil =>
    intro erased fuel i s hd hf
    cases fuel with
    | zero => simp at hf
    | succ fuel =>
      have hi : (m1.without erased).get? i = none := by
        simp only [List.filter_nil] at hd
        rw [List.get?_eq_none]
        exact List.drop_eq_nil_iff.mp hd
      simp only [mapLoop, hi, entryFold, finish, Option.map_some']
  | cons e todo ih =>
    intro erased fuel i s hd hf
    obtain ⟨k, v⟩ := e
    by_cases hk : k ∈ erased
    · have hfil : ((k, v) :: todo).filter (fun e => decide (e.1 ∉ erased)) =
          todo.filter (fun e => decide (e.1 ∉ erased)) := by
        simp [List.filter_cons, hk]
      rw [hfil] at hd hf
      simp only [entryFold, hk, if_true]
      exact ih erased fuel i s hd hf
    · have hfil : ((k, v) :: todo).filter (fun e => decide (e.1 ∉ erased)) =
          (k, v) :: todo.filter (fun e => decide (e.1 ∉ erased)) := by
        simp [List.filter_cons, hk]
      rw [hfil] at hd hf
      cases fuel with
      | zero => simp at hf
      | succ fuel =>
        have hlt : i < (m1.without erased).length := by
          by_contra hge
          have := List.drop_eq_nil_iff.mpr (Nat.le_of_not_lt hge)
          rw [this] at hd
          exact absurd hd (by simp)
        have hi : (m1.without erased).get? i = some (k, v) := by
          rw [List.get?_eq_get hlt]
          have := List.drop_eq_getElem_cons hlt
          rw [hd] at this
          simp only [List.cons.injEq] at this
          simp [this.1]
        have hnext : (m1.without erased).drop (i + 1) =
            todo.filter (fun e => decide (e.1 ∉ erased)) := by
          have := List.drop_eq_getElem_cons hlt
          rw [hd] at this
          simp only [List.cons.injEq] at this
          exact this.2.symm
        simp only [List.length_cons, Nat.add_lt_add_iff_right] at hf
        simp only [mapLoop, hi, entryFold, hk, if_false,
          MultiMap.equal_range_without _ _ _ hk]
        cases hb : body k v (m1.equal_range k) (m2.equal_range k) s with
        | none => rfl
        | some r =>
          obtain ⟨s1, j⟩ := r
          cases j with
          | false =>
            simp only []
            exact ih erased fuel (i + 1) s1 hnext hf
          | true =>
            simp only []
            rw [MultiMap.erase_without, MultiMap.erase_without]
            have hdrop := MultiMap.drop_upper_bound_erase (m1.without erased)
              (hs.without erased) i k v _ hd
            rw [MultiMap.erase_without] at hdrop
            have hfil2 : (todo.filter (fun e => decide (e.1 ∉ erased))).filter
                (fun e => e.1 != k) = todo.filter (fun e => decide (e.1 ∉ k :: erased)) := by
              rw [List.filter_filter]
              apply List.filter_congr
              intro e _
              by_cases hek : e.1 = k <;> simp [hek]
            rw [hfil2] at hdrop
            refine ih (k :: erased) fuel _ s1 hdrop ?_
            rw [← hfil2]
            exact lt_of_le_of_lt (List.length_filter_le _ _) hf

/-- Refinement of the vertex cascade: on a sorted first map it performs the
    rounds listed along the entries of that map. -/
theorem FindFixedPointsBasicBlockInternal_eq {σ S : Type} (env : Env σ S)
    (m1 m2 : MultiMap) (hs : m1.Sorted) (st : σ) (front : S) (rest : List S) :
    FindFixedPointsBasicBlockInternal env m1 m2 st (front :: rest) =
      (entryFold (vertexBody env (env.GetName front)) m1 m2 m1 [] ⟨st, rest, false, []⟩).map
        (finish m1 m2) := by
  simp only [FindFixedPointsBasicBlockInternal, vertexLoop_eq_mapLoop]
  have := mapLoop_eq_entryFold (vertexBody env (env.GetName front)) m1 m2 hs m1 []
    (m1.length + 1) 0 ⟨st, rest, false, []⟩ (by simp [MultiMap.without])
    (by simp)
  rw [MultiMap.without_nil, MultiMap.without_nil] at this
  exact this

theorem continueWithNextEdge_eq {σ S : Type} (env : Env σ S) (key : Nat)
    (edges1 edges2 : MultiMap) (s : Inner σ S) :
    continueWithNextEdge env key edges1 edges2 s =
      match s.steps with
      | [] => some s
      | _ :: _ =>
        continueWithNext env key
          (verticesOf env.source1 env.target1 (env.GetFixedPoint1 s.state)
            (edges1.equal_range key))
          (verticesOf env.source2 env.target2 (env.GetFixedPoint2 s.state)
            (edges2.equal_range key)) s := rfl

theorem edgeLoop_eq_mapLoop {σ S : Type} (env : Env σ S) (name : String) (step_index : Nat) :
    ∀ (fuel i : Nat) (m1 m2 : MultiMap) (s : Inner σ S),
      edgeLoop env name step_index fuel i m1 m2 s =
        mapLoop (edgeBody env name step_index) fuel i m1 m2 s := by
  intro fuel
  induction fuel with
  | zero => intro i m1 m2 s; rfl
  | succ fuel ih =>
    intro i m1 m2 s
    unfold edgeLoop mapLoop
    cases hg : m1.get? i with
    | none => rfl
    | some e =>
      obtain ⟨key, edge1⟩ := e
      simp only [edgeBody, MultiMap.count_eq]
      by_cases h0 : (m1.equal_range key).length ≠ 1 ∨ (m2.equal_range key).length ≠ 1
      · simp only [h0, if_true]
        by_cases h1 : (m1.equal_range key).length ≥ 1 ∧ (m2.equal_range key).length ≥ 1
        · simp only [h1, and_self, if_true, continueWithNextEdge_eq]
          cases hst : (addFlags env.AddFlag2 key false (1 <<< step_index)
              (m2.equal_range key) (addFlags env.AddFlag1 key true (1 <<< step_index)
                (m1.equal_range key) s)).steps with
          | nil => exact ih _ _ _ _
          | cons a l =>
            simp only []
            cases continueWithNext env key _ _ _ with
            | none => rfl
            | some s3 => exact ih _ _ _ _
        · simp only [h1, if_false]
          exact ih _ _ _ _
      · simp only [h0, if_false]
        have hf := MultiMap.find_eq m2 key
        cases hfind : m2.find key with
        | none =>
          rw [hfind] at hf
          simp only [Option.map_none'] at hf
          rw [← hf]
        | some e2 =>
          obtain ⟨k2, edge2⟩ := e2
          rw [hfind] at hf
          simp only [Option.map_some'] at hf
          rw [← hf]
          simp only []
          by_cases hr : (env.Add s.state (env.source1 edge1) (env.source2 edge2) name).1 = true
          · simp only [hr, if_true]
            exact ih _ _ _ _
          · simp only [hr, if_false]
            exact ih _ _ _ _

/-- Refinement of the edge cascade: on a sorted first map it performs the
    rounds listed along the entries of that map. -/
theorem FindFixedPointsBasicBlockEdgeInternal_eq {σ S : Type} (env : Env σ S)
    (m1 m2 : MultiMap) (hs : m1.Sorted) (st : σ) (front : S) (rest : List S) :
    FindFixedPointsBasicBlockEdgeInternal env m1 m2 st (front :: rest) =
      (entryFold (edgeBody env (env.GetName front) rest.length) m1 m2 m1 []
        ⟨st, rest, false, []⟩).map (finish m1 m2) := by
  simp only [FindFixedPointsBasicBlockEdgeInternal, edgeLoop_eq_mapLoop]
  have := mapLoop_eq_entryFold (edgeBody env (env.GetName front) rest.length) m1 m2 hs m1 []
    (m1.length + 1) 0 ⟨st, rest, false, []⟩ (by simp [MultiMap.without])
    (by simp)
  rw [MultiMap.without_nil, MultiMap.without_nil] at this
  exact this

/-! ## Reasoning about the rounds -/

/-- Induction along the rounds: a property of the entries still to visit, the
    state and the erased keys that survives passing over an erased entry and
    survives every round holds at the end, and the rounds all return. -/
theorem entryFold_rule {σ S : Type} (body : Body σ S) (m1 m2 : MultiMap)
    (P : List (Nat × Nat) → Inner σ S → List Nat → Prop)
    (hskip : ∀ k v T s E, P ((k, v) :: T) s E → k ∈ E → P T s E)
    (hstep : ∀ k v T s E, P ((k, v) :: T) s E → k ∉ E →
      ∃ s1 j, body k v (m1.equal_range k) (m2.equal_range k) s = some (s1, j) ∧
        P T s1 (if j = true then k :: E else E)) :
    ∀ T s E, P T s E → ∃ s1 E1, entryFold body m1 m2 T E s = some (s1, E1) ∧ P [] s1 E1 := by
  intro T
  induction T with
  | nil => intro s E h; exact ⟨s, E, rfl, h⟩
  | cons e T ih =>
    intro s E h
    obtain ⟨k, v⟩ := e
    by_cases hk : k ∈ E
    · simp only [entryFold, hk, if_true]
      exact ih s E (hskip k v T s E h hk)
    · obtain ⟨s1, j, hb, hp⟩ := hstep k v T s E h hk
      simp only [entryFold, hk, if_false, hb]
      cases j with
      | false => exact ih s1 E (by simpa using hp)
      | true => exact ih s1 (k :: E) (by simpa using hp)

/-- What the block "Continue with next matching step" does. -/
theorem continueWithNext_cases {σ S : Type} (env : Env σ S) (key : Nat)
    (bb1 bb2 : VertexSet) (s : Inner σ S)
    (hcall : ∀ step l, s.steps = step :: l → bb1 ≠ [] → bb2 ≠ [] →
      (env.FindFixedPoints step bb1 bb2 s.state s.steps).isSome = true) :
    (continueWithNext env key bb1 bb2 s = some s ∧
      (s.steps = [] ∨ bb1 = [] ∨ bb2 = [])) ∨
    (∃ step l b st l1, s.steps = step :: l ∧ bb1 ≠ [] ∧ bb2 ≠ [] ∧
      env.FindFixedPoints step bb1 bb2 s.state s.steps = some (b, st, l1) ∧
      continueWithNext env key bb1 bb2 s =
        some ⟨st, step :: l1, s.found || b, s.trace ++ [Event.next key step bb1 bb2 b]⟩) := by
  unfold continueWithNext
  cases hst : s.steps with
  | nil => exact Or.inl ⟨rfl, Or.inl rfl⟩
  | cons step l =>
    simp only []
    by_cases hbb : bb1 ≠ [] ∧ bb2 ≠ []
    · right
      rw [if_pos hbb]
      have := hcall step l hst hbb.1 hbb.2
      rw [hst] at this
      cases hf : env.FindFixedPoints step bb1 bb2 s.state (step :: l) with
      | none => rw [hf] at this; simp at this
      | some r =>
        obtain ⟨b, st, l1⟩ := r
        exact ⟨step, l, b, st, l1, rfl, hbb.1, hbb.2, hf, rfl⟩
    · left
      rw [if_neg hbb]
      refine ⟨rfl, Or.inr ?_⟩
      by_cases h1 : bb1 = []
      · exact Or.inl h1
      · exact Or.inr (by_contra fun h2 => hbb ⟨h1, h2⟩)

/-- What one round of the vertex cascade does, by the number of items the two
    maps file under the key. -/
theorem vertexBody_cases {σ S : Type} (env : Env σ S) (name : String) (key v1 : Nat)
    (items1 items2 : List Nat) (s : Inner σ S) :
    ((items1.length = 0 ∨ items2.length = 0) ∧
      vertexBody env name key v1 items1 items2 s = some (s, false)) ∨
    (1 ≤ items1.length ∧ 1 ≤ items2.length ∧ (items1.length > 1 ∨ items2.length > 1) ∧
      vertexBody env name key v1 items1 items2 s =
        (continueWithNext env key (collect items1 []) (collect items2 []) s).map
          (fun s1 => (s1, true))) ∨
    (∃ v2, items1.length = 1 ∧ items2 = [v2] ∧
      vertexBody env name key v1 items1 items2 s =
        some (⟨(env.Add s.state v1 v2 name).2, s.steps,
          s.found || (env.Add s.state v1 v2 name).1,
          s.trace ++ [Event.add key v1 v2 name (env.Add s.state v1 v2 name).1]⟩, false)) := by
  unfold vertexBody
  by_cases h0 : items1.length = 0 ∨ items2.length = 0
  · exact Or.inl ⟨h0, by rw [if_pos h0]⟩
  · rw [if_neg h0]
    by_cases h1 : items1.length > 1 ∨ items2.length > 1
    · right; left
      rw [if_pos h1]
      refine ⟨by omega, by omega, h1, ?_⟩
      cases continueWithNext env key (collect items1 []) (collect items2 []) s <;> rfl
    · right; right
      rw [if_neg h1]
      cases items2 with
      | nil => simp at h0
      | cons v2 tl =>
        cases tl with
        | nil => exact ⟨v2, by omega, rfl, rfl⟩
        | cons a b => simp at h1

theorem collect_ne_nil (items : List Nat) (set : VertexSet) (h : items ≠ [] ∨ set ≠ []) :
    collect items set ≠ [] := by
  unfold collect
  induction items generalizing set with
  | nil =>
    rcases h with h | h
    · exact absurd rfl h
    · simpa using h
  | cons a items ih =>
    simp only [List.foldl_cons]
    apply ih
    right
    cases set with
    | nil => simp [VertexSet.emplace]
    | cons b set =>
      simp only [VertexSet.emplace]
      split
      · simp
      · split <;> simp

theorem mem_emplace (set : VertexSet) (v w : Nat) :
    w ∈ VertexSet.emplace set v ↔ w = v ∨ w ∈ set := by
  induction set with
  | nil => simp [VertexSet.emplace]
  | cons a set ih =>
    simp only [VertexSet.emplace]
    split
    · simp
    · split
      · rename_i h; subst h; simp
      · simp only [List.mem_cons, ih]
        tauto

/-- The set built from the items of a key holds exactly those items. -/
theorem mem_collect (items : List Nat) (set : VertexSet) (w : Nat) :
    w ∈ collect items set ↔ w ∈ items ∨ w ∈ set := by
  unfold collect
  induction items generalizing set with
  | nil => simp
  | cons a items ih =>
    simp only [List.foldl_cons, ih, mem_emplace, List.mem_cons]
    tauto

theorem mem_equal_range (m : MultiMap) (k v : Nat) :
    v ∈ m.equal_range k ↔ (k, v) ∈ m := by
  unfold MultiMap.equal_range
  simp only [List.mem_map, List.mem_filter]
  constructor
  · rintro ⟨e, ⟨he, hk⟩, rfl⟩
    have : e.1 = k := by simpa using hk
    rw [← this]
    exact he
  · intro h
    exact ⟨(k, v), ⟨h, by simp⟩, rfl⟩

theorem count_without_of_mem (m : MultiMap) (E : List Nat) (k : Nat) (h : k ∈ E) :
    (m.without E).count k = 0 := by
  unfold MultiMap.without MultiMap.count
  rw [List.filter_filter, List.length_eq_zero, List.filter_eq_nil_iff]
  intro e _
  by_cases hk : e.1 = k
  · simp [hk, h]
  · simp [hk]

theorem equal_range_singleton_iff (m : MultiMap) (k v : Nat) :
    m.equal_range k = [v] ↔ m.count k = 1 ∧ (k, v) ∈ m := by
  rw [MultiMap.count_eq, ← mem_equal_range]
  constructor
  · intro h; rw [h]; simp
  · rintro ⟨h1, h2⟩
    cases hr : m.equal_range k with
    | nil => rw [hr] at h1; simp at h1
    | cons a tl =>
      rw [hr] at h1 h2
      cases tl with
      | nil =>
        have := List.mem_singleton.mp h2
        rw [this]
      | cons b c => simp at h1

theorem equal_range_cons (e : Nat × Nat) (m : MultiMap) (k : Nat) :
    MultiMap.equal_range (e :: m) k =
      if e.1 = k then e.2 :: MultiMap.equal_range m k else MultiMap.equal_range m k := by
  unfold MultiMap.equal_range
  by_cases h : e.1 = k <;> simp [List.filter_cons, h]

/-- What one round of the vertex cascade appends to the log and does to the
    step list: nothing, or one `Add` under the current name on a key filed
    once on both sides, or (after which the key is erased) at most one call
    of the step at the front of the list, which stays at the front. -/
theorem vertexBody_spec {σ S : Type} (env : Env σ S) (name : String)
    (key v1 : Nat) (items1 items2 : List Nat) (s : Inner σ S) (h1 : v1 ∈ items1)
    (hcall : ∀ step l, s.steps = step :: l →
      (env.FindFixedPoints step (collect items1 []) (collect items2 []) s.state
        s.steps).isSome = true) :
    ∃ s1 j ext, vertexBody env name key v1 items1 items2 s = some (s1, j) ∧
      s1.trace = s.trace ++ ext ∧ s1.steps.head? = s.steps.head? ∧
      ((j = false ∧ items2 = [] ∧ ext = [] ∧ s1 = s) ∨
       (j = false ∧ ∃ v2, items1 = [v1] ∧ items2 = [v2] ∧ s1.steps = s.steps ∧
          ext = [Event.add key v1 v2 name (env.Add s.state v1 v2 name).1] ∧
          s1.state = (env.Add s.state v1 v2 name).2 ∧
          s1.found = (s.found || (env.Add s.state v1 v2 name).1)) ∨
       (j = true ∧ items2 ≠ [] ∧ (items1.length > 1 ∨ items2.length > 1) ∧
          ((s.steps = [] ∧ ext = [] ∧ s1 = s) ∨
           (∃ step l b st l1, s.steps = step :: l ∧
              env.FindFixedPoints step (collect items1 []) (collect items2 []) s.state s.steps =
                some (b, st, l1) ∧
              ext = [Event.next key step (collect items1 []) (collect items2 []) b] ∧
              s1.state = st ∧ s1.steps = step :: l1 ∧ s1.found = (s.found || b))))) := by
  have hne1 : items1 ≠ [] := List.ne_nil_of_mem h1
  have hl1 : 1 ≤ items1.length := List.length_pos.mpr hne1
  rcases vertexBody_cases env name key v1 items1 items2 s with ⟨h0, hb⟩ | ⟨_, a2, a3, hb⟩ | ⟨v2, b1, b2, hb⟩
  · refine ⟨s, false, [], hb, by simp, rfl, Or.inl ⟨rfl, ?_, rfl, rfl⟩⟩
    rcases h0 with h0 | h0
    · omega
    · exact List.length_eq_zero.mp h0
  · have hne2 : items2 ≠ [] := List.length_pos.mp (by omega)
    rcases continueWithNext_cases env key (collect items1 []) (collect items2 []) s
        (fun step l h _ _ => hcall step l h) with
      ⟨hc, hwhy⟩ | ⟨step, l, b, st, l1, c1, _, _, c4, hc⟩
    · rw [hc] at hb
      refine ⟨s, true, [], hb, by simp, rfl, Or.inr (Or.inr ⟨rfl, hne2, a3, Or.inl ⟨?_, rfl, rfl⟩⟩)⟩
      rcases hwhy with h | h | h
      · exact h
      · exact absurd h (collect_ne_nil _ _ (Or.inl hne1))
      · exact absurd h (collect_ne_nil _ _ (Or.inl hne2))
    · rw [hc] at hb
      refine ⟨_, true, [Event.next key step (collect items1 []) (collect items2 []) b], hb,
        rfl, by simp [c1], Or.inr (Or.inr ⟨rfl, hne2, a3, Or.inr ?_⟩)⟩
      exact ⟨step, l, b, st, l1, c1, c4, rfl, rfl, rfl, rfl⟩
  · have hi1 : items1 = [v1] := by
      cases items1 with
      | nil => simp at b1
      | cons a tl =>
        cases tl with
        | nil =>
          have := List.mem_singleton.mp h1
          rw [this]
        | cons c d => simp at b1
    exact ⟨_, false, [Event.add key v1 v2 name (env.Add s.state v1 v2 name).1], hb, rfl, rfl,
      Or.inr (Or.inl ⟨rfl, v2, hi1, b2, rfl, rfl, rfl, rfl⟩)⟩

theorem addsAt_append {S : Type} (k : Nat) (a b : List (Event S)) :
    addsAt k (a ++ b) = addsAt k a ++ addsAt k b := by
  simp [addsAt]

theorem nextsAt_append {S : Type} (k : Nat) (a b : List (Event S)) :
    nextsAt k (a ++ b) = nextsAt k a ++ nextsAt k b := by
  simp [nextsAt]

/-- The invariant of the vertex cascade for adds: every logged `Add` carries the current name and
    joins the items of a key filed once on both sides, and a key filed once on
    both sides has its `Add` logged exactly when its entry has been visited. -/
theorem vertexFold_adds {σ S : Type} (env : Env σ S) (hret : env.Returns) (name : String)
    (m1 m2 : MultiMap) (s0 : Inner σ S) (h0 : s0.trace = []) :
    ∃ s1 E1, entryFold (vertexBody env name) m1 m2 m1 [] s0 = some (s1, E1) ∧
      (∀ e ∈ s1.trace, e.isAdd = true → ∃ k v1 v2 a, e = Event.add k v1 v2 name a ∧
        m1.equal_range k = [v1] ∧ m2.equal_range k = [v2]) ∧
      (∀ k v1 v2, m1.equal_range k = [v1] → m2.equal_range k = [v2] →
        ∃ a, addsAt k s1.trace = [Event.add k v1 v2 name a]) := by
  have key := entryFold_rule (vertexBody env name) m1 m2
    (fun todo s E =>
      (∀ e ∈ todo, e ∈ m1) ∧
      (∀ e ∈ s.trace, e.isAdd = true → ∃ k v1 v2 a, e = Event.add k v1 v2 name a ∧
        m1.equal_range k = [v1] ∧ m2.equal_range k = [v2]) ∧
      (∀ k v1 v2, m1.equal_range k = [v1] → m2.equal_range k = [v2] →
        (MultiMap.equal_range todo k = [v1] ∧ k ∉ E ∧ addsAt k s.trace = []) ∨
        (MultiMap.equal_range todo k = [] ∧
          ∃ a, addsAt k s.trace = [Event.add k v1 v2 name a])))
    ?_ ?_ m1 s0 [] ?_
  · obtain ⟨s1, E1, h1, _, h3, h4⟩ := key
    refine ⟨s1, E1, h1, h3, ?_⟩
    intro k v1 v2 a1 a2
    rcases h4 k v1 v2 a1 a2 with ⟨h, _⟩ | ⟨_, h⟩
    · simp [MultiMap.equal_range] at h
    · exact h
  · -- passing over an erased entry
    rintro k0 v0 T s E ⟨hA, hB, hC⟩ hk0
    refine ⟨fun e he => hA e (List.mem_cons_of_mem _ he), hB, ?_⟩
    intro k v1 v2 a1 a2
    rcases hC k v1 v2 a1 a2 with ⟨c1, c2, c3⟩ | ⟨c1, c2⟩
    · have hne : k0 ≠ k := fun h => c2 (h ▸ hk0)
      rw [equal_range_cons] at c1
      simp only [hne, if_false] at c1
      exact Or.inl ⟨c1, c2, c3⟩
    · rw [equal_range_cons] at c1
      by_cases hkk : k0 = k
      · simp [hkk] at c1
      · simp only [hkk, if_false] at c1
        exact Or.inr ⟨c1, c2⟩
  · -- one round
    rintro k0 v0 T s E ⟨hA, hB, hC⟩ hk0
    have hmem : v0 ∈ m1.equal_range k0 :=
      (mem_equal_range m1 k0 v0).mpr (hA _ (List.mem_cons_self _ _))
    obtain ⟨s1, j, ext, hb, htr, _, hcase⟩ :=
      vertexBody_spec env name k0 v0 (m1.equal_range k0) (m2.equal_range k0) s hmem
        (fun step l _ => hret step _ _ _ _)
    refine ⟨s1, j, hb, fun e he => hA e (List.mem_cons_of_mem _ he), ?_, ?_⟩
    · -- logged adds stay legitimate
      intro e he hadd
      rw [htr] at he
      rcases List.mem_append.mp he with he | he
      · exact hB e he hadd
      · rcases hcase with ⟨_, _, hx, _⟩ | ⟨_, v2, i1, i2, _, hx, _⟩ | ⟨_, _, _, hx⟩
        · rw [hx] at he; simp at he
        · rw [hx, List.mem_singleton] at he
          exact ⟨k0, v0, v2, _, he, i1, i2⟩
        · rcases hx with ⟨_, hx, _⟩ | ⟨step, l, b, st, l1, _, _, hx, _⟩
          · rw [hx] at he; simp at he
          · rw [hx, List.mem_singleton] at he
            rw [he] at hadd
            simp [Event.isAdd] at hadd
    · -- keys filed once on both sides
      intro k v1 v2 a1 a2
      by_cases hkk : k0 = k
      · subst hkk
        rcases hC k0 v1 v2 a1 a2 with ⟨c1, c2, c3⟩ | ⟨c1, _⟩
        · rw [equal_range_cons] at c1
          simp only [if_true] at c1
          have hv : v0 = v1 := by simpa using (List.cons.inj c1).1
          have hT : MultiMap.equal_range T k0 = [] := (List.cons.inj c1).2
          right
          refine ⟨hT, ?_⟩
          rcases hcase with ⟨_, hx, _⟩ | ⟨_, w2, _, i2, _, hx, _⟩ | ⟨_, _, hx, _⟩
          · rw [a2] at hx; simp at hx
          · rw [a2] at i2
            have hw : v2 = w2 := by simpa using i2
            refine ⟨(env.Add s.state v0 w2 name).1, ?_⟩
            rw [htr, addsAt_append, c3, hx, ← hv, hw]
            simp [addsAt, Event.isAdd, Event.key]
          · rw [a1, a2] at hx
            simp at hx
        · rw [equal_range_cons] at c1
          simp at c1
      · have hext : addsAt k ext = [] := by
          rcases hcase with ⟨_, _, hx, _⟩ | ⟨_, v2, _, _, _, hx, _⟩ | ⟨_, _, _, hx⟩
          · rw [hx]; rfl
          · rw [hx]; simp [addsAt, Event.key, hkk]
          · rcases hx with ⟨_, hx, _⟩ | ⟨step, l, b, st, l1, _, _, hx, _⟩
            · rw [hx]; rfl
            · rw [hx]; simp [addsAt, Event.isAdd]
        have hE : k ∉ E → k ∉ (if j = true then k0 :: E else E) := by
          intro hk
          split
          · simp only [List.mem_cons, not_or]
            exact ⟨fun h => hkk h.symm, hk⟩
          · exact hk
        rcases hC k v1 v2 a1 a2 with ⟨c1, c2, c3⟩ | ⟨c1, a, c2⟩
        · rw [equal_range_cons] at c1
          simp only [hkk, if_false] at c1
          exact Or.inl ⟨c1, hE c2, by rw [htr, addsAt_append, c3, hext]; rfl⟩
        · rw [equal_range_cons] at c1
          simp only [hkk, if_false] at c1
          exact Or.inr ⟨c1, a, by rw [htr, addsAt_append, c2, hext]; simp⟩
  · -- at the start
    refine ⟨fun e he => he, ?_, ?_⟩
    · intro e he; rw [h0] at he; simp at he
    · intro k v1 v2 a1 _
      exact Or.inl ⟨a1, by simp, by rw [h0]; rfl⟩

/-- C6: in `FindFixedPointsBasicBlockInternal`, for every key that occurs
    exactly once in the primary map and exactly once in the secondary map,
    `FixedPoint::Add` is called, once, with the primary item and the secondary
    item of that key and the name of the step that was at the front of the
    step list when the call started; and every call of `Add` made by the
    cascade itself is of this kind. -/
theorem FindFixedPointsBasicBlockInternal_adds {σ S : Type} (env : Env σ S)
    (hret : env.Returns) (vertices_1 vertices_2 : MultiMap) (hs : vertices_1.Sorted) (st : σ)
    (front : S) (rest : List S) :
    ∃ r, FindFixedPointsBasicBlockInternal env vertices_1 vertices_2 st (front :: rest) =
        some r ∧
      (∀ k v1 v2, vertices_1.count k = 1 → vertices_2.count k = 1 →
        (k, v1) ∈ vertices_1 → (k, v2) ∈ vertices_2 →
        ∃ a, addsAt k r.trace = [Event.add k v1 v2 (env.GetName front) a]) ∧
      (∀ e ∈ r.trace, e.isAdd = true →
        ∃ k v1 v2 a, e = Event.add k v1 v2 (env.GetName front) a ∧
          vertices_1.count k = 1 ∧ vertices_2.count k = 1 ∧
          (k, v1) ∈ vertices_1 ∧ (k, v2) ∈ vertices_2) := by
  obtain ⟨s1, E1, h1, h2, h3⟩ := vertexFold_adds env hret (env.GetName front) vertices_1
    vertices_2 ⟨st, rest, false, []⟩ rfl
  rw [FindFixedPointsBasicBlockInternal_eq env vertices_1 vertices_2 hs, h1]
  refine ⟨_, rfl, ?_, ?_⟩
  · intro k v1 v2 c1 c2 e1 e2
    exact h3 k v1 v2 ((equal_range_singleton_iff _ _ _).mpr ⟨c1, e1⟩)
      ((equal_range_singleton_iff _ _ _).mpr ⟨c2, e2⟩)
  · intro e he hadd
    obtain ⟨k, v1, v2, a, h, i1, i2⟩ := h2 e he hadd
    have j1 := (equal_range_singleton_iff _ _ _).mp i1
    have j2 := (equal_range_singleton_iff _ _ _).mp i2
    exact ⟨k, v1, v2, a, h, j1.1, j2.1, j1.2, j2.2⟩

/-- The invariant of the vertex cascade for ambiguous keys: a key filed on both sides and more than once on
    one of them is erased in its round, and that round calls the step at the
    front of the step list once, on the sets of the items of the key. -/
theorem vertexFold_ambiguous {σ S : Type} (env : Env σ S) (hret : env.Returns) (name : String)
    (m1 m2 : MultiMap) (st : σ) (rest : List S) :
    ∃ s1 E1, entryFold (vertexBody env name) m1 m2 m1 [] ⟨st, rest, false, []⟩ =
        some (s1, E1) ∧
      ∀ k, 1 ≤ (m1.equal_range k).length → 1 ≤ (m2.equal_range k).length →
        ((m1.equal_range k).length > 1 ∨ (m2.equal_range k).length > 1) →
        k ∈ E1 ∧ (rest = [] → nextsAt k s1.trace = []) ∧
        (∀ step l, rest = step :: l → ∃ b, nextsAt k s1.trace =
          [Event.next k step (collect (m1.equal_range k) []) (collect (m2.equal_range k) []) b]) := by
  have key := entryFold_rule (vertexBody env name) m1 m2
    (fun todo s E =>
      (∀ e ∈ todo, e ∈ m1) ∧ s.steps.head? = rest.head? ∧
      (∀ k, 1 ≤ (m1.equal_range k).length → 1 ≤ (m2.equal_range k).length →
        ((m1.equal_range k).length > 1 ∨ (m2.equal_range k).length > 1) →
        (k ∈ E ∧ (rest = [] → nextsAt k s.trace = []) ∧
          (∀ step l, rest = step :: l → ∃ b, nextsAt k s.trace =
            [Event.next k step (collect (m1.equal_range k) [])
              (collect (m2.equal_range k) []) b])) ∨
        (k ∉ E ∧ (∃ v, (k, v) ∈ todo) ∧ nextsAt k s.trace = [])))
    ?_ ?_ m1 ⟨st, rest, false, []⟩ [] ?_
  · obtain ⟨s1, E1, h1, _, _, h3⟩ := key
    refine ⟨s1, E1, h1, ?_⟩
    intro k a1 a2 a3
    rcases h3 k a1 a2 a3 with h | ⟨_, ⟨v, hv⟩, _⟩
    · exact h
    · simp at hv
  · rintro k0 v0 T s E ⟨hA, hH, hC⟩ hk0
    refine ⟨fun e he => hA e (List.mem_cons_of_mem _ he), hH, ?_⟩
    intro k a1 a2 a3
    rcases hC k a1 a2 a3 with h | ⟨c1, ⟨v, hv⟩, c3⟩
    · exact Or.inl h
    · have hne : k ≠ k0 := fun h => c1 (h ▸ hk0)
      refine Or.inr ⟨c1, ⟨v, ?_⟩, c3⟩
      rcases List.mem_cons.mp hv with h | h
      · exact absurd (congrArg Prod.fst h) hne
      · exact h
  · rintro k0 v0 T s E ⟨hA, hH, hC⟩ hk0
    have hmem : v0 ∈ m1.equal_range k0 :=
      (mem_equal_range m1 k0 v0).mpr (hA _ (List.mem_cons_self _ _))
    obtain ⟨s1, j, ext, hb, htr, hhd, hcase⟩ :=
      vertexBody_spec env name k0 v0 (m1.equal_range k0) (m2.equal_range k0) s hmem
        (fun step l _ => hret step _ _ _ _)
    refine ⟨s1, j, hb, fun e he => hA e (List.mem_cons_of_mem _ he), hhd.trans hH, ?_⟩
    intro k a1 a2 a3
    by_cases hkk : k = k0
    · subst hkk
      rcases hC k a1 a2 a3 with ⟨c1, _⟩ | ⟨_, _, c3⟩
      · exact absurd c1 hk0
      · rcases hcase with ⟨_, hx, _⟩ | ⟨_, v2, i1, i2, _⟩ | ⟨hj, _, _, hx⟩
        · rw [hx] at a2; simp at a2
        · rw [i1, i2] at a3; simp at a3
        · left
          rw [hj]
          refine ⟨by simp, ?_, ?_⟩
          · intro hr
            rcases hx with ⟨_, hx, _⟩ | ⟨step, l, b, st1, l1, hs, _⟩
            · rw [htr, nextsAt_append, c3, hx]; rfl
            · rw [hs, hr] at hH; simp at hH
          · intro step l hr
            rcases hx with ⟨hs, _⟩ | ⟨step1, l1, b, st1, l2, hs, _, hx, _⟩
            · rw [hs, hr] at hH; simp at hH
            · rw [hs, hr] at hH
              have hst : step1 = step := by simpa using hH
              refine ⟨b, ?_⟩
              rw [htr, nextsAt_append, c3, hx, hst]
              simp [nextsAt, Event.isNext, Event.key]
    · have hext : nextsAt k ext = [] := by
        rcases hcase with ⟨_, _, hx, _⟩ | ⟨_, v2, _, _, _, hx, _⟩ | ⟨_, _, _, hx⟩
        · rw [hx]; rfl
        · rw [hx]; simp [nextsAt, Event.isNext]
        · rcases hx with ⟨_, hx, _⟩ | ⟨step, l, b, st1, l1, _, _, hx, _⟩
          · rw [hx]; rfl
          · rw [hx]
            have : k0 ≠ k := fun h => hkk h.symm
            simp [nextsAt, Event.key, this]
      have htr2 : nextsAt k s1.trace = nextsAt k s.trace := by
        rw [htr, nextsAt_append, hext, List.append_nil]
      rcases hC k a1 a2 a3 with ⟨c1, c2⟩ | ⟨c1, ⟨v, hv⟩, c3⟩
      · left
        rw [htr2]
        refine ⟨?_, c2⟩
        split
        · exact List.mem_cons_of_mem _ c1
        · exact c1
      · right
        rw [htr2]
        refine ⟨?_, ⟨v, ?_⟩, c3⟩
        · split
          · simp only [List.mem_cons, not_or]
            exact ⟨hkk, c1⟩
          · exact c1
        · rcases List.mem_cons.mp hv with h | h
          · exact absurd (congrArg Prod.fst h) hkk
          · exact h
  · refine ⟨fun e he => he, rfl, ?_⟩
    intro k a1 _ _
    right
    refine ⟨by simp, ?_, rfl⟩
    cases hr : m1.equal_range k with
    | nil => rw [hr] at a1; simp at a1
    | cons v tl =>
      exact ⟨v, (mem_equal_range m1 k v).mp (by rw [hr]; exact List.mem_cons_self _ _)⟩

/-- C7: in `FindFixedPointsBasicBlockInternal`, for every key present in both
    maps that occurs more than once in at least one of them: all its entries
    are gone from both maps at the end, the cascade itself makes no call of
    `Add` for it, and if the remaining step list is not empty the front step's
    `FindFixedPoints` is called exactly once for it, with exactly the set of
    primary vertices and the set of secondary vertices filed under the key
    (with an empty remaining list no step is called). -/
theorem FindFixedPointsBasicBlockInternal_ambiguous {σ S : Type} (env : Env σ S)
    (hret : env.Returns) (vertices_1 vertices_2 : MultiMap) (hs : vertices_1.Sorted) (st : σ)
    (front : S) (rest : List S) :
    ∃ r, FindFixedPointsBasicBlockInternal env vertices_1 vertices_2 st (front :: rest) =
        some r ∧
      ∀ k, 1 ≤ vertices_1.count k → 1 ≤ vertices_2.count k →
        (vertices_1.count k > 1 ∨ vertices_2.count k > 1) →
        r.map1.count k = 0 ∧ r.map2.count k = 0 ∧ addsAt k r.trace = [] ∧
        (rest = [] → nextsAt k r.trace = []) ∧
        (∀ step l, rest = step :: l → ∃ bb1 bb2 b,
          nextsAt k r.trace = [Event.next k step bb1 bb2 b] ∧
          (∀ v, v ∈ bb1 ↔ (k, v) ∈ vertices_1) ∧ (∀ v, v ∈ bb2 ↔ (k, v) ∈ vertices_2)) := by
  obtain ⟨s1, E1, h1, h2⟩ := vertexFold_ambiguous env hret (env.GetName front) vertices_1
    vertices_2 st rest
  obtain ⟨s2, E2, g1, g2, _⟩ := vertexFold_adds env hret (env.GetName front) vertices_1
    vertices_2 ⟨st, rest, false, []⟩ rfl
  rw [h1] at g1
  obtain ⟨rfl, rfl⟩ : s1 = s2 ∧ E1 = E2 := by
    have := Option.some.inj g1
    exact ⟨congrArg Prod.fst this, congrArg Prod.snd this⟩
  rw [FindFixedPointsBasicBlockInternal_eq env vertices_1 vertices_2 hs, h1]
  refine ⟨_, rfl, ?_⟩
  intro k a1 a2 a3
  rw [MultiMap.count_eq] at a1 a2
  rw [MultiMap.count_eq, MultiMap.count_eq] at a3
  obtain ⟨b1, b2, b3⟩ := h2 k a1 a2 a3
  refine ⟨count_without_of_mem _ _ _ b1, count_without_of_mem _ _ _ b1, ?_, b2, ?_⟩
  · apply List.eq_nil_iff_forall_not_mem.mpr
    intro e he
    have hmem := List.mem_filter.mp he
    have hadd : e.isAdd = true := by
      have := hmem.2
      simp only [Bool.and_eq_true] at this
      exact this.1
    obtain ⟨k1, v1, v2, a, rfl, i1, i2⟩ := g2 e hmem.1 hadd
    have hk : k1 = k := by
      have := hmem.2
      simp only [Bool.and_eq_true, Event.key, beq_iff_eq] at this
      exact this.2
    subst hk
    rw [i1, i2] at a3
    simp at a3
  · intro step l hr
    obtain ⟨b, hb⟩ := b3 step l hr
    refine ⟨_, _, b, hb, ?_, ?_⟩
    · intro v; rw [mem_collect, mem_equal_range]; simp
    · intro v; rw [mem_collect, mem_equal_range]; simp

theorem addFlags_eq {σ S : Type} (f : σ → Edge → Nat → σ) (key : Nat) (side : Bool)
    (flag : Nat) (items : List Edge) (s : Inner σ S) :
    addFlags f key side flag items s =
      ⟨items.foldl (fun acc e => f acc e flag) s.state, s.steps, s.found,
        s.trace ++ items.map (fun e => Event.flag key side e flag)⟩ := by
  unfold addFlags
  induction items generalizing s with
  | nil => simp
  | cons e items ih =>
    simp only [List.foldl_cons, List.map_cons]
    rw [ih]
    simp

/-- What one round of the edge cascade does: a key missing on the other side
    is just erased; a key that is not filed once on both sides has all its
    edges flagged, then at most one call of the step at the front of the step
    list, and is erased; a key filed once on both sides has the sources
    offered to `Add` and, if that is rejected, the targets. -/
theorem edgeBody_spec {σ S : Type} (env : Env σ S) (name : String) (d key edge1 : Nat)
    (items1 items2 : List Nat) (s : Inner σ S) (h1 : edge1 ∈ items1)
    (hcall : ∀ step l, s.steps = step :: l →
      (env.FindFixedPoints step
        (verticesOf env.source1 env.target1
          (env.GetFixedPoint1 (flagState env (1 <<< d) items1 items2 s.state)) items1)
        (verticesOf env.source2 env.target2
          (env.GetFixedPoint2 (flagState env (1 <<< d) items1 items2 s.state)) items2)
        (flagState env (1 <<< d) items1 items2 s.state) s.steps).isSome = true) :
    ∃ s1 j ext, edgeBody env name d key edge1 items1 items2 s = some (s1, j) ∧
      s1.trace = s.trace ++ ext ∧ s1.steps.head? = s.steps.head? ∧
      ((j = true ∧ items2 = [] ∧ ext = [] ∧ s1 = s) ∨
       (j = true ∧ items2 ≠ [] ∧ (items1.length ≠ 1 ∨ items2.length ≠ 1) ∧
          ((ext = flagEvents key (1 <<< d) items1 items2 ∧
              s1.state = flagState env (1 <<< d) items1 items2 s.state ∧
              s1.steps = s.steps ∧ s1.found = s.found) ∨
           (∃ step l b st l1, s.steps = step :: l ∧
              env.FindFixedPoints step
                (verticesOf env.source1 env.target1
                  (env.GetFixedPoint1 (flagState env (1 <<< d) items1 items2 s.state)) items1)
                (verticesOf env.source2 env.target2
                  (env.GetFixedPoint2 (flagState env (1 <<< d) items1 items2 s.state)) items2)
                (flagState env (1 <<< d) items1 items2 s.state) s.steps = some (b, st, l1) ∧
              ext = flagEvents key (1 <<< d) items1 items2 ++
                [Event.next key step
                  (verticesOf env.source1 env.target1
                    (env.GetFixedPoint1 (flagState env (1 <<< d) items1 items2 s.state)) items1)
                  (verticesOf env.source2 env.target2
                    (env.GetFixedPoint2 (flagState env (1 <<< d) items1 items2 s.state)) items2)
                  b] ∧
              s1.state = st ∧ s1.steps = step :: l1 ∧ s1.found = (s.found || b)))) ∨
       (j = false ∧ ∃ edge2, items1 = [edge1] ∧ items2 = [edge2] ∧ s1.steps = s.steps ∧
          (((env.Add s.state (env.source1 edge1) (env.source2 edge2) name).1 = true ∧
              ext = [Event.add key (env.source1 edge1) (env.source2 edge2) name true] ∧
              s1.state = (env.Add s.state (env.source1 edge1) (env.source2 edge2) name).2 ∧
              s1.found = true) ∨
           ((env.Add s.state (env.source1 edge1) (env.source2 edge2) name).1 = false ∧
              ext = [Event.add key (env.source1 edge1) (env.source2 edge2) name false,
                Event.add key (env.target1 edge1) (env.target2 edge2) name
                  (env.Add (env.Add s.state (env.source1 edge1) (env.source2 edge2) name).2
                    (env.target1 edge1) (env.target2 edge2) name).1] ∧
              s1.state =
                (env.Add (env.Add s.state (env.source1 edge1) (env.source2 edge2) name).2
                  (env.target1 edge1) (env.target2 edge2) name).2 ∧
              s1.found = (s.found ||
                (env.Add (env.Add s.state (env.source1 edge1) (env.source2 edge2) name).2
                  (env.target1 edge1) (env.target2 edge2) name).1))))) := by
  have hne1 : items1 ≠ [] := List.ne_nil_of_mem h1
  have hl1 : 1 ≤ items1.length := List.length_pos.mpr hne1
  unfold edgeBody
  by_cases h0 : items1.length ≠ 1 ∨ items2.length ≠ 1
  · rw [if_pos h0]
    by_cases h2 : items1.length ≥ 1 ∧ items2.length ≥ 1
    · rw [if_pos h2]
      have hne2 : items2 ≠ [] := List.length_pos.mp h2.2
      simp only [addFlags_eq]
      have hfl : (s.trace ++ List.map (fun e => Event.flag key true e (1 <<< d)) items1) ++
          List.map (fun e => Event.flag key false e (1 <<< d)) items2 =
          s.trace ++ flagEvents key (1 <<< d) items1 items2 := by
        simp [flagEvents]
      rcases hst : s.steps with _ | ⟨step, l⟩
      · refine ⟨_, true, flagEvents key (1 <<< d) items1 items2, rfl, hfl, rfl,
          Or.inr (Or.inl ⟨rfl, hne2, h0, Or.inl ⟨rfl, rfl, rfl, rfl⟩⟩)⟩
      · simp only []
        rcases continueWithNext_cases env key
          (verticesOf env.source1 env.target1
            (env.GetFixedPoint1 (flagState env (1 <<< d) items1 items2 s.state)) items1)
          (verticesOf env.source2 env.target2
            (env.GetFixedPoint2 (flagState env (1 <<< d) items1 items2 s.state)) items2)
          (⟨flagState env (1 <<< d) items1 items2 s.state, step :: l, s.found,
            (s.trace ++ List.map (fun e => Event.flag key true e (1 <<< d)) items1) ++
              List.map (fun e => Event.flag key false e (1 <<< d)) items2⟩ : Inner σ S)
          (fun step1 l1 hh _ _ => by
            have hh1 : step :: l = step1 :: l1 := hh
            have hs1 : step = step1 := (List.cons.inj hh1).1
            have := hcall step l hst
            rw [hst] at this
            rw [← hs1]
            exact this) with ⟨hc, _⟩ | ⟨step1, l0, b, st, l1, c1, _, _, c4, hc⟩
        · refine ⟨⟨flagState env (1 <<< d) items1 items2 s.state, step :: l, s.found,
              (s.trace ++ List.map (fun e => Event.flag key true e (1 <<< d)) items1) ++
                List.map (fun e => Event.flag key false e (1 <<< d)) items2⟩, true,
            flagEvents key (1 <<< d) items1 items2, ?_, hfl, rfl,
            Or.inr (Or.inl ⟨rfl, hne2, h0, Or.inl ⟨rfl, rfl, rfl, rfl⟩⟩)⟩
          unfold flagState at hc
          rw [hc]
          rfl
        · have hs1 : step1 = step := by
            have hh1 : step :: l = step1 :: l0 := c1
            exact (List.cons.inj hh1).1.symm
          subst hs1
          refine ⟨⟨st, step1 :: l1, s.found || b, ((s.trace ++
              List.map (fun e => Event.flag key true e (1 <<< d)) items1) ++
              List.map (fun e => Event.flag key false e (1 <<< d)) items2) ++
              [Event.next key step1
              (verticesOf env.source1 env.target1
                (env.GetFixedPoint1 (flagState env (1 <<< d) items1 items2 s.state)) items1)
              (verticesOf env.source2 env.target2
                (env.GetFixedPoint2 (flagState env (1 <<< d) items1 items2 s.state)) items2) b]⟩, true,
            flagEvents key (1 <<< d) items1 items2 ++ [Event.next key step1
              (verticesOf env.source1 env.target1
                (env.GetFixedPoint1 (flagState env (1 <<< d) items1 items2 s.state)) items1)
              (verticesOf env.source2 env.target2
                (env.GetFixedPoint2 (flagState env (1 <<< d) items1 items2 s.state)) items2) b],
            ?_, ?_, rfl, Or.inr (Or.inl ⟨rfl, hne2, h0, Or.inr
              ⟨step1, l, b, st, l1, rfl, c4, rfl, rfl, rfl, rfl⟩⟩)⟩
          · unfold flagState at hc
            rw [hc]
            rfl
          · show _ ++ _ = _
            rw [hfl, List.append_assoc]
    · rw [if_neg h2]
      refine ⟨s, true, [], rfl, by simp, rfl, Or.inl ⟨rfl, ?_, rfl, rfl⟩⟩
      have : items2.length = 0 := by omega
      exact List.length_eq_zero.mp this
  · rw [if_neg h0]
    have hi1 : items1.length = 1 := by omega
    have hi2 : items2.length = 1 := by omega
    obtain ⟨a, ha⟩ := List.length_eq_one.mp hi1
    obtain ⟨edge2, hb⟩ := List.length_eq_one.mp hi2
    have hae : a = edge1 := by
      rw [ha] at h1
      exact (List.mem_singleton.mp h1).symm
    subst hae
    have hh : items2.head? = some edge2 := by rw [hb]; rfl
    rw [hh]
    dsimp only
    split
    · rename_i hr
      exact ⟨_, false, _, rfl, rfl, rfl, Or.inr (Or.inr ⟨rfl, edge2, ha, hb, rfl,
        Or.inl ⟨hr, by rw [hr], rfl, rfl⟩⟩)⟩
    · rename_i hr
      have hr1 : (env.Add s.state (env.source1 a) (env.source2 edge2) name).1 = false := by
        simpa using hr
      refine ⟨_, false, [Event.add key (env.source1 a) (env.source2 edge2) name false,
          Event.add key (env.target1 a) (env.target2 edge2) name
            (env.Add (env.Add s.state (env.source1 a) (env.source2 edge2) name).2
              (env.target1 a) (env.target2 edge2) name).1],
        rfl, ?_, rfl, Or.inr (Or.inr ⟨rfl, edge2, ha, hb, rfl,
        Or.inr ⟨hr1, rfl, rfl, rfl⟩⟩)⟩
      simp [hr1]

/-- Rounds preserve what every round preserves. -/
theorem entryFold_inner_inv {σ S : Type} (body : Body σ S) (m1 m2 : MultiMap)
    (I : Inner σ S → Prop)
    (hbody : ∀ k v s, (k, v) ∈ m1 → I s →
      ∃ s1 j, body k v (m1.equal_range k) (m2.equal_range k) s = some (s1, j) ∧ I s1)
    (s0 : Inner σ S) (h0 : I s0) :
    ∃ s1 E1, entryFold body m1 m2 m1 [] s0 = some (s1, E1) ∧ I s1 := by
  have key := entryFold_rule body m1 m2 (fun todo s _ => (∀ e ∈ todo, e ∈ m1) ∧ I s)
    (fun k v T s E h _ => ⟨fun e he => h.1 e (List.mem_cons_of_mem _ he), h.2⟩)
    (fun k v T s E h _ => by
      obtain ⟨s1, j, hb, hi⟩ := hbody k v s (h.1 _ (List.mem_cons_self _ _)) h.2
      exact ⟨s1, j, hb, fun e he => h.1 e (List.mem_cons_of_mem _ he), hi⟩)
    m1 s0 [] ⟨fun e he => he, h0⟩
  obtain ⟨s1, E1, h1, _, h2⟩ := key
  exact ⟨s1, E1, h1, h2⟩

theorem FoundIffPositive_step {σ S : Type} {s s1 : Inner σ S} {ext : List (Event S)} {b : Bool}
    (h : FoundIffPositive s) (ht : s1.trace = s.trace ++ ext) (hf : s1.found = (s.found || b))
    (hb : b = true ↔ ∃ e ∈ ext, e.positive = true) : FoundIffPositive s1 := by
  unfold FoundIffPositive at *
  rw [hf, ht]
  simp only [Bool.or_eq_true, List.mem_append]
  constructor
  · rintro (h1 | h1)
    · obtain ⟨e, he, hp⟩ := h.mp h1
      exact ⟨e, Or.inl he, hp⟩
    · obtain ⟨e, he, hp⟩ := hb.mp h1
      exact ⟨e, Or.inr he, hp⟩
  · rintro ⟨e, he | he, hp⟩
    · exact Or.inl (h.mpr ⟨e, he, hp⟩)
    · exact Or.inr (hb.mpr ⟨e, he, hp⟩)

theorem flagEvents_not_positive {S : Type} (key flag : Nat) (items1 items2 : List Edge) :
    ∀ e ∈ (flagEvents key flag items1 items2 : List (Event S)), e.positive = false := by
  intro e he
  simp only [flagEvents, List.mem_append, List.mem_map] at he
  rcases he with ⟨_, _, rfl⟩ | ⟨_, _, rfl⟩ <;> rfl

theorem vertexBody_found {σ S : Type} (env : Env σ S) (hret : env.Returns) (name : String)
    (m1 m2 : MultiMap) (k v : Nat) (s : Inner σ S) (hm : (k, v) ∈ m1)
    (h : FoundIffPositive s) :
    ∃ s1 j, vertexBody env name k v (m1.equal_range k) (m2.equal_range k) s = some (s1, j) ∧
      FoundIffPositive s1 := by
  obtain ⟨s1, j, ext, hb, htr, _, hcase⟩ :=
    vertexBody_spec env name k v (m1.equal_range k) (m2.equal_range k) s
      ((mem_equal_range m1 k v).mpr hm) (fun step l _ => hret step _ _ _ _)
  refine ⟨s1, j, hb, ?_⟩
  rcases hcase with ⟨_, _, _, hx⟩ | ⟨_, v2, _, _, _, hx, _, hf⟩ | ⟨_, _, _, hx⟩
  · rw [hx]; exact h
  · refine FoundIffPositive_step h htr hf ?_
    rw [hx]
    simp [Event.positive]
  · rcases hx with ⟨_, _, hx⟩ | ⟨step, l, b, st1, l1, _, _, hx, _, _, hf⟩
    · rw [hx]; exact h
    · refine FoundIffPositive_step h htr hf ?_
      rw [hx]
      simp [Event.positive]

theorem edgeBody_found {σ S : Type} (env : Env σ S) (hret : env.Returns) (name : String)
    (d : Nat) (m1 m2 : MultiMap) (k v : Nat) (s : Inner σ S) (hm : (k, v) ∈ m1)
    (h : FoundIffPositive s) :
    ∃ s1 j, edgeBody env name d k v (m1.equal_range k) (m2.equal_range k) s = some (s1, j) ∧
      FoundIffPositive s1 := by
  obtain ⟨s1, j, ext, hb, htr, _, hcase⟩ :=
    edgeBody_spec env name d k v (m1.equal_range k) (m2.equal_range k) s
      ((mem_equal_range m1 k v).mpr hm) (fun step l _ => hret step _ _ _ _)
  refine ⟨s1, j, hb, ?_⟩
  rcases hcase with ⟨_, _, _, hx⟩ | ⟨_, _, _, hx⟩ | ⟨_, e2, _, _, _, hx⟩
  · rw [hx]; exact h
  · rcases hx with ⟨hx, _, _, hf⟩ | ⟨step, l, b, st1, l1, _, _, hx, _, _, hf⟩
    · refine FoundIffPositive_step (b := false) h htr (by rw [hf]; simp) ?_
      rw [hx]
      constructor
      · intro hh; exact absurd hh (by simp)
      · rintro ⟨e, he, hp⟩
        rw [flagEvents_not_positive _ _ _ _ e he] at hp
        exact absurd hp (by simp)
    · refine FoundIffPositive_step h htr hf ?_
      rw [hx]
      constructor
      · intro hh
        exact ⟨_, List.mem_append_right _ (List.mem_singleton.mpr rfl), by simpa [Event.positive] using hh⟩
      · rintro ⟨e, he, hp⟩
        rcases List.mem_append.mp he with he | he
        · rw [flagEvents_not_positive _ _ _ _ e he] at hp
          exact absurd hp (by simp)
        · rw [List.mem_singleton] at he
          rw [he] at hp
          simpa [Event.positive] using hp
  · rcases hx with ⟨_, hx, _, hf⟩ | ⟨_, hx, _, hf⟩
    · refine FoundIffPositive_step (b := true) h htr (by rw [hf]; simp) ?_
      rw [hx]
      simp [Event.positive]
    · refine FoundIffPositive_step h htr hf ?_
      rw [hx]
      simp [Event.positive]

/-- C8: each of the two cascades returns `true` if and only if one of its
    own calls of `FixedPoint::Add` was accepted or a cascaded step returned
    `true`; so it returns `false` when every `Add` was rejected and no
    cascaded step reported a new fixed point. -/
theorem cascade_returns_true_iff {σ S : Type} (env : Env σ S) (hret : env.Returns)
    (map1 map2 : MultiMap) (hs : map1.Sorted) (st : σ) (front : S) (rest : List S) :
    (∃ r, FindFixedPointsBasicBlockInternal env map1 map2 st (front :: rest) = some r ∧
      (r.found = true ↔ ∃ e ∈ r.trace, e.positive = true)) ∧
    (∃ r, FindFixedPointsBasicBlockEdgeInternal env map1 map2 st (front :: rest) = some r ∧
      (r.found = true ↔ ∃ e ∈ r.trace, e.positive = true)) := by
  have h0 : FoundIffPositive (⟨st, rest, false, []⟩ : Inner σ S) := by
    simp [FoundIffPositive]
  constructor
  · obtain ⟨s1, E1, h1, h2⟩ := entryFold_inner_inv (vertexBody env (env.GetName front)) map1
      map2 FoundIffPositive
      (fun k v s hm hi => vertexBody_found env hret _ map1 map2 k v s hm hi) _ h0
    rw [FindFixedPointsBasicBlockInternal_eq env map1 map2 hs, h1]
    exact ⟨_, rfl, h2⟩
  · obtain ⟨s1, E1, h1, h2⟩ := entryFold_inner_inv
      (edgeBody env (env.GetName front) rest.length) map1 map2 FoundIffPositive
      (fun k v s hm hi => edgeBody_found env hret _ _ map1 map2 k v s hm hi) _ h0
    rw [FindFixedPointsBasicBlockEdgeInternal_eq env map1 map2 hs, h1]
    exact ⟨_, rfl, h2⟩

/-! ## Invariants of the shared state and the step list -/

/-- A property of the shared state kept by `Add` and by the steps called on
    the remaining list `rest`, which hand that list back without its front,
    is kept by the vertex cascade, which itself hands back `rest`. -/
theorem vertexCascade_inv {σ S : Type} (env : Env σ S) (I : σ → Prop) (rest : List S)
    (hAdd : ∀ st a b n, I st → I (env.Add st a b n).2)
    (hNext : ∀ step l, rest = step :: l → ∀ bb1 bb2 st, I st →
      ∃ b st1, env.FindFixedPoints step bb1 bb2 st rest = some (b, st1, l) ∧ I st1)
    (m1 m2 : MultiMap) (hs : m1.Sorted) (st : σ) (hst : I st) (front : S) :
    ∃ r, FindFixedPointsBasicBlockInternal env m1 m2 st (front :: rest) = some r ∧
      I r.state ∧ r.steps = rest := by
  obtain ⟨s1, E1, h1, h2, h3⟩ := entryFold_inner_inv (vertexBody env (env.GetName front)) m1 m2
    (fun s => I s.state ∧ s.steps = rest)
    (fun k v s hm hi => by
      obtain ⟨hi1, hi2⟩ := hi
      have hcall : ∀ step l, s.steps = step :: l →
          (env.FindFixedPoints step (collect (m1.equal_range k) [])
            (collect (m2.equal_range k) []) s.state s.steps).isSome = true := by
        intro step l hsl
        obtain ⟨b, st1, hf, _⟩ := hNext step l (hi2.symm.trans hsl) (collect (m1.equal_range k) [])
          (collect (m2.equal_range k) []) s.state hi1
        rw [hi2, hf]
        rfl
      obtain ⟨s1, j, ext, hb, _, _, hcase⟩ :=
        vertexBody_spec env (env.GetName front) k v (m1.equal_range k) (m2.equal_range k) s
          ((mem_equal_range m1 k v).mpr hm) hcall
      refine ⟨s1, j, hb, ?_⟩
      rcases hcase with ⟨_, _, _, hx⟩ | ⟨_, v2, _, _, hx1, _, hx2, _⟩ | ⟨_, _, _, hx⟩
      · rw [hx]; exact ⟨hi1, hi2⟩
      · rw [hx1, hx2]; exact ⟨hAdd _ _ _ _ hi1, hi2⟩
      · rcases hx with ⟨_, _, hx⟩ | ⟨step, l, b, st1, l1, hsl, hf, _, hx1, hx2, _⟩
        · rw [hx]; exact ⟨hi1, hi2⟩
        · obtain ⟨b2, st2, hf2, hI2⟩ := hNext step l (hi2.symm.trans hsl)
            (collect (m1.equal_range k) []) (collect (m2.equal_range k) []) s.state hi1
          rw [hi2, hf2] at hf
          have hf3 := Option.some.inj hf
          have e1 : st2 = st1 := congrArg (fun p => p.2.1) hf3
          have e2 : l = l1 := congrArg (fun p => p.2.2) hf3
          rw [hx1, hx2, ← e1, ← e2]
          exact ⟨hI2, (hi2.symm.trans hsl).symm⟩)
    ⟨st, rest, false, []⟩ ⟨hst, rfl⟩
  rw [FindFixedPointsBasicBlockInternal_eq env m1 m2 hs, h1]
  exact ⟨_, rfl, h2, h3⟩

theorem flagState_inv {σ S : Type} (env : Env σ S) (I : σ → Prop)
    (hFlag1 : ∀ st e f, I st → I (env.AddFlag1 st e f))
    (hFlag2 : ∀ st e f, I st → I (env.AddFlag2 st e f)) (flag : Nat)
    (items1 items2 : List Edge) (st : σ) (h : I st) :
    I (flagState env flag items1 items2 st) := by
  unfold flagState
  have h1 : I (items1.foldl (fun acc e => env.AddFlag1 acc e flag) st) := by
    induction items1 generalizing st with
    | nil => exact h
    | cons e items ih => exact ih _ (hFlag1 _ _ _ h)
  generalize items1.foldl (fun acc e => env.AddFlag1 acc e flag) st = st1 at h1
  induction items2 generalizing st1 with
  | nil => exact h1
  | cons e items ih => exact ih _ (hFlag2 _ _ _ h1)

/-- The same for the edge cascade, for a property also kept by `AddFlag`. -/
theorem edgeCascade_inv {σ S : Type} (env : Env σ S) (I : σ → Prop) (rest : List S)
    (hAdd : ∀ st a b n, I st → I (env.Add st a b n).2)
    (hFlag1 : ∀ st e f, I st → I (env.AddFlag1 st e f))
    (hFlag2 : ∀ st e f, I st → I (env.AddFlag2 st e f))
    (hNext : ∀ step l, rest = step :: l → ∀ bb1 bb2 st, I st →
      ∃ b st1, env.FindFixedPoints step bb1 bb2 st rest = some (b, st1, l) ∧ I st1)
    (m1 m2 : MultiMap) (hs : m1.Sorted) (st : σ) (hst : I st) (front : S) :
    ∃ r, FindFixedPointsBasicBlockEdgeInternal env m1 m2 st (front :: rest) = some r ∧
      I r.state ∧ r.steps = rest := by
  obtain ⟨s1, E1, h1, h2, h3⟩ := entryFold_inner_inv
    (edgeBody env (env.GetName front) rest.length) m1 m2
    (fun s => I s.state ∧ s.steps = rest)
    (fun k v s hm hi => by
      obtain ⟨hi1, hi2⟩ := hi
      have hIf := flagState_inv env I hFlag1 hFlag2 (1 <<< rest.length) (m1.equal_range k)
        (m2.equal_range k) s.state hi1
      have hcall : ∀ step l, s.steps = step :: l →
          (env.FindFixedPoints step
            (verticesOf env.source1 env.target1
              (env.GetFixedPoint1 (flagState env (1 <<< rest.length) (m1.equal_range k)
                (m2.equal_range k) s.state)) (m1.equal_range k))
            (verticesOf env.source2 env.target2
              (env.GetFixedPoint2 (flagState env (1 <<< rest.length) (m1.equal_range k)
                (m2.equal_range k) s.state)) (m2.equal_range k))
            (flagState env (1 <<< rest.length) (m1.equal_range k) (m2.equal_range k) s.state)
            s.steps).isSome = true := by
        intro step l hsl
        obtain ⟨b, st1, hf, _⟩ := hNext step l (hi2.symm.trans hsl) _ _ _ hIf
        rw [hi2, hf]
        rfl
      obtain ⟨s1, j, ext, hb, _, _, hcase⟩ :=
        edgeBody_spec env (env.GetName front) rest.length k v (m1.equal_range k)
          (m2.equal_range k) s ((mem_equal_range m1 k v).mpr hm) hcall
      refine ⟨s1, j, hb, ?_⟩
      rcases hcase with ⟨_, _, _, hx⟩ | ⟨_, _, _, hx⟩ | ⟨_, e2, _, _, hx1, hx⟩
      · rw [hx]; exact ⟨hi1, hi2⟩
      · rcases hx with ⟨_, hx1, hx2, _⟩ | ⟨step, l, b, st1, l1, hsl, hf, _, hx1, hx2, _⟩
        · rw [hx1, hx2]; exact ⟨hIf, hi2⟩
        · obtain ⟨b2, st2, hf2, hI2⟩ := hNext step l (hi2.symm.trans hsl) _ _ _ hIf
          rw [hi2, hf2] at hf
          have hf3 := Option.some.inj hf
          have e1 : st2 = st1 := congrArg (fun p => p.2.1) hf3
          have e2 : l = l1 := congrArg (fun p => p.2.2) hf3
          rw [hx1, hx2, ← e1, ← e2]
          exact ⟨hI2, (hi2.symm.trans hsl).symm⟩
      · rcases hx with ⟨_, _, hx2, _⟩ | ⟨_, _, hx2, _⟩
        · rw [hx1, hx2]; exact ⟨hAdd _ _ _ _ hi1, hi2⟩
        · rw [hx1, hx2]; exact ⟨hAdd _ _ _ _ (hAdd _ _ _ _ hi1), hi2⟩)
    ⟨st, rest, false, []⟩ ⟨hst, rfl⟩
  rw [FindFixedPointsBasicBlockEdgeInternal_eq env m1 m2 hs, h1]
  exact ⟨_, rfl, h2, h3⟩

/-- A step that runs a cascade, called at the front of a list no longer than
    the depth bound allows, returns, hands the list back without its front
    and keeps every property of the shared state that `Add` and `AddFlag`
    keep. -/
theorem CascadeStep.FindFixedPoints_inv {σ : Type} (ops : Ops σ) (I : σ → Prop)
    (hAdd : ∀ st a b n, I st → I (ops.Add st a b n).2)
    (hFlag1 : ∀ st e f, I st → I (ops.AddFlag1 st e f))
    (hFlag2 : ∀ st e f, I st → I (ops.AddFlag2 st e f)) :
    ∀ (depth : Nat) (step : CascadeStep σ) (l : List (CascadeStep σ))
      (vs1 vs2 : VertexSet) (st : σ), I st → l.length ≤ depth →
      (∀ s ∈ step :: l, ∀ st vs1 vs2, (s.maps st vs1 vs2).1.Sorted) →
      ∃ b st1, CascadeStep.FindFixedPoints ops (depth + 1) step vs1 vs2 st (step :: l) =
        some (b, st1, l) ∧ I st1 := by
  intro depth
  induction depth with
  | zero =>
    intro step l vs1 vs2 st hst hl hsorted
    have hl0 : l = [] := List.length_eq_zero.mp (Nat.le_zero.mp hl)
    subst hl0
    have hNext : ∀ step1 l1, ([] : List (CascadeStep σ)) = step1 :: l1 → ∀ bb1 bb2 st, I st →
        ∃ b st1, (closureEnv ops (CascadeStep.FindFixedPoints ops 0)).FindFixedPoints step1
          bb1 bb2 st [] = some (b, st1, l1) ∧ I st1 := by
      intro step1 l1 h
      exact absurd h (by simp)
    have hso := hsorted step (List.mem_cons_self _ _) st vs1 vs2
    unfold CascadeStep.FindFixedPoints
    by_cases he : step.edge_matching_ = true
    · obtain ⟨r, h1, h2, h3⟩ := edgeCascade_inv
        (closureEnv ops (CascadeStep.FindFixedPoints ops 0)) I [] hAdd hFlag1 hFlag2 hNext
        (step.maps st vs1 vs2).1 (step.maps st vs1 vs2).2 hso st hst step
      refine ⟨r.found, r.state, ?_, h2⟩
      simp only [he, if_true, h1, Option.map_some', h3]
    · obtain ⟨r, h1, h2, h3⟩ := vertexCascade_inv
        (closureEnv ops (CascadeStep.FindFixedPoints ops 0)) I [] hAdd hNext
        (step.maps st vs1 vs2).1 (step.maps st vs1 vs2).2 hso st hst step
      have he1 : step.edge_matching_ = false := by simpa using he
      refine ⟨r.found, r.state, ?_, h2⟩
      simp only [he1, Bool.false_eq_true, if_false, h1, Option.map_some', h3]
  | succ depth ih =>
    intro step l vs1 vs2 st hst hl hsorted
    have hNext : ∀ step1 l1, l = step1 :: l1 → ∀ bb1 bb2 st, I st →
        ∃ b st1, (closureEnv ops (CascadeStep.FindFixedPoints ops (depth + 1))).FindFixedPoints
          step1 bb1 bb2 st l = some (b, st1, l1) ∧ I st1 := by
      intro step1 l1 h bb1 bb2 st0 hst0
      subst h
      exact ih step1 l1 bb1 bb2 st0 hst0 (by simpa using hl)
        (fun s hs => hsorted s (List.mem_cons_of_mem _ hs))
    have hso := hsorted step (List.mem_cons_self _ _) st vs1 vs2
    unfold CascadeStep.FindFixedPoints
    by_cases he : step.edge_matching_ = true
    · obtain ⟨r, h1, h2, h3⟩ := edgeCascade_inv
        (closureEnv ops (CascadeStep.FindFixedPoints ops (depth + 1))) I l hAdd hFlag1 hFlag2
        hNext (step.maps st vs1 vs2).1 (step.maps st vs1 vs2).2 hso st hst step
      refine ⟨r.found, r.state, ?_, h2⟩
      simp only [he, if_true, h1, Option.map_some', h3]
    · obtain ⟨r, h1, h2, h3⟩ := vertexCascade_inv
        (closureEnv ops (CascadeStep.FindFixedPoints ops (depth + 1))) I l hAdd hNext
        (step.maps st vs1 vs2).1 (step.maps st vs1 vs2).2 hso st hst step
      have he1 : step.edge_matching_ = false := by simpa using he
      refine ⟨r.found, r.state, ?_, h2⟩
      simp only [he1, Bool.false_eq_true, if_false, h1, Option.map_some', h3]

/-- The dispatch at a sufficient depth behaves on the remaining list `rest` as
    the cascade lemmas require. -/
theorem closure_next {σ : Type} (ops : Ops σ) (I : σ → Prop)
    (hAdd : ∀ st a b n, I st → I (ops.Add st a b n).2)
    (hFlag1 : ∀ st e f, I st → I (ops.AddFlag1 st e f))
    (hFlag2 : ∀ st e f, I st → I (ops.AddFlag2 st e f))
    (rest : List (CascadeStep σ)) (depth : Nat) (hd : rest.length ≤ depth)
    (hsorted : ∀ s ∈ rest, ∀ st vs1 vs2, (s.maps st vs1 vs2).1.Sorted) :
    ∀ step l, rest = step :: l → ∀ bb1 bb2 st, I st →
      ∃ b st1, (closureEnv ops (CascadeStep.FindFixedPoints ops depth)).FindFixedPoints step
        bb1 bb2 st rest = some (b, st1, l) ∧ I st1 := by
  intro step l h bb1 bb2 st hst
  subst h
  cases depth with
  | zero => simp at hd
  | succ depth =>
    exact CascadeStep.FindFixedPoints_inv ops I hAdd hFlag1 hFlag2 depth step l bb1 bb2 st hst
      (by simpa using hd) hsorted

theorem NoDouble_append {pairs : List (Vertex × Vertex)} {a b : Vertex}
    (h : NoDouble pairs) (ha : a ∉ pairs.map Prod.fst) (hb : b ∉ pairs.map Prod.snd) :
    NoDouble (pairs ++ [(a, b)]) := by
  unfold NoDouble at *
  simp only [List.map_append, List.map_cons, List.map_nil]
  constructor
  · rw [List.nodup_append]
    refine ⟨h.1, List.nodup_singleton _, ?_⟩
    intro x hx hx2
    rw [List.mem_singleton] at hx2
    exact ha (hx2 ▸ hx)
  · rw [List.nodup_append]
    refine ⟨h.2, List.nodup_singleton _, ?_⟩
    intro x hx hx2
    rw [List.mem_singleton] at hx2
    exact hb (hx2 ▸ hx)

/-- C9: let `Add` reject a pair, leaving the fixed point as it is, when either
    vertex is already matched in it, and otherwise record at most the offered
    pair, and let `AddFlag` leave the fixed point alone. Then every run of the
    vertex cascade and of the edge cascade, on any maps and any list of steps
    that themselves run cascades, started from a fixed point in which no
    primary and no secondary vertex occurs twice, returns and ends in a fixed
    point with the same property. -/
theorem cascade_no_double_match {σ : Type} (ops : Ops σ) (pairs : σ → List (Vertex × Vertex))
    (hReject : ∀ st a b n, a ∈ (pairs st).map Prod.fst ∨ b ∈ (pairs st).map Prod.snd →
      (ops.Add st a b n).1 = false ∧ pairs (ops.Add st a b n).2 = pairs st)
    (hRecord : ∀ st a b n, pairs (ops.Add st a b n).2 = pairs st ∨
      pairs (ops.Add st a b n).2 = pairs st ++ [(a, b)])
    (hFlag1 : ∀ st e f, pairs (ops.AddFlag1 st e f) = pairs st)
    (hFlag2 : ∀ st e f, pairs (ops.AddFlag2 st e f) = pairs st)
    (front : CascadeStep σ) (rest : List (CascadeStep σ)) (depth : Nat)
    (hd : rest.length ≤ depth)
    (hsorted : ∀ s ∈ rest, ∀ st vs1 vs2, (s.maps st vs1 vs2).1.Sorted)
    (map1 map2 : MultiMap) (hs : map1.Sorted) (st : σ) (hst : NoDouble (pairs st)) :
    (∃ r, FindFixedPointsBasicBlockInternal
        (closureEnv ops (CascadeStep.FindFixedPoints ops depth)) map1 map2 st (front :: rest) =
          some r ∧ NoDouble (pairs r.state)) ∧
    (∃ r, FindFixedPointsBasicBlockEdgeInternal
        (closureEnv ops (CascadeStep.FindFixedPoints ops depth)) map1 map2 st (front :: rest) =
          some r ∧ NoDouble (pairs r.state)) := by
  have hAdd : ∀ st a b n, NoDouble (pairs st) → NoDouble (pairs (ops.Add st a b n).2) := by
    intro st a b n h
    rcases hRecord st a b n with h1 | h1
    · rw [h1]; exact h
    · rw [h1]
      have hnot : ¬ (a ∈ (pairs st).map Prod.fst ∨ b ∈ (pairs st).map Prod.snd) := by
        intro hm
        have h2 := (hReject st a b n hm).2
        rw [h1] at h2
        have := congrArg List.length h2
        simp at this
      exact NoDouble_append h (fun hh => hnot (Or.inl hh)) (fun hh => hnot (Or.inr hh))
  have hF1 : ∀ st e f, NoDouble (pairs st) → NoDouble (pairs (ops.AddFlag1 st e f)) := by
    intro st e f h; rw [hFlag1]; exact h
  have hF2 : ∀ st e f, NoDouble (pairs st) → NoDouble (pairs (ops.AddFlag2 st e f)) := by
    intro st e f h; rw [hFlag2]; exact h
  have hNext := closure_next ops (fun st => NoDouble (pairs st)) hAdd hF1 hF2 rest depth hd
    hsorted
  constructor
  · obtain ⟨r, h1, h2, _⟩ := vertexCascade_inv
      (closureEnv ops (CascadeStep.FindFixedPoints ops depth)) (fun st => NoDouble (pairs st))
      rest hAdd hNext map1 map2 hs st hst front
    exact ⟨r, h1, h2⟩
  · obtain ⟨r, h1, h2, _⟩ := edgeCascade_inv
      (closureEnv ops (CascadeStep.FindFixedPoints ops depth)) (fun st => NoDouble (pairs st))
      rest hAdd hF1 hF2 hNext map1 map2 hs st hst front
    exact ⟨r, h1, h2⟩

/-! ## Building the maps of `MatchingStepInstructionCount` -/

theorem emplace_perm (m : MultiMap) (k v : Nat) : List.Perm (m.emplace k v) ((k, v) :: m) := by
  unfold MultiMap.emplace
  have h : List.Perm (m.take (m.upper_bound k) ++ (k, v) :: m.drop (m.upper_bound k))
      ((k, v) :: (m.take (m.upper_bound k) ++ m.drop (m.upper_bound k))) := List.perm_middle
  rw [List.take_append_drop] at h
  exact h

theorem take_upper_bound (m : MultiMap) (k : Nat) :
    m.take (m.upper_bound k) = m.takeWhile (fun e => decide (e.1 ≤ k)) := by
  unfold MultiMap.upper_bound
  induction m with
  | nil => rfl
  | cons e m ih =>
    by_cases h : e.1 ≤ k
    · simp [List.takeWhile_cons, h, ih]
    · simp [List.takeWhile_cons, h]

theorem drop_upper_bound (m : MultiMap) (k : Nat) :
    m.drop (m.upper_bound k) = m.dropWhile (fun e => decide (e.1 ≤ k)) := by
  unfold MultiMap.upper_bound
  induction m with
  | nil => rfl
  | cons e m ih =>
    by_cases h : e.1 ≤ k
    · simp [List.takeWhile_cons, List.dropWhile_cons, h, ih]
    · simp [List.takeWhile_cons, List.dropWhile_cons, h]

theorem dropWhile_gt_of_sorted (m : MultiMap) (hs : m.Sorted) (k : Nat) :
    ∀ b ∈ m.dropWhile (fun e => decide (e.1 ≤ k)), k < b.1 := by
  induction m with
  | nil => intro b hb; simp at hb
  | cons e m ih =>
    intro b hb
    have hs2 := List.pairwise_cons.mp hs
    by_cases h : e.1 ≤ k
    · simp only [List.dropWhile_cons, h, decide_True, if_true] at hb
      exact ih hs2.2 b hb
    · simp only [List.dropWhile_cons, h, decide_False, Bool.false_eq_true, if_false] at hb
      rcases List.mem_cons.mp hb with hb | hb
      · rw [hb]; omega
      · have := hs2.1 b hb
        omega

/-- Member `emplace` keeps the keys ascending. -/
theorem emplace_sorted (m : MultiMap) (hs : m.Sorted) (k v : Nat) : (m.emplace k v).Sorted := by
  unfold MultiMap.emplace MultiMap.Sorted
  rw [take_upper_bound, drop_upper_bound]
  have hsplit : m.takeWhile (fun e => decide (e.1 ≤ k)) ++
      m.dropWhile (fun e => decide (e.1 ≤ k)) = m := List.takeWhile_append_dropWhile _ _
  have hs1 : (m.takeWhile (fun e => decide (e.1 ≤ k)) ++
      m.dropWhile (fun e => decide (e.1 ≤ k))).Pairwise (fun a b => a.1 ≤ b.1) := by
    rw [hsplit]; exact hs
  rw [List.pairwise_append] at hs1 ⊢
  obtain ⟨p1, p2, p3⟩ := hs1
  have hgt := dropWhile_gt_of_sorted m hs k
  refine ⟨p1, List.pairwise_cons.mpr ⟨fun b hb => le_of_lt (hgt b hb), p2⟩, ?_⟩
  intro a ha b hb
  rcases List.mem_cons.mp hb with hb | hb
  · rw [hb]
    have := List.mem_takeWhile_imp ha
    simpa using this
  · exact p3 a ha b hb

theorem GetUnmatched_foldl_perm (matched : Vertex → Bool) (key : Vertex → Nat) :
    ∀ (vs : List Vertex) (acc : MultiMap),
      List.Perm
        (vs.foldl (fun (m : MultiMap) vertex =>
          if !matched vertex then m.emplace (key vertex) vertex else m) acc)
        (acc ++ (vs.filter (fun v => !matched v)).map (fun v => (key v, v))) := by
  intro vs
  induction vs with
  | nil => intro acc; simp
  | cons v vs ih =>
    intro acc
    simp only [List.foldl_cons]
    by_cases hm : matched v = true
    · simp only [hm, Bool.not_true, Bool.false_eq_true, if_false, List.filter_cons]
      exact ih acc
    · have hm1 : matched v = false := by simpa using hm
      simp only [hm1, Bool.not_false, if_true, List.filter_cons, List.map_cons]
      refine (ih _).trans ?_
      refine ((emplace_perm acc (key v) v).append_right _).trans ?_
      simp only [List.cons_append]
      exact List.perm_middle.symm

theorem GetUnmatched_foldl_sorted (matched : Vertex → Bool) (key : Vertex → Nat) :
    ∀ (vs : List Vertex) (acc : MultiMap), acc.Sorted →
      (vs.foldl (fun (m : MultiMap) vertex =>
        if !matched vertex then m.emplace (key vertex) vertex else m) acc).Sorted := by
  intro vs
  induction vs with
  | nil => intro acc h; exact h
  | cons v vs ih =>
    intro acc h
    simp only [List.foldl_cons]
    apply ih
    split
    · exact emplace_sorted acc h _ _
    · exact h

/-- The map built by `GetUnmatchedBasicBlocksByInstructionCount` has ascending
    keys. -/
theorem GetUnmatchedBasicBlocksByInstructionCount_sorted (matched : Vertex → Bool)
    (imd ic : Vertex → Nat) (vs : VertexSet) (old : MultiMap) :
    (GetUnmatchedBasicBlocksByInstructionCount matched imd ic vs old).Sorted :=
  GetUnmatched_foldl_sorted matched _ vs [] List.Pairwise.nil

/-- The map built by `GetUnmatchedBasicBlocksByInstructionCount` holds one
    entry for each vertex of the set that has no fixed point, and no other. -/
theorem GetUnmatchedBasicBlocksByInstructionCount_perm (matched : Vertex → Bool)
    (imd ic : Vertex → Nat) (vs : VertexSet) (old : MultiMap) :
    List.Perm (GetUnmatchedBasicBlocksByInstructionCount matched imd ic vs old)
      ((vs.filter (fun v => !matched v)).map (fun v => (instructionCountKey imd ic v, v))) := by
  have := GetUnmatched_foldl_perm matched (instructionCountKey imd ic) vs []
  simpa [GetUnmatchedBasicBlocksByInstructionCount] using this

theorem emplace_strict (set : VertexSet) (hs : set.Pairwise (fun a b => a < b)) (v : Nat) :
    (VertexSet.emplace set v).Pairwise (fun a b => a < b) := by
  induction set with
  | nil => simp [VertexSet.emplace]
  | cons a set ih =>
    have hs2 := List.pairwise_cons.mp hs
    by_cases h1 : v < a
    · simp only [VertexSet.emplace, h1, if_true]
      refine List.pairwise_cons.mpr ⟨?_, hs⟩
      intro b hb
      rcases List.mem_cons.mp hb with hb | hb
      · rw [hb]; exact h1
      · exact lt_trans h1 (hs2.1 b hb)
    · by_cases h2 : v = a
      · simp only [VertexSet.emplace, h1, h2, if_true, if_false]
        rw [h2] at h1
        simp only [lt_self_iff_false, if_false]
        exact hs
      · simp only [VertexSet.emplace, h1, h2, if_false]
        refine List.pairwise_cons.mpr ⟨?_, ih hs2.2⟩
        intro b hb
        rcases (mem_emplace set v b).mp hb with hb | hb
        · rw [hb]
          exact lt_of_le_of_ne (Nat.le_of_not_lt h1) (fun h => h2 h.symm)
        · exact hs2.1 b hb

/-- A set built by `emplace` is strictly ascending, so free of duplicates. -/
theorem collect_nodup (items : List Nat) : (collect items []).Nodup := by
  have h : ∀ (items : List Nat) (set : VertexSet), set.Pairwise (fun a b => a < b) →
      (collect items set).Pairwise (fun a b => a < b) := by
    intro items
    induction items with
    | nil => intro set hs; exact hs
    | cons a items ih =>
      intro set hs
      simp only [collect, List.foldl_cons]
      exact ih _ (emplace_strict set hs a)
  exact (h items [] List.Pairwise.nil).imp (fun h => Nat.ne_of_lt h)

/-! ## A vertex cascade on maps whose keys all pair up -/

theorem FixedPointAdd_accept (st : MatchState) (v1 v2 : Vertex) (name : String)
    (h : ∀ fp ∈ st.fixed_points, fp.primary ≠ v1 ∧ fp.secondary ≠ v2) :
    FixedPointAdd st v1 v2 name =
      (true, ⟨st.fixed_points ++ [⟨v1, v2, name⟩], st.flags1, st.flags2⟩) := by
  unfold FixedPointAdd
  have : st.fixed_points.any (fun fp => fp.primary == v1 || fp.secondary == v2) = false := by
    rw [Bool.eq_false_iff]
    intro hany
    rw [List.any_eq_true] at hany
    obtain ⟨fp, hfp, hc⟩ := hany
    have := h fp hfp
    simp only [Bool.or_eq_true, beq_iff_eq] at hc
    rcases hc with hc | hc
    · exact this.1 hc
    · exact this.2 hc
  rw [this]
  rfl

/-- When every key of the first map is filed once in both maps, the items of
    each map are pairwise distinct and none is matched yet, the vertex cascade
    adds, in the order of the first map, one fixed point per entry, labelled
    with the name of the step at the front; it calls no further step. -/
theorem uniqueRun {S : Type} (env : Env MatchState S)
    (hAdd : ∀ st a b n, env.Add st a b n = FixedPointAdd st a b n)
    (n1 n2 : MultiMap) (hs : n1.Sorted) (st : MatchState) (front : S) (rest : List S)
    (H1 : ∀ e ∈ n1, n1.equal_range e.1 = [e.2])
    (H2 : ∀ e ∈ n1, ∃ w, n2.equal_range e.1 = [w])
    (H3 : (n1.map Prod.snd).Nodup)
    (H3a : ∀ e ∈ n1, ∀ fp ∈ st.fixed_points, fp.primary ≠ e.2)
    (H4 : (n2.map Prod.snd).Nodup)
    (H4a : ∀ e ∈ n2, ∀ fp ∈ st.fixed_points, fp.secondary ≠ e.2) :
    ∃ r, FindFixedPointsBasicBlockInternal env n1 n2 st (front :: rest) = some r ∧
      r.steps = rest ∧
      r.state = ⟨st.fixed_points ++ n1.map (pairOf n2 (env.GetName front)), st.flags1,
        st.flags2⟩ := by
  have key := entryFold_rule (vertexBody env (env.GetName front)) n1 n2
    (fun todo s E => E = [] ∧ s.steps = rest ∧ ∃ done, n1 = done ++ todo ∧
      s.state = ⟨st.fixed_points ++ done.map (pairOf n2 (env.GetName front)), st.flags1,
        st.flags2⟩)
    ?_ ?_ n1 ⟨st, rest, false, []⟩ [] ?_
  · obtain ⟨s1, E1, h1, _, h3, done, h4, h5⟩ := key
    rw [FindFixedPointsBasicBlockInternal_eq env n1 n2 hs, h1]
    refine ⟨_, rfl, h3, ?_⟩
    rw [List.append_nil] at h4
    rw [h4]
    exact h5
  · rintro k0 v0 T s E ⟨hE, _⟩ hk0
    rw [hE] at hk0
    simp at hk0
  · rintro k0 v0 T s E ⟨hE, hsteps, done, hn1, hstate⟩ _
    have hmem : (k0, v0) ∈ n1 := by rw [hn1]; simp
    have i1 : n1.equal_range k0 = [v0] := H1 _ hmem
    obtain ⟨w, i2⟩ := H2 _ hmem
    have hw : (k0, w) ∈ n2 := (mem_equal_range n2 k0 w).mp (by rw [i2]; simp)
    rcases vertexBody_cases env (env.GetName front) k0 v0 (n1.equal_range k0)
      (n2.equal_range k0) s with ⟨h0, _⟩ | ⟨_, _, h0, _⟩ | ⟨v2, _, hv2, hb⟩
    · rw [i1, i2] at h0; simp at h0
    · rw [i1, i2] at h0; simp at h0
    · have hv : v2 = w := by
        rw [i2] at hv2
        simpa using hv2.symm
      subst hv
      refine ⟨_, false, hb, ?_⟩
      simp only [Bool.false_eq_true, if_false]
      refine ⟨hE, hsteps, done ++ [(k0, v0)], by rw [hn1]; simp, ?_⟩
      show (env.Add s.state v0 v2 (env.GetName front)).2 = _
      rw [hAdd, hstate, FixedPointAdd_accept]
      · simp [pairOf, MultiMap.itemAt, i2]
      · intro fp hfp
        rcases List.mem_append.mp hfp with hfp | hfp
        · exact ⟨H3a _ hmem fp hfp, H4a _ hw fp hfp⟩
        · obtain ⟨e, he, rfl⟩ := List.mem_map.mp hfp
          have he1 : e ∈ n1 := by rw [hn1]; exact List.mem_append_left _ he
          have hne : e.2 ≠ v0 := by
            intro heq
            rw [hn1, List.map_append, List.map_cons] at H3
            have := (List.nodup_append.mp H3).2.2
            exact this (List.mem_map_of_mem Prod.snd he) (by rw [heq]; simp)
          refine ⟨hne, ?_⟩
          obtain ⟨w1, i3⟩ := H2 e he1
          have hw1 : (e.1, w1) ∈ n2 := (mem_equal_range n2 e.1 w1).mp (by rw [i3]; simp)
          show n2.itemAt e.1 ≠ v2
          simp only [MultiMap.itemAt, i3, List.headD_cons]
          intro heq
          have := List.inj_on_of_nodup_map H4 hw1 hw (by simpa using heq)
          have hk : e.1 = k0 := congrArg Prod.fst this
          have : e.2 ∈ n1.equal_range k0 := (mem_equal_range n1 k0 e.2).mpr (by
            rw [← hk]; exact he1)
          rw [i1] at this
          exact hne (List.mem_singleton.mp this)
  · exact ⟨rfl, rfl, [], rfl, by simp⟩

theorem filter_singleton_of_nodup_map {α : Type} (f : α → Nat) :
    ∀ (l : List α) (x : α), (l.map f).Nodup → x ∈ l →
      l.filter (fun y => f y == f x) = [x] := by
  intro l
  induction l with
  | nil => intro x _ hx; simp at hx
  | cons y l ih =>
    intro x hnd hx
    rw [List.map_cons, List.nodup_cons] at hnd
    rcases List.mem_cons.mp hx with hxy | hxl
    · subst hxy
      have : l.filter (fun y => f y == f x) = [] := by
        rw [List.filter_eq_nil_iff]
        intro z hz hfz
        have hfz1 : f z = f x := by simpa using hfz
        exact hnd.1 (hfz1 ▸ List.mem_map_of_mem f hz)
      simp [List.filter_cons, this]
    · have hne : f y ≠ f x := fun h => hnd.1 (h ▸ List.mem_map_of_mem f hxl)
      simp only [List.filter_cons, beq_iff_eq, hne, if_false]
      exact ih x hnd.2 hxl

theorem equal_range_perm {m m1 : MultiMap} (h : List.Perm m m1) (k : Nat) :
    List.Perm (m.equal_range k) (m1.equal_range k) :=
  (h.filter _).map _

/-- A key function that separates the unmatched vertices of a set files each
    of them alone under its key. -/
theorem GetUnmatched_equal_range (matched : Vertex → Bool) (imd ic : Vertex → Nat)
    (vs : VertexSet) (hnd : vs.Nodup) (hun : ∀ v ∈ vs, matched v = false)
    (hinj : ∀ a ∈ vs, ∀ b ∈ vs, instructionCountKey imd ic a = instructionCountKey imd ic b → a = b)
    (v : Vertex) (hv : v ∈ vs) :
    (GetUnmatchedBasicBlocksByInstructionCount matched imd ic vs []).equal_range
      (instructionCountKey imd ic v) = [v] := by
  have hp := GetUnmatchedBasicBlocksByInstructionCount_perm matched imd ic vs []
  have hfil : vs.filter (fun v => !matched v) = vs := by
    rw [List.filter_eq_self]
    intro a ha
    simp [hun a ha]
  rw [hfil] at hp
  have h2 := equal_range_perm hp (instructionCountKey imd ic v)
  have h3 : MultiMap.equal_range (vs.map (fun v => (instructionCountKey imd ic v, v)))
      (instructionCountKey imd ic v) = [v] := by
    unfold MultiMap.equal_range
    rw [List.filter_map, List.map_map]
    have hid : (Prod.snd ∘ fun v => (instructionCountKey imd ic v, v)) = id := by
      funext x; rfl
    rw [hid, List.map_id]
    have hfe : vs.filter ((fun e : Nat × Nat => e.1 == instructionCountKey imd ic v) ∘
        fun v => (instructionCountKey imd ic v, v)) = vs.filter (fun y => y == v) := by
      apply List.filter_congr
      intro a ha
      simp only [Function.comp]
      by_cases hav : a = v
      · simp [hav]
      · have : instructionCountKey imd ic a ≠ instructionCountKey imd ic v :=
          fun h => hav (hinj a ha v hv h)
        simp [this, hav]
    rw [hfe]
    have := filter_singleton_of_nodup_map (fun y : Nat => y) vs v (by simpa using hnd) hv
    simpa using this
  rw [h3] at h2
  exact List.perm_singleton.mp h2

theorem GetUnmatched_mem (matched : Vertex → Bool) (imd ic : Vertex → Nat)
    (vs : VertexSet) (hun : ∀ v ∈ vs, matched v = false) (e : Nat × Nat) :
    e ∈ GetUnmatchedBasicBlocksByInstructionCount matched imd ic vs [] ↔
      e.2 ∈ vs ∧ e.1 = instructionCountKey imd ic e.2 := by
  have hp := GetUnmatchedBasicBlocksByInstructionCount_perm matched imd ic vs []
  have hfil : vs.filter (fun v => !matched v) = vs := by
    rw [List.filter_eq_self]
    intro a ha
    simp [hun a ha]
  rw [hfil] at hp
  rw [hp.mem_iff, List.mem_map]
  constructor
  · rintro ⟨v, hv, rfl⟩
    exact ⟨hv, rfl⟩
  · rintro ⟨h1, h2⟩
    exact ⟨e.2, h1, by rw [← h2]⟩

theorem GetUnmatched_items_nodup (matched : Vertex → Bool) (imd ic : Vertex → Nat)
    (vs : VertexSet) (hnd : vs.Nodup) :
    ((GetUnmatchedBasicBlocksByInstructionCount matched imd ic vs []).map Prod.snd).Nodup := by
  have hp := (GetUnmatchedBasicBlocksByInstructionCount_perm matched imd ic vs []).map Prod.snd
  rw [hp.nodup_iff, List.map_map]
  have hid : (Prod.snd ∘ fun v => (instructionCountKey imd ic v, v)) = id := by
    funext x; rfl
  rw [hid, List.map_id]
  exact hnd.filter _

theorem itemAt_eq (m : MultiMap) (k b : Nat) (h : m.equal_range k = [b]) : m.itemAt k = b := by
  simp [MultiMap.itemAt, h]

theorem MatchedOnce_Add (name : String) (C1 C2 : List Vertex) (key1 key2 : Vertex → Nat)
    (st : MatchState) (v1 v2 : Vertex) (n : String)
    (h : MatchedOnce name C1 C2 key1 key2 st) :
    MatchedOnce name C1 C2 key1 key2 (FixedPointAdd st v1 v2 n).2 := by
  unfold FixedPointAdd
  by_cases hany : st.fixed_points.any (fun fp => fp.primary == v1 || fp.secondary == v2) = true
  · rw [if_pos hany]; exact h
  · rw [if_neg hany]
    have hnone : ∀ fp ∈ st.fixed_points, fp.primary ≠ v1 ∧ fp.secondary ≠ v2 := by
      intro fp hfp
      constructor
      · intro hp
        exact hany (List.any_eq_true.mpr ⟨fp, hfp, by simp [hp]⟩)
      · intro hp
        exact hany (List.any_eq_true.mpr ⟨fp, hfp, by simp [hp]⟩)
    constructor
    · intro a ha
      obtain ⟨b, hb, hk, hf⟩ := h.1 a ha
      refine ⟨b, hb, hk, ?_⟩
      have hfp : (⟨a, b, name⟩ : BasicBlockFixedPoint) ∈ st.fixed_points := by
        have : (⟨a, b, name⟩ : BasicBlockFixedPoint) ∈
            st.fixed_points.filter (fun fp => fp.primary == a) := by rw [hf]; simp
        exact List.mem_of_mem_filter this
      have hne : v1 ≠ a := fun hh => (hnone _ hfp).1 hh.symm
      simp [List.filter_append, hf, List.filter_cons, hne]
    · intro b hb
      obtain ⟨a, ha, hk, hf⟩ := h.2 b hb
      refine ⟨a, ha, hk, ?_⟩
      have hfp : (⟨a, b, name⟩ : BasicBlockFixedPoint) ∈ st.fixed_points := by
        have : (⟨a, b, name⟩ : BasicBlockFixedPoint) ∈
            st.fixed_points.filter (fun fp => fp.secondary == b) := by rw [hf]; simp
        exact List.mem_of_mem_filter this
      have hne : v2 ≠ b := fun hh => (hnone _ hfp).2 hh.symm
      simp [List.filter_append, hf, List.filter_cons, hne]

/-- `MatchingStepInstructionCount::FindFixedPoints`, called on two candidate
    sets that are unmatched and whose keys are unique on each side and pair up
    across the sides, matches every candidate exactly once, under its own name,
    and hands the step list back without itself. -/
theorem instructionCount_matches_candidates (source1 target1 source2 target2 : Edge → Vertex)
    (nextName : String) (imd1 ic1 imd2 ic2 : Vertex → Nat) (depth : Nat)
    (rest : List (CascadeStep MatchState)) (C1 C2 : List Vertex) (st : MatchState)
    (hU1 : ∀ a ∈ C1, ∀ b ∈ C1,
      instructionCountKey imd1 ic1 a = instructionCountKey imd1 ic1 b → a = b)
    (hU2 : ∀ a ∈ C2, ∀ b ∈ C2,
      instructionCountKey imd2 ic2 a = instructionCountKey imd2 ic2 b → a = b)
    (hP1 : ∀ a ∈ C1, ∃ b ∈ C2, instructionCountKey imd1 ic1 a = instructionCountKey imd2 ic2 b)
    (hP2 : ∀ b ∈ C2, ∃ a ∈ C1, instructionCountKey imd1 ic1 a = instructionCountKey imd2 ic2 b)
    (hF1 : ∀ a ∈ C1, ∀ fp ∈ st.fixed_points, fp.primary ≠ a)
    (hF2 : ∀ b ∈ C2, ∀ fp ∈ st.fixed_points, fp.secondary ≠ b) :
    ∃ found st2,
      CascadeStep.FindFixedPoints (specOps source1 target1 source2 target2) (depth + 1)
        (MatchingStepInstructionCount (specOps source1 target1 source2 target2) nextName
          imd1 ic1 imd2 ic2)
        (collect C1 []) (collect C2 []) st
        (MatchingStepInstructionCount (specOps source1 target1 source2 target2) nextName
          imd1 ic1 imd2 ic2 :: rest) = some (found, st2, rest) ∧
      MatchedOnce nextName C1 C2 (instructionCountKey imd1 ic1) (instructionCountKey imd2 ic2)
        st2 := by
  have hm1 : ∀ v, v ∈ collect C1 [] ↔ v ∈ C1 := fun v => by rw [mem_collect]; simp
  have hm2 : ∀ v, v ∈ collect C2 [] ↔ v ∈ C2 := fun v => by rw [mem_collect]; simp
  have hun1 : ∀ v ∈ collect C1 [],
      (specOps source1 target1 source2 target2).GetFixedPoint1 st v = false := by
    intro v hv
    show st.fixed_points.any (fun fp => fp.primary == v) = false
    rw [Bool.eq_false_iff]
    intro hany
    obtain ⟨fp, hfp, hc⟩ := List.any_eq_true.mp hany
    exact hF1 v ((hm1 v).mp hv) fp hfp (by simpa using hc)
  have hun2 : ∀ v ∈ collect C2 [],
      (specOps source1 target1 source2 target2).GetFixedPoint2 st v = false := by
    intro v hv
    show st.fixed_points.any (fun fp => fp.secondary == v) = false
    rw [Bool.eq_false_iff]
    intro hany
    obtain ⟨fp, hfp, hc⟩ := List.any_eq_true.mp hany
    exact hF2 v ((hm2 v).mp hv) fp hfp (by simpa using hc)
  have hi1 : ∀ a ∈ collect C1 [], ∀ b ∈ collect C1 [],
      instructionCountKey imd1 ic1 a = instructionCountKey imd1 ic1 b → a = b :=
    fun a ha b hb => hU1 a ((hm1 a).mp ha) b ((hm1 b).mp hb)
  have hi2 : ∀ a ∈ collect C2 [], ∀ b ∈ collect C2 [],
      instructionCountKey imd2 ic2 a = instructionCountKey imd2 ic2 b → a = b :=
    fun a ha b hb => hU2 a ((hm2 a).mp ha) b ((hm2 b).mp hb)
  -- the two maps of the step
  generalize hn1 : GetUnmatchedBasicBlocksByInstructionCount
    ((specOps source1 target1 source2 target2).GetFixedPoint1 st) imd1 ic1 (collect C1 []) [] =
    n1
  generalize hn2 : GetUnmatchedBasicBlocksByInstructionCount
    ((specOps source1 target1 source2 target2).GetFixedPoint2 st) imd2 ic2 (collect C2 []) [] =
    n2
  have mem1 : ∀ e, e ∈ n1 ↔ e.2 ∈ C1 ∧ e.1 = instructionCountKey imd1 ic1 e.2 := by
    intro e; rw [← hn1, GetUnmatched_mem _ _ _ _ hun1, hm1]
  have mem2 : ∀ e, e ∈ n2 ↔ e.2 ∈ C2 ∧ e.1 = instructionCountKey imd2 ic2 e.2 := by
    intro e; rw [← hn2, GetUnmatched_mem _ _ _ _ hun2, hm2]
  have er1 : ∀ a ∈ C1, n1.equal_range (instructionCountKey imd1 ic1 a) = [a] := by
    intro a ha
    rw [← hn1]
    exact GetUnmatched_equal_range _ _ _ _ (collect_nodup C1) hun1 hi1 a ((hm1 a).mpr ha)
  have er2 : ∀ b ∈ C2, n2.equal_range (instructionCountKey imd2 ic2 b) = [b] := by
    intro b hb
    rw [← hn2]
    exact GetUnmatched_equal_range _ _ _ _ (collect_nodup C2) hun2 hi2 b ((hm2 b).mpr hb)
  have nd1 : (n1.map Prod.snd).Nodup := by
    rw [← hn1]; exact GetUnmatched_items_nodup _ _ _ _ (collect_nodup C1)
  have nd2 : (n2.map Prod.snd).Nodup := by
    rw [← hn2]; exact GetUnmatched_items_nodup _ _ _ _ (collect_nodup C2)
  have so1 : n1.Sorted := by
    rw [← hn1]; exact GetUnmatchedBasicBlocksByInstructionCount_sorted _ _ _ _ _
  obtain ⟨r, hr, hsteps, hstate⟩ := uniqueRun
    (closureEnv (specOps source1 target1 source2 target2)
      (CascadeStep.FindFixedPoints (specOps source1 target1 source2 target2) depth))
    (fun _ _ _ _ => rfl) n1 n2 so1 st
    (MatchingStepInstructionCount (specOps source1 target1 source2 target2) nextName
      imd1 ic1 imd2 ic2) rest
    (fun e he => by
      have := (mem1 e).mp he
      rw [this.2]
      exact er1 e.2 this.1)
    (fun e he => by
      have := (mem1 e).mp he
      obtain ⟨b, hb, hk⟩ := hP1 e.2 this.1
      exact ⟨b, by rw [this.2, hk]; exact er2 b hb⟩)
    nd1 (fun e he fp hfp => hF1 e.2 ((mem1 e).mp he).1 fp hfp)
    nd2 (fun e he fp hfp => hF2 e.2 ((mem2 e).mp he).1 fp hfp)
  refine ⟨r.found, r.state, ?_, ?_⟩
  · unfold CascadeStep.FindFixedPoints
    simp only [MatchingStepInstructionCount, Bool.false_eq_true, if_false] at hr ⊢
    rw [hn1, hn2, hr]
    simp [hsteps]
  · rw [hstate]
    have hname : (closureEnv (specOps source1 target1 source2 target2)
        (CascadeStep.FindFixedPoints (specOps source1 target1 source2 target2) depth)).GetName
        (MatchingStepInstructionCount (specOps source1 target1 source2 target2) nextName
          imd1 ic1 imd2 ic2) = nextName := rfl
    rw [hname]
    have hnodup1 : n1.Nodup := List.Nodup.of_map _ nd1
    constructor
    · intro a ha
      obtain ⟨b, hb, hk⟩ := hP1 a ha
      refine ⟨b, hb, hk, ?_⟩
      have he : (instructionCountKey imd1 ic1 a, a) ∈ n1 := (mem1 _).mpr ⟨ha, rfl⟩
      have hold : st.fixed_points.filter (fun fp => fp.primary == a) = [] := by
        rw [List.filter_eq_nil_iff]
        intro fp hfp hc
        exact hF1 a ha fp hfp (by simpa using hc)
      have hnew : (n1.map (pairOf n2 nextName)).filter (fun fp => fp.primary == a) =
          [⟨a, b, nextName⟩] := by
        rw [List.filter_map]
        have := filter_singleton_of_nodup_map Prod.snd n1 _ nd1 he
        have hcomp : ((fun fp : BasicBlockFixedPoint => fp.primary == a) ∘
            pairOf n2 nextName) = fun y : Nat × Nat => y.2 == a := by
          funext y; rfl
        have hib : n2.itemAt (instructionCountKey imd1 ic1 a) = b :=
          itemAt_eq n2 (instructionCountKey imd1 ic1 a) b (by rw [hk]; exact er2 b hb)
        rw [hcomp]
        simp only at this
        rw [this]
        simp [pairOf, hib]
      simp only [List.filter_append, hold, hnew, List.nil_append]
    · intro b hb
      obtain ⟨a, ha, hk⟩ := hP2 b hb
      refine ⟨a, ha, hk, ?_⟩
      have he : (instructionCountKey imd1 ic1 a, a) ∈ n1 := (mem1 _).mpr ⟨ha, rfl⟩
      have hold : st.fixed_points.filter (fun fp => fp.secondary == b) = [] := by
        rw [List.filter_eq_nil_iff]
        intro fp hfp hc
        exact hF2 b hb fp hfp (by simpa using hc)
      have hitem : ∀ e ∈ n1, ∃ w ∈ C2, instructionCountKey imd1 ic1 e.2 =
          instructionCountKey imd2 ic2 w ∧ n2.itemAt e.1 = w := by
        intro e he1
        have h1 := (mem1 e).mp he1
        obtain ⟨w, hw, hkw⟩ := hP1 e.2 h1.1
        exact ⟨w, hw, hkw, itemAt_eq n2 e.1 w (by rw [h1.2, hkw]; exact er2 w hw)⟩
      have hinj : ∀ x ∈ n1, ∀ y ∈ n1, n2.itemAt x.1 = n2.itemAt y.1 → x = y := by
        intro x hx y hy hxy
        obtain ⟨wx, _, kx, ix⟩ := hitem x hx
        obtain ⟨wy, _, ky, iy⟩ := hitem y hy
        have hw : wx = wy := by rw [← ix, ← iy]; exact hxy
        have h2 : x.2 = y.2 :=
          hU1 _ ((mem1 x).mp hx).1 _ ((mem1 y).mp hy).1 (by rw [kx, ky, hw])
        have h1 : x.1 = y.1 := by
          rw [((mem1 x).mp hx).2, ((mem1 y).mp hy).2, h2]
        exact Prod.ext h1 h2
      have ndi : (n1.map (fun e => n2.itemAt e.1)).Nodup := List.Nodup.map_on hinj hnodup1
      have hib : n2.itemAt (instructionCountKey imd1 ic1 a) = b :=
        itemAt_eq n2 (instructionCountKey imd1 ic1 a) b (by rw [hk]; exact er2 b hb)
      have hnew : (n1.map (pairOf n2 nextName)).filter (fun fp => fp.secondary == b) =
          [⟨a, b, nextName⟩] := by
        rw [List.filter_map]
        have := filter_singleton_of_nodup_map (fun e : Nat × Nat => n2.itemAt e.1) n1 _ ndi he
        have hcomp : ((fun fp : BasicBlockFixedPoint => fp.secondary == b) ∘
            pairOf n2 nextName) =
            fun y : Nat × Nat => n2.itemAt y.1 == n2.itemAt (instructionCountKey imd1 ic1 a) := by
          funext y
          rw [hib]
          rfl
        rw [hcomp, this]
        simp [pairOf, hib]
      simp only [List.filter_append, hold, hnew, List.nil_append]

/-- One round of the vertex cascade keeps a property of the shared state kept
    by `Add` and by the steps called on the remaining list `rest`, and keeps
    the step list equal to `rest`. -/
theorem vertexBody_inv {σ S : Type} (env : Env σ S) (I : σ → Prop) (rest : List S)
    (name : String)
    (hAdd : ∀ st a b n, I st → I (env.Add st a b n).2)
    (hNext : ∀ step l, rest = step :: l → ∀ bb1 bb2 st, I st →
      ∃ b st1, env.FindFixedPoints step bb1 bb2 st rest = some (b, st1, l) ∧ I st1)
    (k v : Nat) (items1 items2 : List Nat) (s : Inner σ S) (hv : v ∈ items1)
    (hi1 : I s.state) (hi2 : s.steps = rest) :
    ∃ s1 j, vertexBody env name k v items1 items2 s = some (s1, j) ∧
      I s1.state ∧ s1.steps = rest := by
  have hcall : ∀ step l, s.steps = step :: l →
      (env.FindFixedPoints step (collect items1 []) (collect items2 []) s.state
        s.steps).isSome = true := by
    intro step l hsl
    obtain ⟨b, st1, hf, _⟩ := hNext step l (hi2.symm.trans hsl) (collect items1 [])
      (collect items2 []) s.state hi1
    rw [hi2, hf]
    rfl
  obtain ⟨s1, j, ext, hb, _, _, hcase⟩ :=
    vertexBody_spec env name k v items1 items2 s hv hcall
  refine ⟨s1, j, hb, ?_⟩
  rcases hcase with ⟨_, _, _, hx⟩ | ⟨_, v2, _, _, hx1, _, hx2, _⟩ | ⟨_, _, _, hx⟩
  · rw [hx]; exact ⟨hi1, hi2⟩
  · rw [hx1, hx2]; exact ⟨hAdd _ _ _ _ hi1, hi2⟩
  · rcases hx with ⟨_, _, hx⟩ | ⟨step, l, b, st1, l1, hsl, hf, _, hx1, hx2, _⟩
    · rw [hx]; exact ⟨hi1, hi2⟩
    · obtain ⟨b2, st2, hf2, hI2⟩ := hNext step l (hi2.symm.trans hsl)
        (collect items1 []) (collect items2 []) s.state hi1
      rw [hi2, hf2] at hf
      have hf3 := Option.some.inj hf
      have e1 : st2 = st1 := congrArg (fun p => p.2.1) hf3
      have e2 : l = l1 := congrArg (fun p => p.2.2) hf3
      rw [hx1, hx2, ← e1, ← e2]
      exact ⟨hI2, (hi2.symm.trans hsl).symm⟩

/-- The members of a vertex set after the loop of `GetVertices` over some
    edges. -/
theorem GetVertices_fold_mem (src tgt : Edge → Vertex) (matched : Vertex → Bool) :
    ∀ (edges : List Edge) (bbs : VertexSet) (v : Vertex),
      v ∈ edges.foldl
          (fun bbs edge =>
            let bbs1 := if !matched (src edge) then VertexSet.emplace bbs (src edge) else bbs
            if !matched (tgt edge) then VertexSet.emplace bbs1 (tgt edge) else bbs1)
          bbs ↔
        v ∈ bbs ∨ ∃ edge ∈ edges, (v = src edge ∨ v = tgt edge) ∧ matched v = false := by
  intro edges
  induction edges with
  | nil => intro bbs v; simp
  | cons e edges ih =>
    intro bbs v
    rw [List.foldl_cons, ih]
    have hstep : v ∈ (if !matched (tgt e) then
          VertexSet.emplace (if !matched (src e) then VertexSet.emplace bbs (src e) else bbs)
            (tgt e)
        else (if !matched (src e) then VertexSet.emplace bbs (src e) else bbs)) ↔
        v ∈ bbs ∨ ((v = src e ∨ v = tgt e) ∧ matched v = false) := by
      by_cases hs : matched (src e) = true <;> by_cases ht : matched (tgt e) = true
      · simp only [hs, ht, Bool.not_true, Bool.false_eq_true, if_false]
        constructor
        · exact Or.inl
        · rintro (h | ⟨h | h, hm⟩)
          · exact h
          · rw [h, hs] at hm; exact absurd hm (by simp)
          · rw [h, ht] at hm; exact absurd hm (by simp)
      · have ht2 : matched (tgt e) = false := by simpa using ht
        simp only [hs, ht2, Bool.not_true, Bool.not_false, Bool.false_eq_true, if_false,
          if_true, mem_emplace]
        constructor
        · rintro (h | h)
          · exact Or.inr ⟨Or.inr h, by rw [h]; exact ht2⟩
          · exact Or.inl h
        · rintro (h | ⟨h | h, hm⟩)
          · exact Or.inr h
          · rw [h, hs] at hm; exact absurd hm (by simp)
          · exact Or.inl h
      · have hs2 : matched (src e) = false := by simpa using hs
        simp only [hs2, ht, Bool.not_true, Bool.not_false, Bool.false_eq_true, if_false,
          if_true, mem_emplace]
        constructor
        · rintro (h | h)
          · exact Or.inr ⟨Or.inl h, by rw [h]; exact hs2⟩
          · exact Or.inl h
        · rintro (h | ⟨h | h, hm⟩)
          · exact Or.inr h
          · exact Or.inl h
          · rw [h, ht] at hm; exact absurd hm (by simp)
      · have hs2 : matched (src e) = false := by simpa using hs
        have ht2 : matched (tgt e) = false := by simpa using ht
        simp only [hs2, ht2, Bool.not_false, if_true, mem_emplace]
        constructor
        · rintro (h | h | h)
          · exact Or.inr ⟨Or.inr h, by rw [h]; exact ht2⟩
          · exact Or.inr ⟨Or.inl h, by rw [h]; exact hs2⟩
          · exact Or.inl h
        · rintro (h | ⟨h | h, _⟩)
          · exact Or.inr (Or.inr h)
          · exact Or.inr (Or.inl h)
          · exact Or.inl h
    constructor
    · rintro (h | ⟨edge, he, hv⟩)
      · rcases hstep.mp h with h1 | h1
        · exact Or.inl h1
        · exact Or.inr ⟨e, List.mem_cons_self _ _, h1⟩
      · exact Or.inr ⟨edge, List.mem_cons_of_mem _ he, hv⟩
    · rintro (h | ⟨edge, he, hv⟩)
      · exact Or.inl (hstep.mpr (Or.inl h))
      · rcases List.mem_cons.mp he with h1 | h1
        · rw [h1] at hv
          exact Or.inl (hstep.mpr (Or.inr hv))
        · exact Or.inr ⟨edge, h1, hv⟩

/-- One round of the vertex cascade keeps a property of the shared state that
    `Add` keeps on the blocks filed under the key and that the steps called on
    the remaining list `rest` keep on sets of such blocks. -/
theorem vertexBody_inv_on {σ S : Type} (env : Env σ S) (I : σ → Prop)
    (A1 A2 : Vertex → Prop) (rest : List S) (name : String)
    (hAdd : ∀ st a b n, A1 a → A2 b → I st → I (env.Add st a b n).2)
    (hNext : ∀ step l, rest = step :: l → ∀ bb1 bb2 st,
      (∀ w ∈ bb1, A1 w) → (∀ w ∈ bb2, A2 w) → I st →
      ∃ b st1, env.FindFixedPoints step bb1 bb2 st rest = some (b, st1, l) ∧ I st1)
    (k v : Nat) (items1 items2 : List Nat) (s : Inner σ S) (hv : v ∈ items1)
    (ha1 : ∀ a ∈ items1, A1 a) (ha2 : ∀ b ∈ items2, A2 b)
    (hi1 : I s.state) (hi2 : s.steps = rest) :
    ∃ s1 j, vertexBody env name k v items1 items2 s = some (s1, j) ∧
      I s1.state ∧ s1.steps = rest := by
  have hc1 : ∀ w ∈ collect items1 [], A1 w := by
    intro w hw
    rw [mem_collect] at hw
    rcases hw with h | h
    · exact ha1 w h
    · simp at h
  have hc2 : ∀ w ∈ collect items2 [], A2 w := by
    intro w hw
    rw [mem_collect] at hw
    rcases hw with h | h
    · exact ha2 w h
    · simp at h
  have hcall : ∀ step l, s.steps = step :: l →
      (env.FindFixedPoints step (collect items1 []) (collect items2 []) s.state
        s.steps).isSome = true := by
    intro step l hsl
    obtain ⟨b, st1, hf, _⟩ := hNext step l (hi2.symm.trans hsl) (collect items1 [])
      (collect items2 []) s.state hc1 hc2 hi1
    rw [hi2, hf]
    rfl
  obtain ⟨s1, j, ext, hb, _, _, hcase⟩ :=
    vertexBody_spec env name k v items1 items2 s hv hcall
  refine ⟨s1, j, hb, ?_⟩
  rcases hcase with ⟨_, _, _, hx⟩ | ⟨_, v2, _, hv2, hx1, _, hx2, _⟩ | ⟨_, _, _, hx⟩
  · rw [hx]; exact ⟨hi1, hi2⟩
  · rw [hx1, hx2]
    exact ⟨hAdd _ _ _ _ (ha1 v hv) (ha2 v2 (by rw [hv2]; exact List.mem_singleton_self v2)) hi1,
      hi2⟩
  · rcases hx with ⟨_, _, hx⟩ | ⟨step, l, b, st1, l1, hsl, hf, _, hx1, hx2, _⟩
    · rw [hx]; exact ⟨hi1, hi2⟩
    · obtain ⟨b2, st2, hf2, hI2⟩ := hNext step l (hi2.symm.trans hsl)
        (collect items1 []) (collect items2 []) s.state hc1 hc2 hi1
      rw [hi2, hf2] at hf
      have hf3 := Option.some.inj hf
      have e1 : st2 = st1 := congrArg (fun p => p.2.1) hf3
      have e2 : l = l1 := congrArg (fun p => p.2.2) hf3
      rw [hx1, hx2, ← e1, ← e2]
      exact ⟨hI2, (hi2.symm.trans hsl).symm⟩

/-- The vertex cascade keeps a property of the shared state that `Add` keeps
    on the blocks filed in its maps and that the steps called on the remaining
    list keep on sets of such blocks. -/
theorem vertexCascade_inv_on {σ S : Type} (env : Env σ S) (I : σ → Prop)
    (A1 A2 : Vertex → Prop) (rest : List S)
    (hAdd : ∀ st a b n, A1 a → A2 b → I st → I (env.Add st a b n).2)
    (hNext : ∀ step l, rest = step :: l → ∀ bb1 bb2 st,
      (∀ w ∈ bb1, A1 w) → (∀ w ∈ bb2, A2 w) → I st →
      ∃ b st1, env.FindFixedPoints step bb1 bb2 st rest = some (b, st1, l) ∧ I st1)
    (m1 m2 : MultiMap) (hs : m1.Sorted)
    (hm1 : ∀ e ∈ m1, A1 e.2) (hm2 : ∀ e ∈ m2, A2 e.2)
    (st : σ) (hst : I st) (front : S) :
    ∃ r, FindFixedPointsBasicBlockInternal env m1 m2 st (front :: rest) = some r ∧
      I r.state ∧ r.steps = rest := by
  obtain ⟨s1, E1, h1, h2, h3⟩ := entryFold_inner_inv (vertexBody env (env.GetName front)) m1 m2
    (fun s => I s.state ∧ s.steps = rest)
    (fun k v s hm hi =>
      vertexBody_inv_on env I A1 A2 rest (env.GetName front) hAdd hNext k v
        (m1.equal_range k) (m2.equal_range k) s ((mem_equal_range m1 k v).mpr hm)
        (fun a ha => hm1 (k, a) ((mem_equal_range m1 k a).mp ha))
        (fun b hb => hm2 (k, b) ((mem_equal_range m2 k b).mp hb)) hi.1 hi.2)
    ⟨st, rest, false, []⟩ ⟨hst, rfl⟩
  rw [FindFixedPointsBasicBlockInternal_eq env m1 m2 hs, h1]
  exact ⟨_, rfl, h2, h3⟩

/-- The vertices gathered from edges are endpoints of these edges. -/
theorem mem_verticesOf (src tgt : Edge → Vertex) (matched : Vertex → Bool)
    (edges : List Edge) (v : Vertex) (h : v ∈ verticesOf src tgt matched edges) :
    ∃ edge ∈ edges, v = src edge ∨ v = tgt edge := by
  unfold verticesOf at h
  rw [GetVertices_fold_mem] at h
  rcases h with h | ⟨edge, he, hv, _⟩
  · simp at h
  · exact ⟨edge, he, hv⟩

/-- The edge cascade keeps a property of the shared state that `AddFlag`
    keeps, that `Add` keeps on the endpoints of the edges filed in its maps
    and that the steps called on the remaining list keep on sets of such
    endpoints. -/
theorem edgeCascade_inv_on {σ S : Type} (env : Env σ S) (I : σ → Prop)
    (A1 A2 : Vertex → Prop) (rest : List S)
    (hAdd : ∀ st a b n, A1 a → A2 b → I st → I (env.Add st a b n).2)
    (hFlag1 : ∀ st e f, I st → I (env.AddFlag1 st e f))
    (hFlag2 : ∀ st e f, I st → I (env.AddFlag2 st e f))
    (hNext : ∀ step l, rest = step :: l → ∀ bb1 bb2 st,
      (∀ w ∈ bb1, A1 w) → (∀ w ∈ bb2, A2 w) → I st →
      ∃ b st1, env.FindFixedPoints step bb1 bb2 st rest = some (b, st1, l) ∧ I st1)
    (m1 m2 : MultiMap) (hs : m1.Sorted)
    (hm1 : ∀ e ∈ m1, A1 (env.source1 e.2) ∧ A1 (env.target1 e.2))
    (hm2 : ∀ e ∈ m2, A2 (env.source2 e.2) ∧ A2 (env.target2 e.2))
    (st : σ) (hst : I st) (front : S) :
    ∃ r, FindFixedPointsBasicBlockEdgeInternal env m1 m2 st (front :: rest) = some r ∧
      I r.state ∧ r.steps = rest := by
  obtain ⟨s1, E1, h1, h2, h3⟩ := entryFold_inner_inv
    (edgeBody env (env.GetName front) rest.length) m1 m2
    (fun s => I s.state ∧ s.steps = rest)
    (fun k v s hm hi => by
      obtain ⟨hi1, hi2⟩ := hi
      have he1 : ∀ e ∈ m1.equal_range k, A1 (env.source1 e) ∧ A1 (env.target1 e) :=
        fun e he => hm1 (k, e) ((mem_equal_range m1 k e).mp he)
      have he2 : ∀ e ∈ m2.equal_range k, A2 (env.source2 e) ∧ A2 (env.target2 e) :=
        fun e he => hm2 (k, e) ((mem_equal_range m2 k e).mp he)
      have hIf := flagState_inv env I hFlag1 hFlag2 (1 <<< rest.length) (m1.equal_range k)
        (m2.equal_range k) s.state hi1
      have hv1 : ∀ w ∈ verticesOf env.source1 env.target1
          (env.GetFixedPoint1 (flagState env (1 <<< rest.length) (m1.equal_range k)
            (m2.equal_range k) s.state)) (m1.equal_range k), A1 w := by
        intro w hw
        obtain ⟨e, he, hwe⟩ := mem_verticesOf _ _ _ _ w hw
        rcases hwe with h | h
        · rw [h]; exact (he1 e he).1
        · rw [h]; exact (he1 e he).2
      have hv2 : ∀ w ∈ verticesOf env.source2 env.target2
          (env.GetFixedPoint2 (flagState env (1 <<< rest.length) (m1.equal_range k)
            (m2.equal_range k) s.state)) (m2.equal_range k), A2 w := by
        intro w hw
        obtain ⟨e, he, hwe⟩ := mem_verticesOf _ _ _ _ w hw
        rcases hwe with h | h
        · rw [h]; exact (he2 e he).1
        · rw [h]; exact (he2 e he).2
      have hcall : ∀ step l, s.steps = step :: l →
          (env.FindFixedPoints step
            (verticesOf env.source1 env.target1
              (env.GetFixedPoint1 (flagState env (1 <<< rest.length) (m1.equal_range k)
                (m2.equal_range k) s.state)) (m1.equal_range k))
            (verticesOf env.source2 env.target2
              (env.GetFixedPoint2 (flagState env (1 <<< rest.length) (m1.equal_range k)
                (m2.equal_range k) s.state)) (m2.equal_range k))
            (flagState env (1 <<< rest.length) (m1.equal_range k) (m2.equal_range k) s.state)
            s.steps).isSome = true := by
        intro step l hsl
        obtain ⟨b, st1, hf, _⟩ := hNext step l (hi2.symm.trans hsl) _ _ _ hv1 hv2 hIf
        rw [hi2, hf]
        rfl
      have hmem : v ∈ m1.equal_range k := (mem_equal_range m1 k v).mpr hm
      obtain ⟨s1, j, ext, hb, _, _, hcase⟩ :=
        edgeBody_spec env (env.GetName front) rest.length k v (m1.equal_range k)
          (m2.equal_range k) s hmem hcall
      refine ⟨s1, j, hb, ?_⟩
      rcases hcase with ⟨_, _, _, hx⟩ | ⟨_, _, _, hx⟩ | ⟨_, e2, _, hi2e, hx1, hx⟩
      · rw [hx]; exact ⟨hi1, hi2⟩
      · rcases hx with ⟨_, hx1, hx2, _⟩ | ⟨step, l, b, st1, l1, hsl, hf, _, hx1, hx2, _⟩
        · rw [hx1, hx2]; exact ⟨hIf, hi2⟩
        · obtain ⟨b2, st2, hf2, hI2⟩ := hNext step l (hi2.symm.trans hsl) _ _ _ hv1 hv2 hIf
          rw [hi2, hf2] at hf
          have hf3 := Option.some.inj hf
          have e1 : st2 = st1 := congrArg (fun p => p.2.1) hf3
          have e2 : l = l1 := congrArg (fun p => p.2.2) hf3
          rw [hx1, hx2, ← e1, ← e2]
          exact ⟨hI2, (hi2.symm.trans hsl).symm⟩
      · have hb1 := he1 v hmem
        have hb2 := he2 e2 (by rw [hi2e]; exact List.mem_singleton_self e2)
        rcases hx with ⟨_, _, hx2, _⟩ | ⟨_, _, hx2, _⟩
        · rw [hx1, hx2]; exact ⟨hAdd _ _ _ _ hb1.1 hb2.1 hi1, hi2⟩
        · rw [hx1, hx2]
          exact ⟨hAdd _ _ _ _ hb1.2 hb2.2 (hAdd _ _ _ _ hb1.1 hb2.1 hi1), hi2⟩)
    ⟨st, rest, false, []⟩ ⟨hst, rfl⟩
  rw [FindFixedPointsBasicBlockEdgeInternal_eq env m1 m2 hs, h1]
  exact ⟨_, rfl, h2, h3⟩

/-- A step that files only what it is handed, called on sets of blocks on
    which `Add` keeps a property of the shared state, at the front of a list
    of such steps no longer than the depth bound allows: the call returns,
    hands the list back without its front and keeps the property. -/
theorem CascadeStep.FindFixedPoints_inv_on {σ : Type} (ops : Ops σ) (I : σ → Prop)
    (A1 A2 : Vertex → Prop)
    (hAdd : ∀ st a b n, A1 a → A2 b → I st → I (ops.Add st a b n).2)
    (hFlag1 : ∀ st e f, I st → I (ops.AddFlag1 st e f))
    (hFlag2 : ∀ st e f, I st → I (ops.AddFlag2 st e f)) :
    ∀ (depth : Nat) (step : CascadeStep σ) (l : List (CascadeStep σ))
      (vs1 vs2 : VertexSet) (st : σ), I st → l.length ≤ depth →
      (∀ s ∈ step :: l, ∀ st vs1 vs2, (s.maps st vs1 vs2).1.Sorted) →
      (∀ s ∈ step :: l, s.FilesWithin ops) →
      (∀ w ∈ vs1, A1 w) → (∀ w ∈ vs2, A2 w) →
      ∃ b st1, CascadeStep.FindFixedPoints ops (depth + 1) step vs1 vs2 st (step :: l) =
        some (b, st1, l) ∧ I st1 := by
  intro depth
  induction depth with
  | zero =>
    intro step l vs1 vs2 st hst hl hsorted hlocal hv1 hv2
    have hl0 : l = [] := List.length_eq_zero.mp (Nat.le_zero.mp hl)
    subst hl0
    have hNext : ∀ step1 l1, ([] : List (CascadeStep σ)) = step1 :: l1 → ∀ bb1 bb2 st,
        (∀ w ∈ bb1, A1 w) → (∀ w ∈ bb2, A2 w) → I st →
        ∃ b st1, (closureEnv ops (CascadeStep.FindFixedPoints ops 0)).FindFixedPoints step1
          bb1 bb2 st [] = some (b, st1, l1) ∧ I st1 := by
      intro step1 l1 h
      exact absurd h (by simp)
    have hso := hsorted step (List.mem_cons_self _ _) st vs1 vs2
    have hloc := hlocal step (List.mem_cons_self _ _) st vs1 vs2
    unfold CascadeStep.FindFixedPoints
    by_cases he : step.edge_matching_ = true
    · simp only [he, if_true] at hloc
      obtain ⟨r, h1, h2, h3⟩ := edgeCascade_inv_on
        (closureEnv ops (CascadeStep.FindFixedPoints ops 0)) I A1 A2 [] hAdd hFlag1 hFlag2 hNext
        (step.maps st vs1 vs2).1 (step.maps st vs1 vs2).2 hso
        (fun e hm => ⟨hv1 _ (hloc.1 e hm).1, hv1 _ (hloc.1 e hm).2⟩)
        (fun e hm => ⟨hv2 _ (hloc.2 e hm).1, hv2 _ (hloc.2 e hm).2⟩) st hst step
      refine ⟨r.found, r.state, ?_, h2⟩
      simp only [he, if_true, h1, Option.map_some', h3]
    · simp only [he, if_false] at hloc
      obtain ⟨r, h1, h2, h3⟩ := vertexCascade_inv_on
        (closureEnv ops (CascadeStep.FindFixedPoints ops 0)) I A1 A2 [] hAdd hNext
        (step.maps st vs1 vs2).1 (step.maps st vs1 vs2).2 hso
        (fun e hm => hv1 _ (hloc.1 e hm)) (fun e hm => hv2 _ (hloc.2 e hm)) st hst step
      have he1 : step.edge_matching_ = false := by simpa using he
      refine ⟨r.found, r.state, ?_, h2⟩
      simp only [he1, Bool.false_eq_true, if_false, h1, Option.map_some', h3]
  | succ depth ih =>
    intro step l vs1 vs2 st hst hl hsorted hlocal hv1 hv2
    have hNext : ∀ step1 l1, l = step1 :: l1 → ∀ bb1 bb2 st,
        (∀ w ∈ bb1, A1 w) → (∀ w ∈ bb2, A2 w) → I st →
        ∃ b st1, (closureEnv ops (CascadeStep.FindFixedPoints ops (depth + 1))).FindFixedPoints
          step1 bb1 bb2 st l = some (b, st1, l1) ∧ I st1 := by
      intro step1 l1 h bb1 bb2 st0 hb1 hb2 hst0
      subst h
      exact ih step1 l1 bb1 bb2 st0 hst0 (by simpa using hl)
        (fun s hs => hsorted s (List.mem_cons_of_mem _ hs))
        (fun s hs => hlocal s (List.mem_cons_of_mem _ hs)) hb1 hb2
    have hso := hsorted step (List.mem_cons_self _ _) st vs1 vs2
    have hloc := hlocal step (List.mem_cons_self _ _) st vs1 vs2
    unfold CascadeStep.FindFixedPoints
    by_cases he : step.edge_matching_ = true
    · simp only [he, if_true] at hloc
      obtain ⟨r, h1, h2, h3⟩ := edgeCascade_inv_on
        (closureEnv ops (CascadeStep.FindFixedPoints ops (depth + 1))) I A1 A2 l hAdd hFlag1
        hFlag2 hNext (step.maps st vs1 vs2).1 (step.maps st vs1 vs2).2 hso
        (fun e hm => ⟨hv1 _ (hloc.1 e hm).1, hv1 _ (hloc.1 e hm).2⟩)
        (fun e hm => ⟨hv2 _ (hloc.2 e hm).1, hv2 _ (hloc.2 e hm).2⟩) st hst step
      refine ⟨r.found, r.state, ?_, h2⟩
      simp only [he, if_true, h1, Option.map_some', h3]
    · simp only [he, if_false] at hloc
      obtain ⟨r, h1, h2, h3⟩ := vertexCascade_inv_on
        (closureEnv ops (CascadeStep.FindFixedPoints ops (depth + 1))) I A1 A2 l hAdd hNext
        (step.maps st vs1 vs2).1 (step.maps st vs1 vs2).2 hso
        (fun e hm => hv1 _ (hloc.1 e hm)) (fun e hm => hv2 _ (hloc.2 e hm)) st hst step
      have he1 : step.edge_matching_ = false := by simpa using he
      refine ⟨r.found, r.state, ?_, h2⟩
      simp only [he1, Bool.false_eq_true, if_false, h1, Option.map_some', h3]

/-- The dispatch at a sufficient depth, on a list of steps that file only what
    they are handed. -/
theorem closure_next_on {σ : Type} (ops : Ops σ) (I : σ → Prop) (A1 A2 : Vertex → Prop)
    (hAdd : ∀ st a b n, A1 a → A2 b → I st → I (ops.Add st a b n).2)
    (hFlag1 : ∀ st e f, I st → I (ops.AddFlag1 st e f))
    (hFlag2 : ∀ st e f, I st → I (ops.AddFlag2 st e f))
    (rest : List (CascadeStep σ)) (depth : Nat) (hd : rest.length ≤ depth)
    (hsorted : ∀ s ∈ rest, ∀ st vs1 vs2, (s.maps st vs1 vs2).1.Sorted)
    (hlocal : ∀ s ∈ rest, s.FilesWithin ops) :
    ∀ step l, rest = step :: l → ∀ bb1 bb2 st,
      (∀ w ∈ bb1, A1 w) → (∀ w ∈ bb2, A2 w) → I st →
      ∃ b st1, (closureEnv ops (CascadeStep.FindFixedPoints ops depth)).FindFixedPoints step
        bb1 bb2 st rest = some (b, st1, l) ∧ I st1 := by
  intro step l h bb1 bb2 st hb1 hb2 hst
  subst h
  cases depth with
  | zero => simp at hd
  | succ depth =>
    exact CascadeStep.FindFixedPoints_inv_on ops I A1 A2 hAdd hFlag1 hFlag2 depth step l
      bb1 bb2 st hst (by simpa using hd) hsorted hlocal hb1 hb2

/-- The step `MatchingStepInstructionCount` files only vertices of the sets it
    is handed. -/
theorem MatchingStepInstructionCount_filesWithin {σ : Type} (ops : Ops σ) (name : String)
    (imd1 ic1 imd2 ic2 : Vertex → Nat) :
    (MatchingStepInstructionCount ops name imd1 ic1 imd2 ic2).FilesWithin ops := by
  intro st vs1 vs2
  have hmem : ∀ (matched : Vertex → Bool) (imd ic : Vertex → Nat) (vs : VertexSet),
      ∀ e ∈ GetUnmatchedBasicBlocksByInstructionCount matched imd ic vs [], e.2 ∈ vs := by
    intro matched imd ic vs e he
    have hp := GetUnmatchedBasicBlocksByInstructionCount_perm matched imd ic vs []
    rw [hp.mem_iff, List.mem_map] at he
    obtain ⟨v, hv, rfl⟩ := he
    exact (List.mem_filter.mp hv).1
  constructor
  · intro e he
    simp only [MatchingStepInstructionCount, Bool.false_eq_true, if_false] at he ⊢
    exact hmem _ _ _ _ e he
  · intro e he
    simp only [MatchingStepInstructionCount, Bool.false_eq_true, if_false] at he ⊢
    exact hmem _ _ _ _ e he

/-- Adding a fixed point for two blocks outside two classes of blocks leaves
    the blocks of the classes unmatched. -/
theorem Unmatched_Add (C1 C2 : Vertex → Prop) (st : MatchState) (v1 v2 : Vertex) (n : String)
    (h1 : ¬ C1 v1) (h2 : ¬ C2 v2)
    (h : (∀ a, C1 a → ∀ fp ∈ st.fixed_points, fp.primary ≠ a) ∧
      (∀ b, C2 b → ∀ fp ∈ st.fixed_points, fp.secondary ≠ b)) :
    (∀ a, C1 a → ∀ fp ∈ (FixedPointAdd st v1 v2 n).2.fixed_points, fp.primary ≠ a) ∧
      (∀ b, C2 b → ∀ fp ∈ (FixedPointAdd st v1 v2 n).2.fixed_points, fp.secondary ≠ b) := by
  unfold FixedPointAdd
  by_cases hany : st.fixed_points.any (fun fp => fp.primary == v1 || fp.secondary == v2) = true
  · rw [if_pos hany]; exact h
  · rw [if_neg hany]
    constructor
    · intro a ha fp hfp
      rcases List.mem_append.mp hfp with hm | hm
      · exact h.1 a ha fp hm
      · rw [List.mem_singleton] at hm
        rw [hm]
        intro hp
        exact h1 (by rw [show v1 = a from hp]; exact ha)
    · intro b hb fp hfp
      rcases List.mem_append.mp hfp with hm | hm
      · exact h.2 b hb fp hm
      · rw [List.mem_singleton] at hm
        rw [hm]
        intro hp
        exact h2 (by rw [show v2 = b from hp]; exact hb)

/-- C10: let the current step run the vertex cascade on maps in which the key
    `k` is filed on both sides and more than once on one of them, whatever
    other keys the maps hold; let the blocks filed under `k` be unmatched and
    filed under no other key of their map, and let the next step be
    `MatchingStepInstructionCount` with a key that is unique among those
    blocks on each side and pairs them up across the sides; let the steps
    behind it file only what they are handed. Then the cascade returns, and at
    its end every block filed under `k` occurs in exactly one basic-block
    fixed point, which joins it to the block of the other side with the same
    key and carries the name of the next step, whatever the name of the
    current step is. -/
theorem cascade_ambiguity_resolved_by_next_step
    (source1 target1 source2 target2 : Edge → Vertex) (current : CascadeStep MatchState)
    (nextName : String) (imd1 ic1 imd2 ic2 : Vertex → Nat)
    (rest : List (CascadeStep MatchState)) (depth : Nat) (hd : rest.length + 1 ≤ depth)
    (hsorted : ∀ s ∈ rest, ∀ st vs1 vs2, (s.maps st vs1 vs2).1.Sorted)
    (hwithin : ∀ s ∈ rest, s.FilesWithin (specOps source1 target1 source2 target2))
    (vertices_1 vertices_2 : MultiMap) (hs : vertices_1.Sorted) (st : MatchState) (k : Nat)
    (hk1 : 1 ≤ vertices_1.count k) (hk2 : 1 ≤ vertices_2.count k)
    (hamb : vertices_1.count k > 1 ∨ vertices_2.count k > 1)
    (honce1 : ∀ k0 a, (k0, a) ∈ vertices_1 → (k, a) ∈ vertices_1 → k0 = k)
    (honce2 : ∀ k0 b, (k0, b) ∈ vertices_2 → (k, b) ∈ vertices_2 → k0 = k)
    (hU1 : ∀ a b, (k, a) ∈ vertices_1 → (k, b) ∈ vertices_1 →
      instructionCountKey imd1 ic1 a = instructionCountKey imd1 ic1 b → a = b)
    (hU2 : ∀ a b, (k, a) ∈ vertices_2 → (k, b) ∈ vertices_2 →
      instructionCountKey imd2 ic2 a = instructionCountKey imd2 ic2 b → a = b)
    (hP1 : ∀ a, (k, a) ∈ vertices_1 → ∃ b, (k, b) ∈ vertices_2 ∧
      instructionCountKey imd1 ic1 a = instructionCountKey imd2 ic2 b)
    (hP2 : ∀ b, (k, b) ∈ vertices_2 → ∃ a, (k, a) ∈ vertices_1 ∧
      instructionCountKey imd1 ic1 a = instructionCountKey imd2 ic2 b)
    (hF1 : ∀ a, (k, a) ∈ vertices_1 → ∀ fp ∈ st.fixed_points, fp.primary ≠ a)
    (hF2 : ∀ b, (k, b) ∈ vertices_2 → ∀ fp ∈ st.fixed_points, fp.secondary ≠ b) :
    ∃ r, FindFixedPointsBasicBlockInternal
        (closureEnv (specOps source1 target1 source2 target2)
          (CascadeStep.FindFixedPoints (specOps source1 target1 source2 target2) depth))
        vertices_1 vertices_2 st
        (current :: MatchingStepInstructionCount (specOps source1 target1 source2 target2)
          nextName imd1 ic1 imd2 ic2 :: rest) = some r ∧
      (∀ a, (k, a) ∈ vertices_1 → ∃ b, (k, b) ∈ vertices_2 ∧
        instructionCountKey imd1 ic1 a = instructionCountKey imd2 ic2 b ∧
        r.state.fixed_points.filter (fun fp => fp.primary == a) = [⟨a, b, nextName⟩]) ∧
      (∀ b, (k, b) ∈ vertices_2 → ∃ a, (k, a) ∈ vertices_1 ∧
        instructionCountKey imd1 ic1 a = instructionCountKey imd2 ic2 b ∧
        r.state.fixed_points.filter (fun fp => fp.secondary == b) = [⟨a, b, nextName⟩]) := by
  -- abbreviations
  generalize hops : specOps source1 target1 source2 target2 = ops at *
  generalize hnext : MatchingStepInstructionCount ops nextName imd1 ic1 imd2 ic2 = next at *
  obtain ⟨d, rfl⟩ : ∃ d, depth = d + 1 := ⟨depth - 1, by omega⟩
  have hd1 : rest.length ≤ d := by omega
  have C1m : ∀ a, a ∈ vertices_1.equal_range k ↔ (k, a) ∈ vertices_1 :=
    fun a => mem_equal_range _ _ _
  have C2m : ∀ b, b ∈ vertices_2.equal_range k ↔ (k, b) ∈ vertices_2 :=
    fun b => mem_equal_range _ _ _
  have hAdd : ∀ st a b n,
      MatchedOnce nextName (vertices_1.equal_range k) (vertices_2.equal_range k)
        (instructionCountKey imd1 ic1) (instructionCountKey imd2 ic2) st →
      MatchedOnce nextName (vertices_1.equal_range k) (vertices_2.equal_range k)
        (instructionCountKey imd1 ic1) (instructionCountKey imd2 ic2)
        ((closureEnv ops (CascadeStep.FindFixedPoints ops (d + 1))).Add st a b n).2 := by
    intro st a b n h
    rw [← hops]
    exact MatchedOnce_Add _ _ _ _ _ _ _ _ _ h
  have hnsorted : ∀ s ∈ next :: rest, ∀ st vs1 vs2, (s.maps st vs1 vs2).1.Sorted := by
    intro s hs1 st0 vs1 vs2
    rcases List.mem_cons.mp hs1 with h | h
    · rw [h, ← hnext]
      exact GetUnmatchedBasicBlocksByInstructionCount_sorted (ops.GetFixedPoint1 st0) imd1 ic1
        vs1 []
    · exact hsorted s h st0 vs1 vs2
  have hnwithin : ∀ s ∈ next :: rest, s.FilesWithin ops := by
    intro s hs1
    rcases List.mem_cons.mp hs1 with h | h
    · rw [h, ← hnext]
      exact MatchingStepInstructionCount_filesWithin ops nextName imd1 ic1 imd2 ic2
    · exact hwithin s h
  have hNextOn := closure_next_on ops
    (fun st0 : MatchState =>
      (∀ a, (k, a) ∈ vertices_1 → ∀ fp ∈ st0.fixed_points, fp.primary ≠ a) ∧
      (∀ b, (k, b) ∈ vertices_2 → ∀ fp ∈ st0.fixed_points, fp.secondary ≠ b))
    (fun a => (k, a) ∉ vertices_1) (fun b => (k, b) ∉ vertices_2)
    (by intro st0 a b n ha hb h; rw [← hops]; exact Unmatched_Add _ _ st0 a b n ha hb h)
    (by intro st0 e f h; rw [← hops]; exact h)
    (by intro st0 e f h; rw [← hops]; exact h)
    (next :: rest) (d + 1) (by simpa using hd1) hnsorted hnwithin
  have hNext := closure_next ops
    (MatchedOnce nextName (vertices_1.equal_range k) (vertices_2.equal_range k)
      (instructionCountKey imd1 ic1) (instructionCountKey imd2 ic2))
    (by intro st a b n h; rw [← hops]; exact MatchedOnce_Add _ _ _ _ _ _ _ _ _ h)
    (by intro st e f h; rw [← hops]; exact h)
    (by intro st e f h; rw [← hops]; exact h)
    (next :: rest) (d + 1) (by simpa using hd1) hnsorted
  -- the nested call at the key `k`
  have hnested : ∀ st0 : MatchState,
      ((∀ a, (k, a) ∈ vertices_1 → ∀ fp ∈ st0.fixed_points, fp.primary ≠ a) ∧
        (∀ b, (k, b) ∈ vertices_2 → ∀ fp ∈ st0.fixed_points, fp.secondary ≠ b)) →
      ∃ found st2, CascadeStep.FindFixedPoints ops (d + 1) next
          (collect (vertices_1.equal_range k) []) (collect (vertices_2.equal_range k) []) st0
          (next :: rest) = some (found, st2, rest) ∧
        MatchedOnce nextName (vertices_1.equal_range k) (vertices_2.equal_range k)
          (instructionCountKey imd1 ic1) (instructionCountKey imd2 ic2) st2 := by
    intro st0 hst0
    rw [← hnext, ← hops]
    exact instructionCount_matches_candidates source1 target1 source2 target2 nextName
      imd1 ic1 imd2 ic2 d rest (vertices_1.equal_range k) (vertices_2.equal_range k) st0
      (fun a ha b hb => hU1 a b ((C1m a).mp ha) ((C1m b).mp hb))
      (fun a ha b hb => hU2 a b ((C2m a).mp ha) ((C2m b).mp hb))
      (fun a ha => by
        obtain ⟨b, hb, hkey⟩ := hP1 a ((C1m a).mp ha)
        exact ⟨b, (C2m b).mpr hb, hkey⟩)
      (fun b hb => by
        obtain ⟨a, ha, hkey⟩ := hP2 b ((C2m b).mp hb)
        exact ⟨a, (C1m a).mpr ha, hkey⟩)
      (fun a ha => hst0.1 a ((C1m a).mp ha))
      (fun b hb => hst0.2 b ((C2m b).mp hb))
  rw [MultiMap.count_eq] at hk1 hk2
  rw [MultiMap.count_eq, MultiMap.count_eq] at hamb
  have key := entryFold_rule
    (vertexBody (closureEnv ops (CascadeStep.FindFixedPoints ops (d + 1)))
      ((closureEnv ops (CascadeStep.FindFixedPoints ops (d + 1))).GetName current))
    vertices_1 vertices_2
    (fun todo s E =>
      (∀ e ∈ todo, e ∈ vertices_1) ∧ MultiMap.Sorted todo ∧ s.steps = next :: rest ∧
      ((k ∉ E ∧ (∃ v, (k, v) ∈ todo) ∧
          ((∀ a, (k, a) ∈ vertices_1 → ∀ fp ∈ s.state.fixed_points, fp.primary ≠ a) ∧
            (∀ b, (k, b) ∈ vertices_2 → ∀ fp ∈ s.state.fixed_points, fp.secondary ≠ b))) ∨
        MatchedOnce nextName (vertices_1.equal_range k) (vertices_2.equal_range k)
          (instructionCountKey imd1 ic1) (instructionCountKey imd2 ic2) s.state))
    ?_ ?_ vertices_1 ⟨st, next :: rest, false, []⟩ [] ?_
  · obtain ⟨s1, E1, h1, _, _, _, h4⟩ := key
    rw [FindFixedPointsBasicBlockInternal_eq _ vertices_1 vertices_2 hs, h1]
    refine ⟨_, rfl, ?_⟩
    rcases h4 with ⟨_, ⟨v, hv⟩, _⟩ | h4
    · simp at hv
    · constructor
      · intro a ha
        obtain ⟨b, hb, hkey, hf⟩ := h4.1 a ((C1m a).mpr ha)
        exact ⟨b, (C2m b).mp hb, hkey, hf⟩
      · intro b hb
        obtain ⟨a, ha, hkey, hf⟩ := h4.2 b ((C2m b).mpr hb)
        exact ⟨a, (C1m a).mp ha, hkey, hf⟩
  · -- passing over an erased entry
    rintro k0 v0 T s E ⟨hA, hS, hsteps, hC⟩ hk0
    refine ⟨fun e he => hA e (List.mem_cons_of_mem _ he), (List.pairwise_cons.mp hS).2,
      hsteps, ?_⟩
    rcases hC with ⟨c1, ⟨v, hv⟩, c3⟩ | hC
    · left
      refine ⟨c1, ⟨v, ?_⟩, c3⟩
      rcases List.mem_cons.mp hv with h | h
      · have : k = k0 := congrArg Prod.fst h
        exact absurd (this ▸ hk0) c1
      · exact h
    · exact Or.inr hC
  · -- one round
    rintro k0 v0 T s E ⟨hA, hS, hsteps, hC⟩ hk0
    have hmem : v0 ∈ vertices_1.equal_range k0 :=
      (mem_equal_range vertices_1 k0 v0).mpr (hA _ (List.mem_cons_self _ _))
    have hA1 : ∀ e ∈ T, e ∈ vertices_1 := fun e he => hA e (List.mem_cons_of_mem _ he)
    have hS1 : MultiMap.Sorted T := (List.pairwise_cons.mp hS).2
    rcases hC with ⟨c1, ⟨v, hv⟩, c3⟩ | hC
    · by_cases hkk : k0 = k
      · -- the round of the key `k`
        subst hkk
        rcases vertexBody_cases (closureEnv ops (CascadeStep.FindFixedPoints ops (d + 1)))
          ((closureEnv ops (CascadeStep.FindFixedPoints ops (d + 1))).GetName current)
          k0 v0 (vertices_1.equal_range k0) (vertices_2.equal_range k0) s with
          ⟨h0, _⟩ | ⟨_, _, _, hb⟩ | ⟨v2, i1, i2, _⟩
        · omega
        · obtain ⟨found, st2, hf, hM⟩ := hnested s.state c3
          have hcn : continueWithNext (closureEnv ops (CascadeStep.FindFixedPoints ops (d + 1)))
              k0 (collect (vertices_1.equal_range k0) []) (collect (vertices_2.equal_range k0) [])
              s = some ⟨st2, next :: rest, s.found || found,
                s.trace ++ [Event.next k0 next (collect (vertices_1.equal_range k0) [])
                  (collect (vertices_2.equal_range k0) []) found]⟩ := by
            unfold continueWithNext
            rw [hsteps]
            simp only []
            have hne1 : collect (vertices_1.equal_range k0) [] ≠ [] :=
              collect_ne_nil _ _ (Or.inl (List.ne_nil_of_mem hmem))
            have hne2 : collect (vertices_2.equal_range k0) [] ≠ [] :=
              collect_ne_nil _ _ (Or.inl (List.length_pos.mp (by omega)))
            rw [if_pos ⟨hne1, hne2⟩]
            have hf1 : (closureEnv ops (CascadeStep.FindFixedPoints ops (d + 1))).FindFixedPoints
                next (collect (vertices_1.equal_range k0) [])
                (collect (vertices_2.equal_range k0) []) s.state (next :: rest) =
                some (found, st2, rest) := hf
            rw [hf1]
          rw [hcn] at hb
          refine ⟨_, true, hb, hA1, hS1, rfl, Or.inr hM⟩
        · rw [i2] at hamb
          simp only [List.length_singleton, gt_iff_lt, lt_self_iff_false, or_false] at hamb
          omega
      · -- another key: its blocks are not filed under `k`
        have hkk2 : k ≠ k0 := fun h => hkk h.symm
        obtain ⟨s1, j, hb, hI, hst⟩ := vertexBody_inv_on
          (closureEnv ops (CascadeStep.FindFixedPoints ops (d + 1)))
          (fun st0 : MatchState =>
            (∀ a, (k, a) ∈ vertices_1 → ∀ fp ∈ st0.fixed_points, fp.primary ≠ a) ∧
            (∀ b, (k, b) ∈ vertices_2 → ∀ fp ∈ st0.fixed_points, fp.secondary ≠ b))
          (fun a => (k, a) ∉ vertices_1) (fun b => (k, b) ∉ vertices_2)
          (next :: rest)
          ((closureEnv ops (CascadeStep.FindFixedPoints ops (d + 1))).GetName current)
          (by intro st0 a b n ha hb h; rw [← hops]; exact Unmatched_Add _ _ st0 a b n ha hb h)
          hNextOn k0 v0 (vertices_1.equal_range k0) (vertices_2.equal_range k0) s hmem
          (fun a ha hka => hkk (honce1 k0 a ((mem_equal_range vertices_1 k0 a).mp ha) hka))
          (fun b hb hkb => hkk (honce2 k0 b ((mem_equal_range vertices_2 k0 b).mp hb) hkb))
          c3 hsteps
        have hv1 : (k, v) ∈ T := by
          rcases List.mem_cons.mp hv with h | h
          · exact absurd (congrArg Prod.fst h) hkk2
          · exact h
        refine ⟨s1, j, hb, hA1, hS1, hst, Or.inl ⟨?_, ⟨v, hv1⟩, hI⟩⟩
        cases j with
        | false => exact c1
        | true =>
          intro hmemE
          rcases List.mem_cons.mp hmemE with h | h
          · exact hkk2 h
          · exact c1 h
    · -- after the key `k`
      obtain ⟨s1, j, hb, hI, hst⟩ := vertexBody_inv
        (closureEnv ops (CascadeStep.FindFixedPoints ops (d + 1)))
        (MatchedOnce nextName (vertices_1.equal_range k) (vertices_2.equal_range k)
          (instructionCountKey imd1 ic1) (instructionCountKey imd2 ic2))
        (next :: rest)
        ((closureEnv ops (CascadeStep.FindFixedPoints ops (d + 1))).GetName current)
        hAdd hNext k0 v0 (vertices_1.equal_range k0) (vertices_2.equal_range k0) s hmem hC
        hsteps
      exact ⟨s1, j, hb, hA1, hS1, hst, Or.inr hI⟩
  · -- at the start
    refine ⟨fun e he => he, hs, rfl, Or.inl ⟨by simp, ?_, hF1, hF2⟩⟩
    cases hr : vertices_1.equal_range k with
    | nil => rw [hr] at hk1; simp at hk1
    | cons v tl =>
      exact ⟨v, (mem_equal_range vertices_1 k v).mp (by rw [hr]; exact List.mem_cons_self _ _)⟩

/-! ## The claims at concrete inputs -/

theorem exampleEnv_returns : exampleEnv.Returns := fun _ _ _ _ _ => rfl

theorem FixedPointAdd_reject (st : MatchState) (a b : Vertex) (n : String)
    (h : a ∈ st.pairs.map Prod.fst ∨ b ∈ st.pairs.map Prod.snd) :
    (FixedPointAdd st a b n).1 = false ∧ (FixedPointAdd st a b n).2.pairs = st.pairs := by
  have hany : st.fixed_points.any (fun fp => fp.primary == a || fp.secondary == b) = true := by
    rw [List.any_eq_true]
    simp only [MatchState.pairs, List.map_map, List.mem_map, Function.comp] at h
    rcases h with ⟨fp, hfp, hp⟩ | ⟨fp, hfp, hp⟩
    · exact ⟨fp, hfp, by simp [hp]⟩
    · exact ⟨fp, hfp, by simp [hp]⟩
  unfold FixedPointAdd
  rw [if_pos hany]
  exact ⟨rfl, rfl⟩

theorem FixedPointAdd_record (st : MatchState) (a b : Vertex) (n : String) :
    (FixedPointAdd st a b n).2.pairs = st.pairs ∨
      (FixedPointAdd st a b n).2.pairs = st.pairs ++ [(a, b)] := by
  unfold FixedPointAdd
  split
  · exact Or.inl rfl
  · right
    simp [MatchState.pairs]

/-- Witness for C6: with maps `[(1,10),(2,20),(2,21)]` and `[(1,11),(2,22)]`
    and the step list `A, B`, the key 1 is filed once on both sides and the
    cascade calls `Add(10, 11, "A")` once for it. -/
theorem FindFixedPointsBasicBlockInternal_adds_witness :
    ∃ r, FindFixedPointsBasicBlockInternal exampleEnv [(1, 10), (2, 20), (2, 21)]
        [(1, 11), (2, 22)] ⟨[], [], []⟩ [exampleStep "A", exampleStep "B"] = some r ∧
      ∃ a, addsAt 1 r.trace = [Event.add 1 10 11 "A" a] := by
  obtain ⟨r, h1, h2, _⟩ := FindFixedPointsBasicBlockInternal_adds exampleEnv exampleEnv_returns
    [(1, 10), (2, 20), (2, 21)] [(1, 11), (2, 22)] (by unfold MultiMap.Sorted; decide)
    ⟨[], [], []⟩ (exampleStep "A") [exampleStep "B"]
  exact ⟨r, h1, h2 1 10 11 (by decide) (by decide) (by decide) (by decide)⟩

/-- Witness for C7: in the same run the key 2 is filed twice on the primary
    side and once on the secondary side; its entries are gone at the end and
    the step `B` was called once for it. -/
theorem FindFixedPointsBasicBlockInternal_ambiguous_witness :
    ∃ r, FindFixedPointsBasicBlockInternal exampleEnv [(1, 10), (2, 20), (2, 21)]
        [(1, 11), (2, 22)] ⟨[], [], []⟩ [exampleStep "A", exampleStep "B"] = some r ∧
      r.map1.count 2 = 0 ∧ r.map2.count 2 = 0 ∧ addsAt 2 r.trace = [] ∧
      ∃ bb1 bb2 b, nextsAt 2 r.trace = [Event.next 2 (exampleStep "B") bb1 bb2 b] := by
  obtain ⟨r, h1, h2⟩ := FindFixedPointsBasicBlockInternal_ambiguous exampleEnv
    exampleEnv_returns [(1, 10), (2, 20), (2, 21)] [(1, 11), (2, 22)]
    (by unfold MultiMap.Sorted; decide) ⟨[], [], []⟩ (exampleStep "A") [exampleStep "B"]
  obtain ⟨a1, a2, a3, _, a5⟩ := h2 2 (by decide) (by decide) (Or.inl (by decide))
  obtain ⟨bb1, bb2, b, hb, _⟩ := a5 (exampleStep "B") [] rfl
  exact ⟨r, h1, a1, a2, a3, bb1, bb2, b, hb⟩

/-- Witness for C8 on the same maps, for both cascades. -/
theorem cascade_returns_true_iff_witness :
    (∃ r, FindFixedPointsBasicBlockInternal exampleEnv [(1, 10), (2, 20), (2, 21)]
        [(1, 11), (2, 22)] ⟨[], [], []⟩ [exampleStep "A", exampleStep "B"] = some r ∧
      (r.found = true ↔ ∃ e ∈ r.trace, e.positive = true)) ∧
    (∃ r, FindFixedPointsBasicBlockEdgeInternal exampleEnv [(1, 10), (2, 20), (2, 21)]
        [(1, 11), (2, 22)] ⟨[], [], []⟩ [exampleStep "A", exampleStep "B"] = some r ∧
      (r.found = true ↔ ∃ e ∈ r.trace, e.positive = true)) :=
  cascade_returns_true_iff exampleEnv exampleEnv_returns [(1, 10), (2, 20), (2, 21)]
    [(1, 11), (2, 22)] (by unfold MultiMap.Sorted; decide) ⟨[], [], []⟩ (exampleStep "A")
    [exampleStep "B"]

/-- Witness for C9: the registry of the specification, the step list `A, B`
    with nesting depth 1, and a fixed point that already holds the pair
    `(10, 11)`. -/
theorem cascade_no_double_match_witness :
    NoDouble (MatchState.pairs ⟨[⟨10, 11, "old"⟩], [], []⟩) ∧
    (∃ r, FindFixedPointsBasicBlockInternal
        (closureEnv (specOps (fun e => e / 10) (fun e => e % 10) (fun e => e / 10)
            (fun e => e % 10))
          (CascadeStep.FindFixedPoints (specOps (fun e => e / 10) (fun e => e % 10)
            (fun e => e / 10) (fun e => e % 10)) 1))
        [(1, 10), (2, 20), (2, 21)] [(1, 11), (2, 22)] ⟨[⟨10, 11, "old"⟩], [], []⟩
        [exampleStep "A", exampleStep "B"] = some r ∧ NoDouble r.state.pairs) ∧
    (∃ r, FindFixedPointsBasicBlockEdgeInternal
        (closureEnv (specOps (fun e => e / 10) (fun e => e % 10) (fun e => e / 10)
            (fun e => e % 10))
          (CascadeStep.FindFixedPoints (specOps (fun e => e / 10) (fun e => e % 10)
            (fun e => e / 10) (fun e => e % 10)) 1))
        [(1, 10), (2, 20), (2, 21)] [(1, 11), (2, 22)] ⟨[⟨10, 11, "old"⟩], [], []⟩
        [exampleStep "A", exampleStep "B"] = some r ∧ NoDouble r.state.pairs) := by
  have hnd : NoDouble (MatchState.pairs ⟨[⟨10, 11, "old"⟩], [], []⟩) := by
    simp [NoDouble, MatchState.pairs]
  exact ⟨hnd, cascade_no_double_match
    (specOps (fun e => e / 10) (fun e => e % 10) (fun e => e / 10) (fun e => e % 10))
    MatchState.pairs FixedPointAdd_reject FixedPointAdd_record (fun _ _ _ => rfl)
    (fun _ _ _ => rfl) (exampleStep "A") [exampleStep "B"] 1 (by simp)
    (fun s hs _ _ _ => by
      rw [List.mem_singleton.mp hs]
      exact List.Pairwise.nil)
    [(1, 10), (2, 20), (2, 21)] [(1, 11), (2, 22)] (by unfold MultiMap.Sorted; decide)
    ⟨[⟨10, 11, "old"⟩], [], []⟩ hnd⟩

/-- Witness for C10: a step "prime" files the blocks 9, 1 and 2 on the primary
    side and 8, 5 and 6 on the secondary side; the key 3 pairs 9 with 8, the
    key 7 is shared by the blocks 1 and 2 and by the blocks 5 and 6. The next
    step keys block `v` by `v` on the primary side and by `v - 4` on the
    secondary side, and one more step that files nothing follows it. The
    blocks under the key 7 end up in exactly one fixed point each, labelled
    with the next step's name. -/
theorem cascade_ambiguity_resolved_by_next_step_witness :
    ∃ r, FindFixedPointsBasicBlockInternal
        (closureEnv (specOps (fun e => e / 10) (fun e => e % 10) (fun e => e / 10)
            (fun e => e % 10))
          (CascadeStep.FindFixedPoints (specOps (fun e => e / 10) (fun e => e % 10)
            (fun e => e / 10) (fun e => e % 10)) 2))
        [(3, 9), (7, 1), (7, 2)] [(3, 8), (7, 5), (7, 6)] ⟨[], [], []⟩
        [exampleStep "prime",
          MatchingStepInstructionCount (specOps (fun e => e / 10) (fun e => e % 10)
            (fun e => e / 10) (fun e => e % 10)) "instruction count"
            (fun _ => 0) (fun v => v) (fun _ => 0) (fun v => v - 4),
          exampleStep "last"] = some r ∧
      (∃ b, r.state.fixed_points.filter (fun fp => fp.primary == 1) =
        [⟨1, b, "instruction count"⟩]) ∧
      (∃ a, r.state.fixed_points.filter (fun fp => fp.secondary == 6) =
        [⟨a, 6, "instruction count"⟩]) := by
  have hm1 : ∀ a, (7, a) ∈ ([(3, 9), (7, 1), (7, 2)] : MultiMap) ↔ a = 1 ∨ a = 2 := by
    intro a; simp
  have hm2 : ∀ b, (7, b) ∈ ([(3, 8), (7, 5), (7, 6)] : MultiMap) ↔ b = 5 ∨ b = 6 := by
    intro b; simp
  obtain ⟨r, h1, h2, h3⟩ := cascade_ambiguity_resolved_by_next_step
    (fun e => e / 10) (fun e => e % 10) (fun e => e / 10) (fun e => e % 10)
    (exampleStep "prime") "instruction count" (fun _ => 0) (fun v => v) (fun _ => 0)
    (fun v => v - 4) [exampleStep "last"] 2 (by simp)
    (fun s hs st vs1 vs2 => by
      rw [List.mem_singleton.mp hs]
      exact List.Pairwise.nil)
    (fun s hs st vs1 vs2 => by
      rw [List.mem_singleton.mp hs]
      exact ⟨fun e he => absurd he (List.not_mem_nil e),
        fun e he => absurd he (List.not_mem_nil e)⟩)
    [(3, 9), (7, 1), (7, 2)] [(3, 8), (7, 5), (7, 6)] (by unfold MultiMap.Sorted; decide)
    ⟨[], [], []⟩ 7
    (by decide) (by decide) (Or.inl (by decide))
    (fun k0 a h0 ha => by
      rcases (hm1 a).mp ha with rfl | rfl <;> simp at h0 <;> exact h0)
    (fun k0 b h0 hb => by
      rcases (hm2 b).mp hb with rfl | rfl <;> simp at h0 <;> exact h0)
    (fun a b ha hb h => by
      rcases (hm1 a).mp ha with rfl | rfl <;> rcases (hm1 b).mp hb with rfl | rfl <;>
        simp [instructionCountKey] at h ⊢)
    (fun a b ha hb h => by
      rcases (hm2 a).mp ha with rfl | rfl <;> rcases (hm2 b).mp hb with rfl | rfl <;>
        simp [instructionCountKey] at h ⊢)
    (fun a ha => by
      rcases (hm1 a).mp ha with rfl | rfl
      · exact ⟨5, by simp, by simp [instructionCountKey]⟩
      · exact ⟨6, by simp, by simp [instructionCountKey]⟩)
    (fun b hb => by
      rcases (hm2 b).mp hb with rfl | rfl
      · exact ⟨1, by simp, by simp [instructionCountKey]⟩
      · exact ⟨2, by simp, by simp [instructionCountKey]⟩)
    (fun a _ fp hfp => absurd hfp (List.not_mem_nil fp))
    (fun b _ fp hfp => absurd hfp (List.not_mem_nil fp))
  obtain ⟨b, _, _, hb⟩ := h2 1 (by simp)
  obtain ⟨a, _, _, ha⟩ := h3 6 (by simp)
  exact ⟨r, h1, ⟨b, hb⟩, ⟨a, ha⟩⟩


/-! ## Keeping a record changes nothing else -/

theorem continueWithNext_recording {σ S : Type} (env : Env σ S) (key : Nat)
    (bb1 bb2 : VertexSet) (s : Inner (σ × List (List S)) S) :
    (continueWithNext env.recording key bb1 bb2 s).map Inner.forget =
      continueWithNext env key bb1 bb2 s.forget := by
  unfold continueWithNext
  rcases hst : s.steps with _ | ⟨step, l⟩
  · simp [Inner.forget, hst]
  · simp only [Inner.forget, hst]
    by_cases hb : bb1 ≠ [] ∧ bb2 ≠ []
    · simp only [hb, and_self, if_true, ne_eq, not_false_eq_true, Env.recording]
      rcases hf : env.FindFixedPoints step bb1 bb2 s.state.1 (step :: l) with _ | ⟨b, st1, l1⟩
      · simp
      · simp [Inner.forget]
    · simp only [hb, if_false, Option.map_some', Inner.forget, hst]

theorem vertexLoop_recording {σ S : Type} (env : Env σ S) (name : String) :
    ∀ (fuel i : Nat) (m1 m2 : MultiMap) (s : Inner (σ × List (List S)) S),
      (vertexLoop env.recording name fuel i m1 m2 s).map CascadeResult.forget =
        vertexLoop env name fuel i m1 m2 s.forget := by
  intro fuel
  induction fuel with
  | zero => intro i m1 m2 s; rfl
  | succ fuel ih =>
    intro i m1 m2 s
    unfold vertexLoop
    rcases hg : m1.get? i with _ | ⟨key, v1⟩
    · rfl
    · dsimp only
      by_cases h0 : m1.count key = 0 ∨ m2.count key = 0
      · rw [if_pos h0, if_pos h0]
        exact ih _ _ _ _
      · rw [if_neg h0, if_neg h0]
        by_cases h1 : m1.count key > 1 ∨ m2.count key > 1
        · rw [if_pos h1, if_pos h1]
          have hc := continueWithNext_recording env key (collect (m1.equal_range key) [])
            (collect (m2.equal_range key) []) s
          rcases hn : continueWithNext env.recording key (collect (m1.equal_range key) [])
            (collect (m2.equal_range key) []) s with _ | s1
          · rw [hn] at hc
            rw [← hc]
            rfl
          · rw [hn] at hc
            rw [← hc]
            exact ih _ _ _ _
        · rw [if_neg h1, if_neg h1]
          rcases hfind : m2.find key with _ | ⟨k2, v2⟩
          · rfl
          · exact ih _ _ _ _

/-- The vertex cascade in the recording environment is the vertex cascade in
    the environment itself, with the record kept beside it. -/
theorem FindFixedPointsBasicBlockInternal_recording {σ S : Type} (env : Env σ S)
    (m1 m2 : MultiMap) (st : σ) (record : List (List S)) (steps : List S) :
    (FindFixedPointsBasicBlockInternal env.recording m1 m2 (st, record) steps).map
        CascadeResult.forget =
      FindFixedPointsBasicBlockInternal env m1 m2 st steps := by
  unfold FindFixedPointsBasicBlockInternal
  rcases steps with _ | ⟨front, rest⟩
  · rfl
  · exact vertexLoop_recording env (env.GetName front) _ _ _ _ _

theorem addFlags_recording {σ S : Type} (addFlag : σ → Edge → Nat → σ) (key : Nat)
    (side : Bool) (flag : Nat) (edges : List Edge) :
    ∀ s : Inner (σ × List (List S)) S,
      (addFlags (fun st e f => (addFlag st.1 e f, st.2)) key side flag edges s).forget =
        addFlags addFlag key side flag edges s.forget := by
  induction edges with
  | nil => intro s; rfl
  | cons e es ih =>
    intro s
    unfold addFlags at ih ⊢
    rw [List.foldl_cons, List.foldl_cons, ih]
    rfl

theorem continueWithNextEdge_recording {σ S : Type} (env : Env σ S) (key : Nat)
    (edges1 edges2 : MultiMap) (s : Inner (σ × List (List S)) S) :
    (continueWithNextEdge env.recording key edges1 edges2 s).map Inner.forget =
      continueWithNextEdge env key edges1 edges2 s.forget := by
  unfold continueWithNextEdge
  rcases hst : s.steps with _ | ⟨step, l⟩
  · simp [Inner.forget, hst]
  · have h : s.forget.steps = step :: l := hst
    rw [h]
    exact continueWithNext_recording env key _ _ s

theorem edgeLoop_recording {σ S : Type} (env : Env σ S) (name : String) (step_index : Nat) :
    ∀ (fuel i : Nat) (m1 m2 : MultiMap) (s : Inner (σ × List (List S)) S),
      (edgeLoop env.recording name step_index fuel i m1 m2 s).map CascadeResult.forget =
        edgeLoop env name step_index fuel i m1 m2 s.forget := by
  intro fuel
  induction fuel with
  | zero => intro i m1 m2 s; rfl
  | succ fuel ih =>
    intro i m1 m2 s
    unfold edgeLoop
    rcases hg : m1.get? i with _ | ⟨key, edge1⟩
    · rfl
    · dsimp only
      by_cases h0 : m1.count key ≠ 1 ∨ m2.count key ≠ 1
      · rw [if_pos h0, if_pos h0]
        by_cases h1 : m1.count key ≥ 1 ∧ m2.count key ≥ 1
        · rw [if_pos h1, if_pos h1]
          have hc := continueWithNextEdge_recording env key m1 m2
            (addFlags env.recording.AddFlag2 key false (1 <<< step_index) (m2.equal_range key)
              (addFlags env.recording.AddFlag1 key true (1 <<< step_index)
                (m1.equal_range key) s))
          have hfl : (addFlags env.recording.AddFlag2 key false (1 <<< step_index)
              (m2.equal_range key) (addFlags env.recording.AddFlag1 key true
                (1 <<< step_index) (m1.equal_range key) s)).forget =
              addFlags env.AddFlag2 key false (1 <<< step_index) (m2.equal_range key)
                (addFlags env.AddFlag1 key true (1 <<< step_index) (m1.equal_range key)
                  s.forget) := by
            rw [← addFlags_recording env.AddFlag1, ← addFlags_recording env.AddFlag2]
            rfl
          rw [hfl] at hc
          rcases hn : continueWithNextEdge env.recording key m1 m2
            (addFlags env.recording.AddFlag2 key false (1 <<< step_index) (m2.equal_range key)
              (addFlags env.recording.AddFlag1 key true (1 <<< step_index)
                (m1.equal_range key) s)) with _ | s1
          · rw [hn] at hc
            rw [← hc]
            rfl
          · rw [hn] at hc
            rw [← hc]
            exact ih _ _ _ _
        · rw [if_neg h1, if_neg h1]
          exact ih _ _ _ _
      · rw [if_neg h0, if_neg h0]
        rcases hfind : m2.find key with _ | ⟨k2, edge2⟩
        · rfl
        · dsimp only
          by_cases ha : (env.Add s.state.1 (env.source1 edge1) (env.source2 edge2) name).1 = true
          · have ha1 : (env.recording.Add s.state (env.recording.source1 edge1)
                (env.recording.source2 edge2) name).1 = true := ha
            have ha2 : (env.Add s.forget.state (env.source1 edge1) (env.source2 edge2)
                name).1 = true := ha
            rw [if_pos ha1, if_pos ha2]
            exact ih _ _ _ _
          · have ha1 : ¬ (env.recording.Add s.state (env.recording.source1 edge1)
                (env.recording.source2 edge2) name).1 = true := ha
            have ha2 : ¬ (env.Add s.forget.state (env.source1 edge1) (env.source2 edge2)
                name).1 = true := ha
            rw [if_neg ha1, if_neg ha2]
            exact ih _ _ _ _

/-- The edge cascade in the recording environment is the edge cascade in the
    environment itself, with the record kept beside it. -/
theorem FindFixedPointsBasicBlockEdgeInternal_recording {σ S : Type} (env : Env σ S)
    (m1 m2 : MultiMap) (st : σ) (record : List (List S)) (steps : List S) :
    (FindFixedPointsBasicBlockEdgeInternal env.recording m1 m2 (st, record) steps).map
        CascadeResult.forget =
      FindFixedPointsBasicBlockEdgeInternal env m1 m2 st steps := by
  unfold FindFixedPointsBasicBlockEdgeInternal
  rcases steps with _ | ⟨front, rest⟩
  · rfl
  · exact edgeLoop_recording env (env.GetName front) _ _ _ _ _ _

/-! ## The step list across a cascade -/

/-- C11: let every step of the list file its candidates in sorted maps and run
    one of the two cascades, with enough nesting depth for the list. Then a
    step's `FindFixedPoints` called on the list `front :: rest` returns with
    the list `rest`; and a vertex or edge cascade on any maps returns, the
    list it leaves behind is `rest`, and every nested `FindFixedPoints` call
    of the run was handed exactly the list `rest` (the record of the run in
    the recording environment, which is otherwise the same run). -/
theorem cascade_step_list_discipline {σ : Type} (ops : Ops σ)
    (front : CascadeStep σ) (rest : List (CascadeStep σ)) (depth : Nat)
    (hd : rest.length ≤ depth)
    (hsorted : ∀ s ∈ front :: rest, ∀ st vs1 vs2, (s.maps st vs1 vs2).1.Sorted)
    (map1 map2 : MultiMap) (hs : map1.Sorted) (vs1 vs2 : VertexSet) (st : σ) :
    (∃ b st1, CascadeStep.FindFixedPoints ops (depth + 1) front vs1 vs2 st (front :: rest) =
      some (b, st1, rest)) ∧
    (∃ r, FindFixedPointsBasicBlockInternal
        (closureEnv ops (CascadeStep.FindFixedPoints ops depth)).recording map1 map2 (st, [])
        (front :: rest) = some r ∧
      FindFixedPointsBasicBlockInternal (closureEnv ops (CascadeStep.FindFixedPoints ops depth))
        map1 map2 st (front :: rest) = some r.forget ∧
      r.steps = rest ∧ ∀ l ∈ r.state.2, l = rest) ∧
    (∃ r, FindFixedPointsBasicBlockEdgeInternal
        (closureEnv ops (CascadeStep.FindFixedPoints ops depth)).recording map1 map2 (st, [])
        (front :: rest) = some r ∧
      FindFixedPointsBasicBlockEdgeInternal
        (closureEnv ops (CascadeStep.FindFixedPoints ops depth)) map1 map2 st (front :: rest) =
        some r.forget ∧
      r.steps = rest ∧ ∀ l ∈ r.state.2, l = rest) := by
  have hsr : ∀ s ∈ rest, ∀ st vs1 vs2, (s.maps st vs1 vs2).1.Sorted :=
    fun s hmem => hsorted s (List.mem_cons_of_mem _ hmem)
  have hNext := closure_next ops (fun _ => True) (fun _ _ _ _ _ => trivial)
    (fun _ _ _ _ => trivial) (fun _ _ _ _ => trivial) rest depth hd hsr
  have hNextR : ∀ step l, rest = step :: l → ∀ bb1 bb2 (st0 : σ × List (List (CascadeStep σ))),
      (∀ l0 ∈ st0.2, l0 = rest) →
      ∃ b st1, (closureEnv ops (CascadeStep.FindFixedPoints ops depth)).recording.FindFixedPoints
        step bb1 bb2 st0 rest = some (b, st1, l) ∧ ∀ l0 ∈ st1.2, l0 = rest := by
    intro step l h bb1 bb2 st0 hst0
    obtain ⟨b, st1, hf, _⟩ := hNext step l h bb1 bb2 st0.1 trivial
    refine ⟨b, (st1, st0.2 ++ [rest]), ?_, ?_⟩
    · show Option.map _ ((closureEnv ops (CascadeStep.FindFixedPoints ops depth)).FindFixedPoints
        step bb1 bb2 st0.1 rest) = _
      rw [hf]
      rfl
    · intro l0 hl0
      rcases List.mem_append.mp hl0 with h1 | h1
      · exact hst0 l0 h1
      · exact List.mem_singleton.mp h1
  refine ⟨?_, ?_, ?_⟩
  · obtain ⟨b, st1, h, _⟩ := CascadeStep.FindFixedPoints_inv ops (fun _ => True)
      (fun _ _ _ _ _ => trivial) (fun _ _ _ _ => trivial) (fun _ _ _ _ => trivial) depth front
      rest vs1 vs2 st trivial hd hsorted
    exact ⟨b, st1, h⟩
  · obtain ⟨r, h1, h2, h3⟩ := vertexCascade_inv
      (closureEnv ops (CascadeStep.FindFixedPoints ops depth)).recording
      (fun st0 => ∀ l0 ∈ st0.2, l0 = rest) rest (fun _ _ _ _ h => h) hNextR map1 map2 hs
      (st, []) (fun l0 h0 => absurd h0 (List.not_mem_nil l0)) front
    have he := FindFixedPointsBasicBlockInternal_recording
      (closureEnv ops (CascadeStep.FindFixedPoints ops depth)) map1 map2 st [] (front :: rest)
    rw [h1] at he
    exact ⟨r, h1, he.symm, h3, h2⟩
  · obtain ⟨r, h1, h2, h3⟩ := edgeCascade_inv
      (closureEnv ops (CascadeStep.FindFixedPoints ops depth)).recording
      (fun st0 => ∀ l0 ∈ st0.2, l0 = rest) rest (fun _ _ _ _ h => h) (fun _ _ _ h => h)
      (fun _ _ _ h => h) hNextR map1 map2 hs (st, [])
      (fun l0 h0 => absurd h0 (List.not_mem_nil l0)) front
    have he := FindFixedPointsBasicBlockEdgeInternal_recording
      (closureEnv ops (CascadeStep.FindFixedPoints ops depth)) map1 map2 st [] (front :: rest)
    rw [h1] at he
    exact ⟨r, h1, he.symm, h3, h2⟩

/-- Witness for C11: the registry of the specification, the step list `A, B`
    with nesting depth 1; the key 2 is ambiguous, so the step `B` is called
    once and is handed the list `B`. -/
theorem cascade_step_list_discipline_witness :
    ∃ r, FindFixedPointsBasicBlockInternal
        (closureEnv (specOps (fun e => e / 10) (fun e => e % 10) (fun e => e / 10)
            (fun e => e % 10))
          (CascadeStep.FindFixedPoints (specOps (fun e => e / 10) (fun e => e % 10)
            (fun e => e / 10) (fun e => e % 10)) 1)).recording
        [(1, 10), (2, 20), (2, 21)] [(1, 11), (2, 22)] (⟨[], [], []⟩, [])
        [exampleStep "A", exampleStep "B"] = some r ∧
      r.steps = [exampleStep "B"] ∧ r.state.2.length = 1 ∧
      ∀ l ∈ r.state.2, l = [exampleStep "B"] := by
  have hlen : (FindFixedPointsBasicBlockInternal
        (closureEnv (specOps (fun e => e / 10) (fun e => e % 10) (fun e => e / 10)
            (fun e => e % 10))
          (CascadeStep.FindFixedPoints (specOps (fun e => e / 10) (fun e => e % 10)
            (fun e => e / 10) (fun e => e % 10)) 1)).recording
        [(1, 10), (2, 20), (2, 21)] [(1, 11), (2, 22)] (⟨[], [], []⟩, [])
        [exampleStep "A", exampleStep "B"]).map (fun r => r.state.2.length) = some 1 := by
    decide
  obtain ⟨r, h1, _, h3, h4⟩ := (cascade_step_list_discipline
    (specOps (fun e => e / 10) (fun e => e % 10) (fun e => e / 10) (fun e => e % 10))
    (exampleStep "A") [exampleStep "B"] 1 (by simp)
    (fun s _ _ _ _ => by
      have h : ∀ s0 ∈ [exampleStep "A", exampleStep "B"],
          ∀ st vs1 vs2, (s0.maps st vs1 vs2).1 = [] := by
        intro s0 h0 st vs1 vs2
        rcases List.mem_cons.mp h0 with h1 | h1
        · rw [h1]; rfl
        · rw [List.mem_singleton.mp h1]; rfl
      rw [h s (by assumption)]
      exact List.Pairwise.nil)
    [(1, 10), (2, 20), (2, 21)] [(1, 11), (2, 22)] (by unfold MultiMap.Sorted; decide) [] []
    ⟨[], [], []⟩).2.1
  rw [h1] at hlen
  exact ⟨r, h1, h3, Option.some.inj hlen, h4⟩

/-! ## The entries of the map of `GetUnmatchedBasicBlocksByInstructionCount` -/

theorem filter_beq_of_nodup (l : List Nat) (hnd : l.Nodup) (v : Nat) :
    l.filter (fun w => w == v) = if v ∈ l then [v] else [] := by
  induction l with
  | nil => simp
  | cons a l ih =>
    have h := List.nodup_cons.mp hnd
    rw [List.filter_cons, ih h.2]
    by_cases hav : a = v
    · subst hav
      simp [h.1]
    · have hva : ¬ v = a := fun h => hav h.symm
      simp [hav, hva]

theorem GetUnmatched_filter_perm (matched : Vertex → Bool)
    (int_md_index instruction_count : Vertex → Nat) (vertices : VertexSet)
    (hnd : vertices.Nodup) (basic_blocks_map : MultiMap) (v : Vertex) :
    List.Perm
      ((GetUnmatchedBasicBlocksByInstructionCount matched int_md_index instruction_count
        vertices basic_blocks_map).filter (fun e => e.2 == v))
      ((if v ∈ vertices.filter (fun v => !matched v) then [v] else []).map
        (fun v => (instructionCountKey int_md_index instruction_count v, v))) := by
  have hp := (GetUnmatchedBasicBlocksByInstructionCount_perm matched int_md_index
    instruction_count vertices basic_blocks_map).filter (fun e => e.2 == v)
  have hr : ((vertices.filter (fun v => !matched v)).map
      (fun v => (instructionCountKey int_md_index instruction_count v, v))).filter
        (fun e => e.2 == v) =
      ((vertices.filter (fun v => !matched v)).filter (fun w => w == v)).map
        (fun v => (instructionCountKey int_md_index instruction_count v, v)) := by
    rw [List.filter_map]
    rfl
  rw [hr, filter_beq_of_nodup _ (hnd.filter _) v] at hp
  exact hp

theorem GetUnmatched_filter_unmatched (matched : Vertex → Bool)
    (int_md_index instruction_count : Vertex → Nat) (vertices : VertexSet)
    (hnd : vertices.Nodup) (basic_blocks_map : MultiMap) (v : Vertex)
    (hv : v ∈ vertices) (hm : matched v = false) :
    (GetUnmatchedBasicBlocksByInstructionCount matched int_md_index instruction_count vertices
        basic_blocks_map).filter (fun e => e.2 == v) =
      [(instructionCountKey int_md_index instruction_count v, v)] := by
  have hp := GetUnmatched_filter_perm matched int_md_index instruction_count vertices hnd
    basic_blocks_map v
  have hmem : v ∈ vertices.filter (fun v => !matched v) := by
    rw [List.mem_filter]
    exact ⟨hv, by simp [hm]⟩
  rw [if_pos hmem] at hp
  exact List.perm_singleton.mp hp

/-- C13: for every vertex set (a `std::set`, so without repetition), every
    matched-predicate of the flow graph and every prior content of the map,
    the entries of the map built by `GetUnmatchedBasicBlocksByInstructionCount`
    that file a vertex `v` are: the one entry of `v` under its key when `v`
    is in the set and has no fixed point, and none otherwise (so none for a
    matched vertex and none left from the prior content). -/
theorem GetUnmatchedBasicBlocksByInstructionCount_entries (matched : Vertex → Bool)
    (int_md_index instruction_count : Vertex → Nat) (vertices : VertexSet)
    (hnd : vertices.Nodup) (basic_blocks_map : MultiMap) (v : Vertex) :
    (GetUnmatchedBasicBlocksByInstructionCount matched int_md_index instruction_count vertices
        basic_blocks_map).filter (fun e => e.2 == v) =
      if v ∈ vertices ∧ matched v = false then
        [(instructionCountKey int_md_index instruction_count v, v)]
      else [] := by
  by_cases hv : v ∈ vertices ∧ matched v = false
  · rw [if_pos hv]
    exact GetUnmatched_filter_unmatched matched int_md_index instruction_count vertices hnd
      basic_blocks_map v hv.1 hv.2
  · rw [if_neg hv]
    have hp := GetUnmatched_filter_perm matched int_md_index instruction_count vertices hnd
      basic_blocks_map v
    have hmem : ¬ v ∈ vertices.filter (fun v => !matched v) := by
      rw [List.mem_filter]
      intro h
      exact hv ⟨h.1, by simpa using h.2⟩
    rw [if_neg hmem] at hp
    exact List.perm_nil.mp hp

/-- Witness for C13: the set `1, 2, 3` with vertex 2 matched, and a map that
    held an entry for vertex 9 before the call. -/
theorem GetUnmatchedBasicBlocksByInstructionCount_entries_witness :
    [1, 2, 3].Nodup ∧
    (GetUnmatchedBasicBlocksByInstructionCount (fun v => v == 2) (fun _ => 100) (fun v => v)
        [1, 2, 3] [(5, 9)]).filter (fun e => e.2 == 3) = [(103, 3)] :=
  ⟨by decide,
    (GetUnmatchedBasicBlocksByInstructionCount_entries (fun v => v == 2) (fun _ => 100)
      (fun v => v) [1, 2, 3] (by decide) [(5, 9)] 3).trans (by decide)⟩

/-! ## The key of `MatchingStepInstructionCount` -/

theorem Double.round_exact (mantissa : Nat) (exponent : Int) (hm : mantissa < 2 ^ 53)
    (he : -1074 ≤ exponent) : Double.round mantissa exponent = ⟨mantissa, exponent⟩ := by
  have h0 : excessBits mantissa mantissa = 0 := by
    cases mantissa with
    | zero => rfl
    | succ n => simp only [excessBits, hm, if_true]
  have h1 : (-1074 - exponent).toNat = 0 := by omega
  unfold Double.round
  simp [h0, h1, Nat.mod_one]

/-- C19: in the recursive case of `ComputeLcs` (an x range of at least two
    elements, split at `xmid = xlo + nx / 2`) the two recursive calls are made
    on the y ranges `[ylo, ymid)` and `[ymid, yhi)` with `ymid = ylo + k`,
    where `k` is an offset in `0..|y range|` whose value
    `LCS(x[xlo..xmid), y[ylo..ylo+k)) + LCS(x[xmid..xhi), y[ylo+k..yhi))` is
    the largest of all offsets, and every offset with the largest value is at
    least `k`. -/
theorem ComputeLcs_split_first_maximum (xs ys : List Nat) (fuel xlo xhi ylo yhi : Nat)
    (h : xhi - xlo ≤ fuel + 1) (hx : 2 ≤ xhi - xlo) (hy1 : ylo ≤ yhi) (hy2 : yhi ≤ ys.length)
    (out : Out) :
    ∃ k, k ≤ yhi - ylo ∧
      ComputeLcsRec xs ys (fuel + 1) xlo xhi ylo yhi h out =
        ComputeLcsRec xs ys fuel (xlo + (xhi - xlo) / 2) xhi (ylo + k) yhi (by omega)
          (ComputeLcsRec xs ys fuel xlo (xlo + (xhi - xlo) / 2) ylo (ylo + k) (by omega) out) ∧
      (∀ u, u ≤ yhi - ylo →
        splitScore xs xlo xhi ys ylo yhi u ≤ splitScore xs xlo xhi ys ylo yhi k) ∧
      (∀ u, u ≤ yhi - ylo →
        (∀ w, w ≤ yhi - ylo →
          splitScore xs xlo xhi ys ylo yhi w ≤ splitScore xs xlo xhi ys ylo yhi u) →
        k ≤ u) := by
  obtain ⟨t, ht, hsp, hmax, hfirst⟩ := splitPoint_spec xs xlo xhi ys ylo yhi hy1 hy2
  refine ⟨t, ht, ?_, hmax, ?_⟩
  · have h0 : ¬ xhi - xlo = 0 := by omega
    have h1 : ¬ xhi - xlo = 1 := by omega
    rw [ComputeLcsRec]
    simp only [h0, h1, dite_false, hsp]
  · intro u _ hu
    by_contra hlt
    have h1 := hfirst u (by omega)
    have h2 := hu t ht
    omega

/-- Witness for C19: `x = [1, 2, 3, 4]` and `y = [1, 3, 2]`; the cuts at
    offsets 0 to 3 have the values 1, 2, 1, 2, and the cut is made at
    offset 1, the first of the two largest. -/
theorem ComputeLcs_split_first_maximum_witness :
    ∃ k, k = 1 ∧
      ComputeLcsRec [1, 2, 3, 4] [1, 3, 2] (3 + 1) 0 4 0 3 (by decide) ([], []) =
        ComputeLcsRec [1, 2, 3, 4] [1, 3, 2] 3 (0 + (4 - 0) / 2) 4 (0 + k) 3 (by decide)
          (ComputeLcsRec [1, 2, 3, 4] [1, 3, 2] 3 0 (0 + (4 - 0) / 2) 0 (0 + k) (by decide)
            ([], [])) := by
  obtain ⟨k, hk, hrec, hmax, hfirst⟩ := ComputeLcs_split_first_maximum [1, 2, 3, 4] [1, 3, 2] 3
    0 4 0 3 (by decide) (by decide) (by decide) (by decide) ([], [])
  have h1 : k ≤ 1 := hfirst 1 (by decide) (by decide)
  have h2 : k ≠ 0 := by
    intro h0
    have h3 := hmax 1 (by decide)
    rw [h0] at h3
    revert h3
    decide
  exact ⟨k, by omega, hrec⟩

/-- C20: for every x range, every y range and any prior content of `lens`,
    `lens` has `|y range| + 1` entries after `LcsLens` returns; for every
    `j` in `0..|y range|` the entry `lens[j]` is the length of a common
    subsequence of the x range and the first `j` elements of the y range,
    and no common subsequence of the two is longer; `lens[0]` is 0 and the
    entries do not decrease. -/
theorem LcsLens_rows (xrange yrange : List Nat) (lens : Lengths) :
    (LcsLens xrange yrange lens).length = yrange.length + 1 ∧
    (∀ j, j ≤ yrange.length →
      (∃ l : List Nat, l.Sublist xrange ∧ l.Sublist (yrange.take j) ∧
        (LcsLens xrange yrange lens).getD j 0 = (l.length : Int)) ∧
      (∀ l : List Nat, l.Sublist xrange → l.Sublist (yrange.take j) →
        (l.length : Int) ≤ (LcsLens xrange yrange lens).getD j 0)) ∧
    (LcsLens xrange yrange lens).getD 0 0 = 0 ∧
    (∀ i j, i ≤ j → j ≤ yrange.length →
      (LcsLens xrange yrange lens).getD i 0 ≤ (LcsLens xrange yrange lens).getD j 0) := by
  obtain ⟨hlen, hrow⟩ := LcsLens_spec xrange yrange lens
  refine ⟨hlen, ?_, ?_, ?_⟩
  · intro j hj
    rw [hrow j hj]
    constructor
    · obtain ⟨l, h1, h2, h3⟩ := lcsLength_attained xrange (yrange.take j)
      exact ⟨l, h1, h2, by rw [h3]⟩
    · intro l h1 h2
      exact_mod_cast lcsLength_sublist_le _ _ l h1 h2
  · rw [hrow 0 (Nat.zero_le _)]
    simp [lcsLength_nil_right]
  · intro i j hij hj
    rw [hrow i (le_trans hij hj), hrow j hj]
    have hsub : (yrange.take i).Sublist (yrange.take j) := by
      have : yrange.take i = (yrange.take j).take i := by
        rw [List.take_take, Nat.min_eq_left hij]
      rw [this]
      exact List.take_sublist _ _
    exact_mod_cast lcsLength_mono (List.Sublist.refl xrange) hsub

/-- Witness for C20: the x range `[1, 2, 3]`, the y range `[2, 1, 3]` and a
    vector that held `[7, 7]` before the call; the row is `[0, 1, 1, 2]`. -/
theorem LcsLens_rows_witness :
    LcsLens [1, 2, 3] [2, 1, 3] [7, 7] = [0, 1, 1, 2] ∧
    (LcsLens [1, 2, 3] [2, 1, 3] [7, 7]).length = [2, 1, 3].length + 1 ∧
    (LcsLens [1, 2, 3] [2, 1, 3] [7, 7]).getD 0 0 = 0 :=
  ⟨by decide, (LcsLens_rows [1, 2, 3] [2, 1, 3] [7, 7]).1,
    (LcsLens_rows [1, 2, 3] [2, 1, 3] [7, 7]).2.2.1⟩

/-! ## `IPow32` -/

/-- C17: for every 32-bit base and every exponent `IPow32(base, exp)` is
    `base^exp mod 2^32` and a 32-bit value; `IPow32(0, 0)` is 1, `IPow32(b, 0)`
    is 1 for every `b`, `IPow32(1, n)` is 1 for every `n`, and the values
    expected by `prime_signature_test.cc` come out: `IPow32(2, 4) == 16`,
    `IPow32(12, 2) == 144`, `IPow32(953, 3) == 865523177`,
    `IPow32(953, 48) == 1629949057`, `IPow32(1296829, 3600) == 454359873`. -/
theorem pow_3600_mod : 1296829 ^ 3600 % 2 ^ 32 = 454359873 := by
  have e : (1296829 : Nat) ^ 3600 = ((1296829 ^ 15) ^ 15) ^ 16 := by
    rw [← pow_mul, ← pow_mul]
  have h1 : 1296829 ^ 15 % 2 ^ 32 = 1548451285 := by decide
  have h2 : 1548451285 ^ 15 % 2 ^ 32 = 644092221 := by decide
  have h3 : 644092221 ^ 16 % 2 ^ 32 = 454359873 := by decide
  rw [e, Nat.pow_mod, Nat.pow_mod (1296829 ^ 15), h1, h2, h3]

theorem IPow32_values :
    (∀ base exp, base < 2 ^ 32 → IPow32 base exp = base ^ exp % 2 ^ 32 ∧
      IPow32 base exp < 2 ^ 32) ∧
    IPow32 0 0 = 1 ∧ (∀ b, IPow32 b 0 = 1) ∧ (∀ n, IPow32 1 n = 1) ∧
    IPow32 2 4 = 16 ∧ IPow32 12 2 = 144 ∧ IPow32 953 3 = 865523177 ∧
    IPow32 953 48 = 1629949057 ∧ IPow32 1296829 3600 = 454359873 := by
  refine ⟨fun base exp _ => ⟨rfl, Nat.mod_lt _ (by decide)⟩, by decide, ?_, ?_, by decide,
    by decide, by decide, by decide, pow_3600_mod⟩
  · intro b
    simp [IPow32]
  · intro n
    simp [IPow32]

/-! ## `ChainWriter` -/

theorem ChainWriter.ofAdds_writers {ω G F P : Type} (writers : List (Writer ω G F P)) :
    (ChainWriter.ofAdds writers).writers_ = writers := by
  have h : ∀ (ws : List (Writer ω G F P)) (chain : ChainWriter ω G F P),
      (ws.foldl ChainWriter.Add chain).writers_ = chain.writers_ ++ ws := by
    intro ws
    induction ws with
    | nil => intro chain; simp
    | cons w ws ih =>
      intro chain
      rw [List.foldl_cons, ih]
      simp [ChainWriter.Add]
  simpa [ChainWriter.ofAdds] using h writers ⟨[]⟩

/-- The loop over the writers: the calls made are calls of a prefix of the
    writers, in order and with the arguments of the loop; either all writers
    were called, all returned OK and the loop returns OK, or the last call
    returned an error, all before it returned OK, and the loop returns that
    error. -/
theorem ChainWriter.WriteLoop_spec {ω G F P : Type} (call_graph1 call_graph2 : G)
    (flow_graphs1 flow_graphs2 : F) (fixed_points : P) :
    ∀ (writers : List (Writer ω G F P)) (world : ω) (calls : List (WriteCall ω G F P)),
      ∃ new : List (WriteCall ω G F P),
        (ChainWriter.WriteLoop call_graph1 call_graph2 flow_graphs1 flow_graphs2 fixed_points
          writers world calls).calls = calls ++ new ∧
        new.map WriteCall.writer = writers.take new.length ∧
        (∀ c ∈ new, c.sameArgs call_graph1 call_graph2 flow_graphs1 flow_graphs2
          fixed_points ∧
          ∃ world0, c.result = (c.writer.Write call_graph1 call_graph2 flow_graphs1
            flow_graphs2 fixed_points world0).1) ∧
        ((new.length = writers.length ∧ (∀ c ∈ new, c.result = Status.ok) ∧
            (ChainWriter.WriteLoop call_graph1 call_graph2 flow_graphs1 flow_graphs2
              fixed_points writers world calls).status = Status.ok) ∨
          (∃ pre c, new = pre ++ [c] ∧ (∀ p ∈ pre, p.result = Status.ok) ∧
            c.result ≠ Status.ok ∧
            (ChainWriter.WriteLoop call_graph1 call_graph2 flow_graphs1 flow_graphs2
              fixed_points writers world calls).status = c.result)) := by
  intro writers
  induction writers with
  | nil =>
    intro world calls
    exact ⟨[], by simp [ChainWriter.WriteLoop], rfl, fun c hc => absurd hc (List.not_mem_nil c),
      Or.inl ⟨rfl, fun c hc => absurd hc (List.not_mem_nil c), rfl⟩⟩
  | cons w ws ih =>
    intro world calls
    rcases hr : (w.Write call_graph1 call_graph2 flow_graphs1 flow_graphs2 fixed_points
      world).1 with _ | ⟨code, message⟩
    · obtain ⟨new, h1, h2, h3, h4⟩ := ih
        (w.Write call_graph1 call_graph2 flow_graphs1 flow_graphs2 fixed_points world).2
        (calls ++ [⟨w, call_graph1, call_graph2, flow_graphs1, flow_graphs2, fixed_points,
          Status.ok⟩])
      have hloop : ChainWriter.WriteLoop call_graph1 call_graph2 flow_graphs1 flow_graphs2
          fixed_points (w :: ws) world calls =
          ChainWriter.WriteLoop call_graph1 call_graph2 flow_graphs1 flow_graphs2 fixed_points
            ws (w.Write call_graph1 call_graph2 flow_graphs1 flow_graphs2 fixed_points world).2
            (calls ++ [⟨w, call_graph1, call_graph2, flow_graphs1, flow_graphs2, fixed_points,
              Status.ok⟩]) := by
        rw [ChainWriter.WriteLoop]
        simp only [hr, Status.isOk, if_true]
      rw [hloop]
      refine ⟨⟨w, call_graph1, call_graph2, flow_graphs1, flow_graphs2, fixed_points,
        Status.ok⟩ :: new, ?_, ?_, ?_, ?_⟩
      · rw [h1]; simp
      · simp [h2]
      · intro c hc
        rcases List.mem_cons.mp hc with hc | hc
        · rw [hc]; exact ⟨⟨rfl, rfl, rfl, rfl, rfl⟩, world, hr.symm⟩
        · exact h3 c hc
      · rcases h4 with ⟨a1, a2, a3⟩ | ⟨pre, c, b1, b2, b3, b4⟩
        · left
          refine ⟨by simp [a1], ?_, a3⟩
          intro c hc
          rcases List.mem_cons.mp hc with hc | hc
          · rw [hc]
          · exact a2 c hc
        · right
          refine ⟨_ :: pre, c, by rw [b1]; rfl, ?_, b3, b4⟩
          intro p hp
          rcases List.mem_cons.mp hp with hp | hp
          · rw [hp]
          · exact b2 p hp
    · have hloop : ChainWriter.WriteLoop call_graph1 call_graph2 flow_graphs1 flow_graphs2
          fixed_points (w :: ws) world calls =
          ⟨Status.error code message,
            (w.Write call_graph1 call_graph2 flow_graphs1 flow_graphs2 fixed_points world).2,
            calls ++ [⟨w, call_graph1, call_graph2, flow_graphs1, flow_graphs2, fixed_points,
              Status.error code message⟩]⟩ := by
        rw [ChainWriter.WriteLoop]
        simp only [hr, Status.isOk, Bool.false_eq_true, if_false]
      rw [hloop]
      refine ⟨[⟨w, call_graph1, call_graph2, flow_graphs1, flow_graphs2, fixed_points,
        Status.error code message⟩], rfl, by simp, ?_, Or.inr ⟨[], _, rfl, ?_, ?_, rfl⟩⟩
      · intro c hc
        rw [List.mem_singleton.mp hc]
        exact ⟨⟨rfl, rfl, rfl, rfl, rfl⟩, world, hr.symm⟩
      · intro p hp
        exact absurd hp (List.not_mem_nil p)
      · simp

/-- C14: let a chain be built by adding the writers of a list, in order, with
    `Add`. The calls `Write` makes are calls of the first so many writers of
    the list, in the order of the list, one call each; every call is given
    the call graphs, flow-graph sets and fixed points that `Write` received,
    and its logged status is what the writer returned; and when every call
    returns OK, the writers called are the whole list, each once, and
    `Write` returns OK. -/
theorem ChainWriter.Write_in_order {ω G F P : Type} (writers : List (Writer ω G F P))
    (call_graph1 call_graph2 : G) (flow_graphs1 flow_graphs2 : F) (fixed_points : P)
    (world : ω) :
    ((ChainWriter.ofAdds writers).Write call_graph1 call_graph2 flow_graphs1 flow_graphs2
        fixed_points world).calls.map WriteCall.writer =
      writers.take ((ChainWriter.ofAdds writers).Write call_graph1 call_graph2 flow_graphs1
        flow_graphs2 fixed_points world).calls.length ∧
    (∀ c ∈ ((ChainWriter.ofAdds writers).Write call_graph1 call_graph2 flow_graphs1
        flow_graphs2 fixed_points world).calls,
      c.sameArgs call_graph1 call_graph2 flow_graphs1 flow_graphs2 fixed_points ∧
      ∃ world0, c.result = (c.writer.Write call_graph1 call_graph2 flow_graphs1 flow_graphs2
        fixed_points world0).1) ∧
    ((∀ c ∈ ((ChainWriter.ofAdds writers).Write call_graph1 call_graph2 flow_graphs1
        flow_graphs2 fixed_points world).calls, c.result = Status.ok) →
      ((ChainWriter.ofAdds writers).Write call_graph1 call_graph2 flow_graphs1 flow_graphs2
        fixed_points world).calls.map WriteCall.writer = writers ∧
      ((ChainWriter.ofAdds writers).Write call_graph1 call_graph2 flow_graphs1 flow_graphs2
        fixed_points world).status = Status.ok) := by
  obtain ⟨new, h1, h2, h3, h4⟩ := ChainWriter.WriteLoop_spec call_graph1 call_graph2
    flow_graphs1 flow_graphs2 fixed_points writers world []
  unfold ChainWriter.Write
  rw [ChainWriter.ofAdds_writers, h1, List.nil_append]
  refine ⟨h2, h3, ?_⟩
  intro hall
  rcases h4 with ⟨a1, _, a3⟩ | ⟨pre, c, b1, _, b3, _⟩
  · rw [h2, a1, List.take_length]
    exact ⟨rfl, a3⟩
  · exact absurd (hall c (by rw [b1]; simp)) b3

/-- C15: for a chain built by adding the writers of a list, in order, with
    `Add`, `Write` returns an error if and only if one of its calls of a
    chained writer returned an error; then the calls made are those of the
    writers up to and including the first one that failed, in order, the
    calls before the last returned OK, and the status returned is the status
    of the last call. -/
theorem ChainWriter.Write_error {ω G F P : Type} (writers : List (Writer ω G F P))
    (call_graph1 call_graph2 : G) (flow_graphs1 flow_graphs2 : F) (fixed_points : P)
    (world : ω) :
    (((ChainWriter.ofAdds writers).Write call_graph1 call_graph2 flow_graphs1 flow_graphs2
        fixed_points world).status ≠ Status.ok ↔
      ∃ c ∈ ((ChainWriter.ofAdds writers).Write call_graph1 call_graph2 flow_graphs1
        flow_graphs2 fixed_points world).calls, c.result ≠ Status.ok) ∧
    (((ChainWriter.ofAdds writers).Write call_graph1 call_graph2 flow_graphs1 flow_graphs2
        fixed_points world).status ≠ Status.ok →
      ∃ pre c, ((ChainWriter.ofAdds writers).Write call_graph1 call_graph2 flow_graphs1
          flow_graphs2 fixed_points world).calls = pre ++ [c] ∧
        (pre ++ [c]).map WriteCall.writer = writers.take (pre.length + 1) ∧
        (∀ p ∈ pre, p.result = Status.ok) ∧ c.result ≠ Status.ok ∧
        ((ChainWriter.ofAdds writers).Write call_graph1 call_graph2 flow_graphs1 flow_graphs2
          fixed_points world).status = c.result) := by
  obtain ⟨new, h1, h2, _, h4⟩ := ChainWriter.WriteLoop_spec call_graph1 call_graph2
    flow_graphs1 flow_graphs2 fixed_points writers world []
  unfold ChainWriter.Write
  rw [ChainWriter.ofAdds_writers, h1, List.nil_append]
  rcases h4 with ⟨_, a2, a3⟩ | ⟨pre, c, b1, b2, b3, b4⟩
  · rw [a3]
    refine ⟨⟨fun h => absurd rfl h, ?_⟩, fun h => absurd rfl h⟩
    rintro ⟨c, hc, hne⟩
    exact absurd (a2 c hc) hne
  · rw [b4]
    refine ⟨⟨fun _ => ⟨c, by rw [b1]; simp, b3⟩, fun _ => b3⟩, fun _ => ?_⟩
    refine ⟨pre, c, b1, ?_, b2, b3, rfl⟩
    rw [← b1, h2, b1]
    simp

/-- Witness for C14: two writers that succeed; both are called, in order, and
    `Write` returns OK. -/
theorem ChainWriter.Write_in_order_witness :
    ((ChainWriter.ofAdds [exampleWriter 1 Status.ok, exampleWriter 2 Status.ok]).Write
        0 0 0 0 0 []).world = [1, 2] ∧
    ((ChainWriter.ofAdds [exampleWriter 1 Status.ok, exampleWriter 2 Status.ok]).Write
        0 0 0 0 0 []).calls.map WriteCall.writer =
      [exampleWriter 1 Status.ok, exampleWriter 2 Status.ok] ∧
    ((ChainWriter.ofAdds [exampleWriter 1 Status.ok, exampleWriter 2 Status.ok]).Write
        0 0 0 0 0 []).status = Status.ok :=
  ⟨by decide,
    (ChainWriter.Write_in_order [exampleWriter 1 Status.ok, exampleWriter 2 Status.ok]
      0 0 0 0 0 []).2.2 (by
        intro c hc
        simp only [ChainWriter.Write, ChainWriter.ofAdds, List.foldl_cons, List.foldl_nil,
          ChainWriter.Add, List.nil_append, List.singleton_append, ChainWriter.WriteLoop,
          exampleWriter, Status.isOk, if_true, List.mem_cons, List.mem_singleton,
          List.not_mem_nil, or_false] at hc
        rcases hc with hc | hc <;> rw [hc])⟩

/-- Witness for C15: the second of three writers fails; the third is not
    called and `Write` returns the status of the second. -/
theorem ChainWriter.Write_error_witness :
    ((ChainWriter.ofAdds [exampleWriter 1 Status.ok, exampleWriter 2 (Status.error 3 "full"),
        exampleWriter 3 Status.ok]).Write 0 0 0 0 0 []).status = Status.error 3 "full" ∧
    ((ChainWriter.ofAdds [exampleWriter 1 Status.ok, exampleWriter 2 (Status.error 3 "full"),
        exampleWriter 3 Status.ok]).Write 0 0 0 0 0 []).world = [1, 2] ∧
    ∃ pre c, ((ChainWriter.ofAdds [exampleWriter 1 Status.ok,
          exampleWriter 2 (Status.error 3 "full"),
          exampleWriter 3 Status.ok]).Write 0 0 0 0 0 []).calls = pre ++ [c] ∧
      (pre ++ [c]).map WriteCall.writer =
        [exampleWriter 1 Status.ok, exampleWriter 2 (Status.error 3 "full"),
          exampleWriter 3 Status.ok].take (pre.length + 1) ∧
      (∀ p ∈ pre, p.result = Status.ok) ∧ c.result ≠ Status.ok ∧
      ((ChainWriter.ofAdds [exampleWriter 1 Status.ok, exampleWriter 2 (Status.error 3 "full"),
        exampleWriter 3 Status.ok]).Write 0 0 0 0 0 []).status = c.result :=
  ⟨by decide, by decide,
    (ChainWriter.Write_error [exampleWriter 1 Status.ok,
      exampleWriter 2 (Status.error 3 "full"), exampleWriter 3 Status.ok] 0 0 0 0 0 []).2
      (by decide)⟩

/-! ## The instruction cache -/

theorem Instruction.construct_spec (cache : Cache) (address : Nat) (mnemonic : String)
    (prime : Nat) :
    ∃ r, Instruction.construct (some cache) address mnemonic prime = some r ∧
      r.instruction = ⟨address, prime⟩ ∧
      (∀ s, cache.find prime = some s → r.cache = cache) ∧
      (cache.find prime = none → r.cache = cache.assign prime mnemonic) := by
  rcases hf : cache.find prime with _ | second
  · refine ⟨⟨⟨address, prime⟩, cache.assign prime mnemonic, []⟩, ?_, rfl,
      fun s hs => absurd hs (by simp), fun _ => rfl⟩
    simp only [Instruction.construct, hf]
  · by_cases hc : second ≠ "" ∧ mnemonic ≠ "" ∧ second ≠ mnemonic
    · refine ⟨⟨⟨address, prime⟩, cache, [⟨second, mnemonic, prime⟩]⟩, ?_, rfl,
        fun _ _ => rfl, fun h => absurd h (by simp)⟩
      simp only [Instruction.construct, hf]
      rw [if_pos hc]
    · refine ⟨⟨⟨address, prime⟩, cache, []⟩, ?_, rfl, fun _ _ => rfl,
        fun h => absurd h (by simp)⟩
      simp only [Instruction.construct, hf]
      rw [if_neg hc]

theorem Cache.find_assign (cache : Cache) (prime : Nat) (mnemonic : String) (q : Nat) :
    (cache.assign prime mnemonic).find q = if q = prime then some mnemonic else cache.find q :=
  rfl

/-- One construction returns, keeps every entry of the cache and writes only
    the entry of its prime, and only when the cache has none. -/
theorem Instruction.construct_keeps (cache : Cache) (address : Nat) (m : String) (p : Nat) :
    ∃ r, Instruction.construct (some cache) address m p = some r ∧
      (∀ q s, cache.find q = some s → r.cache.find q = some s) ∧
      (∀ s, cache.find p = some s → r.cache = cache) ∧
      (cache.find p = none → r.cache.find p = some m) ∧
      (∀ q, q ≠ p → r.cache.find q = cache.find q) := by
  obtain ⟨r, h1, _, h3, h4⟩ := Instruction.construct_spec cache address m p
  refine ⟨r, h1, ?_, h3, ?_, ?_⟩
  · intro q s hq
    rcases hp : cache.find p with _ | s0
    · rw [h4 hp, Cache.find_assign]
      by_cases hqp : q = p
      · rw [hqp, hp] at hq
        exact absurd hq (by simp)
      · rw [if_neg hqp, hq]
    · rw [h3 s0 hp, hq]
  · intro hp
    rw [h4 hp, Cache.find_assign, if_pos rfl]
  · intro q hq
    rcases hp : cache.find p with _ | s0
    · rw [h4 hp, Cache.find_assign, if_neg hq]
    · rw [h3 s0 hp]

/-- The entry of a prime after a sequence of constructions: the one the cache
    held at the start or, without one, the mnemonic of the first construction
    with that prime. -/
theorem constructAll_find (cache : Cache) (constructions : List (Nat × String × Nat)) (p : Nat) :
    (constructAll cache constructions).find p =
      match cache.find p with
      | some s => some s
      | none => (constructions.find? (fun c => c.2.2 == p)).map (fun c => c.2.1) := by
  induction constructions generalizing cache with
  | nil =>
    simp only [constructAll, List.find?_nil, Option.map_none']
    rcases cache.find p with _ | s <;> rfl
  | cons c rest ih =>
    obtain ⟨address, m, p0⟩ := c
    obtain ⟨r, h1, h2, h3, h4, h5⟩ := Instruction.construct_keeps cache address m p0
    simp only [constructAll, h1]
    rw [ih r.cache]
    by_cases hp : p0 = p
    · subst hp
      rcases hc : cache.find p0 with _ | s
      · rw [h4 hc]
        simp
      · rw [h2 p0 s hc]
    · have hp2 : p ≠ p0 := fun h => hp h.symm
      rw [h5 p hp2]
      rcases hc : cache.find p with _ | s
      · simp [List.find?_cons, hp]
      · rfl

/-- C16: constructing an `Instruction` with prime `p` and mnemonic `m` over a
    cache returns (a differing mnemonic for `p` is no error) and leaves every
    entry of the cache as it was, the entry for `p` included; when `p` has an
    entry the cache is unchanged, and when `p` has none the cache gains the
    entry `p -> m` and nothing else changes. So after any sequence of
    constructions the mnemonic stored for a prime is the one the cache held
    at the start or, without one, the mnemonic of the first construction in
    the sequence with that prime. -/
theorem Instruction.construct_cache_write_once :
    (∀ (cache : Cache) (address : Nat) (m : String) (p : Nat),
      ∃ r, Instruction.construct (some cache) address m p = some r ∧
        (∀ q s, cache.find q = some s → r.cache.find q = some s) ∧
        (∀ s, cache.find p = some s → r.cache = cache) ∧
        (cache.find p = none → r.cache.find p = some m) ∧
        (∀ q, q ≠ p → r.cache.find q = cache.find q)) ∧
    (∀ (cache : Cache) (constructions : List (Nat × String × Nat)) (p : Nat),
      (constructAll cache constructions).find p =
        match cache.find p with
        | some s => some s
        | none => (constructions.find? (fun c => c.2.2 == p)).map (fun c => c.2.1)) :=
  ⟨Instruction.construct_keeps, constructAll_find⟩

/-! ## The rounding of `double` products -/

theorem excessBits_spec : ∀ (fuel n : Nat), n ≤ fuel → n / 2 ^ excessBits fuel n < 2 ^ 53 := by
  intro fuel
  induction fuel with
  | zero =>
    intro n hn
    have h0 : n = 0 := Nat.le_zero.mp hn
    subst h0
    simp [excessBits]
  | succ fuel ih =>
    intro n hn
    unfold excessBits
    by_cases hlt : n < 2 ^ 53
    · rw [if_pos hlt]
      simpa using hlt
    · rw [if_neg hlt]
      have h2 : n / 2 ≤ fuel := by omega
      have := ih (n / 2) h2
      rwa [Nat.div_div_eq_div_mul, ← pow_succ'] at this

/-- The result of `Double.round` fits the binary64 format and lies within half
    a unit of its last place of the exact number. -/
theorem Double.round_near (mantissa : Nat) (exponent : Int) :
    (Double.round mantissa exponent).mantissa ≤ 2 ^ 53 ∧
    -1074 ≤ (Double.round mantissa exponent).exponent ∧
    |(Double.round mantissa exponent).value - (mantissa : ℚ) * 2 ^ exponent| * 2 ≤
      2 ^ (Double.round mantissa exponent).exponent := by
  have hround : ∃ s : Nat, excessBits mantissa mantissa ≤ s ∧ -1074 ≤ exponent + s ∧
      Double.round mantissa exponent =
        if 2 * (mantissa % 2 ^ s) > 2 ^ s ∨
            (2 * (mantissa % 2 ^ s) = 2 ^ s ∧ mantissa / 2 ^ s % 2 = 1) then
          ⟨mantissa / 2 ^ s + 1, exponent + s⟩
        else ⟨mantissa / 2 ^ s, exponent + s⟩ :=
    ⟨max (excessBits mantissa mantissa) (-1074 - exponent).toNat, le_max_left _ _, by omega, rfl⟩
  obtain ⟨s, hs1, hs2, hr⟩ := hround
  have hq : mantissa / 2 ^ s < 2 ^ 53 :=
    lt_of_le_of_lt (Nat.div_le_div_left (Nat.pow_le_pow_right (by decide) hs1) (by positivity))
      (excessBits_spec mantissa mantissa (le_refl _))
  have hsplit : (mantissa : ℚ) = (mantissa / 2 ^ s : Nat) * 2 ^ s + (mantissa % 2 ^ s : Nat) := by
    exact_mod_cast (Nat.div_add_mod' mantissa (2 ^ s)).symm
  have hrem : ((mantissa % 2 ^ s : Nat) : ℚ) < 2 ^ s := by
    exact_mod_cast Nat.mod_lt mantissa (by positivity)
  have hpow : (2 : ℚ) ^ (exponent + (s : Int)) = 2 ^ exponent * 2 ^ s := by
    rw [zpow_add₀ (by norm_num), zpow_natCast]
  have hpos : (0 : ℚ) < 2 ^ exponent := by positivity
  rw [hr]
  split
  · rename_i hup
    refine ⟨Nat.succ_le_of_lt hq, hs2, ?_⟩
    have hge : (2 : ℚ) ^ s ≤ 2 * ((mantissa % 2 ^ s : Nat) : ℚ) := by
      rcases hup with h | h
      · exact_mod_cast le_of_lt h
      · exact_mod_cast le_of_eq h.1.symm
    simp only [Double.value]
    rw [hpow]
    have e : (((mantissa / 2 ^ s + 1 : Nat) : ℚ) * (2 ^ exponent * 2 ^ s) -
        (mantissa : ℚ) * 2 ^ exponent) =
        (2 ^ s - ((mantissa % 2 ^ s : Nat) : ℚ)) * 2 ^ exponent := by
      rw [hsplit]
      push_cast
      ring
    rw [e, abs_of_nonneg (mul_nonneg (by linarith) (le_of_lt hpos))]
    nlinarith
  · rename_i hdown
    refine ⟨le_of_lt hq, hs2, ?_⟩
    have hle : 2 * ((mantissa % 2 ^ s : Nat) : ℚ) ≤ 2 ^ s := by
      have : 2 * (mantissa % 2 ^ s) ≤ 2 ^ s := by
        by_contra hgt
        exact hdown (Or.inl (by omega))
      exact_mod_cast this
    simp only [Double.value]
    rw [hpow]
    have e : (((mantissa / 2 ^ s : Nat) : ℚ) * (2 ^ exponent * 2 ^ s) -
        (mantissa : ℚ) * 2 ^ exponent) =
        -(((mantissa % 2 ^ s : Nat) : ℚ) * 2 ^ exponent) := by
      rw [hsplit]
      ring
    have hnn : (0 : ℚ) ≤ ((mantissa % 2 ^ s : Nat) : ℚ) := Nat.cast_nonneg _
    rw [e, abs_neg, abs_of_nonneg (mul_nonneg hnn (le_of_lt hpos))]
    nlinarith

/-! ## Base cases of the Hirschberg recursion -/

theorem indexOf_eq_of_first (l : List Nat) (e i : Nat) (hi : i < l.length)
    (he : l.getD i 0 = e) (hfirst : ∀ j, j < i → l.getD j 0 ≠ e) : l.indexOf e = i := by
  induction l generalizing i with
  | nil => simp at hi
  | cons a l ih =>
    cases i with
    | zero =>
      have ha : a = e := by simpa using he
      rw [ha]
      simp
    | succ i =>
      have hne : a ≠ e := by simpa using hfirst 0 (Nat.succ_pos i)
      rw [List.indexOf_cons_ne _ hne]
      congr 1
      apply ih i (by simpa using hi) (by simpa using he)
      intro j hj
      simpa using hfirst (j + 1) (by omega)

/-- C21: the base cases of the recursive `ComputeLcs`. On an empty x range
    nothing is written. On an x range that holds the single element `e`, when
    `e` occurs in the y range exactly one pair is written, the index of `e` in
    `X` with the index in `Y` of the first occurrence of `e` in the y range,
    and nothing is written otherwise. -/
theorem ComputeLcsRec_base_cases (xs ys : List Nat) (fuel xlo xhi ylo yhi : Nat)
    (h : xhi - xlo ≤ fuel) (out : Out) :
    (xhi - xlo = 0 → ComputeLcsRec xs ys fuel xlo xhi ylo yhi h out = out) ∧
    (∀ e, xhi ≤ xs.length → range xs xlo xhi = [e] → ylo ≤ yhi → yhi ≤ ys.length →
      ComputeLcsRec xs ys fuel xlo xhi ylo yhi h out =
        if e ∈ range ys ylo yhi then
          (out.1 ++ [xlo], out.2 ++ [ylo + (range ys ylo yhi).indexOf e])
        else out) := by
  constructor
  · intro h0
    cases fuel with
    | zero => rfl
    | succ fuel =>
      rw [ComputeLcsRec]
      simp only [h0, dite_true]
  · intro e hx hr hy1 hy2
    have hlen : xhi - xlo = 1 := by
      have := range_length xs xlo xhi hx
      rw [hr] at this
      simpa using this.symm
    have he : xs.getD xlo 0 = e := by
      have := range_single xs xlo xhi hlen hx
      rw [hr] at this
      exact (List.singleton_inj.mp this).symm
    obtain ⟨f1, f2, f3, f4⟩ := find_spec ys ylo yhi e hy1
    cases fuel with
    | zero => omega
    | succ fuel =>
      rw [ComputeLcsRec]
      have h0 : ¬ xhi - xlo = 0 := by omega
      simp only [h0, hlen, dite_true, dite_false, he]
      by_cases hpos : find ys ylo yhi e = yhi
      · have hnot : e ∉ range ys ylo yhi := by
          rw [mem_range_iff ys ylo yhi e hy2]
          rintro ⟨j, j1, j2, j3⟩
          exact f3 j j1 (by omega) j3
        simp [hpos, hnot]
      · have hmem : e ∈ range ys ylo yhi := by
          rw [mem_range_iff ys ylo yhi e hy2]
          exact ⟨find ys ylo yhi e, f1, by omega, f4 hpos⟩
        have hidx : (range ys ylo yhi).indexOf e = find ys ylo yhi e - ylo := by
          apply indexOf_eq_of_first
          · rw [range_length ys ylo yhi hy2]; omega
          · rw [range_getD ys ylo yhi _ hy2 (by omega)]
            have : ylo + (find ys ylo yhi e - ylo) = find ys ylo yhi e := by omega
            rw [this]
            exact f4 hpos
          · intro j hj
            rw [range_getD ys ylo yhi _ hy2 (by omega)]
            exact f3 (ylo + j) (by omega) (by omega)
        have hsum : ylo + (find ys ylo yhi e - ylo) = find ys ylo yhi e := by omega
        simp [hpos, hmem, hidx, hsum]

/-- Witness for C21: the x range holding `X[1] = 7` of `X = [5, 7, 9]` and the
    y range `[2, 5)` of `Y = [7, 1, 3, 7, 7, 2]`; the first occurrence of 7 in
    the y range is at index 3 of `Y`. -/
theorem ComputeLcsRec_base_cases_witness :
    ComputeLcsRec [5, 7, 9] [7, 1, 3, 7, 7, 2] 1 1 2 2 5 (by decide) ([], []) = ([1], [3]) :=
  ((ComputeLcsRec_base_cases [5, 7, 9] [7, 1, 3, 7, 7, 2] 1 1 2 2 5 (by decide) ([], [])).2 7
    (by decide) (by decide) (by decide) (by decide)).trans (by decide)

/-! ## Common prefix and suffix in the output of `ComputeLcs` -/

/-- A position where agreement up to it ends, at an end of a sequence or at an
    unequal pair, is the length of the longest common prefix. -/
theorem commonPrefixLength_unique :
    ∀ (xs ys : List Nat) (c : Nat), c ≤ xs.length → c ≤ ys.length →
      (∀ t, t < c → xs.getD t 0 = ys.getD t 0) →
      (c = xs.length ∨ c = ys.length ∨ xs.getD c 0 ≠ ys.getD c 0) →
      c = commonPrefixLength xs ys := by
  intro xs
  induction xs with
  | nil => intro ys c h1 _ _ _; simpa [commonPrefixLength] using h1
  | cons x xs ih =>
    intro ys c h1 h2 h3 h4
    cases ys with
    | nil => simpa [commonPrefixLength] using h2
    | cons y ys =>
      simp only [commonPrefixLength]
      cases c with
      | zero =>
        rcases h4 with h | h | h
        · simp at h
        · simp at h
        · have hxy : x ≠ y := by simpa using h
          rw [if_neg hxy]
      | succ c =>
        have hxy : x = y := by simpa using h3 0 (Nat.succ_pos c)
        rw [if_pos hxy]
        congr 1
        apply ih ys c (by simpa using h1) (by simpa using h2)
        · intro t ht
          simpa using h3 (t + 1) (by omega)
        · rcases h4 with h | h | h
          · exact Or.inl (by simpa using h)
          · exact Or.inr (Or.inl (by simpa using h))
          · exact Or.inr (Or.inr (by simpa using h))

theorem mem_diagFrom_of_lt (r1 r2 m t : Nat) (h : t < m) :
    (r1 + t, r2 + t) ∈ diagFrom r1 r2 m := by
  induction m generalizing r1 r2 t with
  | zero => omega
  | succ m ih =>
    simp only [diagFrom, List.mem_cons]
    cases t with
    | zero => exact Or.inl rfl
    | succ t =>
      right
      have := ih (r1 + 1) (r2 + 1) t (by omega)
      have e1 : r1 + 1 + t = r1 + (t + 1) := by omega
      have e2 : r2 + 1 + t = r2 + (t + 1) := by omega
      rw [e1, e2] at this
      exact this

theorem getD_drop (l : List Nat) (n t : Nat) : (l.drop n).getD t 0 = l.getD (n + t) 0 := by
  simp [List.getD_eq_getElem?_getD, List.getElem?_drop]

/-- The output of `ComputeLcs`: the diagonal over the longest common prefix,
    the matches of the core, the diagonal over the stripped suffix. -/
theorem ComputeLcs_shape (xs ys : List Nat) :
    ∃ (m : Nat) (core : List (Nat × Nat)),
      commonPrefixLength xs ys + m ≤ xs.length ∧ commonPrefixLength xs ys + m ≤ ys.length ∧
      ComputeLcs xs ys =
        diagFrom 0 0 (commonPrefixLength xs ys) ++ core ++
          diagFrom (xs.length - m) (ys.length - m) m ∧
      InBox xs ys (commonPrefixLength xs ys) (xs.length - m) (commonPrefixLength xs ys)
        (ys.length - m) core ∧
      (commonPrefixLength xs ys < xs.length → commonPrefixLength xs ys < ys.length →
        m ≤ xs.length - 1 - commonPrefixLength xs ys ∧
        m ≤ ys.length - 1 - commonPrefixLength xs ys ∧
        (m = xs.length - 1 - commonPrefixLength xs ys ∨
          m = ys.length - 1 - commonPrefixLength xs ys ∨
          xs.getD (xs.length - 1 - m) 0 ≠ ys.getD (ys.length - 1 - m) 0)) := by
  obtain ⟨c, m, core, h1, h2, h3, h4, h5, _, h7, _, h9⟩ :=
    ComputeLcsCore_shape_stop xs ys ([], [])
  have hc := commonPrefixLength_unique xs ys c (by omega) (by omega) h4 h5
  rw [← hc]
  refine ⟨m, core, h1, h2, ?_, h7, h9⟩
  unfold ComputeLcs
  simp only [h3]
  exact zip_emit_nil _

/-- C22: for all non-empty `X` and `Y` with longest common prefix of length
    `p`, the output of `ComputeLcs` begins with `(0,0), ..., (p-1,p-1)`; and
    for every `t >= 1` with `t < min(|X|,|Y|) - p` such that the last `t`
    elements of `X` equal the last `t` elements of `Y`, the pair
    `(|X|-t, |Y|-t)` is in the output. -/
theorem ComputeLcs_prefix_suffix (X Y : List Nat) (hX : X ≠ []) (hY : Y ≠ []) :
    (ComputeLcs X Y).take (commonPrefixLength X Y) =
      (List.range (commonPrefixLength X Y)).map (fun i => (i, i)) ∧
    ∀ t, 1 ≤ t → t < min X.length Y.length - commonPrefixLength X Y →
      X.drop (X.length - t) = Y.drop (Y.length - t) →
      (X.length - t, Y.length - t) ∈ ComputeLcs X Y := by
  obtain ⟨m, core, h1, h2, h3, _, h5⟩ := ComputeLcs_shape X Y
  have hXl : 0 < X.length := List.length_pos.mpr hX
  have hYl : 0 < Y.length := List.length_pos.mpr hY
  constructor
  · rw [h3, List.append_assoc, List.take_left' (diagFrom_length _ _ _), diagFrom_eq_map,
      List.range_eq_range']
  · intro t ht1 ht2 hsuf
    have htm : t ≤ m := by
      by_contra hlt
      rcases (h5 (by omega) (by omega)).2.2 with h | h | h
      · omega
      · omega
      · apply h
        have e := congrArg (fun l => l.getD (t - 1 - m) 0) hsuf
        simp only [getD_drop] at e
        have i1 : X.length - t + (t - 1 - m) = X.length - 1 - m := by omega
        have i2 : Y.length - t + (t - 1 - m) = Y.length - 1 - m := by omega
        rw [i1, i2] at e
        exact e
    rw [h3]
    apply List.mem_append_right
    have := mem_diagFrom_of_lt (X.length - m) (Y.length - m) m (m - t) (by omega)
    have e1 : X.length - m + (m - t) = X.length - t := by omega
    have e2 : Y.length - m + (m - t) = Y.length - t := by omega
    rw [e1, e2] at this
    exact this

/-- Witness for C22: `X = [1, 2, 3, 9, 5, 6]` and `Y = [1, 2, 7, 8, 5, 6]`
    share a prefix of length 2 and their last 2 elements. -/
theorem ComputeLcs_prefix_suffix_witness :
    (ComputeLcs [1, 2, 3, 9, 5, 6] [1, 2, 7, 8, 5, 6]).take 2 = [(0, 0), (1, 1)] ∧
    (4, 4) ∈ ComputeLcs [1, 2, 3, 9, 5, 6] [1, 2, 7, 8, 5, 6] :=
  ⟨(ComputeLcs_prefix_suffix [1, 2, 3, 9, 5, 6] [1, 2, 7, 8, 5, 6] (by decide) (by decide)).1,
    (ComputeLcs_prefix_suffix [1, 2, 3, 9, 5, 6] [1, 2, 7, 8, 5, 6] (by decide) (by decide)).2
      2 (by decide) (by decide) (by decide)⟩

/-! ## One renamed instruction, and a split block -/

theorem range_filter_ne (N k : Nat) (hk : k < N) :
    (List.range N).filter (fun i => decide (i ≠ k)) =
      List.range' 0 k ++ List.range' (k + 1) (N - 1 - k) := by
  have hsplit : List.range N = List.range' 0 k ++ (k :: List.range' (k + 1) (N - 1 - k)) := by
    have e : N = (N - 1 - k + 1) + k := by omega
    have h1 := List.range'_append_1 0 k (N - 1 - k + 1)
    rw [← e, Nat.zero_add, List.range'_succ] at h1
    rw [List.range_eq_range', ← h1]
  rw [hsplit, List.filter_append, List.filter_cons]
  have h1 : (List.range' 0 k).filter (fun i => decide (i ≠ k)) = List.range' 0 k := by
    rw [List.filter_eq_self]
    intro a ha
    have := (List.mem_range'_1.mp ha).2
    simp only [decide_eq_true_eq]
    omega
  have h2 : (List.range' (k + 1) (N - 1 - k)).filter (fun i => decide (i ≠ k)) =
      List.range' (k + 1) (N - 1 - k) := by
    rw [List.filter_eq_self]
    intro a ha
    have := (List.mem_range'_1.mp ha).1
    simp only [decide_eq_true_eq]
    omega
  rw [h1, h2]
  simp

/-- C23: for all sequences `X` and `Y` of the same length `N >= 1` that
    differ at exactly one position `k`, `ComputeLcs` returns exactly the
    `N - 1` pairs `(i, i)` for `i ≠ k`, in ascending order. -/
theorem ComputeLcs_one_renamed (X Y : List Nat) (k : Nat) (hlen : X.length = Y.length)
    (hk : k < X.length) (hne : X.getD k 0 ≠ Y.getD k 0)
    (heq : ∀ i, i < X.length → i ≠ k → X.getD i 0 = Y.getD i 0) :
    ComputeLcs X Y =
      ((List.range X.length).filter (fun i => decide (i ≠ k))).map (fun i => (i, i)) := by
  have hp : k = commonPrefixLength X Y :=
    commonPrefixLength_unique X Y k (by omega) (by omega)
      (fun t ht => heq t (by omega) (by omega)) (Or.inr (Or.inr hne))
  obtain ⟨m, core, h1, h2, h3, h4, h5⟩ := ComputeLcs_shape X Y
  rw [← hp] at h1 h2 h3 h4 h5
  have hm : m = X.length - 1 - k := by
    obtain ⟨b1, _, b3⟩ := h5 hk (by omega)
    rcases b3 with h | h | h
    · exact h
    · omega
    · by_contra hmk
      exact h (by rw [← hlen]; exact heq _ (by omega) (by omega))
  have hcore : core = [] := by
    apply List.eq_nil_iff_forall_not_mem.mpr
    intro p hp1
    obtain ⟨a1, a2, a3, a4, a5⟩ := h4.2 p hp1
    have e1 : p.1 = k := by omega
    have e2 : p.2 = k := by omega
    rw [e1, e2] at a5
    exact hne a5
  rw [h3, hcore, List.append_nil, range_filter_ne X.length k hk, List.map_append,
    diagFrom_eq_map, hm]
  have e1 : X.length - (X.length - 1 - k) = k + 1 := by omega
  have e2 : Y.length - (X.length - 1 - k) = k + 1 := by omega
  rw [e1, e2, diagFrom_eq_map]

/-- Witness for C23: `X = [4, 5, 6, 7]` and `Y = [4, 5, 9, 7]` differ at
    position 2. -/
theorem ComputeLcs_one_renamed_witness :
    ComputeLcs [4, 5, 6, 7] [4, 5, 9, 7] = [(0, 0), (1, 1), (3, 3)] :=
  (ComputeLcs_one_renamed [4, 5, 6, 7] [4, 5, 9, 7] 2 (by decide) (by decide) (by decide)
    (by decide)).trans (by decide)

/-- C24: for all `X` and `Y`, non-empty or not, such that one is a prefix of
    the other, `ComputeLcs` returns exactly the pairs `(i, i)` for
    `i < min(|X|, |Y|)`, in ascending order; the surplus tail of the longer
    sequence appears in no pair. -/
theorem ComputeLcs_prefix_of_other (X Y : List Nat) (h : X <+: Y ∨ Y <+: X) :
    ComputeLcs X Y = (List.range (min X.length Y.length)).map (fun i => (i, i)) := by
  have hagree : ∀ t, t < min X.length Y.length → X.getD t 0 = Y.getD t 0 := by
    intro t ht
    rcases h with ⟨s, hs⟩ | ⟨s, hs⟩
    · rw [← hs, List.getD_append _ _ _ _ (by omega)]
    · rw [← hs, List.getD_append _ _ _ _ (by omega)]
  have hp : min X.length Y.length = commonPrefixLength X Y :=
    commonPrefixLength_unique X Y _ (Nat.min_le_left _ _) (Nat.min_le_right _ _) hagree
      (by
        rcases Nat.le_total X.length Y.length with hle | hle
        · exact Or.inl (Nat.min_eq_left hle)
        · exact Or.inr (Or.inl (Nat.min_eq_right hle)))
  obtain ⟨m, core, h1, h2, h3, h4, _⟩ := ComputeLcs_shape X Y
  rw [← hp] at h1 h2 h3 h4
  have hcore : core = [] := by
    apply List.eq_nil_iff_forall_not_mem.mpr
    intro p hp1
    obtain ⟨a1, a2, a3, a4, _⟩ := h4.2 p hp1
    omega
  have hm : m = 0 := by omega
  rw [h3, hcore, hm, List.append_nil]
  simp [diagFrom, diagFrom_eq_map, List.range_eq_range']

/-- Witness for C24: `X = [1, 2]` is a prefix of `Y = [1, 2, 3, 4]`. -/
theorem ComputeLcs_prefix_of_other_witness :
    ComputeLcs [1, 2] [1, 2, 3, 4] = [(0, 0), (1, 1)] :=
  (ComputeLcs_prefix_of_other [1, 2] [1, 2, 3, 4] (Or.inl ⟨[3, 4], rfl⟩)).trans (by decide)

/-! ## `GetVertices` -/

theorem GetVertices_fold_strict (src tgt : Edge → Vertex) (matched : Vertex → Bool) :
    ∀ (edges : List Edge) (bbs : VertexSet), bbs.Pairwise (fun a b => a < b) →
      (edges.foldl
          (fun bbs edge =>
            let bbs1 := if !matched (src edge) then VertexSet.emplace bbs (src edge) else bbs
            if !matched (tgt edge) then VertexSet.emplace bbs1 (tgt edge) else bbs1)
          bbs).Pairwise (fun a b => a < b) := by
  intro edges
  induction edges with
  | nil => intro bbs h; exact h
  | cons e edges ih =>
    intro bbs h
    rw [List.foldl_cons]
    apply ih
    dsimp only
    split
    · split
      · exact emplace_strict _ (emplace_strict _ h _) _
      · exact emplace_strict _ h _
    · split
      · exact emplace_strict _ h _
      · exact h

/-- C27: after `GetVertices(flow_graph, edges, key, basic_blocks)` the vertex
    set holds a vertex exactly when it held it before or the vertex is the
    source or the target of an edge filed under `key` and has no basic-block
    fixed point in the flow graph; the set stays a set (strictly ascending).
    So a matched endpoint that was not in the set is not in it afterwards. -/
theorem GetVertices_spec (src tgt : Edge → Vertex) (matched : Vertex → Bool)
    (edges : MultiMap) (key : Nat) (basic_blocks : VertexSet)
    (hset : basic_blocks.Pairwise (fun a b => a < b)) :
    (∀ v, v ∈ GetVertices src tgt matched edges key basic_blocks ↔
      v ∈ basic_blocks ∨
        ∃ edge ∈ edges.equal_range key, (v = src edge ∨ v = tgt edge) ∧ matched v = false) ∧
    (GetVertices src tgt matched edges key basic_blocks).Pairwise (fun a b => a < b) ∧
    (∀ v, matched v = true → v ∉ basic_blocks →
      v ∉ GetVertices src tgt matched edges key basic_blocks) := by
  have hmem := GetVertices_fold_mem src tgt matched (edges.equal_range key) basic_blocks
  refine ⟨hmem, GetVertices_fold_strict src tgt matched _ _ hset, ?_⟩
  intro v hv hnot hin
  rcases (hmem v).mp hin with h | ⟨_, _, _, h⟩
  · exact hnot h
  · rw [hv] at h
    exact absurd h (by simp)

/-- Witness for C27: the edges 12 and 34 are filed under key 5 (edge `e` runs
    from `e / 10` to `e % 10`), vertex 2 is matched and the set held 9. -/
theorem GetVertices_spec_witness :
    GetVertices (fun e => e / 10) (fun e => e % 10) (fun v => v == 2)
        [(5, 12), (5, 34), (6, 56)] 5 [9] = [1, 3, 4, 9] ∧
    2 ∉ GetVertices (fun e => e / 10) (fun e => e % 10) (fun v => v == 2)
        [(5, 12), (5, 34), (6, 56)] 5 [9] :=
  ⟨by decide,
    (GetVertices_spec (fun e => e / 10) (fun e => e % 10) (fun v => v == 2)
      [(5, 12), (5, 34), (6, 56)] 5 [9] (by decide)).2.2 2 (by decide) (by decide)⟩

/-! ## The map of the function-level instruction-count step -/

theorem GetUnmatchedFlowGraphs_fold (test : FlowGraphPtr → Bool) (key : FlowGraphPtr → Nat) :
    ∀ (graphs : List FlowGraphPtr) (acc : MultiMap),
      List.Perm
        (graphs.foldl (fun (m : MultiMap) graph =>
          if test graph then m.emplace (key graph) graph else m) acc)
        (acc ++ (graphs.filter test).map (fun g => (key g, g))) ∧
      (acc.Sorted → (graphs.foldl (fun (m : MultiMap) graph =>
          if test graph then m.emplace (key graph) graph else m) acc).Sorted) := by
  intro graphs
  induction graphs with
  | nil => intro acc; exact ⟨by simp, fun h => h⟩
  | cons g graphs ih =>
    intro acc
    rw [List.foldl_cons]
    by_cases ht : test g = true
    · rw [if_pos ht]
      obtain ⟨h1, h2⟩ := ih (acc.emplace (key g) g)
      refine ⟨?_, fun hs => h2 (emplace_sorted acc hs _ _)⟩
      refine h1.trans ?_
      rw [List.filter_cons, if_pos ht, List.map_cons]
      refine ((emplace_perm acc (key g) g).append_right _).trans ?_
      exact List.perm_middle.symm
    · rw [if_neg ht]
      obtain ⟨h1, h2⟩ := ih acc
      refine ⟨?_, h2⟩
      rw [List.filter_cons, if_neg ht]
      exact h1

/-- C28: `GetUnmatchedFlowGraphsByInstructionCount` leaves a map that holds,
    beside the entries it held before, one entry for each flow graph of the
    set that is a valid candidate and has at least one vertex, under the sum
    of its library and non-library instruction counts (a sum that fits 64
    bits), and no entry for a graph that fails either test; the map stays
    ordered by key. -/
theorem GetUnmatchedFlowGraphsByInstructionCount_entries
    (IsValidCandidate : FlowGraphPtr → Bool)
    (num_vertices instructions_library instructions_non_library : FlowGraphPtr → Nat)
    (flow_graphs : List FlowGraphPtr) (flow_graphs_map : MultiMap)
    (hfit : ∀ g ∈ flow_graphs, instructions_library g + instructions_non_library g < 2 ^ 64) :
    List.Perm
      (GetUnmatchedFlowGraphsByInstructionCount IsValidCandidate num_vertices
        instructions_library instructions_non_library flow_graphs flow_graphs_map)
      (flow_graphs_map ++
        (flow_graphs.filter (fun g => IsValidCandidate g && decide (0 < num_vertices g))).map
          (fun g => (instructions_library g + instructions_non_library g, g))) ∧
    (flow_graphs_map.Sorted →
      (GetUnmatchedFlowGraphsByInstructionCount IsValidCandidate num_vertices
        instructions_library instructions_non_library flow_graphs flow_graphs_map).Sorted) := by
  obtain ⟨h1, h2⟩ := GetUnmatchedFlowGraphs_fold
    (fun g => IsValidCandidate g && num_vertices g != 0)
    (fun g => (instructions_library g + instructions_non_library g) % 2 ^ 64)
    flow_graphs flow_graphs_map
  refine ⟨?_, h2⟩
  have hf : flow_graphs.filter (fun g => IsValidCandidate g && num_vertices g != 0) =
      flow_graphs.filter (fun g => IsValidCandidate g && decide (0 < num_vertices g)) := by
    apply List.filter_congr
    intro g _
    by_cases h0 : num_vertices g = 0
    · simp [h0]
    · have : 0 < num_vertices g := Nat.pos_of_ne_zero h0
      simp [h0, this]
  have hm : (flow_graphs.filter (fun g => IsValidCandidate g && num_vertices g != 0)).map
      (fun g => ((instructions_library g + instructions_non_library g) % 2 ^ 64, g)) =
      (flow_graphs.filter (fun g => IsValidCandidate g && num_vertices g != 0)).map
      (fun g => (instructions_library g + instructions_non_library g, g)) := by
    apply List.map_congr_left
    intro g hg
    rw [Nat.mod_eq_of_lt (hfit g (List.mem_of_mem_filter hg))]
  rw [hm, hf] at h1
  exact h1

/-- Witness for C28: graph 1 is valid with 3 vertices and 4 + 6 instructions,
    graph 2 is not a valid candidate, graph 3 is valid without vertices; the
    map held the entry `(7, 9)`. -/
theorem GetUnmatchedFlowGraphsByInstructionCount_entries_witness :
    GetUnmatchedFlowGraphsByInstructionCount (fun g => g != 2) (fun g => if g = 3 then 0 else 3)
        (fun _ => 4) (fun _ => 6) [1, 2, 3] [(7, 9)] = [(7, 9), (10, 1)] ∧
    List.Perm
      (GetUnmatchedFlowGraphsByInstructionCount (fun g => g != 2)
        (fun g => if g = 3 then 0 else 3) (fun _ => 4) (fun _ => 6) [1, 2, 3] [(7, 9)])
      ([(7, 9)] ++
        ([1, 2, 3].filter (fun g => (fun g => g != 2) g &&
            decide (0 < (fun g => if g = 3 then 0 else 3) g))).map
          (fun g => ((fun _ => 4) g + (fun _ => 6) g, g))) :=
  ⟨by decide,
    (GetUnmatchedFlowGraphsByInstructionCount_entries (fun g => g != 2)
      (fun g => if g = 3 then 0 else 3) (fun _ => 4) (fun _ => 6) [1, 2, 3] [(7, 9)]
      (by decide)).1⟩

/-! ## The calls of a cascade, key by key -/

theorem MultiMap.count_append (a b : MultiMap) (k : Nat) :
    MultiMap.count (a ++ b) k = MultiMap.count a k + MultiMap.count b k := by
  simp [MultiMap.count]

theorem MultiMap.count_cons (e : Nat × Nat) (m : MultiMap) (k : Nat) :
    MultiMap.count (e :: m) k = (if e.1 = k then 1 else 0) + MultiMap.count m k := by
  unfold MultiMap.count
  rw [List.filter_cons]
  by_cases h : e.1 = k
  · simp [h]; omega
  · simp [h]

theorem MultiMap.count_pos_iff (m : MultiMap) (k : Nat) :
    0 < MultiMap.count m k ↔ ∃ v, (k, v) ∈ m := by
  unfold MultiMap.count
  rw [List.length_pos]
  constructor
  · intro hne
    obtain ⟨e, he⟩ := List.exists_mem_of_ne_nil _ hne
    rw [List.mem_filter] at he
    have : e.1 = k := by simpa using he.2
    exact ⟨e.2, by rw [← this]; exact he.1⟩
  · rintro ⟨v, hv⟩
    exact List.ne_nil_of_mem (List.mem_filter.mpr ⟨hv, by simp⟩)

theorem eventsAt_append {S : Type} (k : Nat) (a b : List (Event S)) :
    eventsAt k (a ++ b) = eventsAt k a ++ eventsAt k b := by
  simp [eventsAt]

theorem eventsAt_same {S : Type} (k : Nat) (ext : List (Event S))
    (h : ∀ ev ∈ ext, ev.key = k) : eventsAt k ext = ext := by
  unfold eventsAt
  rw [List.filter_eq_self]
  intro ev hev
  simp [h ev hev]

theorem eventsAt_other {S : Type} (k k1 : Nat) (ext : List (Event S))
    (h : ∀ ev ∈ ext, ev.key = k) (hne : k ≠ k1) : eventsAt k1 ext = [] := by
  unfold eventsAt
  rw [List.filter_eq_nil_iff]
  intro ev hev
  simp [h ev hev, hne]

/-- The rounds of a cascade, key by key. Let every round on an entry
    `(k, v)` return, end with `erase(k)` exactly when `J k` holds, log only
    calls under `k`, log nothing unless it erases or `k` is filed once, and
    let `Φ k v s ext` describe the calls `ext` it logs from the state `s`.
    Then the rounds return; the keys erased are the keys of the first map
    with `J`; the log is ordered by key; a key without entry logs nothing;
    and the calls logged under a key of the first map are those of one
    round on an entry of that key. -/
theorem entryFold_structure {σ S : Type} (body : Body σ S) (m1 m2 : MultiMap)
    (hs : m1.Sorted) (J : Nat → Bool) (I : Inner σ S → Prop)
    (Φ : Nat → Nat → Inner σ S → List (Event S) → Prop)
    (hbody : ∀ k v s, (k, v) ∈ m1 → I s →
      ∃ s1 ext, body k v (m1.equal_range k) (m2.equal_range k) s = some (s1, J k) ∧ I s1 ∧
        s1.trace = s.trace ++ ext ∧ (∀ ev ∈ ext, ev.key = k) ∧
        (ext ≠ [] → J k = false → MultiMap.count m1 k = 1) ∧ Φ k v s ext)
    (s0 : Inner σ S) (h0 : s0.trace = []) (hI : I s0) :
    ∃ s1 E1, entryFold body m1 m2 m1 [] s0 = some (s1, E1) ∧ I s1 ∧
      (∀ k, k ∈ E1 ↔ (0 < MultiMap.count m1 k ∧ J k = true)) ∧
      (s1.trace.map Event.key).Pairwise (fun a b => a ≤ b) ∧
      (∀ k, MultiMap.count m1 k = 0 → eventsAt k s1.trace = []) ∧
      (∀ k, 0 < MultiMap.count m1 k →
        ∃ v s, (k, v) ∈ m1 ∧ I s ∧ Φ k v s (eventsAt k s1.trace)) := by
  have key := entryFold_rule body m1 m2
    (fun todo s E => ∃ done : MultiMap, m1 = done ++ todo ∧ I s ∧
      (∀ k, k ∈ E ↔ (0 < MultiMap.count done k ∧ J k = true)) ∧
      (s.trace.map Event.key).Pairwise (fun a b => a ≤ b) ∧
      (∀ ev ∈ s.trace, ∀ e ∈ todo, ev.key ≤ e.1) ∧
      (∀ k, MultiMap.count done k = 0 → eventsAt k s.trace = []) ∧
      (∀ k, 0 < MultiMap.count done k →
        ∃ v s0, (k, v) ∈ m1 ∧ I s0 ∧ Φ k v s0 (eventsAt k s.trace)) ∧
      (∀ k, eventsAt k s.trace ≠ [] → J k = false → MultiMap.count todo k = 0))
    ?_ ?_ m1 s0 [] ?_
  · obtain ⟨s1, E1, h1, done, hd, hI1, hA, hB, _, hD, hF, _⟩ := key
    have hdone : done = m1 := by rw [hd, List.append_nil]
    rw [hdone] at hA hD hF
    exact ⟨s1, E1, h1, hI1, hA, hB, hD, hF⟩
  · -- passing over an erased entry
    rintro k v T s E ⟨done, hd, hI1, hA, hB, hC, hD, hF, hG⟩ hk
    have hkE := (hA k).mp hk
    refine ⟨done ++ [(k, v)], by rw [hd, List.append_assoc]; rfl, hI1, ?_, hB, ?_, ?_, ?_, ?_⟩
    · intro k1
      rw [MultiMap.count_append, MultiMap.count_cons, hA k1]
      by_cases hkk : k = k1
      · subst hkk
        simp only [if_true]
        constructor
        · intro h; exact ⟨by omega, h.2⟩
        · intro h; exact ⟨hkE.1, h.2⟩
      · simp only [hkk, if_false, MultiMap.count, List.filter_nil, List.length_nil,
          Nat.add_zero]
    · intro ev hev e he
      exact hC ev hev e (List.mem_cons_of_mem _ he)
    · intro k1 h1
      rw [MultiMap.count_append] at h1
      exact hD k1 (by omega)
    · intro k1 h1
      rw [MultiMap.count_append, MultiMap.count_cons] at h1
      by_cases hkk : k = k1
      · subst hkk
        exact hF k hkE.1
      · simp only [hkk, if_false, MultiMap.count, List.filter_nil, List.length_nil,
          Nat.add_zero] at h1
        exact hF k1 h1
    · intro k1 h1 h2
      have := hG k1 h1 h2
      rw [MultiMap.count_cons] at this
      omega
  · -- one round
    rintro k v T s E ⟨done, hd, hI1, hA, hB, hC, hD, hF, hG⟩ hk
    have hmem : (k, v) ∈ m1 := by rw [hd]; simp
    obtain ⟨s1, ext, hb, hI2, htr, hkeys, huniq, hphi⟩ := hbody k v s hmem hI1
    have hsorted : ∀ e ∈ T, k ≤ e.1 := by
      have h1 : (done ++ (k, v) :: T).Pairwise (fun a b => a.1 ≤ b.1) := by
        rw [← hd]; exact hs
      have h2 := (List.pairwise_append.mp h1).2.1
      exact fun e he => (List.pairwise_cons.mp h2).1 e he
    have hnone : eventsAt k s.trace = [] := by
      by_cases hc : MultiMap.count done k = 0
      · exact hD k hc
      · by_contra hne
        have hJ : J k = false := by
          rcases hj : J k with _ | _
          · rfl
          · exact absurd ((hA k).mpr ⟨by omega, hj⟩) hk
        have := hG k hne hJ
        rw [MultiMap.count_cons] at this
        simp at this
    refine ⟨s1, J k, hb, done ++ [(k, v)], by rw [hd, List.append_assoc]; rfl, hI2,
      ?_, ?_, ?_, ?_, ?_, ?_⟩
    · intro k1
      rw [MultiMap.count_append, MultiMap.count_cons]
      by_cases hkk : k = k1
      · subst hkk
        rcases hj : J k with _ | _
        · simp only [Bool.false_eq_true, if_false, and_false, iff_false]
          exact hk
        · simp
      · have hc0 : MultiMap.count ([] : MultiMap) k1 = 0 := rfl
        simp only [hkk, if_false, hc0, Nat.add_zero]
        rcases hj : J k with _ | _
        · simp only [Bool.false_eq_true, if_false]
          exact hA k1
        · simp only [if_true, List.mem_cons]
          rw [hA k1]
          constructor
          · rintro (h | h)
            · exact absurd h.symm hkk
            · exact h
          · exact Or.inr
    · rw [htr, List.map_append, List.pairwise_append]
      refine ⟨hB, ?_, ?_⟩
      · rw [List.pairwise_map]
        apply List.pairwise_of_forall_mem_list
        intro a ha b hb
        rw [hkeys a ha, hkeys b hb]
      · intro a ha b hb
        obtain ⟨ev, hev, rfl⟩ := List.mem_map.mp ha
        obtain ⟨ev2, hev2, rfl⟩ := List.mem_map.mp hb
        rw [hkeys ev2 hev2]
        exact hC ev hev (k, v) (List.mem_cons_self _ _)
    · intro ev hev e he
      rw [htr] at hev
      rcases List.mem_append.mp hev with h | h
      · exact hC ev h e (List.mem_cons_of_mem _ he)
      · rw [hkeys ev h]
        exact hsorted e he
    · intro k1 h1
      rw [MultiMap.count_append, MultiMap.count_cons] at h1
      have hkk : k ≠ k1 := by
        intro h
        rw [h] at h1
        simp at h1
      rw [htr, eventsAt_append, hD k1 (by omega), eventsAt_other k k1 ext hkeys hkk]
      rfl
    · intro k1 h1
      by_cases hkk : k = k1
      · subst hkk
        refine ⟨v, s, hmem, hI1, ?_⟩
        rw [htr, eventsAt_append, hnone, eventsAt_same k ext hkeys]
        exact hphi
      · rw [MultiMap.count_append, MultiMap.count_cons] at h1
        have hc0 : MultiMap.count ([] : MultiMap) k1 = 0 := rfl
        simp only [hkk, if_false, hc0, Nat.add_zero] at h1
        rw [htr, eventsAt_append, eventsAt_other k k1 ext hkeys hkk, List.append_nil]
        exact hF k1 h1
    · intro k1 h1 h2
      by_cases hkk : k = k1
      · subst hkk
        rw [htr, eventsAt_append, hnone, eventsAt_same k ext hkeys, List.nil_append] at h1
        have h3 := huniq h1 h2
        rw [hd, MultiMap.count_append, MultiMap.count_cons] at h3
        simp only [if_true] at h3
        omega
      · rw [htr, eventsAt_append, eventsAt_other k k1 ext hkeys hkk, List.append_nil] at h1
        have := hG k1 h1 h2
        rw [MultiMap.count_cons] at this
        omega
  · refine ⟨[], rfl, hI, ?_, ?_, ?_, ?_, ?_, ?_⟩
    · intro k
      simp [MultiMap.count]
    · rw [h0]; exact List.Pairwise.nil
    · intro ev hev
      rw [h0] at hev
      exact absurd hev (List.not_mem_nil ev)
    · intro k _
      rw [h0]; rfl
    · intro k hk
      simp [MultiMap.count] at hk
    · intro k hk
      rw [h0] at hk
      exact absurd rfl hk

/-- The vertex cascade, key by key: the keys erased from both maps are the
    keys of the first map that the second map files too, more than once on a
    side; the log is ordered by key; and under a key of the first map the log
    holds nothing when the second map does not file the key, the one `Add` of
    the two items when both maps file it once, and at most one call of the
    next step on the two candidate sets otherwise. -/
theorem vertexCascade_structure {σ S : Type} (env : Env σ S) (hret : env.Returns)
    (m1 m2 : MultiMap) (hs : m1.Sorted) (st : σ) (front : S) (rest : List S) :
    ∃ r E1, FindFixedPointsBasicBlockInternal env m1 m2 st (front :: rest) = some r ∧
      r.map1 = m1.without E1 ∧ r.map2 = m2.without E1 ∧
      (∀ k, k ∈ E1 ↔ (0 < MultiMap.count m1 k ∧ m2.equal_range k ≠ [] ∧
        ((m1.equal_range k).length > 1 ∨ (m2.equal_range k).length > 1))) ∧
      (r.trace.map Event.key).Pairwise (fun a b => a ≤ b) ∧
      (∀ k, MultiMap.count m1 k = 0 → eventsAt k r.trace = []) ∧
      (∀ k, 0 < MultiMap.count m1 k → ∃ v s, (k, v) ∈ m1 ∧
        ((m2.equal_range k = [] ∧ eventsAt k r.trace = []) ∨
         (∃ v2, m1.equal_range k = [v] ∧ m2.equal_range k = [v2] ∧
            eventsAt k r.trace =
              [Event.add k v v2 (env.GetName front) (env.Add s v v2 (env.GetName front)).1]) ∨
         (m2.equal_range k ≠ [] ∧
            ((m1.equal_range k).length > 1 ∨ (m2.equal_range k).length > 1) ∧
            (eventsAt k r.trace = [] ∨
              ∃ step b, eventsAt k r.trace =
                [Event.next k step (collect (m1.equal_range k) [])
                  (collect (m2.equal_range k) []) b])))) := by
  obtain ⟨s1, E1, h1, _, hE, hB, hD, hF⟩ := entryFold_structure
    (vertexBody env (env.GetName front)) m1 m2 hs
    (fun k => decide (m2.equal_range k ≠ [] ∧
      ((m1.equal_range k).length > 1 ∨ (m2.equal_range k).length > 1)))
    (fun _ => True)
    (fun k v s ext =>
      (m2.equal_range k = [] ∧ ext = []) ∨
      (∃ v2, m1.equal_range k = [v] ∧ m2.equal_range k = [v2] ∧
        ext = [Event.add k v v2 (env.GetName front)
          (env.Add s.state v v2 (env.GetName front)).1]) ∨
      (m2.equal_range k ≠ [] ∧
        ((m1.equal_range k).length > 1 ∨ (m2.equal_range k).length > 1) ∧
        (ext = [] ∨ ∃ step b, ext = [Event.next k step (collect (m1.equal_range k) [])
          (collect (m2.equal_range k) []) b])))
    (fun k v s hm _ => by
      obtain ⟨s1, j, ext, hb, htr, _, hcase⟩ := vertexBody_spec env (env.GetName front) k v
        (m1.equal_range k) (m2.equal_range k) s ((mem_equal_range m1 k v).mpr hm)
        (fun step l _ => hret _ _ _ _ _)
      rcases hcase with ⟨a1, a2, a3, _⟩ | ⟨a1, v2, a2, a3, _, a4, _⟩ | ⟨a1, a2, a3, a4⟩
      · refine ⟨s1, ext, ?_, trivial, htr, ?_, ?_, Or.inl ⟨a2, a3⟩⟩
        · rw [hb, a1]; simp [a2]
        · rw [a3]; intro ev hev; exact absurd hev (List.not_mem_nil ev)
        · intro hne; exact absurd a3 hne
      · refine ⟨s1, ext, ?_, trivial, htr, ?_, ?_, Or.inr (Or.inl ⟨v2, a2, a3, a4⟩)⟩
        · rw [hb, a1]; simp [a2, a3]
        · rw [a4]; intro ev hev; rw [List.mem_singleton.mp hev]; rfl
        · intro _ _
          rw [MultiMap.count_eq, a2]; rfl
      · have hJ : decide (m2.equal_range k ≠ [] ∧
            ((m1.equal_range k).length > 1 ∨ (m2.equal_range k).length > 1)) = true :=
          decide_eq_true ⟨a2, a3⟩
        refine ⟨s1, ext, by rw [hb, a1]; exact congrArg (fun x => some (s1, x)) hJ.symm, trivial,
          htr, ?_, ?_, Or.inr (Or.inr ⟨a2, a3, ?_⟩)⟩
        · rcases a4 with ⟨_, b2, _⟩ | ⟨step, l, b, st1, l1, _, _, b3, _⟩
          · rw [b2]; intro ev hev; exact absurd hev (List.not_mem_nil ev)
          · rw [b3]; intro ev hev; rw [List.mem_singleton.mp hev]; rfl
        · intro _ hJ2
          exact absurd (hJ.symm.trans hJ2) (by simp)
        · rcases a4 with ⟨_, b2, _⟩ | ⟨step, l, b, st1, l1, _, _, b3, _⟩
          · exact Or.inl b2
          · exact Or.inr ⟨step, b, b3⟩)
    ⟨st, rest, false, []⟩ rfl trivial
  rw [FindFixedPointsBasicBlockInternal_eq env m1 m2 hs, h1]
  refine ⟨_, E1, rfl, rfl, rfl, ?_, hB, hD, ?_⟩
  · intro k
    rw [hE k]
    simp
  · intro k hk
    obtain ⟨v, s, hm, _, hphi⟩ := hF k hk
    exact ⟨v, s.state, hm, hphi⟩

/-- The edge cascade, key by key: every key of the first map that is not
    filed once on both sides is erased from both maps; the log is ordered by
    key; and under a key of the first map the log holds nothing when the
    second map does not file the key, the flag calls on all edges of the key
    followed by at most one call of the next step when the key is not filed
    once on both sides, and otherwise the offer of the two sources followed,
    only if it was rejected, by the offer of the two targets. -/
theorem edgeCascade_structure {σ S : Type} (env : Env σ S) (hret : env.Returns)
    (m1 m2 : MultiMap) (hs : m1.Sorted) (st : σ) (front : S) (rest : List S) :
    ∃ r E1, FindFixedPointsBasicBlockEdgeInternal env m1 m2 st (front :: rest) = some r ∧
      r.map1 = m1.without E1 ∧ r.map2 = m2.without E1 ∧
      (∀ k, k ∈ E1 ↔ (0 < MultiMap.count m1 k ∧
        ((m1.equal_range k).length ≠ 1 ∨ (m2.equal_range k).length ≠ 1))) ∧
      (r.trace.map Event.key).Pairwise (fun a b => a ≤ b) ∧
      (∀ k, MultiMap.count m1 k = 0 → eventsAt k r.trace = []) ∧
      (∀ k, 0 < MultiMap.count m1 k → ∃ edge1 s, (k, edge1) ∈ m1 ∧
        ((m2.equal_range k = [] ∧ eventsAt k r.trace = []) ∨
         (m2.equal_range k ≠ [] ∧
            ((m1.equal_range k).length ≠ 1 ∨ (m2.equal_range k).length ≠ 1) ∧
            (eventsAt k r.trace =
                flagEvents k (1 <<< rest.length) (m1.equal_range k) (m2.equal_range k) ∨
              ∃ step steps bb1 bb2 b st1 l1,
                env.FindFixedPoints step bb1 bb2
                  (flagState env (1 <<< rest.length) (m1.equal_range k) (m2.equal_range k) s)
                  steps = some (b, st1, l1) ∧
                eventsAt k r.trace =
                  flagEvents k (1 <<< rest.length) (m1.equal_range k) (m2.equal_range k) ++
                    [Event.next k step bb1 bb2 b])) ∨
         (∃ edge2, m1.equal_range k = [edge1] ∧ m2.equal_range k = [edge2] ∧
            (((env.Add s (env.source1 edge1) (env.source2 edge2) (env.GetName front)).1 = true ∧
                eventsAt k r.trace =
                  [Event.add k (env.source1 edge1) (env.source2 edge2) (env.GetName front)
                    true]) ∨
             ((env.Add s (env.source1 edge1) (env.source2 edge2) (env.GetName front)).1 =
                  false ∧
                eventsAt k r.trace =
                  [Event.add k (env.source1 edge1) (env.source2 edge2) (env.GetName front)
                    false,
                   Event.add k (env.target1 edge1) (env.target2 edge2) (env.GetName front)
                    (env.Add
                      (env.Add s (env.source1 edge1) (env.source2 edge2)
                        (env.GetName front)).2
                      (env.target1 edge1) (env.target2 edge2) (env.GetName front)).1]))))) := by
  obtain ⟨s1, E1, h1, _, hE, hB, hD, hF⟩ := entryFold_structure
    (edgeBody env (env.GetName front) rest.length) m1 m2 hs
    (fun k => decide ((m1.equal_range k).length ≠ 1 ∨ (m2.equal_range k).length ≠ 1))
    (fun _ => True)
    (fun k edge1 s ext =>
      (m2.equal_range k = [] ∧ ext = []) ∨
      (m2.equal_range k ≠ [] ∧
        ((m1.equal_range k).length ≠ 1 ∨ (m2.equal_range k).length ≠ 1) ∧
        (ext = flagEvents k (1 <<< rest.length) (m1.equal_range k) (m2.equal_range k) ∨
          ∃ step steps bb1 bb2 b st1 l1,
            env.FindFixedPoints step bb1 bb2
              (flagState env (1 <<< rest.length) (m1.equal_range k) (m2.equal_range k) s.state)
              steps = some (b, st1, l1) ∧
            ext = flagEvents k (1 <<< rest.length) (m1.equal_range k) (m2.equal_range k) ++
              [Event.next k step bb1 bb2 b])) ∨
      (∃ edge2, m1.equal_range k = [edge1] ∧ m2.equal_range k = [edge2] ∧
        (((env.Add s.state (env.source1 edge1) (env.source2 edge2) (env.GetName front)).1 =
              true ∧
            ext = [Event.add k (env.source1 edge1) (env.source2 edge2) (env.GetName front)
              true]) ∨
         ((env.Add s.state (env.source1 edge1) (env.source2 edge2) (env.GetName front)).1 =
              false ∧
            ext = [Event.add k (env.source1 edge1) (env.source2 edge2) (env.GetName front)
                false,
              Event.add k (env.target1 edge1) (env.target2 edge2) (env.GetName front)
                (env.Add
                  (env.Add s.state (env.source1 edge1) (env.source2 edge2)
                    (env.GetName front)).2
                  (env.target1 edge1) (env.target2 edge2) (env.GetName front)).1]))))
    (fun k edge1 s hm _ => by
      obtain ⟨s1, j, ext, hb, htr, _, hcase⟩ := edgeBody_spec env (env.GetName front)
        rest.length k edge1 (m1.equal_range k) (m2.equal_range k) s
        ((mem_equal_range m1 k edge1).mpr hm) (fun step l _ => hret _ _ _ _ _)
      have hflagkeys : ∀ ev ∈ (flagEvents k (1 <<< rest.length) (m1.equal_range k)
          (m2.equal_range k) : List (Event S)), ev.key = k := by
        intro ev hev
        unfold flagEvents at hev
        rcases List.mem_append.mp hev with h | h
        · obtain ⟨e, _, rfl⟩ := List.mem_map.mp h; rfl
        · obtain ⟨e, _, rfl⟩ := List.mem_map.mp h; rfl
      rcases hcase with ⟨a1, a2, a3, _⟩ | ⟨a1, a2, a3, a4⟩ | ⟨a1, edge2, a2, a3, _, a4⟩
      · have hJ : decide ((m1.equal_range k).length ≠ 1 ∨ (m2.equal_range k).length ≠ 1) =
            true := decide_eq_true (Or.inr (by rw [a2]; simp))
        refine ⟨s1, ext, by rw [hb, a1]; exact congrArg (fun x => some (s1, x)) hJ.symm,
          trivial, htr, ?_, ?_, Or.inl ⟨a2, a3⟩⟩
        · rw [a3]; intro ev hev; exact absurd hev (List.not_mem_nil ev)
        · intro hne; exact absurd a3 hne
      · have hJ : decide ((m1.equal_range k).length ≠ 1 ∨ (m2.equal_range k).length ≠ 1) =
            true := decide_eq_true a3
        refine ⟨s1, ext, by rw [hb, a1]; exact congrArg (fun x => some (s1, x)) hJ.symm,
          trivial, htr, ?_, ?_, Or.inr (Or.inl ⟨a2, a3, ?_⟩)⟩
        · rcases a4 with ⟨b1, _⟩ | ⟨step, l, b, st1, l1, _, _, b3, _⟩
          · rw [b1]; exact hflagkeys
          · rw [b3]
            intro ev hev
            rcases List.mem_append.mp hev with h | h
            · exact hflagkeys ev h
            · rw [List.mem_singleton.mp h]; rfl
        · intro _ hJ2
          exact absurd (hJ.symm.trans hJ2) (by simp)
        · rcases a4 with ⟨b1, _⟩ | ⟨step, l, b, st1, l1, _, b2, b3, _⟩
          · exact Or.inl b1
          · exact Or.inr ⟨step, s.steps, _, _, b, st1, l1, b2, b3⟩
      · have hJ : decide ((m1.equal_range k).length ≠ 1 ∨ (m2.equal_range k).length ≠ 1) =
            false := decide_eq_false (by rw [a2, a3]; simp)
        refine ⟨s1, ext, by rw [hb, a1]; exact congrArg (fun x => some (s1, x)) hJ.symm,
          trivial, htr, ?_, ?_, Or.inr (Or.inr ⟨edge2, a2, a3, ?_⟩)⟩
        · rcases a4 with ⟨_, b2, _⟩ | ⟨_, b2, _⟩
          · rw [b2]; intro ev hev; rw [List.mem_singleton.mp hev]; rfl
          · rw [b2]
            intro ev hev
            rcases List.mem_cons.mp hev with h | h
            · rw [h]; rfl
            · rw [List.mem_singleton.mp h]; rfl
        · intro _ _
          rw [MultiMap.count_eq, a2]; rfl
        · rcases a4 with ⟨b1, b2, _⟩ | ⟨b1, b2, _⟩
          · exact Or.inl ⟨b1, b2⟩
          · exact Or.inr ⟨b1, b2⟩)
    ⟨st, rest, false, []⟩ rfl trivial
  rw [FindFixedPointsBasicBlockEdgeInternal_eq env m1 m2 hs, h1]
  refine ⟨_, E1, rfl, rfl, rfl, ?_, hB, hD, ?_⟩
  · intro k
    rw [hE k]
    simp
  · intro k hk
    obtain ⟨v, s, hm, _, hphi⟩ := hF k hk
    exact ⟨v, s.state, hm, hphi⟩

/-! ## Keys are handled in ascending order -/

theorem eventsAt_cons {S : Type} (k : Nat) (a : Event S) (l : List (Event S)) :
    eventsAt k (a :: l) = if a.key = k then a :: eventsAt k l else eventsAt k l := by
  unfold eventsAt
  rw [List.filter_cons]
  by_cases h : a.key = k
  · simp [h]
  · simp [h]

theorem eventsAt_filter {S : Type} (k : Nat) (p : Event S → Bool) (l : List (Event S)) :
    eventsAt k (l.filter p) = (eventsAt k l).filter p := by
  unfold eventsAt
  rw [List.filter_filter, List.filter_filter]
  apply List.filter_congr
  intro e _
  exact Bool.and_comm _ _

theorem mem_eventsAt {S : Type} (k : Nat) (e : Event S) (l : List (Event S)) :
    e ∈ eventsAt k l ↔ e ∈ l ∧ e.key = k := by
  simp [eventsAt]

/-- A log ordered by key whose calls under each key are pairwise related has
    any two calls ordered by key or, under the same key, related. -/
theorem pairwise_keys_of_rounds {S : Type} (R : Event S → Event S → Prop) :
    ∀ (l : List (Event S)), (l.map Event.key).Pairwise (fun a b => a ≤ b) →
      (∀ k, (eventsAt k l).Pairwise R) →
      l.Pairwise (fun a b => a.key < b.key ∨ (a.key = b.key ∧ R a b)) := by
  intro l
  induction l with
  | nil => intro _ _; exact List.Pairwise.nil
  | cons a t ih =>
    intro hsorted hper
    rw [List.map_cons, List.pairwise_cons] at hsorted
    refine List.pairwise_cons.mpr ⟨?_, ih hsorted.2 ?_⟩
    · intro b hb
      have hle := hsorted.1 b.key (List.mem_map_of_mem _ hb)
      rcases Nat.lt_or_eq_of_le hle with h | h
      · exact Or.inl h
      · right
        refine ⟨h, ?_⟩
        have hp := hper a.key
        rw [eventsAt_cons, if_pos rfl] at hp
        exact (List.pairwise_cons.mp hp).1 b ((mem_eventsAt _ _ _).mpr ⟨hb, h.symm⟩)
    · intro k
      have hp := hper k
      rw [eventsAt_cons] at hp
      split at hp
      · exact (List.pairwise_cons.mp hp).2
      · exact hp

theorem Event.not_acted_of_isFlag {S : Type} (e : Event S) (h : e.isFlag = true) :
    (e.isAdd || e.isNext) = false ∧ (e.isAdd && e.positive) = false ∧ e.isNext = false := by
  cases e with
  | add k v1 v2 n a => exact absurd h (by simp [Event.isFlag])
  | next k step b1 b2 b => exact absurd h (by simp [Event.isFlag])
  | flag k side edge flag => exact ⟨rfl, rfl, rfl⟩

/-- C25: within one call of a cascade the keys are handled in ascending
    order. In the vertex cascade the keys of the logged calls (`Add` and the
    next step) increase strictly. In the edge cascade, of any two calls of
    `Add` or of the next step the earlier has the smaller key, or they are
    made under the same key and are two offers of one round, the earlier one
    rejected; the accepted `Add` calls have strictly increasing keys and so
    have the calls of the next step. -/
theorem cascade_keys_ascending {σ S : Type} (env : Env σ S) (hret : env.Returns)
    (map1 map2 : MultiMap) (hs : map1.Sorted) (st : σ) (front : S) (rest : List S) :
    (∃ r, FindFixedPointsBasicBlockInternal env map1 map2 st (front :: rest) = some r ∧
      (∀ e ∈ r.trace, e.isAdd = true ∨ e.isNext = true) ∧
      r.trace.Pairwise (fun a b => a.key < b.key)) ∧
    (∃ r, FindFixedPointsBasicBlockEdgeInternal env map1 map2 st (front :: rest) = some r ∧
      (r.trace.filter (fun e => e.isAdd || e.isNext)).Pairwise
        (fun a b => a.key < b.key ∨
          (a.key = b.key ∧ a.isAdd = true ∧ a.positive = false ∧ b.isAdd = true)) ∧
      (r.trace.filter (fun e => e.isAdd && e.positive)).Pairwise
        (fun a b => a.key < b.key) ∧
      (r.trace.filter (fun e => e.isNext)).Pairwise (fun a b => a.key < b.key)) := by
  constructor
  · obtain ⟨r, E1, h1, _, _, _, hB, hD, hF⟩ :=
      vertexCascade_structure env hret map1 map2 hs st front rest
    have hshape : ∀ k, eventsAt k r.trace = [] ∨
        (∃ v1 v2 n a, eventsAt k r.trace = [Event.add k v1 v2 n a]) ∨
        (∃ step b1 b2 b, eventsAt k r.trace = [Event.next k step b1 b2 b]) := by
      intro k
      by_cases hk : MultiMap.count map1 k = 0
      · exact Or.inl (hD k hk)
      · obtain ⟨v, s, _, hc⟩ := hF k (Nat.pos_of_ne_zero hk)
        rcases hc with ⟨_, h⟩ | ⟨v2, _, _, h⟩ | ⟨_, _, h | ⟨step, b, h⟩⟩
        · exact Or.inl h
        · exact Or.inr (Or.inl ⟨_, _, _, _, h⟩)
        · exact Or.inl h
        · exact Or.inr (Or.inr ⟨_, _, _, _, h⟩)
    refine ⟨r, h1, ?_, ?_⟩
    · intro e he
      have hmem := (mem_eventsAt e.key e r.trace).mpr ⟨he, rfl⟩
      rcases hshape e.key with h | ⟨v1, v2, n, a, h⟩ | ⟨step, b1, b2, b, h⟩
      · rw [h] at hmem; exact absurd hmem (List.not_mem_nil e)
      · rw [h] at hmem; rw [List.mem_singleton.mp hmem]; exact Or.inl rfl
      · rw [h] at hmem; rw [List.mem_singleton.mp hmem]; exact Or.inr rfl
    · refine (pairwise_keys_of_rounds (fun _ _ => False) r.trace hB ?_).imp ?_
      · intro k
        rcases hshape k with h | ⟨v1, v2, n, a, h⟩ | ⟨step, b1, b2, b, h⟩
        · rw [h]; exact List.Pairwise.nil
        · rw [h]; exact List.pairwise_singleton _ _
        · rw [h]; exact List.pairwise_singleton _ _
      · rintro a b (h | ⟨_, h⟩)
        · exact h
        · exact absurd h id
  · obtain ⟨r, E1, h1, _, _, _, hB, hD, hF⟩ :=
      edgeCascade_structure env hret map1 map2 hs st front rest
    have hshape : ∀ k, (∃ fl : List (Event S), (∀ e ∈ fl, e.isFlag = true) ∧
          (eventsAt k r.trace = fl ∨
            ∃ step b1 b2 b, eventsAt k r.trace = fl ++ [Event.next k step b1 b2 b])) ∨
        (∃ v1 v2 n, eventsAt k r.trace = [Event.add k v1 v2 n true]) ∨
        (∃ v1 v2 w1 w2 n a, eventsAt k r.trace =
          [Event.add k v1 v2 n false, Event.add k w1 w2 n a]) := by
      intro k
      by_cases hk : MultiMap.count map1 k = 0
      · exact Or.inl ⟨[], fun e he => absurd he (List.not_mem_nil e), Or.inl (hD k hk)⟩
      · obtain ⟨v, s, _, hc⟩ := hF k (Nat.pos_of_ne_zero hk)
        have hfl : ∀ e ∈ (flagEvents k (1 <<< rest.length) (map1.equal_range k)
            (map2.equal_range k) : List (Event S)), e.isFlag = true := by
          intro e he
          unfold flagEvents at he
          rcases List.mem_append.mp he with h | h
          · obtain ⟨x, _, rfl⟩ := List.mem_map.mp h; rfl
          · obtain ⟨x, _, rfl⟩ := List.mem_map.mp h; rfl
        rcases hc with ⟨_, h⟩ | ⟨_, _, h | ⟨step, steps, b1, b2, b, st1, l1, _, h⟩⟩ |
          ⟨e2, _, _, ⟨_, h⟩ | ⟨_, h⟩⟩
        · exact Or.inl ⟨[], fun e he => absurd he (List.not_mem_nil e), Or.inl h⟩
        · exact Or.inl ⟨_, hfl, Or.inl h⟩
        · exact Or.inl ⟨_, hfl, Or.inr ⟨_, _, _, _, h⟩⟩
        · exact Or.inr (Or.inl ⟨_, _, _, h⟩)
        · exact Or.inr (Or.inr ⟨_, _, _, _, _, _, h⟩)
    have hfilter : ∀ (p : Event S → Bool) (fl : List (Event S)),
        (∀ e ∈ fl, e.isFlag = true) → (∀ e : Event S, e.isFlag = true → p e = false) →
        fl.filter p = [] := by
      intro p fl hfl hp
      rw [List.filter_eq_nil_iff]
      intro e he
      simp [hp e (hfl e he)]
    have hflag1 : ∀ e : Event S, e.isFlag = true → (e.isAdd || e.isNext) = false :=
      fun e he => (Event.not_acted_of_isFlag e he).1
    have hflag2 : ∀ e : Event S, e.isFlag = true → (e.isAdd && e.positive) = false :=
      fun e he => (Event.not_acted_of_isFlag e he).2.1
    have hflag3 : ∀ e : Event S, e.isFlag = true → e.isNext = false :=
      fun e he => (Event.not_acted_of_isFlag e he).2.2
    have hsub : ∀ p : Event S → Bool,
        ((r.trace.filter p).map Event.key).Pairwise (fun a b => a ≤ b) := fun p =>
      hB.sublist ((List.filter_sublist _).map _)
    refine ⟨r, h1, ?_, ?_, ?_⟩
    · refine (pairwise_keys_of_rounds
        (fun a b => a.isAdd = true ∧ a.positive = false ∧ b.isAdd = true) _ (hsub _) ?_)
      intro k
      rw [eventsAt_filter]
      rcases hshape k with ⟨fl, hfl, h | ⟨step, b1, b2, b, h⟩⟩ | ⟨v1, v2, n, h⟩ |
        ⟨v1, v2, w1, w2, n, a, h⟩
      · rw [h, hfilter _ fl hfl hflag1]; exact List.Pairwise.nil
      · rw [h, List.filter_append, hfilter _ fl hfl hflag1]
        simp [Event.isAdd, Event.isNext]
      · rw [h]; simp [Event.isAdd, Event.isNext]
      · rw [h]; simp [Event.isAdd, Event.isNext, Event.positive]
    · refine (pairwise_keys_of_rounds (fun _ _ => False) _ (hsub _) ?_).imp ?_
      · intro k
        rw [eventsAt_filter]
        rcases hshape k with ⟨fl, hfl, h | ⟨step, b1, b2, b, h⟩⟩ | ⟨v1, v2, n, h⟩ |
          ⟨v1, v2, w1, w2, n, a, h⟩
        · rw [h, hfilter _ fl hfl hflag2]; exact List.Pairwise.nil
        · rw [h, List.filter_append, hfilter _ fl hfl hflag2]
          simp [Event.isAdd]
        · rw [h]; simp [Event.isAdd, Event.positive]
        · rw [h]
          cases a <;> simp [Event.isAdd, Event.positive]
      · rintro a b (h | ⟨_, h⟩)
        · exact h
        · exact absurd h id
    · refine (pairwise_keys_of_rounds (fun _ _ => False) _ (hsub _) ?_).imp ?_
      · intro k
        rw [eventsAt_filter]
        rcases hshape k with ⟨fl, hfl, h | ⟨step, b1, b2, b, h⟩⟩ | ⟨v1, v2, n, h⟩ |
          ⟨v1, v2, w1, w2, n, a, h⟩
        · rw [h, hfilter _ fl hfl hflag3]; exact List.Pairwise.nil
        · rw [h, List.filter_append, hfilter _ fl hfl hflag3]
          simp [Event.isNext]
        · rw [h]; simp [Event.isNext]
        · rw [h]; simp [Event.isNext]
      · rintro a b (h | ⟨_, h⟩)
        · exact h
        · exact absurd h id

/-- Witness for C25: on the maps `[(1,10),(2,20),(2,21)]` and `[(1,11),(2,22)]`
    with the step list `A, B`, the vertex cascade logs one call under key 1,
    then one under key 2. -/
theorem cascade_keys_ascending_witness :
    ∃ r, FindFixedPointsBasicBlockInternal exampleEnv [(1, 10), (2, 20), (2, 21)]
        [(1, 11), (2, 22)] ⟨[], [], []⟩ [exampleStep "A", exampleStep "B"] = some r ∧
      r.trace.map Event.key = [1, 2] ∧ r.trace.Pairwise (fun a b => a.key < b.key) := by
  have hkeys : (FindFixedPointsBasicBlockInternal exampleEnv [(1, 10), (2, 20), (2, 21)]
      [(1, 11), (2, 22)] ⟨[], [], []⟩ [exampleStep "A", exampleStep "B"]).map
      (fun r => r.trace.map Event.key) = some [1, 2] := by decide
  obtain ⟨r, h1, _, h3⟩ := (cascade_keys_ascending exampleEnv exampleEnv_returns
    [(1, 10), (2, 20), (2, 21)] [(1, 11), (2, 22)] (by unfold MultiMap.Sorted; decide)
    ⟨[], [], []⟩ (exampleStep "A") [exampleStep "B"]).1
  rw [h1] at hkeys
  exact ⟨r, h1, Option.some.inj hkeys, h3⟩

/-! ## Flags, unique edge keys and the maps left behind -/

/-- C26: in the edge cascade, with `d` the number of steps left in the list
    after the pop (below 31, so that `1 << d` is a value of `int`), for every
    key filed on both sides and not once on both the calls logged under the
    key are `AddFlag` with the value `2 ^ d` on every edge the first map files
    under the key, then on every edge the second map files under it, and
    after them at most one call of the next step, made in the state the flag
    calls left; under a key that is filed once on both sides or is missing on
    a side no `AddFlag` is logged. -/
theorem edge_cascade_flags {σ S : Type} (env : Env σ S) (hret : env.Returns)
    (edges1 edges2 : MultiMap) (hs : edges1.Sorted) (st : σ) (front : S) (rest : List S)
    (hd : rest.length < 31) :
    ∃ r, FindFixedPointsBasicBlockEdgeInternal env edges1 edges2 st (front :: rest) = some r ∧
      2 ^ rest.length < 2 ^ 31 ∧
      ∀ k,
        ((0 < MultiMap.count edges1 k ∧ 0 < MultiMap.count edges2 k ∧
            ¬ (MultiMap.count edges1 k = 1 ∧ MultiMap.count edges2 k = 1)) →
          ∃ after, eventsAt k r.trace =
              flagEvents k (2 ^ rest.length) (edges1.equal_range k) (edges2.equal_range k) ++
                after ∧
            (after = [] ∨ ∃ s step steps bb1 bb2 b st1 l1,
              env.FindFixedPoints step bb1 bb2
                (flagState env (2 ^ rest.length) (edges1.equal_range k)
                  (edges2.equal_range k) s) steps = some (b, st1, l1) ∧
              after = [Event.next k step bb1 bb2 b])) ∧
        ((MultiMap.count edges1 k = 0 ∨ MultiMap.count edges2 k = 0 ∨
            (MultiMap.count edges1 k = 1 ∧ MultiMap.count edges2 k = 1)) →
          ∀ e ∈ eventsAt k r.trace, e.isFlag = false) := by
  obtain ⟨r, E1, h1, _, _, _, _, hD, hF⟩ :=
    edgeCascade_structure env hret edges1 edges2 hs st front rest
  have hpow : 1 <<< rest.length = 2 ^ rest.length := Nat.one_shiftLeft _
  rw [hpow] at hF
  refine ⟨r, h1, Nat.pow_lt_pow_right (by decide) hd, ?_⟩
  intro k
  constructor
  · rintro ⟨c1, c2, c3⟩
    rw [MultiMap.count_eq] at c2
    obtain ⟨edge1, s, _, hc⟩ := hF k c1
    rcases hc with ⟨a1, _⟩ | ⟨_, _, h | ⟨step, steps, b1, b2, b, st1, l1, hcall, h⟩⟩ |
      ⟨e2, a1, a2, _⟩
    · rw [a1] at c2; exact absurd c2 (by simp)
    · exact ⟨[], by rw [h, List.append_nil], Or.inl rfl⟩
    · exact ⟨_, h, Or.inr ⟨s, step, steps, b1, b2, b, st1, l1, hcall, rfl⟩⟩
    · exfalso
      apply c3
      rw [MultiMap.count_eq, MultiMap.count_eq, a1, a2]
      exact ⟨rfl, rfl⟩
  · intro hcase e he
    by_cases hk : MultiMap.count edges1 k = 0
    · rw [hD k hk] at he
      exact absurd he (List.not_mem_nil e)
    · obtain ⟨edge1, s, _, hc⟩ := hF k (Nat.pos_of_ne_zero hk)
      rcases hc with ⟨_, h⟩ | ⟨a1, a2, _⟩ | ⟨e2, _, _, ⟨_, h⟩ | ⟨_, h⟩⟩
      · rw [h] at he
        exact absurd he (List.not_mem_nil e)
      · exfalso
        rw [MultiMap.count_eq, MultiMap.count_eq] at hcase
        rcases hcase with h | h | ⟨h3, h4⟩
        · rw [MultiMap.count_eq] at hk; exact hk h
        · exact a1 (List.length_eq_zero.mp h)
        · rcases a2 with h | h
          · exact h h3
          · exact h h4
      · rw [h] at he
        rw [List.mem_singleton.mp he]
        rfl
      · rw [h] at he
        rcases List.mem_cons.mp he with h2 | h2
        · rw [h2]; rfl
        · rw [List.mem_singleton.mp h2]; rfl

/-- C29: in the edge cascade, for a key held by exactly one edge on each
    side, the calls logged under the key are the offer of the two sources to
    `Add`, accepted, and nothing else; or the offer of the two sources,
    rejected, followed by the offer of the two targets, made in the state the
    first offer left. So at most one of the calls under the key is accepted. -/
theorem edge_cascade_unique_key {σ S : Type} (env : Env σ S) (hret : env.Returns)
    (edges1 edges2 : MultiMap) (hs : edges1.Sorted) (st : σ) (front : S) (rest : List S) :
    ∃ r, FindFixedPointsBasicBlockEdgeInternal env edges1 edges2 st (front :: rest) = some r ∧
      ∀ k edge1 edge2, edges1.equal_range k = [edge1] → edges2.equal_range k = [edge2] →
        (∃ s,
          ((env.Add s (env.source1 edge1) (env.source2 edge2) (env.GetName front)).1 = true ∧
            eventsAt k r.trace =
              [Event.add k (env.source1 edge1) (env.source2 edge2) (env.GetName front) true]) ∨
          ((env.Add s (env.source1 edge1) (env.source2 edge2) (env.GetName front)).1 = false ∧
            eventsAt k r.trace =
              [Event.add k (env.source1 edge1) (env.source2 edge2) (env.GetName front) false,
               Event.add k (env.target1 edge1) (env.target2 edge2) (env.GetName front)
                (env.Add
                  (env.Add s (env.source1 edge1) (env.source2 edge2) (env.GetName front)).2
                  (env.target1 edge1) (env.target2 edge2) (env.GetName front)).1])) ∧
        ((eventsAt k r.trace).filter (fun e => e.positive)).length ≤ 1 := by
  obtain ⟨r, E1, h1, _, _, _, _, _, hF⟩ :=
    edgeCascade_structure env hret edges1 edges2 hs st front rest
  refine ⟨r, h1, ?_⟩
  intro k edge1 edge2 he1 he2
  have hpos : 0 < MultiMap.count edges1 k := by rw [MultiMap.count_eq, he1]; exact Nat.one_pos
  obtain ⟨e1, s, _, hc⟩ := hF k hpos
  rcases hc with ⟨a1, _⟩ | ⟨_, a2, _⟩ | ⟨e2, b1, b2, hcase⟩
  · rw [he2] at a1; exact absurd a1 (by simp)
  · rw [he1, he2] at a2
    rcases a2 with h | h <;> exact absurd rfl h
  · have x1 : e1 = edge1 := by rw [he1] at b1; exact (List.singleton_inj.mp b1).symm
    have x2 : e2 = edge2 := by rw [he2] at b2; exact (List.singleton_inj.mp b2).symm
    subst x1 x2
    refine ⟨⟨s, hcase⟩, ?_⟩
    rcases hcase with ⟨_, h⟩ | ⟨_, h⟩
    · rw [h]; simp [Event.positive]
    · rw [h, List.filter_cons]
      simp only [Event.positive, Bool.false_eq_true, if_false]
      exact List.length_filter_le _ _

/-- C30: after the vertex cascade returns, every key that both maps still
    file is filed once in each; the entries under a key that only one of the
    two input maps filed are as they were; and the maps hold no entry they
    did not hold before, in the same order. -/
theorem vertex_cascade_post_state {σ S : Type} (env : Env σ S) (hret : env.Returns)
    (vertices_1 vertices_2 : MultiMap) (hs : vertices_1.Sorted) (st : σ) (front : S)
    (rest : List S) :
    ∃ r, FindFixedPointsBasicBlockInternal env vertices_1 vertices_2 st (front :: rest) =
        some r ∧
      (∀ k, 0 < MultiMap.count r.map1 k → 0 < MultiMap.count r.map2 k →
        MultiMap.count r.map1 k = 1 ∧ MultiMap.count r.map2 k = 1) ∧
      (∀ k, MultiMap.count vertices_2 k = 0 →
        r.map1.equal_range k = vertices_1.equal_range k) ∧
      (∀ k, MultiMap.count vertices_1 k = 0 →
        r.map2.equal_range k = vertices_2.equal_range k) ∧
      r.map1.Sublist vertices_1 ∧ r.map2.Sublist vertices_2 := by
  obtain ⟨r, E1, h1, hm1, hm2, hE, _, _, _⟩ :=
    vertexCascade_structure env hret vertices_1 vertices_2 hs st front rest
  refine ⟨r, h1, ?_, ?_, ?_, ?_, ?_⟩
  · intro k c1 c2
    have hk : k ∉ E1 := by
      intro hin
      rw [hm1, count_without_of_mem _ _ _ hin] at c1
      exact absurd c1 (by decide)
    rw [hm1, MultiMap.count_eq, MultiMap.equal_range_without _ _ _ hk] at c1 ⊢
    rw [hm2, MultiMap.count_eq, MultiMap.equal_range_without _ _ _ hk] at c2 ⊢
    have hnot := fun h => hk ((hE k).mpr h)
    rw [MultiMap.count_eq] at hnot
    have hne : vertices_2.equal_range k ≠ [] := List.length_pos.mp c2
    by_contra hcon
    apply hnot
    refine ⟨c1, hne, ?_⟩
    omega
  · intro k hk
    have hnot : k ∉ E1 := by
      intro hin
      have := ((hE k).mp hin).2.1
      rw [MultiMap.count_eq] at hk
      exact this (List.length_eq_zero.mp hk)
    rw [hm1, MultiMap.equal_range_without _ _ _ hnot]
  · intro k hk
    have hnot : k ∉ E1 := by
      intro hin
      have := ((hE k).mp hin).1
      omega
    rw [hm2, MultiMap.equal_range_without _ _ _ hnot]
  · rw [hm1]; exact List.filter_sublist _
  · rw [hm2]; exact List.filter_sublist _

/-- Witness for C26: the first edge map files the edges 12 and 34 under key 2
    and the second the edge 56; one step is left after the pop, so the flag
    is `2 ^ 1`. -/
theorem edge_cascade_flags_witness :
    ∃ r, FindFixedPointsBasicBlockEdgeInternal exampleEnv [(2, 12), (2, 34)] [(2, 56)]
        ⟨[], [], []⟩ [exampleStep "A", exampleStep "B"] = some r ∧
      ∃ after, eventsAt 2 r.trace =
        [Event.flag 2 true 12 2, Event.flag 2 true 34 2, Event.flag 2 false 56 2] ++ after := by
  obtain ⟨r, h1, _, h3⟩ := edge_cascade_flags exampleEnv exampleEnv_returns
    [(2, 12), (2, 34)] [(2, 56)] (by unfold MultiMap.Sorted; decide) ⟨[], [], []⟩
    (exampleStep "A") [exampleStep "B"] (by decide)
  obtain ⟨after, h4, _⟩ := (h3 2).1 ⟨by decide, by decide, by decide⟩
  exact ⟨r, h1, after, h4⟩

/-- Witness for C29: one edge 12 against one edge 34 under key 1, with the
    vertices 1 and 3 matched before: the offer of the sources `(1, 3)` is
    rejected and the offer of the targets `(2, 4)` follows. -/
theorem edge_cascade_unique_key_witness :
    ∃ r, FindFixedPointsBasicBlockEdgeInternal exampleEnv [(1, 12)] [(1, 34)]
        ⟨[⟨1, 3, "old"⟩], [], []⟩ [exampleStep "A"] = some r ∧
      (eventsAt 1 r.trace).map Event.positive = [false, true] ∧
      ((eventsAt 1 r.trace).filter (fun e => e.positive)).length ≤ 1 := by
  have hpos : (FindFixedPointsBasicBlockEdgeInternal exampleEnv [(1, 12)] [(1, 34)]
      ⟨[⟨1, 3, "old"⟩], [], []⟩ [exampleStep "A"]).map
      (fun r => (eventsAt 1 r.trace).map Event.positive) = some [false, true] := by decide
  obtain ⟨r, h1, h2⟩ := edge_cascade_unique_key exampleEnv exampleEnv_returns
    [(1, 12)] [(1, 34)] (by unfold MultiMap.Sorted; decide) ⟨[⟨1, 3, "old"⟩], [], []⟩
    (exampleStep "A") []
  rw [h1] at hpos
  exact ⟨r, h1, Option.some.inj hpos, (h2 1 12 34 rfl rfl).2⟩

/-- Witness for C30: key 1 is filed once on both sides, key 2 twice on the
    first side, key 3 only on the first side and key 4 only on the second. -/
theorem vertex_cascade_post_state_witness :
    ∃ r, FindFixedPointsBasicBlockInternal exampleEnv [(1, 10), (2, 20), (2, 21), (3, 30)]
        [(1, 11), (2, 22), (4, 40)] ⟨[], [], []⟩ [exampleStep "A", exampleStep "B"] = some r ∧
      r.map1 = [(1, 10), (3, 30)] ∧ r.map2 = [(1, 11), (4, 40)] ∧
      r.map1.equal_range 3 = [30] ∧ r.map2.equal_range 4 = [40] := by
  have hmaps : (FindFixedPointsBasicBlockInternal exampleEnv [(1, 10), (2, 20), (2, 21), (3, 30)]
      [(1, 11), (2, 22), (4, 40)] ⟨[], [], []⟩ [exampleStep "A", exampleStep "B"]).map
      (fun r => (r.map1, r.map2)) = some ([(1, 10), (3, 30)], [(1, 11), (4, 40)]) := by decide
  obtain ⟨r, h1, _, h3, h4, _⟩ := vertex_cascade_post_state exampleEnv exampleEnv_returns
    [(1, 10), (2, 20), (2, 21), (3, 30)] [(1, 11), (2, 22), (4, 40)]
    (by unfold MultiMap.Sorted; decide) ⟨[], [], []⟩ (exampleStep "A") [exampleStep "B"]
  rw [h1] at hmaps
  have hm := Option.some.inj hmaps
  exact ⟨r, h1, congrArg Prod.fst hm, congrArg Prod.snd hm, h3 3 (by decide), h4 4 (by decide)⟩

/-! ## Termination of the Hirschberg recursion -/

/-- A depth bound above the length of the x range is never reached: the
    recursion returns, with the result of `ComputeLcsRec`. -/
theorem ComputeLcsDepth_eq (xs ys : List Nat) :
    ∀ (depth fuel xlo xhi ylo yhi : Nat) (h : xhi - xlo ≤ fuel) (out : Out),
      xhi - xlo < depth →
      ComputeLcsDepth xs ys depth xlo xhi ylo yhi out =
        some (ComputeLcsRec xs ys fuel xlo xhi ylo yhi h out) := by
  intro depth
  induction depth with
  | zero => intro fuel xlo xhi ylo yhi h out hd; omega
  | succ depth ih =>
    intro fuel xlo xhi ylo yhi h out hd
    cases fuel with
    | zero =>
      have h0 : xhi - xlo = 0 := by omega
      simp only [ComputeLcsDepth, ComputeLcsRec, h0, if_true]
    | succ fuel =>
      rw [ComputeLcsRec]
      simp only [ComputeLcsDepth]
      by_cases h0 : xhi - xlo = 0
      · simp only [h0, if_true, dite_true]
      · by_cases h1 : xhi - xlo = 1
        · simp only [h1, if_true, dite_true, if_false, dite_false, Nat.one_ne_zero]
          split <;> rfl
        · simp only [h0, h1, if_false, dite_false]
          rw [ih fuel xlo (xlo + (xhi - xlo) / 2) ylo (splitPoint xs xlo xhi ys ylo yhi)
            (by omega) out (by omega)]
          exact ih fuel (xlo + (xhi - xlo) / 2) xhi (splitPoint xs xlo xhi ys ylo yhi) yhi
            (by omega) _ (by omega)

/-- C31: the Hirschberg recursion terminates on every input. With a bound on
    the depth of nested calls that exceeds the length `nx` of the x range the
    recursion returns. Whenever `nx >= 2`, the call is the two recursive calls
    on the x ranges `[xlo, xmid)` and `[xmid, xhi)`, of lengths `nx / 2` and
    `nx - nx / 2`, both non-empty and shorter than `nx`, and on the y ranges
    `[ylo, ymid)` and `[ymid, yhi)` with `ylo <= ymid <= yhi`. -/
theorem ComputeLcs_recursion_terminates (xs ys : List Nat) (xlo xhi ylo yhi : Nat)
    (out : Out) :
    (∀ depth, xhi - xlo < depth →
      (ComputeLcsDepth xs ys depth xlo xhi ylo yhi out).isSome = true) ∧
    (2 ≤ xhi - xlo → ylo ≤ yhi → yhi ≤ ys.length →
      ∃ xmid ymid,
        xmid - xlo = (xhi - xlo) / 2 ∧ xhi - xmid = (xhi - xlo) - (xhi - xlo) / 2 ∧
        0 < xmid - xlo ∧ xmid - xlo < xhi - xlo ∧
        0 < xhi - xmid ∧ xhi - xmid < xhi - xlo ∧
        ylo ≤ ymid ∧ ymid ≤ yhi ∧
        ∀ depth,
          ComputeLcsDepth xs ys (depth + 1) xlo xhi ylo yhi out =
            (ComputeLcsDepth xs ys depth xlo xmid ylo ymid out).bind
              (fun out1 => ComputeLcsDepth xs ys depth xmid xhi ymid yhi out1)) := by
  constructor
  · intro depth hd
    rw [ComputeLcsDepth_eq xs ys depth (xhi - xlo) xlo xhi ylo yhi (le_refl _) out hd]
    rfl
  · intro hx hy1 hy2
    obtain ⟨t, ht, hsp, _, _⟩ := splitPoint_spec xs xlo xhi ys ylo yhi hy1 hy2
    refine ⟨xlo + (xhi - xlo) / 2, splitPoint xs xlo xhi ys ylo yhi, by omega, by omega,
      by omega, by omega, by omega, by omega, by omega, by omega, ?_⟩
    intro depth
    have h0 : ¬ xhi - xlo = 0 := by omega
    have h1 : ¬ xhi - xlo = 1 := by omega
    simp only [ComputeLcsDepth, h0, h1, if_false]
    rcases ComputeLcsDepth xs ys depth xlo (xlo + (xhi - xlo) / 2) ylo
      (splitPoint xs xlo xhi ys ylo yhi) out with _ | out1 <;> rfl

/-- C31 at an example: on `[1, 2, 3, 4, 5]` and `[2, 9, 4, 5, 1]` the
    recursion returns within depth `6`, and the call on the whole ranges splits
    into calls on x ranges of lengths `2` and `3`. -/
theorem ComputeLcs_recursion_terminates_witness :
    (ComputeLcsDepth [1, 2, 3, 4, 5] [2, 9, 4, 5, 1] 6 0 5 0 5 ([], [])).isSome = true ∧
    ComputeLcsDepth [1, 2, 3, 4, 5] [2, 9, 4, 5, 1] 6 0 5 0 5 ([], []) =
      some ([1, 3, 4], [0, 2, 3]) ∧
    ∃ xmid ymid,
      xmid - 0 = (5 - 0) / 2 ∧ 5 - xmid = (5 - 0) - (5 - 0) / 2 ∧
      0 < xmid - 0 ∧ xmid - 0 < 5 - 0 ∧
      0 < 5 - xmid ∧ 5 - xmid < 5 - 0 ∧
      0 ≤ ymid ∧ ymid ≤ 5 ∧
      ∀ depth,
        ComputeLcsDepth [1, 2, 3, 4, 5] [2, 9, 4, 5, 1] (depth + 1) 0 5 0 5 ([], []) =
          (ComputeLcsDepth [1, 2, 3, 4, 5] [2, 9, 4, 5, 1] depth 0 xmid 0 ymid ([], [])).bind
            (fun out1 => ComputeLcsDepth [1, 2, 3, 4, 5] [2, 9, 4, 5, 1] depth xmid 5 ymid 5 out1) :=
  ⟨(ComputeLcs_recursion_terminates [1, 2, 3, 4, 5] [2, 9, 4, 5, 1] 0 5 0 5 ([], [])).1 6
      (by decide),
    by decide,
    (ComputeLcs_recursion_terminates [1, 2, 3, 4, 5] [2, 9, 4, 5, 1] 0 5 0 5 ([], [])).2
      (by decide) (by decide) (by decide)⟩

/-! ## Index safety of `ComputeLcs` -/

/-- The loop of the public overload over in-range indices reads every element
    it asks for. -/
theorem matchLoop_inRange (instructions1 instructions2 : List Instruction) :
    ∀ ps : List (Nat × Nat),
      (∀ p ∈ ps, p.1 < instructions1.length ∧ p.2 < instructions2.length) →
      ∃ ms, matchLoop instructions1 instructions2 (ps.map Prod.fst) (ps.map Prod.snd) = some ms ∧
        List.Forall₂ (fun p m => instructions1[p.1]? = some m.1 ∧ instructions2[p.2]? = some m.2)
          ps ms := by
  intro ps
  induction ps with
  | nil => intro _; exact ⟨[], rfl, List.Forall₂.nil⟩
  | cons p ps ih =>
    intro h
    obtain ⟨ms, h1, h2⟩ := ih (fun q hq => h q (List.mem_cons_of_mem _ hq))
    obtain ⟨hp1, hp2⟩ := h p (List.mem_cons_self _ _)
    refine ⟨(instructions1[p.1], instructions2[p.2]) :: ms, ?_, ?_⟩
    · simp only [List.map_cons, matchLoop, List.getElem?_eq_getElem hp1,
        List.getElem?_eq_getElem hp2, h1, Option.map_some']
    · exact List.Forall₂.cons
        ⟨List.getElem?_eq_getElem hp1, List.getElem?_eq_getElem hp2⟩ h2

/-- The two index lists the entry function writes from empty outputs are the
    two sides of one list of in-range pairs, no longer than either input. -/
theorem ComputeLcsCore_indices (xs ys : List Nat) :
    ∃ ps : List (Nat × Nat),
      ComputeLcsCore xs ys ([], []) = (ps.map Prod.fst, ps.map Prod.snd) ∧
      ComputeLcs xs ys = ps ∧
      (∀ p ∈ ps, p.1 < xs.length ∧ p.2 < ys.length) ∧
      ps.length ≤ min xs.length ys.length := by
  obtain ⟨ps, h1, h2, h3⟩ := ComputeLcsCore_spec xs ys ([], [])
  refine ⟨ps, ?_, ?_, ?_, ?_⟩
  · rw [h1]; simp only [emit, List.nil_append]
  · unfold ComputeLcs
    simp only [h1]
    exact zip_emit_nil ps
  · intro p hp
    obtain ⟨_, a, _, b, _⟩ := h2.2 p hp
    exact ⟨a, b⟩
  · rw [h3]
    exact le_min (lcsLength_le_left xs ys) (lcsLength_le_right xs ys)

/-- C32: index safety of `ComputeLcs`. For all `X` and `Y` every emitted pair
    `(i, j)` has `i < |X|` and `j < |Y|`, the two output index lists have the
    same length, and that length is at most `min(|X|, |Y|)`. Hence in the
    public overload every access `instructions1_begin + i` and
    `instructions2_begin + j` is in range: the loop reads an instruction pair
    for every emitted index pair. -/
theorem ComputeLcs_index_safe (X Y : List Nat) (instructions1 instructions2 : List Instruction) :
    ((ComputeLcsCore X Y ([], [])).1.length = (ComputeLcsCore X Y ([], [])).2.length ∧
      (ComputeLcsCore X Y ([], [])).1.length ≤ min X.length Y.length ∧
      (∀ i ∈ (ComputeLcsCore X Y ([], [])).1, i < X.length) ∧
      (∀ j ∈ (ComputeLcsCore X Y ([], [])).2, j < Y.length) ∧
      (∀ p ∈ ComputeLcs X Y, p.1 < X.length ∧ p.2 < Y.length) ∧
      (ComputeLcs X Y).length = (ComputeLcsCore X Y ([], [])).1.length) ∧
    ((∀ p ∈ ComputeLcsInstructions instructions1 instructions2,
        p.1 < instructions1.length ∧ p.2 < instructions2.length) ∧
      ∃ ms, ComputeLcsMatches instructions1 instructions2 = some ms ∧
        List.Forall₂
          (fun p m => instructions1[p.1]? = some m.1 ∧ instructions2[p.2]? = some m.2)
          (ComputeLcsInstructions instructions1 instructions2) ms) := by
  constructor
  · obtain ⟨ps, h1, h2, h3, h4⟩ := ComputeLcsCore_indices X Y
    rw [h1, h2]
    simp only [List.length_map, List.mem_map]
    refine ⟨trivial, h4, ?_, ?_, h3, trivial⟩
    · rintro i ⟨p, hp, rfl⟩; exact (h3 p hp).1
    · rintro j ⟨p, hp, rfl⟩; exact (h3 p hp).2
  · obtain ⟨ps, h1, h2, h3, _⟩ := ComputeLcsCore_indices
      (instructions1.map Instruction.GetPrime) (instructions2.map Instruction.GetPrime)
    simp only [List.length_map] at h3
    have e : ComputeLcsInstructions instructions1 instructions2 = ps := h2
    rw [e]
    refine ⟨h3, ?_⟩
    unfold ComputeLcsMatches
    simp only [h1]
    exact matchLoop_inRange instructions1 instructions2 ps h3

/-! ## Mnemonic lookup -/

/-- Every construction of a sequence builds its instruction: the instructions
    are the `(address, prime)` parts of the sequence. -/
theorem constructInstructions_eq (cache : Cache) (constructions : List (Nat × String × Nat)) :
    constructInstructions cache constructions =
      constructions.map (fun c => (⟨c.1, c.2.2⟩ : Instruction)) := by
  induction constructions generalizing cache with
  | nil => rfl
  | cons c rest ih =>
    obtain ⟨address, m, p⟩ := c
    obtain ⟨r, h1, h2, _, _⟩ := Instruction.construct_spec cache address m p
    simp only [constructInstructions, h1, List.map_cons, ih r.cache, h2]

/-- C33: mnemonic lookup never misses. After any sequence of constructions
    over a cache, `GetMnemonic` on that cache is defined for every instruction
    constructed in the sequence; it returns the mnemonic the cache held for the
    prime at the start or, without one, the mnemonic of the first construction
    of the sequence with that prime. -/
theorem Instruction.GetMnemonic_defined (cache : Cache)
    (constructions : List (Nat × String × Nat)) (instruction : Instruction)
    (h : instruction ∈ constructInstructions cache constructions) :
    ∃ first,
      (constructAll cache constructions).find instruction.GetPrime = some first ∧
      instruction.GetMnemonic (constructAll cache constructions) = some first ∧
      (∀ s, cache.find instruction.GetPrime = some s → first = s) ∧
      (cache.find instruction.GetPrime = none →
        ∃ c, constructions.find? (fun c => c.2.2 == instruction.GetPrime) = some c ∧
          c.2.2 = instruction.GetPrime ∧ first = c.2.1) := by
  rw [constructInstructions_eq, List.mem_map] at h
  obtain ⟨c, hc, rfl⟩ := h
  have hfind := constructAll_find cache constructions c.2.2
  have hsome : (constructions.find? (fun d => d.2.2 == c.2.2)).isSome = true := by
    rw [List.find?_isSome]
    exact ⟨c, hc, by simp⟩
  obtain ⟨d, hd⟩ := Option.isSome_iff_exists.mp hsome
  have hd2 : d.2.2 = c.2.2 := by
    have := List.find?_some hd
    simpa using this
  simp only [Instruction.GetMnemonic, Instruction.GetPrime]
  rcases hc0 : cache.find c.2.2 with _ | s
  · rw [hc0, hd] at hfind
    refine ⟨d.2.1, hfind, hfind, ?_, ?_⟩
    · intro s hs; exact absurd hs (by simp)
    · intro _; exact ⟨d, hd, hd2, rfl⟩
  · rw [hc0] at hfind
    refine ⟨s, hfind, hfind, ?_, ?_⟩
    · intro s2 hs; exact Option.some.inj hs
    · intro hn; exact absurd hn (by simp)

/-- C33 at an example: over an empty cache `add` and `sub` are constructed
    with the same prime; the lookup for the second instruction is defined and
    returns `add`. -/
theorem Instruction.GetMnemonic_defined_witness :
    (⟨4, 7⟩ : Instruction) ∈ constructInstructions ⟨fun _ => none⟩ [(0, "add", 7), (4, "sub", 7)] ∧
    Instruction.GetMnemonic ⟨4, 7⟩
      (constructAll ⟨fun _ => none⟩ [(0, "add", 7), (4, "sub", 7)]) = some "add" ∧
    ∃ first,
      (constructAll ⟨fun _ => none⟩ [(0, "add", 7), (4, "sub", 7)]).find
        (Instruction.GetPrime ⟨4, 7⟩) = some first ∧
      Instruction.GetMnemonic ⟨4, 7⟩
        (constructAll ⟨fun _ => none⟩ [(0, "add", 7), (4, "sub", 7)]) = some first ∧
      (∀ s, Cache.find ⟨fun _ => none⟩ (Instruction.GetPrime ⟨4, 7⟩) = some s → first = s) ∧
      (Cache.find ⟨fun _ => none⟩ (Instruction.GetPrime ⟨4, 7⟩) = none →
        ∃ c, List.find? (fun c => c.2.2 == Instruction.GetPrime ⟨4, 7⟩)
            [(0, "add", 7), (4, "sub", 7)] = some c ∧
          c.2.2 = Instruction.GetPrime ⟨4, 7⟩ ∧ first = c.2.1) :=
  ⟨by rw [constructInstructions_eq]; simp, by decide,
    Instruction.GetMnemonic_defined ⟨fun _ => none⟩ [(0, "add", 7), (4, "sub", 7)] ⟨4, 7⟩
      (by rw [constructInstructions_eq]; simp)⟩

end Bindiff
